import Mathlib

/-! # pcre2_finder: streaming multi-pattern search and replace

A shallow embedding of `lib/pcre2_finder.c`.

* A byte string (`const char* data, size_t datalen`) is a `List Char`.
* The PCRE2 library is an external collaborator: it is a parameter
  (`Pcre2`), one `pcre2_dfa_match` call being a function of the compiled
  pattern, the subject, the start offset, the `PCRE2_DFA_RESTART` flag and the
  DFA workspace, returning the status, the two first cells of the output
  vector and the workspace it leaves behind.
* A chain of `struct pcre2_finder` linked through `next` is the list of its
  nodes; `last` of the head is an index into that list.
* Function pointers are values: the match handler is a function telling what
  the handler passes to `pcre2_finder_output` and what it returns; the output
  function is either `pcre2_finder_process` (daisy chain) or a function of the
  caller.
* The effects of a run are the list of `Event`s it produced, in order.
* The `while` loop of `pcre2_finder_process` and the calls through
  `outputfn` are bounded by a fuel argument; running out of fuel is a `Fault`.
-/

namespace Pcre2Finder

/-- A byte string: `const char* data` together with `size_t datalen`. -/
abbrev Bytes := List Char

/-- Value of `PCRE2_ERROR_NOMATCH` in `pcre2.h`. -/
def PCRE2_ERROR_NOMATCH : Int := -1

/-- Value of `PCRE2_ERROR_PARTIAL` in `pcre2.h`. -/
def PCRE2_ERROR_PARTIAL : Int := -2

/-- What one call of `pcre2_dfa_match` leaves behind: the returned status,
`ovector[0]` and `ovector[1]` of the match data block, and the workspace. -/
structure DfaResult (W : Type) where
  status : Int
  ovector0 : Nat
  ovector1 : Nat
  workspace : W

/-- The PCRE2 library as used by the finder. `P` is `pcre2_code`, `W` the
contents of the DFA workspace. `pcre2_dfa_match re data start_offset restart ws`
stands for the call with options `PCRE2_PARTIAL_HARD | PCRE2_DFA_SHORTEST`,
plus `PCRE2_DFA_RESTART` when `restart` is true. -/
structure Pcre2 (P W : Type) where
  pcre2_compile : Bytes → Nat → Option P
  pcre2_dfa_match : Option P → Bytes → Nat → Bool → W → DfaResult W

/-- What a match handler does, as far as the engine can see it: the byte
strings it passes to `pcre2_finder_output`, in order, and its return value. -/
structure HandlerResult where
  outputs : List Bytes
  ret : Int

/-- The type `pcre2_finder_match_fn`: called with the matched bytes, the
callback data and the match id (the `finder` argument is the node itself, used
by the handler for `pcre2_finder_output`). -/
abbrev pcre2_finder_match_fn := Bytes → Nat → Int → HandlerResult

/-- The type `pcre2_finder_output_fn` for functions of the caller: called
with the callback data and the bytes, returns a `size_t`. -/
abbrev pcre2_finder_output_fn := Nat → Bytes → Nat

/-- The value of the field `outputfn` when it is not `NULL`: the address of
`pcre2_finder_process`, or a function supplied by the caller. -/
inductive OutputFn where
  | process : OutputFn
  | user (fn : pcre2_finder_output_fn) : OutputFn

/-- The value of the field `outputcallbackdata`: `NULL`, the pointer
`current->next`, or a pointer supplied by the caller. -/
inductive CallbackData where
  | null : CallbackData
  | next : CallbackData
  | user (p : Nat) : CallbackData

/-- One node: `struct pcre2_finder` without its links. `partialmatch` is the
buffer pointer together with `partialmatchlen` (`none` is `NULL`);
`match_data` and `match_context` record whether the blocks were created. -/
structure pcre2_finder (P W : Type) where
  matchfn : Option pcre2_finder_match_fn
  matchcallbackdata : Nat
  matchid : Int
  outputfn : Option OutputFn
  outputcallbackdata : CallbackData
  partialmatch : Option Bytes
  re : Option P
  match_data : Bool
  match_context : Bool
  dfaworkspace : W

/-- A chain as seen from its head: the nodes reachable through `next`, in
order, and the field `last` of the head as an index into them. -/
structure Chain (P W : Type) where
  nodes : List (pcre2_finder P W)
  last : Nat

/-- What can be observed of a run. `node` is the position in the chain of the
node that made the call. -/
inductive Event where
  | output (node : Nat) (data : Bytes) : Event
  | handler (node : Nat) (data : Bytes) (callbackdata : Nat) (matchid : Int) : Event
  deriving DecidableEq, Repr

/-- Ways a run has no result. -/
inductive Fault where
  | null_call : Fault
  | no_fuel : Fault
  deriving DecidableEq, Repr

/-- Result of a call that runs nodes: the returned value, the nodes after the
call, the events of the call. -/
structure Outcome (P W : Type) where
  ret : Int
  chain : List (pcre2_finder P W)
  events : List Event

/-- The state threaded through one `pcre2_finder_process` call on a node:
the node, the nodes after it, the events so far. -/
structure Run (P W : Type) where
  finder : pcre2_finder P W
  rest : List (pcre2_finder P W)
  events : List Event

variable {P W : Type}

/-- The bytes `data + off` of length `len`. -/
def slice (data : Bytes) (off len : Nat) : Bytes :=
  (data.drop off).take len

/-- The node made by `pcre2_finder_initialize`, given the contents of the
fresh workspace. -/
def fresh (ws : W) : pcre2_finder P W :=
  { matchfn := none, matchcallbackdata := 0, matchid := 0, outputfn := none,
    outputcallbackdata := CallbackData.null, partialmatch := none, re := none,
    match_data := false, match_context := false, dfaworkspace := ws }

/-- `pcre2_finder_initialize` (both allocations succeeding). -/
def pcre2_finder_initialize (ws : W) : Chain P W :=
  { nodes := [fresh ws], last := 0 }

/-- `pcre2_finder_add_expr`. `expr` is `none` for a `NULL` pointer. The new
node, when one is needed, replaces `next` of the node `last` points to. -/
def pcre2_finder_add_expr (M : Pcre2 P W) (ws : W) (finder : Chain P W)
    (expr : Option Bytes) (flags : Nat) (matchfn : Option pcre2_finder_match_fn)
    (callbackdata : Nat) (matchid : Int) : Int × Chain P W :=
  match expr with
  | none => (-1, finder)
  | some [] => (-1, finder)
  | some (c :: cs) =>
    match M.pcre2_compile (c :: cs) flags with
    | none => (1, finder)
    | some re =>
      let set := fun (current : pcre2_finder P W) =>
        { current with re := some re, matchfn := matchfn,
                       matchcallbackdata := callbackdata, matchid := matchid,
                       match_data := true, match_context := true }
      match finder.nodes.get? finder.last with
      | none => (0, finder)
      | some current =>
        match current.re with
        | some _ =>
          (0, { nodes := finder.nodes.take (finder.last + 1) ++ [set (fresh ws)],
                last := finder.last + 1 })
        | none =>
          (0, { finder with nodes := finder.nodes.set finder.last (set current) })

/-- `pcre2_finder_output_to_null`. -/
def pcre2_finder_output_to_null : pcre2_finder_output_fn :=
  fun _ data => data.length

/-- The loop of `pcre2_finder_open` from the node `current` on. -/
def open_loop (outputfn : pcre2_finder_output_fn) (callbackdata : Nat) :
    List (pcre2_finder P W) → List (pcre2_finder P W)
  | [] => []
  | current :: next =>
    (match next with
      | _ :: _ => { current with outputfn := some OutputFn.process,
                                 outputcallbackdata := CallbackData.next }
      | [] => { current with outputfn := some (OutputFn.user outputfn),
                             outputcallbackdata := CallbackData.user callbackdata })
      :: open_loop outputfn callbackdata next

/-- `pcre2_finder_open`. `outputfn` is `none` for a `NULL` pointer. -/
def pcre2_finder_open (finder : Chain P W) (outputfn : Option pcre2_finder_output_fn)
    (callbackdata : Nat) : Int × Chain P W :=
  match finder.nodes with
  | [] => (-1, finder)
  | head :: _ =>
    if finder.last = 0 ∧ head.re.isNone then (-1, finder)
    else
      match outputfn with
      | none => (-2, finder)
      | some fn => (0, { finder with nodes := open_loop fn callbackdata finder.nodes })

/-- The node after a `pcre2_dfa_match` call wrote to its workspace. -/
def set_workspace (finder : pcre2_finder P W) (ws : W) : pcre2_finder P W :=
  { finder with dfaworkspace := ws }

/-- `partialmatch_append` (the reallocation succeeding). -/
def partialmatch_append (finder : pcre2_finder P W) (s : Bytes) : pcre2_finder P W :=
  { finder with partialmatch := some (finder.partialmatch.getD [] ++ s) }

/-- `partialmatch_clear`. -/
def partialmatch_clear (finder : pcre2_finder P W) : pcre2_finder P W :=
  { finder with partialmatch := none }

/-- The `int` status of `pcre2_finder_process` as the caller reads it through
the pointer cast to `pcre2_finder_output_fn`, whose result is a `size_t`: the
32 bits of the `int` as an unsigned number, so a negative status comes back as
that status plus 4294967296. -/
def status_as_size_t (status : Int) : Int :=
  status % 4294967296

/-- The call `(*finder->outputfn)(finder->outputcallbackdata, data, datalen)`
made by the node at position `idx`. `next` runs `pcre2_finder_process` on the
node after it. The result is the value returned by the output function (a
`size_t`), the nodes after `finder` and the events of the call. -/
def call_outputfn (next : List (pcre2_finder P W) → Bytes → Except Fault (Outcome P W))
    (idx : Nat) (finder : pcre2_finder P W) (rest : List (pcre2_finder P W))
    (data : Bytes) : Except Fault (Outcome P W) :=
  match finder.outputfn, finder.outputcallbackdata with
  | some OutputFn.process, CallbackData.next =>
    match next rest data with
    | Except.ok o =>
      Except.ok { ret := status_as_size_t o.ret, chain := o.chain,
                  events := Event.output idx data :: o.events }
    | Except.error e => Except.error e
  | some (OutputFn.user fn), CallbackData.user p =>
    Except.ok { ret := fn p data, chain := rest, events := [Event.output idx data] }
  | some (OutputFn.user fn), CallbackData.null =>
    Except.ok { ret := fn 0 data, chain := rest, events := [Event.output idx data] }
  | _, _ => Except.error Fault.null_call

/-- An output call inside `pcre2_finder_process`: the value returned by the
output function is dropped. -/
def emit (next : List (pcre2_finder P W) → Bytes → Except Fault (Outcome P W))
    (idx : Nat) (st : Run P W) (data : Bytes) : Except Fault (Run P W) :=
  match call_outputfn next idx st.finder st.rest data with
  | Except.ok o => Except.ok { st with rest := o.chain, events := st.events ++ o.events }
  | Except.error e => Except.error e

/-- The calls of `pcre2_finder_output` a handler makes, one after the other. -/
def emit_all (next : List (pcre2_finder P W) → Bytes → Except Fault (Outcome P W))
    (idx : Nat) : Run P W → List Bytes → Except Fault (Run P W)
  | st, [] => Except.ok st
  | st, x :: xs =>
    match emit next idx st x with
    | Except.ok st1 => emit_all next idx st1 xs
    | Except.error e => Except.error e

/-- The call `(*finder->matchfn)(finder, data, datalen, finder->matchcallbackdata,
finder->matchid)`: the handler is entered, then makes its output calls; its
return value is dropped. -/
def call_matchfn (next : List (pcre2_finder P W) → Bytes → Except Fault (Outcome P W))
    (idx : Nat) (st : Run P W) (data : Bytes) : Except Fault (Run P W) :=
  match st.finder.matchfn with
  | none => Except.error Fault.null_call
  | some fn =>
    emit_all next idx
      { st with events := st.events ++
          [Event.handler idx data st.finder.matchcallbackdata st.finder.matchid] }
      (fn data st.finder.matchcallbackdata st.finder.matchid).outputs

/-- The part of `pcre2_finder_process` from `//search data` on: the `while`
loop and the branches after it, started with `start_offset`. Each turn of the
loop uses one unit of fuel. -/
def search (M : Pcre2 P W)
    (next : List (pcre2_finder P W) → Bytes → Except Fault (Outcome P W)) (idx : Nat)
    (data : Bytes) : Nat → Nat → Run P W → Except Fault (Int × Run P W)
  | 0, _, _ => Except.error Fault.no_fuel
  | fuel + 1, start_offset, st =>
    let r := M.pcre2_dfa_match st.finder.re data start_offset false st.finder.dfaworkspace
    let st0 : Run P W := { st with finder := set_workspace st.finder r.workspace }
    if 0 ≤ r.status then
      match (if start_offset < r.ovector0
              then emit next idx st0 (slice data start_offset (r.ovector0 - start_offset))
              else Except.ok st0) with
      | Except.error e => Except.error e
      | Except.ok st1 =>
        match call_matchfn next idx st1 (slice data r.ovector0 (r.ovector1 - r.ovector0)) with
        | Except.error e => Except.error e
        | Except.ok st2 => search M next idx data fuel r.ovector1 st2
    else if r.status = PCRE2_ERROR_PARTIAL then
      match (if start_offset < r.ovector0
              then emit next idx st0 (slice data start_offset (r.ovector0 - start_offset))
              else Except.ok st0) with
      | Except.error e => Except.error e
      | Except.ok st1 =>
        let f1 := partialmatch_append st1.finder (slice data r.ovector0 (r.ovector1 - r.ovector0))
        Except.ok (0, { st1 with finder := f1 })
    else if r.status = PCRE2_ERROR_NOMATCH then
      match (if start_offset < data.length
              then emit next idx st0 (slice data start_offset (data.length - start_offset))
              else Except.ok st0) with
      | Except.error e => Except.error e
      | Except.ok st1 => Except.ok (0, st1)
    else Except.ok (r.status, st0)

/-- The body of `pcre2_finder_process` for one node, `next` running the node
after it. -/
def process_node (M : Pcre2 P W)
    (next : List (pcre2_finder P W) → Bytes → Except Fault (Outcome P W)) (idx : Nat)
    (fuel : Nat) (st : Run P W) (data : Bytes) : Except Fault (Int × Run P W) :=
  if data.length = 0 then Except.ok (0, st)
  else
    match st.finder.partialmatch with
    | none => search M next idx data fuel 0 st
    | some pending =>
      let r := M.pcre2_dfa_match st.finder.re data 0 true st.finder.dfaworkspace
      let st0 : Run P W := { st with finder := set_workspace st.finder r.workspace }
      if 0 ≤ r.status then
        let f1 := partialmatch_append st0.finder (slice data r.ovector0 (r.ovector1 - r.ovector0))
        match call_matchfn next idx { st0 with finder := f1 } (f1.partialmatch.getD []) with
        | Except.error e => Except.error e
        | Except.ok st1 =>
          search M next idx data fuel r.ovector1
            { st1 with finder := partialmatch_clear st1.finder }
      else if r.status = PCRE2_ERROR_PARTIAL then
        let f1 := partialmatch_append st0.finder (slice data r.ovector0 (r.ovector1 - r.ovector0))
        Except.ok (0, { st0 with finder := f1 })
      else if r.status = PCRE2_ERROR_NOMATCH then
        match emit next idx st0 pending with
        | Except.error e => Except.error e
        | Except.ok st1 =>
          search M next idx data fuel 0 { st1 with finder := partialmatch_clear st1.finder }
      else Except.ok (r.status, st0)

/-- `pcre2_finder_process` on the node at position `idx`, given as the list
of the nodes from it on. An empty list is a `NULL` finder. The fuel bounds the
turns of each `while` loop and the depth of the calls through `outputfn`. -/
def pcre2_finder_process (M : Pcre2 P W) :
    Nat → Nat → List (pcre2_finder P W) → Bytes → Except Fault (Outcome P W)
  | 0, _, _, _ => Except.error Fault.no_fuel
  | _ + 1, _, [], data =>
    if data.length = 0 then Except.ok { ret := 0, chain := [], events := [] }
    else Except.error Fault.null_call
  | fuel + 1, idx, finder :: rest, data =>
    match process_node M (pcre2_finder_process M fuel (idx + 1)) idx fuel
        { finder := finder, rest := rest, events := [] } data with
    | Except.error e => Except.error e
    | Except.ok (status, st) =>
      Except.ok { ret := status, chain := st.finder :: st.rest, events := st.events }

/-- `pcre2_finder_output`: the output call of the node at position `idx`. -/
def pcre2_finder_output (M : Pcre2 P W) (fuel idx : Nat) (finder : pcre2_finder P W)
    (rest : List (pcre2_finder P W)) (data : Bytes) : Except Fault (Outcome P W) :=
  call_outputfn (pcre2_finder_process M fuel (idx + 1)) idx finder rest data

/-- The loop of `pcre2_finder_close` from the node at position `idx` on; `n`
counts the nodes still to visit. -/
def close_loop (M : Pcre2 P W) (fuel : Nat) :
    Nat → Nat → List (pcre2_finder P W) → Except Fault (List (pcre2_finder P W) × List Event)
  | _, _, [] => Except.ok ([], [])
  | 0, _, _ :: _ => Except.error Fault.no_fuel
  | n + 1, idx, current :: rest =>
    match current.partialmatch with
    | none =>
      match close_loop M fuel n (idx + 1) rest with
      | Except.error e => Except.error e
      | Except.ok (rest1, ev) => Except.ok (current :: rest1, ev)
    | some pending =>
      match pcre2_finder_output M fuel idx current rest pending with
      | Except.error e => Except.error e
      | Except.ok o =>
        match close_loop M fuel n (idx + 1) o.chain with
        | Except.error e => Except.error e
        | Except.ok (rest1, ev) =>
          Except.ok ({ current with partialmatch := none } :: rest1, o.events ++ ev)

/-- `pcre2_finder_close` on the head of a chain. -/
def pcre2_finder_close (M : Pcre2 P W) (fuel : Nat) (chain : List (pcre2_finder P W)) :
    Except Fault (Outcome P W) :=
  match close_loop M fuel chain.length 0 chain with
  | Except.error e => Except.error e
  | Except.ok (chain1, ev) => Except.ok { ret := 0, chain := chain1, events := ev }

/-! ## A small matcher

The PCRE2 library is not part of the repository. To run the scenarios, this is
a model of `pcre2_compile` and of `pcre2_dfa_match` under
`PCRE2_PARTIAL_HARD | PCRE2_DFA_SHORTEST` for patterns made of literal bytes,
concatenation, alternation and `+`: the DFA state is the derivative of the
pattern by the bytes read so far, and the shortest match wins.

For a repetition this is what PCRE2 reports for a pattern compiled with the
flag `PCRE2_NO_AUTO_POSSESS`. Without that flag `pcre2_compile` makes a
repetition possessive when what follows it cannot match the repeated byte, and
`pcre2_dfa_match` then reports the whole run of the byte (`a+` on `aa`: the
span 0 to 2, not 0 to 1); `byte_runs` below models that for the patterns `x`
and `x+`. Statements that depend on how a repetition is reported are made for
any matcher, with what it reports as a hypothesis. -/

/-- Patterns of the small matcher. -/
inductive Rx where
  | nothing : Rx
  | empty : Rx
  | byte (c : Char) : Rx
  | seq (a b : Rx) : Rx
  | alt (a b : Rx) : Rx
  | plus (a : Rx) : Rx
  deriving DecidableEq, Repr

/-- The pattern matches the empty string. -/
def Rx.nullable : Rx → Bool
  | Rx.nothing => false
  | Rx.empty => true
  | Rx.byte _ => false
  | Rx.seq a b => a.nullable && b.nullable
  | Rx.alt a b => a.nullable || b.nullable
  | Rx.plus a => a.nullable

/-- The pattern matches no string: no active state is left. -/
def Rx.dead : Rx → Bool
  | Rx.nothing => true
  | Rx.empty => false
  | Rx.byte _ => false
  | Rx.seq a b => a.dead || b.dead
  | Rx.alt a b => a.dead && b.dead
  | Rx.plus a => a.dead

/-- The state after reading one byte. -/
def Rx.deriv : Rx → Char → Rx
  | Rx.nothing, _ => Rx.nothing
  | Rx.empty, _ => Rx.nothing
  | Rx.byte c, x => if x = c then Rx.empty else Rx.nothing
  | Rx.seq a b, x =>
    if a.nullable then Rx.alt (Rx.seq (a.deriv x) b) (b.deriv x) else Rx.seq (a.deriv x) b
  | Rx.alt a b, x => Rx.alt (a.deriv x) (b.deriv x)
  | Rx.plus a, x => Rx.seq (a.deriv x) (Rx.alt Rx.empty (Rx.plus a))

/-- Outcome of one match attempt at a fixed start position. -/
inductive Walk where
  | matched (len : Nat) : Walk
  | more (state : Rx) : Walk
  | failed : Walk
  deriving DecidableEq, Repr

/-- One match attempt from a fixed start: `n` bytes were read so far, `r` is
the state, the list is what is left of the subject. The shortest match wins;
the end of the subject with a live state, after at least one byte, is a
partial match. -/
def walk : Rx → Bytes → Nat → Walk
  | r, [], n =>
    if r.nullable then Walk.matched n
    else if r.dead then Walk.failed
    else if n = 0 then Walk.failed else Walk.more r
  | r, x :: xs, n =>
    if r.nullable then Walk.matched n
    else if r.dead then Walk.failed
    else walk (r.deriv x) xs (n + 1)

/-- Value of `PCRE2_ERROR_BADOFFSET` in `pcre2.h`. -/
def PCRE2_ERROR_BADOFFSET : Int := -33

/-- Value of `PCRE2_ERROR_NULL` in `pcre2.h`. -/
def PCRE2_ERROR_NULL : Int := -51

/-- The match attempts at the successive start positions `pos`, `pos + 1`, ...:
the first attempt that does not fail decides. -/
def bump (r : Rx) : Bytes → Nat → DfaResult Rx
  | [], pos =>
    match walk r [] 0 with
    | Walk.matched n => { status := 1, ovector0 := pos, ovector1 := pos + n, workspace := r }
    | Walk.more s =>
      { status := PCRE2_ERROR_PARTIAL, ovector0 := pos, ovector1 := pos, workspace := s }
    | Walk.failed =>
      { status := PCRE2_ERROR_NOMATCH, ovector0 := 0, ovector1 := 0, workspace := r }
  | x :: xs, pos =>
    match walk r (x :: xs) 0 with
    | Walk.matched n => { status := 1, ovector0 := pos, ovector1 := pos + n, workspace := r }
    | Walk.more s =>
      { status := PCRE2_ERROR_PARTIAL, ovector0 := pos, ovector1 := pos + (xs.length + 1),
        workspace := s }
    | Walk.failed => bump r xs (pos + 1)

/-- The model of `pcre2_dfa_match` (leftmost start, shortest match, hard
partial matching, no possessive repetition). With `restart` the attempt goes
on from the state in the workspace, at the start of the new subject only. -/
def rx_dfa_match (re : Option Rx) (data : Bytes) (start_offset : Nat) (restart : Bool)
    (ws : Rx) : DfaResult Rx :=
  match re with
  | none => { status := PCRE2_ERROR_NULL, ovector0 := 0, ovector1 := 0, workspace := ws }
  | some r =>
    if data.length < start_offset then
      { status := PCRE2_ERROR_BADOFFSET, ovector0 := 0, ovector1 := 0, workspace := ws }
    else if restart then
      match walk ws data 0 with
      | Walk.matched n => { status := 1, ovector0 := 0, ovector1 := n, workspace := ws }
      | Walk.more s =>
        { status := PCRE2_ERROR_PARTIAL, ovector0 := 0, ovector1 := data.length, workspace := s }
      | Walk.failed =>
        { status := PCRE2_ERROR_NOMATCH, ovector0 := 0, ovector1 := 0, workspace := ws }
    else bump r (data.drop start_offset) start_offset

/-- The model of `pcre2_compile`: each byte stands for itself, a `+` repeats
the byte before it (and is left as it is, as under `PCRE2_NO_AUTO_POSSESS`),
a `+` with nothing to repeat is an error. -/
def rx_compile : Bytes → Option Rx
  | [] => some Rx.empty
  | c :: rest =>
    if c = '+' then none
    else
      match rest with
      | [] => some (Rx.byte c)
      | d :: rest1 =>
        if d = '+' then
          match rest1 with
          | [] => some (Rx.plus (Rx.byte c))
          | _ :: _ => (rx_compile rest1).map (Rx.seq (Rx.plus (Rx.byte c)))
        else (rx_compile (d :: rest1)).map (Rx.seq (Rx.byte c))

/-- The small matcher as a PCRE2 library. -/
def rx : Pcre2 Rx Rx :=
  { pcre2_compile := fun expr _ => rx_compile expr, pcre2_dfa_match := rx_dfa_match }

/-- The handler `when_found` of `pcre2_finder_count.c`: it counts and
forwards nothing. -/
def when_found : pcre2_finder_match_fn :=
  fun _ _ _ => { outputs := [], ret := 0 }

/-- The handler `when_found` of `pcre2_finder_replace.c`, given the table
`patternreplacements`: it forwards the replacement of the pattern. -/
def when_found_replace (patternreplacements : Int → Bytes) : pcre2_finder_match_fn :=
  fun _ _ matchid => { outputs := [patternreplacements matchid], ret := 0 }

/-- The calls `pcre2_finder_process(finder, chunk)` for the chunks in order,
whatever each returns, as the read loops of the two tools make them. The
result holds the value returned by the last call. -/
def process_all (M : Pcre2 P W) (fuel : Nat) :
    List (pcre2_finder P W) → List Bytes → Except Fault (Outcome P W)
  | chain, [] => Except.ok { ret := 0, chain := chain, events := [] }
  | chain, c :: cs =>
    match pcre2_finder_process M fuel 0 chain c with
    | Except.error e => Except.error e
    | Except.ok o =>
      match process_all M fuel o.chain cs with
      | Except.error e => Except.error e
      | Except.ok o1 => Except.ok { o1 with events := o.events ++ o1.events }

/-- A whole session on an opened chain: `pcre2_finder_process` once per chunk,
then `pcre2_finder_close`. -/
def session (M : Pcre2 P W) (fuel : Nat) (chain : List (pcre2_finder P W))
    (chunks : List Bytes) : Except Fault (Outcome P W) :=
  match process_all M fuel chain chunks with
  | Except.error e => Except.error e
  | Except.ok o =>
    match pcre2_finder_close M fuel o.chain with
    | Except.error e => Except.error e
    | Except.ok o1 => Except.ok { o1 with events := o.events ++ o1.events }

/-- The bytes the node at position `k` passed to its output function, in
order. -/
def outputs_of (k : Nat) : List Event → List Bytes
  | [] => []
  | Event.output n d :: ev => if n = k then d :: outputs_of k ev else outputs_of k ev
  | Event.handler _ _ _ _ :: ev => outputs_of k ev

/-- The invocations of match handlers, in order: node, matched bytes, callback
data and match id. -/
def handler_calls : List Event → List (Nat × Bytes × Nat × Int)
  | [] => []
  | Event.output _ _ :: ev => handler_calls ev
  | Event.handler n d cb id :: ev => (n, d, cb, id) :: handler_calls ev

/-- The node that made the call an event records. -/
def Event.node : Event → Nat
  | Event.output n _ => n
  | Event.handler n _ _ _ => n

/-- Two states of a node with the same handler, output binding and pattern:
they differ at most in the pending buffer and the workspace. -/
def same_config (a b : pcre2_finder P W) : Prop :=
  a.matchfn = b.matchfn ∧ a.matchcallbackdata = b.matchcallbackdata ∧
  a.matchid = b.matchid ∧ a.outputfn = b.outputfn ∧
  a.outputcallbackdata = b.outputcallbackdata ∧ a.re = b.re

/-- A call on nodes at positions `k` and up left the nodes in place, with
their configuration, and made only events of these nodes. -/
def Frame (k : Nat) (c c1 : List (pcre2_finder P W)) (ev : List Event) : Prop :=
  List.Forall₂ same_config c c1 ∧ ∀ e ∈ ev, k ≤ e.node

/-- The run state `st1` comes after `st` in a call on the node at position
`idx`: same configuration, more events, all of nodes at `idx` and up. -/
def RunFrame (idx : Nat) (st st1 : Run P W) : Prop :=
  same_config st.finder st1.finder ∧ List.Forall₂ same_config st.rest st1.rest ∧
  ∃ ev, st1.events = st.events ++ ev ∧ ∀ e ∈ ev, idx ≤ e.node

/-- The matcher moves the cursor of the search loop forward and stays inside
the subject: a match reported from `start_offset` ends after it (for a restart:
not before it) and not after the end of the subject. -/
def Advances (M : Pcre2 P W) (re : Option P) : Prop :=
  ∀ (data : Bytes) (start_offset : Nat) (restart : Bool) (ws : W),
    0 ≤ (M.pcre2_dfa_match re data start_offset restart ws).status →
      (restart = false → start_offset < (M.pcre2_dfa_match re data start_offset restart ws).ovector1) ∧
      (M.pcre2_dfa_match re data start_offset restart ws).ovector1 ≤ data.length

/-- The output bindings `pcre2_finder_open` makes: every node but the last
one feeds the node after it, the last one calls a function of the caller. -/
def Opened : List (pcre2_finder P W) → Prop
  | [] => False
  | f :: rest =>
    match rest with
    | [] => ∃ fn cb, f.outputfn = some (OutputFn.user fn) ∧
              f.outputcallbackdata = CallbackData.user cb
    | _ :: _ => f.outputfn = some OutputFn.process ∧
              f.outputcallbackdata = CallbackData.next ∧ Opened rest

/-- A chain ready to process data: opened, every node with a handler and a
matcher that advances. -/
def Ready (M : Pcre2 P W) (chain : List (pcre2_finder P W)) : Prop :=
  Opened chain ∧ ∀ f ∈ chain, f.matchfn ≠ none ∧ Advances M f.re

/-! ## What one node does, apart from the nodes after it

`pcre2_finder_process` drops what the output function and the handler return,
so what a node does with a chunk does not depend on the nodes after it: it is
a list of actions, which the nodes after it then receive in order. -/

/-- What a node does towards the outside: a call of its output function, or
the entry into its match handler (the output calls of the handler follow as
`out` actions). -/
inductive Action where
  | out (data : Bytes) : Action
  | call (data : Bytes) : Action
  deriving DecidableEq, Repr

/-- The actions of a handler invocation with the matched bytes `data`; `none`
when `matchfn` is `NULL`. -/
def handler_actions (finder : pcre2_finder P W) (data : Bytes) : Option (List Action) :=
  match finder.matchfn with
  | none => none
  | some fn =>
    some (Action.call data ::
      (fn data finder.matchcallbackdata finder.matchid).outputs.map Action.out)

/-- The output call for the unmatched bytes from `start_offset` to `upto`, if
there are any. -/
def gap_actions (data : Bytes) (start_offset upto : Nat) : List Action :=
  if start_offset < upto then [Action.out (slice data start_offset (upto - start_offset))]
  else []

/-- The search loop of `pcre2_finder_process` as a function of the node alone:
the returned status, the node afterwards and its actions; `none` when the fuel
runs out or a handler is missing. -/
def search_actions (M : Pcre2 P W) (data : Bytes) :
    Nat → Nat → pcre2_finder P W → Option (Int × pcre2_finder P W × List Action)
  | 0, _, _ => none
  | fuel + 1, start_offset, finder =>
    let r := M.pcre2_dfa_match finder.re data start_offset false finder.dfaworkspace
    let f0 : pcre2_finder P W := set_workspace finder r.workspace
    if 0 ≤ r.status then
      match handler_actions f0 (slice data r.ovector0 (r.ovector1 - r.ovector0)) with
      | none => none
      | some hs =>
        match search_actions M data fuel r.ovector1 f0 with
        | none => none
        | some (status, f1, acts) =>
          some (status, f1, gap_actions data start_offset r.ovector0 ++ hs ++ acts)
    else if r.status = PCRE2_ERROR_PARTIAL then
      some (0, partialmatch_append f0 (slice data r.ovector0 (r.ovector1 - r.ovector0)),
        gap_actions data start_offset r.ovector0)
    else if r.status = PCRE2_ERROR_NOMATCH then
      some (0, f0, gap_actions data start_offset data.length)
    else some (r.status, f0, [])

/-- The body of `pcre2_finder_process` as a function of the node alone. -/
def node_actions (M : Pcre2 P W) (fuel : Nat) (finder : pcre2_finder P W) (data : Bytes) :
    Option (Int × pcre2_finder P W × List Action) :=
  if data.length = 0 then some (0, finder, [])
  else
    match finder.partialmatch with
    | none => search_actions M data fuel 0 finder
    | some pending =>
      let r := M.pcre2_dfa_match finder.re data 0 true finder.dfaworkspace
      let f0 : pcre2_finder P W := set_workspace finder r.workspace
      if 0 ≤ r.status then
        let f1 := partialmatch_append f0 (slice data r.ovector0 (r.ovector1 - r.ovector0))
        match handler_actions f1 (f1.partialmatch.getD []) with
        | none => none
        | some hs =>
          match search_actions M data fuel r.ovector1 (partialmatch_clear f1) with
          | none => none
          | some (status, f2, acts) => some (status, f2, hs ++ acts)
      else if r.status = PCRE2_ERROR_PARTIAL then
        some (0, partialmatch_append f0 (slice data r.ovector0 (r.ovector1 - r.ovector0)), [])
      else if r.status = PCRE2_ERROR_NOMATCH then
        match search_actions M data fuel 0 (partialmatch_clear f0) with
        | none => none
        | some (status, f2, acts) => some (status, f2, Action.out pending :: acts)
      else some (r.status, f0, [])

/-- The actions of the node at position `idx` carried out: an `out` action
calls the output function of the node, a `call` action is the entry into its
handler. The result is the nodes after it and the events. -/
def feed (next : List (pcre2_finder P W) → Bytes → Except Fault (Outcome P W)) (idx : Nat)
    (finder : pcre2_finder P W) :
    List Action → List (pcre2_finder P W) → Except Fault (List (pcre2_finder P W) × List Event)
  | [], rest => Except.ok (rest, [])
  | Action.out d :: acts, rest =>
    match call_outputfn next idx finder rest d with
    | Except.error e => Except.error e
    | Except.ok o =>
      match feed next idx finder acts o.chain with
      | Except.error e => Except.error e
      | Except.ok (rest1, ev) => Except.ok (rest1, o.events ++ ev)
  | Action.call d :: acts, rest =>
    match feed next idx finder acts rest with
    | Except.error e => Except.error e
    | Except.ok (rest1, ev) =>
      Except.ok (rest1,
        Event.handler idx d finder.matchcallbackdata finder.matchid :: ev)

/-- The actions carried out from a run state. -/
def step_feed (next : List (pcre2_finder P W) → Bytes → Except Fault (Outcome P W)) (idx : Nat)
    (st : Run P W) (acts : List Action) : Except Fault (Run P W) :=
  match feed next idx st.finder acts st.rest with
  | Except.error e => Except.error e
  | Except.ok (rest1, ev) => Except.ok { st with rest := rest1, events := st.events ++ ev }

/-- The arguments of one `pcre2_finder_add_expr` call. -/
structure AddCall where
  expr : Bytes
  flags : Nat
  matchfn : Option pcre2_finder_match_fn
  callbackdata : Nat
  matchid : Int

/-- Successive `pcre2_finder_add_expr` calls on the same head: the statuses
they returned and the chain after the last one. -/
def add_exprs (M : Pcre2 P W) (ws : W) : Chain P W → List AddCall → List Int × Chain P W
  | finder, [] => ([], finder)
  | finder, c :: cs =>
    let r := pcre2_finder_add_expr M ws finder (some c.expr) c.flags c.matchfn
      c.callbackdata c.matchid
    let rs := add_exprs M ws r.2 cs
    (r.1 :: rs.1, rs.2)

/-- The node a successful `pcre2_finder_add_expr` call with arguments `c` sets
up, `re` being the compiled pattern. -/
def node_of (ws : W) (c : AddCall) (re : P) : pcre2_finder P W :=
  { matchfn := c.matchfn, matchcallbackdata := c.callbackdata, matchid := c.matchid,
    outputfn := none, outputcallbackdata := CallbackData.null, partialmatch := none,
    re := some re, match_data := true, match_context := true, dfaworkspace := ws }

/-- The event an action of the node at position `idx` leaves. -/
def Action.event (idx : Nat) (finder : pcre2_finder P W) : Action → Event
  | Action.out d => Event.output idx d
  | Action.call d => Event.handler idx d finder.matchcallbackdata finder.matchid

/-- The bytes of the pending buffer of a node, none for `NULL`. -/
def pending (finder : pcre2_finder P W) : Bytes :=
  finder.partialmatch.getD []

/-- The matcher, called on the chunk from the cursor `start_offset` on with
the workspace `ws`, reports the complete matches `spans` one after the other
(each call starting where the match before ended, with the workspace the call
before left), and then `last`: no match (`none`) or a partial match. -/
def Reports (M : Pcre2 P W) (re : Option P) (data : Bytes) :
    Nat → W → List (Nat × Nat) → Option (Nat × Nat) → Prop
  | start_offset, ws, [], none =>
    (M.pcre2_dfa_match re data start_offset false ws).status = PCRE2_ERROR_NOMATCH
  | start_offset, ws, [], some (s, e) =>
    (M.pcre2_dfa_match re data start_offset false ws).status = PCRE2_ERROR_PARTIAL ∧
    (M.pcre2_dfa_match re data start_offset false ws).ovector0 = s ∧
    (M.pcre2_dfa_match re data start_offset false ws).ovector1 = e
  | start_offset, ws, (s, e) :: spans, last =>
    0 ≤ (M.pcre2_dfa_match re data start_offset false ws).status ∧
    (M.pcre2_dfa_match re data start_offset false ws).ovector0 = s ∧
    (M.pcre2_dfa_match re data start_offset false ws).ovector1 = e ∧
    Reports M re data e (M.pcre2_dfa_match re data start_offset false ws).workspace spans last

/-- What the spec says the node at position `idx` does with a chunk in which
the matches `spans` were reported, from the cursor on: the unmatched bytes
before a match go to the sink, then the handler is invoked with the match and
what it forwards goes to the sink, and so on; at the end the unmatched tail
goes to the sink (up to the partial match, if the chunk ends in one). -/
def forwarded (idx : Nat) (h : pcre2_finder_match_fn) (callbackdata : Nat) (matchid : Int)
    (data : Bytes) : Nat → List (Nat × Nat) → Option (Nat × Nat) → List Event
  | cursor, [], none =>
    if cursor < data.length then [Event.output idx (slice data cursor (data.length - cursor))]
    else []
  | cursor, [], some (s, _) =>
    if cursor < s then [Event.output idx (slice data cursor (s - cursor))] else []
  | cursor, (s, e) :: spans, last =>
    (if cursor < s then [Event.output idx (slice data cursor (s - cursor))] else []) ++
      Event.handler idx (slice data s (e - s)) callbackdata matchid ::
        ((h (slice data s (e - s)) callbackdata matchid).outputs.map (Event.output idx) ++
          forwarded idx h callbackdata matchid data e spans last)

/-! ## The `match_step` contract -/

/-- What a `pcre2_dfa_match` call reports, read the way `pcre2_finder_process`
reads it: a complete match (status 0 or more) with its span, a partial match
with its span, no match, or an error. -/
inductive Verdict where
  | hit (s e : Nat) : Verdict
  | hold (s e : Nat) : Verdict
  | miss : Verdict
  | error (status : Int) : Verdict
  deriving DecidableEq, Repr

/-- The verdict of a call. -/
def verdict (r : DfaResult W) : Verdict :=
  if 0 ≤ r.status then Verdict.hit r.ovector0 r.ovector1
  else if r.status = PCRE2_ERROR_PARTIAL then Verdict.hold r.ovector0 r.ovector1
  else if r.status = PCRE2_ERROR_NOMATCH then Verdict.miss
  else Verdict.error r.status

/-- The same verdict for a subject with `k` more bytes in front. -/
def Verdict.shift (k : Nat) : Verdict → Verdict
  | Verdict.hit s e => Verdict.hit (s + k) (e + k)
  | Verdict.hold s e => Verdict.hold (s + k) (e + k)
  | v => v

/-- The verdict is a match or a partial match that starts at `k` or later, or
no match. -/
def Verdict.from (k : Nat) : Verdict → Prop
  | Verdict.hit s _ => k ≤ s
  | Verdict.hold s _ => k ≤ s
  | Verdict.miss => True
  | Verdict.error _ => False

/-- The workspace `ws` is the resume state of a partial match that has read
exactly the bytes `p`: it was left by a call that reported a partial match
whose span is `p`, or by a restart from such a state that reported a partial
match again. -/
inductive Resumes (M : Pcre2 P W) (re : Option P) : W → Bytes → Prop where
  | first (data : Bytes) (c : Nat) (ws : W) :
      c ≤ data.length →
      (M.pcre2_dfa_match re data c false ws).status = PCRE2_ERROR_PARTIAL →
      Resumes M re (M.pcre2_dfa_match re data c false ws).workspace
        (data.drop (M.pcre2_dfa_match re data c false ws).ovector0)
  | again (w : W) (p d : Bytes) :
      Resumes M re w p → d ≠ [] →
      (M.pcre2_dfa_match re d 0 true w).status = PCRE2_ERROR_PARTIAL →
      Resumes M re (M.pcre2_dfa_match re d 0 true w).workspace (p ++ d)

/-- The contract of `match_step` for one pattern, as the spec words it, for a
matcher whose answers depend on the bytes only.

* `bounds`: a match lies inside the subject, starts at the offset or later and
  ends after the offset; a partial match starts at the offset or later, holds
  at least one byte and runs to the end of the subject; no call fails.
* `workspace_free`, `shift`: a call without restart depends only on the bytes
  from the offset on.
* `leftmost`: the verdict is the leftmost one at or after the offset, so a
  later offset not beyond its start gives the same verdict.
* `hit_final`, `hold_final`, `miss_final`: more bytes after the subject do not
  change a match, nor revive a start position that was passed over.
* `resume`: a restart continues the partial match as if the bytes read before
  and the new subject were one buffer. -/
structure MatchStepContract (M : Pcre2 P W) (re : Option P) : Prop where
  bounds : ∀ (data : Bytes) (c : Nat) (ws : W), c ≤ data.length →
    match verdict (M.pcre2_dfa_match re data c false ws) with
    | Verdict.hit s e => c ≤ s ∧ s ≤ e ∧ e ≤ data.length ∧ c < e
    | Verdict.hold s e => c ≤ s ∧ s < data.length ∧ e = data.length
    | Verdict.miss => True
    | Verdict.error _ => False
  workspace_free : ∀ (data : Bytes) (c : Nat) (ws ws1 : W),
    verdict (M.pcre2_dfa_match re data c false ws)
      = verdict (M.pcre2_dfa_match re data c false ws1)
  shift : ∀ (data : Bytes) (c : Nat) (ws : W), c ≤ data.length →
    verdict (M.pcre2_dfa_match re data c false ws)
      = (verdict (M.pcre2_dfa_match re (data.drop c) 0 false ws)).shift c
  leftmost : ∀ (data : Bytes) (c c1 : Nat) (ws : W), c ≤ c1 → c1 ≤ data.length →
    (verdict (M.pcre2_dfa_match re data c false ws)).from c1 →
    verdict (M.pcre2_dfa_match re data c1 false ws)
      = verdict (M.pcre2_dfa_match re data c false ws)
  hit_final : ∀ (data d : Bytes) (c : Nat) (ws : W) (s e : Nat), c ≤ data.length →
    verdict (M.pcre2_dfa_match re data c false ws) = Verdict.hit s e →
    verdict (M.pcre2_dfa_match re (data ++ d) c false ws) = Verdict.hit s e
  hold_final : ∀ (data d : Bytes) (c : Nat) (ws : W) (s e : Nat), c ≤ data.length →
    verdict (M.pcre2_dfa_match re data c false ws) = Verdict.hold s e →
    verdict (M.pcre2_dfa_match re (data ++ d) c false ws)
      = verdict (M.pcre2_dfa_match re (data ++ d) s false ws)
  miss_final : ∀ (data d : Bytes) (c : Nat) (ws : W), c ≤ data.length →
    verdict (M.pcre2_dfa_match re data c false ws) = Verdict.miss →
    verdict (M.pcre2_dfa_match re (data ++ d) c false ws)
      = verdict (M.pcre2_dfa_match re (data ++ d) data.length false ws)
  resume : ∀ (w : W) (p d : Bytes), Resumes M re w p → d ≠ [] →
    match verdict (M.pcre2_dfa_match re d 0 true w) with
    | Verdict.hit s e => s = 0 ∧ e ≤ d.length ∧
        ∀ ws, verdict (M.pcre2_dfa_match re (p ++ d) 0 false ws)
          = Verdict.hit 0 (p.length + e)
    | Verdict.hold s e => s = 0 ∧ e = d.length ∧
        ∀ ws, verdict (M.pcre2_dfa_match re (p ++ d) 0 false ws)
          = Verdict.hold 0 (p.length + d.length)
    | Verdict.miss =>
        ∀ ws, (verdict (M.pcre2_dfa_match re (p ++ d) 0 false ws)).from 1
    | Verdict.error _ => False

/-- No match begins inside a partial match that was given up: when the bytes
`p` are a partial match from their first byte and, with the bytes `d` after
them, no match and no partial match starts at that first byte, then none
starts anywhere in `p`: the search of `p ++ d` finds what the search of `d`
finds. -/
def NoOverlap (M : Pcre2 P W) (re : Option P) : Prop :=
  ∀ (p d : Bytes) (ws : W),
    verdict (M.pcre2_dfa_match re p 0 false ws) = Verdict.hold 0 p.length →
    (verdict (M.pcre2_dfa_match re (p ++ d) 0 false ws)).from 1 →
    verdict (M.pcre2_dfa_match re (p ++ d) 0 false ws)
      = (verdict (M.pcre2_dfa_match re d 0 false ws)).shift p.length

/-- The search loop of `pcre2_finder_process` over the subject `data` as a
relation, for a matcher that reports no error: from the cursor in the third
place the loop makes the actions in the fourth and leaves the pending bytes in
the fifth. `h` gives the actions of the handler for the matched bytes, `ws` is
the workspace the calls are made with. -/
inductive Scan (M : Pcre2 P W) (re : Option P) (ws : W) (h : Bytes → List Action)
    (data : Bytes) : Nat → List Action → Option Bytes → Prop where
  | hit (c s e : Nat) (acts : List Action) (q : Option Bytes) :
      verdict (M.pcre2_dfa_match re data c false ws) = Verdict.hit s e →
      Scan M re ws h data e acts q →
      Scan M re ws h data c
        (gap_actions data c s ++ h (slice data s (e - s)) ++ acts) q
  | hold (c s e : Nat) :
      verdict (M.pcre2_dfa_match re data c false ws) = Verdict.hold s e →
      Scan M re ws h data c (gap_actions data c s) (some (slice data s (e - s)))
  | miss (c : Nat) :
      verdict (M.pcre2_dfa_match re data c false ws) = Verdict.miss →
      Scan M re ws h data c (gap_actions data c data.length) none

/-- The actions of the handler `fn` for the matched bytes, as
`handler_actions` gives them. -/
def handler_list (fn : pcre2_finder_match_fn) (callbackdata : Nat) (matchid : Int)
    (data : Bytes) : List Action :=
  Action.call data :: (fn data callbackdata matchid).outputs.map Action.out

/-- An output action byte by byte. -/
def Action.split : Action → List Action
  | Action.out d => d.map (fun b => Action.out [b])
  | Action.call d => [Action.call d]

/-- The actions with every output call split into calls of one byte: what the
actions are apart from the chunking of the output. -/
def unchunk : List Action → List Action
  | [] => []
  | a :: acts => a.split ++ unchunk acts

/-- What a run shows at the terminal sink and at the handlers, whatever the
chunking of the output calls: the bytes delivered to the sink one by one, and
the handler invocations, in order. `last` is the position of the terminal
node. -/
inductive Obs where
  | byte (b : Char) : Obs
  | call (node : Nat) (data : Bytes) (callbackdata : Nat) (matchid : Int) : Obs
  deriving DecidableEq, Repr

/-- The observation of a list of events. -/
def observe (last : Nat) : List Event → List Obs
  | [] => []
  | Event.output n d :: ev =>
    if n = last then d.map Obs.byte ++ observe last ev else observe last ev
  | Event.handler n d cb id :: ev => Obs.call n d cb id :: observe last ev

/-- The pending bytes of the node, if any, come with a resume state of the
matcher for them. -/
def Settled (M : Pcre2 P W) (f : pcre2_finder P W) : Prop :=
  ∀ p, f.partialmatch = some p → Resumes M f.re f.dfaworkspace p

/-- Two states of a node that the matcher cannot tell apart: same
configuration, same pending bytes, each with a resume state for them. -/
def Alike (M : Pcre2 P W) (a b : pcre2_finder P W) : Prop :=
  same_config a b ∧ a.partialmatch = b.partialmatch ∧ Settled M a ∧ Settled M b

/-- A ready chain whose matcher keeps the `match_step` contract for the
pattern of every node, no match beginning inside a partial match given up. -/
def Sound (M : Pcre2 P W) (chain : List (pcre2_finder P W)) : Prop :=
  Ready M chain ∧ ∀ f ∈ chain, MatchStepContract M f.re ∧ NoOverlap M f.re

/-- The body of `pcre2_finder_process` on one node for the chunks in order:
the node afterwards and all its actions. -/
def node_run (M : Pcre2 P W) (fuel : Nat) :
    pcre2_finder P W → List Bytes → Option (pcre2_finder P W × List Action)
  | f, [] => some (f, [])
  | f, d :: ds =>
    match node_actions M fuel f d with
    | none => none
    | some (_, f1, a) =>
      match node_run M fuel f1 ds with
      | none => none
      | some (f2, a2) => some (f2, a ++ a2)

/-- The calls of `pcre2_finder_process` for the chunks in order, as in
`process_all`, on the node at position `idx`. -/
def process_from (M : Pcre2 P W) (fuel idx : Nat) :
    List (pcre2_finder P W) → List Bytes → Except Fault (Outcome P W)
  | chain, [] => Except.ok { ret := 0, chain := chain, events := [] }
  | chain, c :: cs =>
    match pcre2_finder_process M fuel idx chain c with
    | Except.error e => Except.error e
    | Except.ok o =>
      match process_from M fuel idx o.chain cs with
      | Except.error e => Except.error e
      | Except.ok o1 => Except.ok { o1 with events := o.events ++ o1.events }

/-- Statement: the `n` nodes after a node show the same, and end in states
alike, when they receive two lists of actions that differ only in the
chunking of the output, from states alike. `last` is the position of the
terminal node. -/
def FeedAgree (M : Pcre2 P W) (last n : Nat) : Prop :=
  ∀ (idx : Nat) (f f1 : pcre2_finder P W) (rest rest1 : List (pcre2_finder P W))
    (a a1 : List Action) (fuel fuel1 : Nat) (r r1 : List (pcre2_finder P W))
    (ev ev1 : List Event),
    rest.length = n → last = idx + n → Sound M (f :: rest) → same_config f f1 →
    List.Forall₂ (Alike M) rest rest1 → unchunk a = unchunk a1 →
    feed (pcre2_finder_process M fuel (idx + 1)) idx f a rest = Except.ok (r, ev) →
    feed (pcre2_finder_process M fuel1 (idx + 1)) idx f1 a1 rest1 = Except.ok (r1, ev1) →
    observe last ev = observe last ev1 ∧ List.Forall₂ (Alike M) r r1

/-- Statement: a chain of `n + 1` nodes shows the same, and ends in states
alike, when it processes two lists of chunks with the same bytes, from states
alike. -/
def ChunksAgree (M : Pcre2 P W) (last n : Nat) : Prop :=
  ∀ (idx : Nat) (c c1 : List (pcre2_finder P W)) (xs ys : List Bytes) (fuel fuel1 : Nat)
    (o o1 : Outcome P W),
    c.length = n + 1 → last = idx + n → Sound M c → List.Forall₂ (Alike M) c c1 →
    xs.flatten = ys.flatten →
    process_from M fuel idx c xs = Except.ok o →
    process_from M fuel1 idx c1 ys = Except.ok o1 →
    observe last o.events = observe last o1.events ∧ List.Forall₂ (Alike M) o.chain o1.chain

/-- The number of invocations of the handler of the node at position `k`. -/
def invocations (k : Nat) : List Event → Nat
  | [] => 0
  | Event.output _ _ :: ev => invocations k ev
  | Event.handler n _ _ _ :: ev => if n = k then invocations k ev + 1 else invocations k ev

/-- The number of handler invocations among the actions of a node. -/
def calls_in : List Action → Nat
  | [] => 0
  | Action.out _ :: acts => calls_in acts
  | Action.call _ :: acts => calls_in acts + 1

/-- The bytes of the output calls among the actions of a node, in order. -/
def outs_in : List Action → List Bytes
  | [] => []
  | Action.out d :: acts => d :: outs_in acts
  | Action.call _ :: acts => outs_in acts

/-- Value of the `pcre2_compile` option `PCRE2_NO_AUTO_POSSESS` in `pcre2.h`. -/
def PCRE2_NO_AUTO_POSSESS : Nat := 8192

/-- Value of `PCRE2_ERROR_DFA_WSSIZE` in `pcre2.h`. -/
def PCRE2_ERROR_DFA_WSSIZE : Int := -43

/-- The small matcher with a workspace too small for a repetition: every call
for a pattern `x+` fails with `PCRE2_ERROR_DFA_WSSIZE`, the other patterns are
matched as by `rx`. -/
def rx_small : Pcre2 Rx Rx :=
  { pcre2_compile := fun expr _ => rx_compile expr,
    pcre2_dfa_match := fun re data start_offset restart ws =>
      match re with
      | some (Rx.plus _) =>
        { status := PCRE2_ERROR_DFA_WSSIZE, ovector0 := 0, ovector1 := 0, workspace := ws }
      | _ => rx_dfa_match re data start_offset restart ws }

/-- The matcher, called on the chunk from the cursor `start_offset` on with
the workspace `ws`, reports the complete matches `spans` one after the other
(each call starting where the match before ended, with the workspace the call
before left), and then the status `status`. -/
def ReportsThen (M : Pcre2 P W) (re : Option P) (data : Bytes) :
    Nat → W → List (Nat × Nat) → Int → Prop
  | start_offset, ws, [], status =>
    (M.pcre2_dfa_match re data start_offset false ws).status = status
  | start_offset, ws, (s, e) :: spans, status =>
    0 ≤ (M.pcre2_dfa_match re data start_offset false ws).status ∧
    (M.pcre2_dfa_match re data start_offset false ws).ovector0 = s ∧
    (M.pcre2_dfa_match re data start_offset false ws).ovector1 = e ∧
    ReportsThen M re data e (M.pcre2_dfa_match re data start_offset false ws).workspace spans
      status

/-- The events of the node at position `idx` for the matches `spans` reported
from the cursor on, and nothing after the last of them: the unmatched bytes
before a match go to the sink, then the handler is invoked with the match and
what it forwards goes to the sink. -/
def forwarded_before (idx : Nat) (h : pcre2_finder_match_fn) (callbackdata : Nat)
    (matchid : Int) (data : Bytes) : Nat → List (Nat × Nat) → List Event
  | _, [] => []
  | cursor, (s, e) :: spans =>
    (if cursor < s then [Event.output idx (slice data cursor (s - cursor))] else []) ++
      Event.handler idx (slice data s (e - s)) callbackdata matchid ::
        ((h (slice data s (e - s)) callbackdata matchid).outputs.map (Event.output idx) ++
          forwarded_before idx h callbackdata matchid data e spans)

/-- The events of the node at position `idx` among the events of a run, in
order. -/
def own (idx : Nat) (ev : List Event) : List Event :=
  ev.filter (fun e => decide (e.node = idx))

/-- The small matcher with a budget of calls in its workspace: each call uses
one unit, and a call that finds none left fails with
`PCRE2_ERROR_DFA_WSSIZE`. It stands for a matcher that fails in the middle of
a chunk. -/
def rx_budget : Pcre2 Rx (Rx × Nat) :=
  { pcre2_compile := fun expr _ => rx_compile expr,
    pcre2_dfa_match := fun re data start_offset restart ws =>
      match ws.2 with
      | 0 => { status := PCRE2_ERROR_DFA_WSSIZE, ovector0 := 0, ovector1 := 0, workspace := ws }
      | n + 1 =>
        { status := (rx_dfa_match re data start_offset restart ws.1).status,
          ovector0 := (rx_dfa_match re data start_offset restart ws.1).ovector0,
          ovector1 := (rx_dfa_match re data start_offset restart ws.1).ovector1,
          workspace := ((rx_dfa_match re data start_offset restart ws.1).workspace, n) } }

/-- The result `r` of a `pcre2_dfa_match` call on the chunk `data` is no
complete match: it is no match, or a partial match whose span runs to the end
of the chunk (and, when the call resumed a partial match, from the start of
the chunk). -/
def Quiet (r : DfaResult W) (data : Bytes) (restart : Bool) : Prop :=
  r.status = PCRE2_ERROR_NOMATCH ∨
  (r.status = PCRE2_ERROR_PARTIAL ∧ r.ovector0 ≤ r.ovector1 ∧ r.ovector1 = data.length ∧
    (restart = true → r.ovector0 = 0))

/-- The matcher never reports a complete match in the run over the chunks:
every `pcre2_dfa_match` call that `pcre2_finder_process` makes for them, on a
node with the pattern `re`, is quiet. `resuming` tells whether the node holds
pending bytes, `ws` is its workspace. The calls for a non-empty chunk are:
when bytes are pending, the call with `PCRE2_DFA_RESTART`; then, unless that
call reported a partial match, the call of the search loop from the start of
the chunk; each call is made with the workspace the call before left, and
bytes are pending afterwards exactly when the last call reported a partial
match. -/
def NeverMatchesOn (M : Pcre2 P W) (re : Option P) : Bool → W → List Bytes → Prop
  | _, _, [] => True
  | resuming, ws, d :: ds =>
    if d.length = 0 then NeverMatchesOn M re resuming ws ds
    else if resuming = true then
      Quiet (M.pcre2_dfa_match re d 0 true ws) d true ∧
      (if (M.pcre2_dfa_match re d 0 true ws).status = PCRE2_ERROR_PARTIAL then
        NeverMatchesOn M re true (M.pcre2_dfa_match re d 0 true ws).workspace ds
      else
        Quiet (M.pcre2_dfa_match re d 0 false (M.pcre2_dfa_match re d 0 true ws).workspace)
          d false ∧
        NeverMatchesOn M re
          (decide ((M.pcre2_dfa_match re d 0 false
            (M.pcre2_dfa_match re d 0 true ws).workspace).status = PCRE2_ERROR_PARTIAL))
          (M.pcre2_dfa_match re d 0 false (M.pcre2_dfa_match re d 0 true ws).workspace).workspace
          ds)
    else
      Quiet (M.pcre2_dfa_match re d 0 false ws) d false ∧
      NeverMatchesOn M re
        (decide ((M.pcre2_dfa_match re d 0 false ws).status = PCRE2_ERROR_PARTIAL))
        (M.pcre2_dfa_match re d 0 false ws).workspace ds

/-- The model of `pcre2_compile` for the patterns `x` and `x+`: one byte, or
one byte repeated. -/
def byte_runs_compile : Bytes → Option (Char × Bool)
  | [c] => if c = '+' then none else some (c, false)
  | [c, d] => if c ≠ '+' ∧ d = '+' then some (c, true) else none
  | _ => none

/-- A model of `pcre2_dfa_match` for the patterns `x` and `x+` compiled
without `PCRE2_NO_AUTO_POSSESS`, as PCRE2 reports them under
`PCRE2_PARTIAL_HARD | PCRE2_DFA_SHORTEST`: the leftmost occurrence of the byte
at or after the start offset; the repetition at the end of the pattern is
possessive, so the match of `x+` is the whole run of the byte, up to the next
other byte or the end of the subject. No call reports a partial match. -/
def byte_runs_dfa_match (re : Option (Char × Bool)) (data : Bytes) (start_offset : Nat)
    (_ : Bool) (ws : Unit) : DfaResult Unit :=
  match re with
  | none => { status := PCRE2_ERROR_NULL, ovector0 := 0, ovector1 := 0, workspace := ws }
  | some (c, repeated) =>
    if data.length < start_offset then
      { status := PCRE2_ERROR_BADOFFSET, ovector0 := 0, ovector1 := 0, workspace := ws }
    else if ((data.drop start_offset).takeWhile (fun x => x ≠ c)).length
        = (data.drop start_offset).length then
      { status := PCRE2_ERROR_NOMATCH, ovector0 := 0, ovector1 := 0, workspace := ws }
    else
      { status := 1,
        ovector0 := start_offset + ((data.drop start_offset).takeWhile (fun x => x ≠ c)).length,
        ovector1 := start_offset + ((data.drop start_offset).takeWhile (fun x => x ≠ c)).length
          + (if repeated then
              (((data.drop start_offset).dropWhile (fun x => x ≠ c)).takeWhile
                (fun x => x = c)).length
            else 1),
        workspace := ws }

/-- The matcher for the patterns `x` and `x+` as a PCRE2 library. -/
def byte_runs : Pcre2 (Char × Bool) Unit :=
  { pcre2_compile := fun expr _ => byte_runs_compile expr,
    pcre2_dfa_match := byte_runs_dfa_match }

/-- Every handler entry among the actions of the node `f` is an entry into
the handler `f` holds, followed by the output calls that handler makes for
the matched bytes, the callback data and the match id of `f`. -/
def HandlerActs (f : pcre2_finder P W) : List Action → Prop
  | [] => True
  | Action.out _ :: acts => HandlerActs f acts
  | Action.call d :: acts =>
    (∃ fn, f.matchfn = some fn ∧
      (fn d f.matchcallbackdata f.matchid).outputs <+: outs_in acts) ∧ HandlerActs f acts

/-- Every handler event of the list names a node of `chain` (whose first node
is at position `idx`), carries the callback data and the match id of that
node, and is followed by the output calls that the handler of that node makes
for these arguments, made through that node. -/
def OwnHandlers (idx : Nat) (chain : List (pcre2_finder P W)) : List Event → Prop
  | [] => True
  | Event.output _ _ :: ev => OwnHandlers idx chain ev
  | Event.handler n m cb id :: ev =>
    (idx ≤ n ∧ ∃ node fn, chain.get? (n - idx) = some node ∧ node.matchfn = some fn ∧
      node.matchcallbackdata = cb ∧ node.matchid = id ∧
      (fn m cb id).outputs <+: outputs_of n ev) ∧ OwnHandlers idx chain ev

/-- The nodes after the chunks were processed (the chain itself if a call had
no result). -/
def chain_after (M : Pcre2 P W) (fuel : Nat) (chain : List (pcre2_finder P W))
    (chunks : List Bytes) : List (pcre2_finder P W) :=
  match process_all M fuel chain chunks with
  | Except.ok o => o.chain
  | Except.error _ => chain

/-- A chain on the small matcher, set up through the interface:
`pcre2_finder_initialize`, one `pcre2_finder_add_expr` per pattern, then
`pcre2_finder_open` with the given output function. -/
def rx_chain (calls : List AddCall) (outputfn : pcre2_finder_output_fn) (callbackdata : Nat) :
    List (pcre2_finder Rx Rx) :=
  (pcre2_finder_open (add_exprs rx Rx.nothing ( pcre2_finder_initialize Rx.nothing) calls).2
    (some outputfn) callbackdata).2.nodes

/-- The arguments for adding a pattern with the counting handler. -/
def counting (expr : Bytes) (matchid : Int) : AddCall :=
  { expr := expr, flags := 0, matchfn := some when_found, callbackdata := 0, matchid := matchid }

end Pcre2Finder

namespace Pcre2Finder

variable {P W : Type}

/-! ## `pcre2_finder_add_expr` and `pcre2_finder_open` -/

/-- C8. `pcre2_finder_add_expr` returns -1 for a `NULL` or empty expression and
1 when `pcre2_compile` fails, and in each case the chain it was given is the
chain afterwards: no node is added, no field changes. -/
theorem add_expr_failure_leaves_chain (M : Pcre2 P W) (ws : W) (finder : Chain P W)
    (flags : Nat) (matchfn : Option pcre2_finder_match_fn) (callbackdata : Nat)
    (matchid : Int) :
    pcre2_finder_add_expr M ws finder none flags matchfn callbackdata matchid = (-1, finder) ∧
    pcre2_finder_add_expr M ws finder (some []) flags matchfn callbackdata matchid
      = (-1, finder) ∧
    ∀ expr : Bytes, expr ≠ [] → M.pcre2_compile expr flags = none →
      pcre2_finder_add_expr M ws finder (some expr) flags matchfn callbackdata matchid
        = (1, finder) := by
  refine ⟨rfl, rfl, ?_⟩
  intro expr hne hc
  cases expr with
  | nil => exact absurd rfl hne
  | cons c cs => simp [pcre2_finder_add_expr, hc]

/-- C8, on the small matcher: the expression `+` does not compile, the call
returns 1 and the chain is unchanged. -/
theorem add_expr_failure_leaves_chain_witness :
    ['+'] ≠ [] ∧ rx.pcre2_compile ['+'] 0 = none ∧
    pcre2_finder_add_expr rx Rx.nothing ( pcre2_finder_initialize Rx.nothing) (some ['+']) 0
        (some when_found) 0 0
      = (1, pcre2_finder_initialize Rx.nothing) :=
  ⟨by decide, rfl,
   (add_expr_failure_leaves_chain rx Rx.nothing ( pcre2_finder_initialize Rx.nothing) 0
      (some when_found) 0 0).2.2 ['+'] (by decide) rfl⟩

/-- A successful call on a chain whose `last` node already holds a pattern
appends one node and leaves the others as they are. -/
theorem add_expr_append (M : Pcre2 P W) (ws : W) (nodes : List (pcre2_finder P W))
    (last : Nat) (c : AddCall) (re : P) (hlast : last + 1 = nodes.length)
    (hre : ∀ node ∈ nodes, node.re ≠ none) (hne : c.expr ≠ [])
    (hc : M.pcre2_compile c.expr c.flags = some re) :
    pcre2_finder_add_expr M ws { nodes := nodes, last := last } (some c.expr) c.flags
        c.matchfn c.callbackdata c.matchid
      = (0, { nodes := nodes ++ [node_of ws c re], last := last + 1 }) := by
  have hlt : last < nodes.length := by omega
  have hmem : nodes[last] ∈ nodes := List.getElem_mem hlt
  have hsome := hre _ hmem
  cases hx : c.expr with
  | nil => exact absurd hx hne
  | cons x xs =>
    rw [hx] at hc
    cases hr : (nodes[last]).re with
    | none => exact absurd hr hsome
    | some r0 =>
      have htake : List.take (last + 1) nodes = nodes := by
        rw [hlast]; exact List.take_length nodes
      simp [pcre2_finder_add_expr, hc, List.getElem?_eq_getElem hlt, hr, htake, node_of, fresh]

/-- The first successful call on a chain made by `pcre2_finder_initialize`
fills the head node. -/
theorem add_expr_first (M : Pcre2 P W) (ws : W) (c : AddCall) (re : P) (hne : c.expr ≠ [])
    (hc : M.pcre2_compile c.expr c.flags = some re) :
    pcre2_finder_add_expr M ws ( pcre2_finder_initialize ws) (some c.expr) c.flags
        c.matchfn c.callbackdata c.matchid
      = (0, { nodes := [node_of ws c re], last := 0 }) := by
  cases hx : c.expr with
  | nil => exact absurd hx hne
  | cons x xs =>
    rw [hx] at hc
    simp [pcre2_finder_add_expr, pcre2_finder_initialize, hc, node_of, fresh]

/-- Successive successful calls on a chain whose `last` node holds a pattern
append their nodes in order. -/
theorem add_exprs_append (M : Pcre2 P W) (ws : W) (calls : List AddCall) (res : List P)
    (hv : List.Forall₂ (fun c re => c.expr ≠ [] ∧ M.pcre2_compile c.expr c.flags = some re)
      calls res) :
    ∀ (nodes : List (pcre2_finder P W)) (last : Nat), last + 1 = nodes.length →
      (∀ node ∈ nodes, node.re ≠ none) →
      add_exprs M ws { nodes := nodes, last := last } calls
        = (List.replicate calls.length 0,
           { nodes := nodes ++ List.zipWith (node_of ws) calls res,
             last := last + calls.length }) := by
  induction hv with
  | nil => intro nodes last _ _; simp [add_exprs]
  | @cons c re cs rs hcr _ ih =>
    intro nodes last hlast hre
    have h1 := add_expr_append M ws nodes last c re hlast hre hcr.1 hcr.2
    have h2 := ih (nodes ++ [node_of ws c re]) (last + 1) (by simp [hlast]) (by
      intro node hn
      rcases List.mem_append.1 hn with h | h
      · exact hre node h
      · simp at h; subst h; simp [node_of])
    simp only [add_exprs, h1, h2]
    simp [List.replicate_succ, Nat.add_comm, Nat.add_left_comm]

/-- C9. After `n ≥ 1` successful `pcre2_finder_add_expr` calls on a chain made
by `pcre2_finder_initialize`, every call returned 0, the chain has exactly `n`
nodes, the node at position `i` holds the compiled pattern, the handler, the
callback data and the match id of call `i`, and a later successful call, made
when the `n` nodes are in any state in which each still holds its pattern,
appends its node after them and changes no field of any of them. -/
theorem add_expr_appends_at_tail (M : Pcre2 P W) (ws : W) (calls : List AddCall)
    (res : List P) (hn : calls ≠ [])
    (hv : List.Forall₂ (fun c re => c.expr ≠ [] ∧ M.pcre2_compile c.expr c.flags = some re)
      calls res) :
    (add_exprs M ws ( pcre2_finder_initialize ws) calls).1 = List.replicate calls.length 0 ∧
    (add_exprs M ws ( pcre2_finder_initialize ws) calls).2.nodes.length = calls.length ∧
    (∀ (i : Nat) (c : AddCall) (re : P), calls.get? i = some c → res.get? i = some re →
      ∃ node, (add_exprs M ws ( pcre2_finder_initialize ws) calls).2.nodes.get? i = some node ∧
        node.re = some re ∧ node.matchfn = c.matchfn ∧
        node.matchcallbackdata = c.callbackdata ∧ node.matchid = c.matchid ∧
        node.partialmatch = none) ∧
    (∀ (later : AddCall) (re : P) (nodes : List (pcre2_finder P W)),
      nodes.length = calls.length → (∀ node ∈ nodes, node.re ≠ none) →
      later.expr ≠ [] → M.pcre2_compile later.expr later.flags = some re →
      pcre2_finder_add_expr M ws
          { nodes := nodes, last := (add_exprs M ws ( pcre2_finder_initialize ws) calls).2.last }
          (some later.expr) later.flags later.matchfn later.callbackdata later.matchid
        = (0, { nodes := nodes ++ [node_of ws later re],
                last := (add_exprs M ws ( pcre2_finder_initialize ws) calls).2.last + 1 })) := by
  cases hv with
  | nil => exact absurd rfl hn
  | @cons c re cs rs hcr hrest =>
    have h1 := add_expr_first M ws c re hcr.1 hcr.2
    have h2 := add_exprs_append M ws cs rs hrest [node_of ws c re] 0 rfl (by
      intro node hmem; simp at hmem; subst hmem; simp [node_of])
    have hlen := List.Forall₂.length_eq hrest
    have hall : add_exprs M ws ( pcre2_finder_initialize ws) (c :: cs)
        = (List.replicate (cs.length + 1) 0,
           { nodes := List.zipWith (node_of ws) (c :: cs) (re :: rs), last := cs.length }) := by
      simp only [add_exprs, h1, h2]
      simp [List.replicate_succ]
    rw [hall]
    refine ⟨rfl, by simp [hlen], ?_, ?_⟩
    · intro i c0 re0 hc0 hre0
      refine ⟨node_of ws c0 re0, ?_, rfl, rfl, rfl, rfl, rfl⟩
      simp only [List.get?_eq_getElem?] at hc0 hre0 ⊢
      rw [List.getElem?_zipWith, hc0, hre0]
    · intro later re1 nodes hlen1 hre1 hne1 hc1
      exact add_expr_append M ws nodes cs.length later re1 (by simp [hlen1]) hre1 hne1 hc1

/-- C9, on the small matcher: the patterns `foo` (id 0) and `bar` (id 1) give a
chain of two nodes. -/
theorem add_expr_appends_at_tail_witness :
    (add_exprs rx Rx.nothing ( pcre2_finder_initialize Rx.nothing)
      [{ expr := ['f', 'o', 'o'], flags := 0, matchfn := some when_found, callbackdata := 0,
         matchid := 0 },
       { expr := ['b', 'a', 'r'], flags := 0, matchfn := some when_found, callbackdata := 0,
         matchid := 1 }]).2.nodes.length = 2 :=
  (add_expr_appends_at_tail rx Rx.nothing
    [{ expr := ['f', 'o', 'o'], flags := 0, matchfn := some when_found, callbackdata := 0,
       matchid := 0 },
     { expr := ['b', 'a', 'r'], flags := 0, matchfn := some when_found, callbackdata := 0,
       matchid := 1 }]
    [Rx.seq (Rx.byte 'f') (Rx.seq (Rx.byte 'o') (Rx.byte 'o')),
     Rx.seq (Rx.byte 'b') (Rx.seq (Rx.byte 'a') (Rx.byte 'r'))]
    (by simp)
    (List.Forall₂.cons ⟨by simp, rfl⟩ (List.Forall₂.cons ⟨by simp, rfl⟩ List.Forall₂.nil))).2.1

/-- Calls that all fail leave the chain as it was. -/
theorem add_exprs_all_fail (M : Pcre2 P W) (ws : W) (calls : List AddCall) :
    ∀ (finder : Chain P W),
      (∀ c ∈ calls, c.expr = [] ∨ M.pcre2_compile c.expr c.flags = none) →
      (add_exprs M ws finder calls).2 = finder ∧
      ∀ s ∈ (add_exprs M ws finder calls).1, s ≠ 0 := by
  induction calls with
  | nil => intro finder _; simp [add_exprs]
  | cons c cs ih =>
    intro finder h
    have hc := h c (List.mem_cons_self c cs)
    have hcs : ∀ c1 ∈ cs, c1.expr = [] ∨ M.pcre2_compile c1.expr c1.flags = none :=
      fun c1 h1 => h c1 (List.mem_cons_of_mem c h1)
    have hstep : pcre2_finder_add_expr M ws finder (some c.expr) c.flags c.matchfn
        c.callbackdata c.matchid = (-1, finder) ∨
        pcre2_finder_add_expr M ws finder (some c.expr) c.flags c.matchfn
        c.callbackdata c.matchid = (1, finder) := by
      cases hx : c.expr with
      | nil => exact Or.inl rfl
      | cons x xs =>
        rcases hc with h0 | h0
        · rw [hx] at h0; exact absurd h0 (by simp)
        · rw [hx] at h0; right; simp [pcre2_finder_add_expr, h0]
    rcases hstep with h1 | h1
    · simp only [add_exprs, h1]
      refine ⟨(ih finder hcs).1, ?_⟩
      intro s hs
      rcases List.mem_cons.1 hs with h2 | h2
      · subst h2; decide
      · exact (ih finder hcs).2 s h2
    · simp only [add_exprs, h1]
      refine ⟨(ih finder hcs).1, ?_⟩
      intro s hs
      rcases List.mem_cons.1 hs with h2 | h2
      · subst h2; decide
      · exact (ih finder hcs).2 s h2

/-- C10. `pcre2_finder_open` returns -1 on a chain made by
`pcre2_finder_initialize` to which no expression was successfully added
(whatever the sink), and -2 when the head holds a pattern and the sink is
`NULL`; in both cases the chain, with every output binding, is unchanged. -/
theorem open_rejects_misuse (M : Pcre2 P W) (ws : W)
    (outputfn : Option pcre2_finder_output_fn) (callbackdata : Nat) :
    (∀ calls : List AddCall,
      (∀ c ∈ calls, c.expr = [] ∨ M.pcre2_compile c.expr c.flags = none) →
      pcre2_finder_open (add_exprs M ws ( pcre2_finder_initialize ws) calls).2 outputfn
          callbackdata
        = (-1, pcre2_finder_initialize ws)) ∧
    (∀ (finder : Chain P W) (head : pcre2_finder P W) (rest : List (pcre2_finder P W)),
      finder.nodes = head :: rest → head.re ≠ none →
      pcre2_finder_open finder none callbackdata = (-2, finder)) ∧
    (∀ (c : AddCall) (re : P), c.expr ≠ [] → M.pcre2_compile c.expr c.flags = some re →
      pcre2_finder_open
          (pcre2_finder_add_expr M ws ( pcre2_finder_initialize ws) (some c.expr) c.flags
            c.matchfn c.callbackdata c.matchid).2 none callbackdata
        = (-2, (pcre2_finder_add_expr M ws ( pcre2_finder_initialize ws) (some c.expr) c.flags
            c.matchfn c.callbackdata c.matchid).2)) := by
  refine ⟨?_, ?_, ?_⟩
  · intro calls h
    rw [(add_exprs_all_fail M ws calls _ h).1]
    simp [pcre2_finder_open, pcre2_finder_initialize, fresh]
  · intro finder head rest hnodes hre
    cases hr : head.re with
    | none => exact absurd hr hre
    | some r => simp [pcre2_finder_open, hnodes, hr]
  · intro c re hne hc
    rw [add_expr_first M ws c re hne hc]
    simp [pcre2_finder_open, node_of]

/-- C10, on the small matcher: with no pattern added, and after the only
call failed to compile `+`, open returns -1; with the pattern `ab` and a
`NULL` sink it returns -2. -/
theorem open_rejects_misuse_witness :
    pcre2_finder_open (add_exprs rx Rx.nothing ( pcre2_finder_initialize Rx.nothing)
        [{ expr := ['+'], flags := 0, matchfn := some when_found, callbackdata := 0,
           matchid := 0 }]).2 (some pcre2_finder_output_to_null) 0
      = (-1, pcre2_finder_initialize Rx.nothing) ∧
    (pcre2_finder_open
        (pcre2_finder_add_expr rx Rx.nothing ( pcre2_finder_initialize Rx.nothing)
          (some ['a', 'b']) 0 (some when_found) 0 0).2 none 0).1 = -2 :=
  ⟨(open_rejects_misuse rx Rx.nothing (some pcre2_finder_output_to_null) 0).1
      [{ expr := ['+'], flags := 0, matchfn := some when_found, callbackdata := 0,
         matchid := 0 }] (by
        intro c hc
        simp at hc
        subst hc
        exact Or.inr rfl),
   congrArg Prod.fst ((open_rejects_misuse rx Rx.nothing none 0).2.2
      { expr := ['a', 'b'], flags := 0, matchfn := some when_found, callbackdata := 0,
        matchid := 0 } (Rx.seq (Rx.byte 'a') (Rx.byte 'b')) (by simp) rfl)⟩

/-! ## Scenarios -/

/-- C6. A single node bound to a sink of the caller, nothing pending, with a
handler that forwards `X` for the match `ab`. The matcher reports a partial
match for the trailing `a` of the chunk `xa`, then on restart a match ending
after the `b` of the chunk `by`, then no match in the rest of that chunk.
Processing `xa`, then `by`, then closing returns 0 (with fuel 2 or more),
delivers `x`, `X`, `y` to the sink, in this order, and invokes the handler
once, with the bytes `ab`. -/
theorem straddling_match_scenario (M : Pcre2 P W) (f : pcre2_finder P W)
    (h : pcre2_finder_match_fn) (fn : pcre2_finder_output_fn) (cb : Nat)
    (hpm : f.partialmatch = none) (hh : f.matchfn = some h)
    (hfn : f.outputfn = some (OutputFn.user fn))
    (hcb : f.outputcallbackdata = CallbackData.user cb)
    (hX : (h ['a', 'b'] f.matchcallbackdata f.matchid).outputs = [['X']])
    (h1 : (M.pcre2_dfa_match f.re ['x', 'a'] 0 false f.dfaworkspace).status
            = PCRE2_ERROR_PARTIAL ∧
          (M.pcre2_dfa_match f.re ['x', 'a'] 0 false f.dfaworkspace).ovector0 = 1 ∧
          (M.pcre2_dfa_match f.re ['x', 'a'] 0 false f.dfaworkspace).ovector1 = 2)
    (h2 : 0 ≤ (M.pcre2_dfa_match f.re ['b', 'y'] 0 true
            (M.pcre2_dfa_match f.re ['x', 'a'] 0 false f.dfaworkspace).workspace).status ∧
          (M.pcre2_dfa_match f.re ['b', 'y'] 0 true
            (M.pcre2_dfa_match f.re ['x', 'a'] 0 false f.dfaworkspace).workspace).ovector0 = 0 ∧
          (M.pcre2_dfa_match f.re ['b', 'y'] 0 true
            (M.pcre2_dfa_match f.re ['x', 'a'] 0 false f.dfaworkspace).workspace).ovector1 = 1)
    (h3 : (M.pcre2_dfa_match f.re ['b', 'y'] 1 false
            (M.pcre2_dfa_match f.re ['b', 'y'] 0 true
              (M.pcre2_dfa_match f.re ['x', 'a'] 0 false f.dfaworkspace).workspace).workspace).status
            = PCRE2_ERROR_NOMATCH)
    (fuel : Nat) (hfuel : 2 ≤ fuel) :
    ∃ o, session M fuel [f] [['x', 'a'], ['b', 'y']] = Except.ok o ∧ o.ret = 0 ∧
      o.events = [Event.output 0 ['x'], Event.handler 0 ['a', 'b'] f.matchcallbackdata f.matchid,
                  Event.output 0 ['X'], Event.output 0 ['y']] ∧
      (outputs_of 0 o.events).flatten = ['x', 'X', 'y'] ∧
      handler_calls o.events = [(0, ['a', 'b'], f.matchcallbackdata, f.matchid)] ∧
      o.chain.map (fun n => n.partialmatch) = [none] := by
  obtain ⟨h1a, h1b, h1c⟩ := h1
  obtain ⟨h2a, h2b, h2c⟩ := h2
  obtain ⟨k, rfl⟩ : ∃ k, fuel = k + 2 := ⟨fuel - 2, by omega⟩
  simp [session, process_all, pcre2_finder_process, process_node, search, h1a, h1b, h1c,
    h2a, h2b, h2c, h3, hpm, hh, hfn, hcb, hX, emit, call_outputfn, call_matchfn, emit_all,
    partialmatch_append, partialmatch_clear, set_workspace, slice, PCRE2_ERROR_PARTIAL,
    PCRE2_ERROR_NOMATCH, pcre2_finder_close, close_loop, outputs_of, handler_calls,
    pcre2_finder_output]

/-- C6, on the small matcher: the chain of the pattern `ab` with the
replacing handler, set up through the interface, run on `xa`, `by`. -/
theorem straddling_match_scenario_witness :
    ∃ o, session rx 2
        (rx_chain [{ expr := ['a', 'b'], flags := 0,
                     matchfn := some (when_found_replace (fun _ => ['X'])),
                     callbackdata := 0, matchid := 0 }] pcre2_finder_output_to_null 0)
        [['x', 'a'], ['b', 'y']] = Except.ok o ∧
      (outputs_of 0 o.events).flatten = ['x', 'X', 'y'] ∧
      handler_calls o.events = [(0, ['a', 'b'], 0, 0)] := by
  obtain ⟨o, h1, _, _, h4, h5, _⟩ := straddling_match_scenario rx
    { matchfn := some (when_found_replace (fun _ => ['X'])), matchcallbackdata := 0,
      matchid := 0, outputfn := some (OutputFn.user pcre2_finder_output_to_null),
      outputcallbackdata := CallbackData.user 0, partialmatch := none,
      re := some (Rx.seq (Rx.byte 'a') (Rx.byte 'b')), match_data := true,
      match_context := true, dfaworkspace := Rx.nothing }
    (when_found_replace (fun _ => ['X'])) pcre2_finder_output_to_null 0 rfl rfl rfl rfl rfl
    ⟨rfl, rfl, rfl⟩ ⟨by decide, rfl, rfl⟩ rfl 2 (Nat.le_refl 2)
  exact ⟨o, h1, h4, h5⟩

/-! ## What a call leaves in place -/

theorem same_config_refl (a : pcre2_finder P W) : same_config a a :=
  ⟨rfl, rfl, rfl, rfl, rfl, rfl⟩

theorem same_config_trans {a b c : pcre2_finder P W} (h1 : same_config a b)
    (h2 : same_config b c) : same_config a c := by
  obtain ⟨a1, a2, a3, a4, a5, a6⟩ := h1
  obtain ⟨b1, b2, b3, b4, b5, b6⟩ := h2
  exact ⟨a1.trans b1, a2.trans b2, a3.trans b3, a4.trans b4, a5.trans b5, a6.trans b6⟩

theorem same_config_list_refl (c : List (pcre2_finder P W)) : List.Forall₂ same_config c c := by
  induction c with
  | nil => exact List.Forall₂.nil
  | cons a c ih => exact List.Forall₂.cons (same_config_refl a) ih

theorem same_config_list_trans {a b c : List (pcre2_finder P W)}
    (h1 : List.Forall₂ same_config a b) (h2 : List.Forall₂ same_config b c) :
    List.Forall₂ same_config a c := by
  induction h1 generalizing c with
  | nil => cases h2; exact List.Forall₂.nil
  | cons hab _ ih =>
    cases h2 with
    | cons hbc hrest => exact List.Forall₂.cons (same_config_trans hab hbc) (ih hrest)

theorem RunFrame.refl (idx : Nat) (st : Run P W) : RunFrame idx st st :=
  ⟨same_config_refl _, same_config_list_refl _, [], by simp, by simp⟩

theorem RunFrame.trans {idx : Nat} {a b c : Run P W} (h1 : RunFrame idx a b)
    (h2 : RunFrame idx b c) : RunFrame idx a c := by
  obtain ⟨f1, r1, ev1, e1, b1⟩ := h1
  obtain ⟨f2, r2, ev2, e2, b2⟩ := h2
  refine ⟨same_config_trans f1 f2, same_config_list_trans r1 r2, ev1 ++ ev2, ?_, ?_⟩
  · rw [e2, e1, List.append_assoc]
  · intro e he
    rcases List.mem_append.1 he with h | h
    · exact b1 e h
    · exact b2 e h

/-- A change of the pending buffer and of the workspace keeps the frame. -/
theorem RunFrame.update {idx : Nat} {a b : Run P W} (f : pcre2_finder P W)
    (h : RunFrame idx a b) (hf : same_config b.finder f) :
    RunFrame idx a { b with finder := f } := by
  obtain ⟨f1, r1, ev1, e1, b1⟩ := h
  exact ⟨same_config_trans f1 hf, r1, ev1, e1, b1⟩

theorem RunFrame.of_finder (idx : Nat) (st : Run P W) (f : pcre2_finder P W)
    (hf : same_config st.finder f) :
    RunFrame idx st { finder := f, rest := st.rest, events := st.events } :=
  ⟨hf, same_config_list_refl _, [], by simp, by simp⟩

theorem emit_frame (next : List (pcre2_finder P W) → Bytes → Except Fault (Outcome P W))
    (idx : Nat) (hnext : ∀ rest d o, next rest d = Except.ok o → Frame (idx + 1) rest o.chain o.events)
    (st st1 : Run P W) (data : Bytes) (h : emit next idx st data = Except.ok st1) :
    RunFrame idx st st1 := by
  unfold emit call_outputfn at h
  split at h
  · rename_i o ho
    split at ho
    · split at ho
      · rename_i o1 h1
        have hf := hnext _ _ _ h1
        injection ho with ho
        injection h with h
        subst ho h
        refine ⟨same_config_refl _, hf.1, _, rfl, ?_⟩
        intro e he
        rcases List.mem_cons.1 he with h2 | h2
        · subst h2; exact Nat.le_refl _
        · exact Nat.le_of_succ_le (hf.2 e h2)
      · exact absurd ho (by simp)
    · injection ho with ho
      injection h with h
      subst ho h
      refine ⟨same_config_refl _, same_config_list_refl _, _, rfl, ?_⟩
      intro e he
      simp at he
      subst he
      exact Nat.le_refl _
    · injection ho with ho
      injection h with h
      subst ho h
      refine ⟨same_config_refl _, same_config_list_refl _, _, rfl, ?_⟩
      intro e he
      simp at he
      subst he
      exact Nat.le_refl _
    · exact absurd ho (by simp)
  · exact absurd h (by simp)


theorem emit_all_frame (next : List (pcre2_finder P W) → Bytes → Except Fault (Outcome P W))
    (idx : Nat) (hnext : ∀ rest d o, next rest d = Except.ok o → Frame (idx + 1) rest o.chain o.events)
    (xs : List Bytes) : ∀ (st st1 : Run P W), emit_all next idx st xs = Except.ok st1 →
    RunFrame idx st st1 := by
  induction xs with
  | nil =>
    intro st st1 h
    simp only [emit_all] at h
    injection h with h
    subst h
    exact RunFrame.refl idx st
  | cons x xs ih =>
    intro st st1 h
    simp only [emit_all] at h
    cases he : emit next idx st x with
    | error e => rw [he] at h; exact absurd h (by simp)
    | ok st0 =>
      rw [he] at h
      exact RunFrame.trans (emit_frame next idx hnext st st0 x he) (ih st0 st1 h)

theorem call_matchfn_frame (next : List (pcre2_finder P W) → Bytes → Except Fault (Outcome P W))
    (idx : Nat) (hnext : ∀ rest d o, next rest d = Except.ok o → Frame (idx + 1) rest o.chain o.events)
    (st st1 : Run P W) (data : Bytes) (h : call_matchfn next idx st data = Except.ok st1) :
    RunFrame idx st st1 := by
  unfold call_matchfn at h
  cases hm : st.finder.matchfn with
  | none => rw [hm] at h; exact absurd h (by simp)
  | some fn =>
    rw [hm] at h
    refine RunFrame.trans ?_ (emit_all_frame next idx hnext _ _ _ h)
    refine ⟨same_config_refl _, same_config_list_refl _, _, rfl, ?_⟩
    intro e he
    simp at he
    subst he
    exact Nat.le_refl _

/-- The step `if cond then emit ... else stay` of the search loop. -/
theorem emit_if_frame (next : List (pcre2_finder P W) → Bytes → Except Fault (Outcome P W))
    (idx : Nat) (hnext : ∀ rest d o, next rest d = Except.ok o → Frame (idx + 1) rest o.chain o.events)
    (c : Prop) [Decidable c] (st st1 : Run P W) (data : Bytes)
    (h : (if c then emit next idx st data else Except.ok st) = Except.ok st1) :
    RunFrame idx st st1 := by
  by_cases hc : c
  · rw [if_pos hc] at h; exact emit_frame next idx hnext st st1 data h
  · rw [if_neg hc] at h; injection h with h; subst h; exact RunFrame.refl idx st

theorem search_frame (M : Pcre2 P W)
    (next : List (pcre2_finder P W) → Bytes → Except Fault (Outcome P W))
    (idx : Nat) (hnext : ∀ rest d o, next rest d = Except.ok o → Frame (idx + 1) rest o.chain o.events)
    (data : Bytes) (fuel : Nat) : ∀ (start_offset : Nat) (st : Run P W) (status : Int)
      (st1 : Run P W), search M next idx data fuel start_offset st = Except.ok (status, st1) →
      RunFrame idx st st1 := by
  induction fuel with
  | zero => intro c st status st1 h; simp [search] at h
  | succ fuel ih =>
    intro c st status st1 h
    simp only [search] at h
    have h0 := RunFrame.of_finder idx st (set_workspace st.finder
      (M.pcre2_dfa_match st.finder.re data c false st.finder.dfaworkspace).workspace)
      ⟨rfl, rfl, rfl, rfl, rfl, rfl⟩
    split at h
    · split at h
      · exact absurd h (by simp)
      · rename_i sta hsta
        split at h
        · exact absurd h (by simp)
        · rename_i stb hstb
          exact RunFrame.trans h0 (RunFrame.trans (emit_if_frame next idx hnext _ _ _ _ hsta)
            (RunFrame.trans (call_matchfn_frame next idx hnext _ _ _ hstb) (ih _ _ _ _ h)))
    · split at h
      · split at h
        · exact absurd h (by simp)
        · rename_i sta hsta
          injection h with h
          injection h with h1 h2
          subst h2
          exact RunFrame.update _ (RunFrame.trans h0 (emit_if_frame next idx hnext _ _ _ _ hsta))
            ⟨rfl, rfl, rfl, rfl, rfl, rfl⟩
      · split at h
        · split at h
          · exact absurd h (by simp)
          · rename_i sta hsta
            injection h with h
            injection h with h1 h2
            subst h2
            exact RunFrame.trans h0 (emit_if_frame next idx hnext _ _ _ _ hsta)
        · injection h with h
          injection h with h1 h2
          subst h2
          exact h0

theorem process_node_frame (M : Pcre2 P W)
    (next : List (pcre2_finder P W) → Bytes → Except Fault (Outcome P W))
    (idx : Nat) (hnext : ∀ rest d o, next rest d = Except.ok o → Frame (idx + 1) rest o.chain o.events)
    (fuel : Nat) (st : Run P W) (data : Bytes) (status : Int) (st1 : Run P W)
    (h : process_node M next idx fuel st data = Except.ok (status, st1)) :
    RunFrame idx st st1 := by
  unfold process_node at h
  split at h
  · injection h with h
    injection h with h1 h2
    subst h2
    exact RunFrame.refl idx st
  · split at h
    · exact search_frame M next idx hnext data fuel _ _ _ _ h
    · simp only at h
      split at h
      · split at h
        · exact absurd h (by simp)
        · rename_i sta hsta
          have h1 := call_matchfn_frame next idx hnext _ _ _ hsta
          have h2 := search_frame M next idx hnext data fuel _ _ _ _ h
          exact RunFrame.trans
            (RunFrame.trans (RunFrame.of_finder idx st _ ⟨rfl, rfl, rfl, rfl, rfl, rfl⟩) h1)
            (RunFrame.trans (RunFrame.of_finder idx sta _ ⟨rfl, rfl, rfl, rfl, rfl, rfl⟩) h2)
      · split at h
        · injection h with h
          injection h with h1 h2
          subst h2
          exact RunFrame.of_finder idx st _ ⟨rfl, rfl, rfl, rfl, rfl, rfl⟩
        · split at h
          · split at h
            · exact absurd h (by simp)
            · rename_i sta hsta
              have h1 := emit_frame next idx hnext _ _ _ hsta
              have h2 := search_frame M next idx hnext data fuel _ _ _ _ h
              exact RunFrame.trans
                (RunFrame.trans (RunFrame.of_finder idx st _ ⟨rfl, rfl, rfl, rfl, rfl, rfl⟩) h1)
                (RunFrame.trans (RunFrame.of_finder idx sta _ ⟨rfl, rfl, rfl, rfl, rfl, rfl⟩) h2)
          · injection h with h
            injection h with h1 h2
            subst h2
            exact RunFrame.of_finder idx st _ ⟨rfl, rfl, rfl, rfl, rfl, rfl⟩

/-- `pcre2_finder_process` leaves every node in place with its handler,
output binding and pattern, and makes only events of the nodes it runs. -/
theorem process_frame (M : Pcre2 P W) (fuel : Nat) :
    ∀ (idx : Nat) (chain : List (pcre2_finder P W)) (data : Bytes) (o : Outcome P W),
      pcre2_finder_process M fuel idx chain data = Except.ok o →
      Frame idx chain o.chain o.events := by
  induction fuel with
  | zero => intro idx chain data o h; simp [pcre2_finder_process] at h
  | succ fuel ih =>
    intro idx chain data o h
    cases chain with
    | nil =>
      simp only [pcre2_finder_process] at h
      split at h
      · injection h with h; subst h
        exact ⟨List.Forall₂.nil, by simp⟩
      · exact absurd h (by simp)
    | cons f rest =>
      simp only [pcre2_finder_process] at h
      split at h
      · exact absurd h (by simp)
      · rename_i status st hst
        injection h with h
        subst h
        have hf := process_node_frame M _ idx (fun rest d o h => ih (idx + 1) rest d o h)
          fuel _ data status st hst
        obtain ⟨f1, r1, ev, e1, b1⟩ := hf
        refine ⟨List.Forall₂.cons f1 r1, ?_⟩
        simp only [List.nil_append] at e1
        intro e he
        simp only at he
        rw [e1] at he
        exact b1 e he

/-! ## A run is the actions of the node, carried out -/

theorem call_outputfn_congr (next : List (pcre2_finder P W) → Bytes → Except Fault (Outcome P W))
    (idx : Nat) {a b : pcre2_finder P W} (h : same_config a b) (rest : List (pcre2_finder P W))
    (d : Bytes) : call_outputfn next idx a rest d = call_outputfn next idx b rest d := by
  obtain ⟨_, _, _, h4, h5, _⟩ := h
  simp only [call_outputfn, h4, h5]

theorem feed_congr (next : List (pcre2_finder P W) → Bytes → Except Fault (Outcome P W))
    (idx : Nat) {a b : pcre2_finder P W} (h : same_config a b) (acts : List Action) :
    ∀ rest, feed next idx a acts rest = feed next idx b acts rest := by
  induction acts with
  | nil => intro rest; rfl
  | cons x acts ih =>
    intro rest
    cases x with
    | out d =>
      simp only [feed, call_outputfn_congr next idx h]
      cases call_outputfn next idx b rest d with
      | error e => rfl
      | ok o => simp only [ih]
    | call d =>
      obtain ⟨_, h2, h3, _, _, _⟩ := h
      simp only [feed, ih, h2, h3]

theorem feed_append (next : List (pcre2_finder P W) → Bytes → Except Fault (Outcome P W))
    (idx : Nat) (f : pcre2_finder P W) (a b : List Action) :
    ∀ rest, feed next idx f (a ++ b) rest =
      match feed next idx f a rest with
      | Except.error e => Except.error e
      | Except.ok (rest1, ev) =>
        match feed next idx f b rest1 with
        | Except.error e => Except.error e
        | Except.ok (rest2, ev2) => Except.ok (rest2, ev ++ ev2) := by
  induction a with
  | nil =>
    intro rest
    simp only [List.nil_append, feed]
    cases feed next idx f b rest with
    | error e => rfl
    | ok x => simp
  | cons x a ih =>
    intro rest
    cases x with
    | out d =>
      simp only [List.cons_append, feed, List.append_eq, ih]
      cases call_outputfn next idx f rest d with
      | error e => rfl
      | ok o =>
        simp only
        cases feed next idx f a o.chain with
        | error e => rfl
        | ok y =>
          simp only
          cases feed next idx f b y.1 with
          | error e => rfl
          | ok z => simp
    | call d =>
      simp only [List.cons_append, feed, List.append_eq, ih]
      cases feed next idx f a rest with
      | error e => rfl
      | ok y =>
        simp only
        cases feed next idx f b y.1 with
        | error e => rfl
        | ok z => simp

theorem step_feed_nil (next : List (pcre2_finder P W) → Bytes → Except Fault (Outcome P W))
    (idx : Nat) (st : Run P W) : step_feed next idx st [] = Except.ok st := by
  simp [step_feed, feed]

theorem step_feed_append (next : List (pcre2_finder P W) → Bytes → Except Fault (Outcome P W))
    (idx : Nat) (st : Run P W) (a b : List Action) :
    step_feed next idx st (a ++ b) =
      match step_feed next idx st a with
      | Except.error e => Except.error e
      | Except.ok st1 => step_feed next idx st1 b := by
  simp only [step_feed, feed_append]
  cases feed next idx st.finder a st.rest with
  | error e => rfl
  | ok y =>
    simp only
    cases feed next idx st.finder b y.1 with
    | error e => rfl
    | ok z => simp

theorem emit_eq (next : List (pcre2_finder P W) → Bytes → Except Fault (Outcome P W))
    (idx : Nat) (st : Run P W) (d : Bytes) :
    emit next idx st d = step_feed next idx st [Action.out d] := by
  simp only [emit, step_feed, feed]
  cases call_outputfn next idx st.finder st.rest d with
  | error e => rfl
  | ok o => simp

theorem emit_all_eq (next : List (pcre2_finder P W) → Bytes → Except Fault (Outcome P W))
    (idx : Nat) (xs : List Bytes) : ∀ st : Run P W,
    emit_all next idx st xs = step_feed next idx st (xs.map Action.out) := by
  induction xs with
  | nil => intro st; simp [emit_all, step_feed_nil]
  | cons x xs ih =>
    intro st
    have h := step_feed_append next idx st [Action.out x] (xs.map Action.out)
    simp only [List.singleton_append] at h
    simp only [emit_all, List.map_cons, h, emit_eq]
    cases step_feed next idx st [Action.out x] with
    | error e => rfl
    | ok st1 => exact ih st1

theorem call_matchfn_eq (next : List (pcre2_finder P W) → Bytes → Except Fault (Outcome P W))
    (idx : Nat) (st : Run P W) (d : Bytes) :
    call_matchfn next idx st d =
      match handler_actions st.finder d with
      | none => Except.error Fault.null_call
      | some hs => step_feed next idx st hs := by
  simp only [call_matchfn, handler_actions]
  cases st.finder.matchfn with
  | none => rfl
  | some fn =>
    simp only [emit_all_eq]
    simp only [step_feed, feed]
    cases feed next idx st.finder
        (List.map Action.out (fn d st.finder.matchcallbackdata st.finder.matchid).outputs)
        st.rest with
    | error e => rfl
    | ok y => simp

theorem emit_if_eq (next : List (pcre2_finder P W) → Bytes → Except Fault (Outcome P W))
    (idx : Nat) (st : Run P W) (data : Bytes) (c s : Nat) :
    (if c < s then emit next idx st (slice data c (s - c)) else Except.ok st)
      = step_feed next idx st (gap_actions data c s) := by
  by_cases h : c < s
  · simp only [if_pos h, gap_actions, emit_eq]
  · simp only [if_neg h, gap_actions, step_feed_nil]


theorem step_feed_eq_feed (next : List (pcre2_finder P W) → Bytes → Except Fault (Outcome P W))
    (idx : Nat) (g : pcre2_finder P W) (st : Run P W) (hg : same_config g st.finder)
    (acts : List Action) :
    step_feed next idx st acts =
      match feed next idx g acts st.rest with
      | Except.error e => Except.error e
      | Except.ok (rest1, ev) =>
        Except.ok { finder := st.finder, rest := rest1, events := st.events ++ ev } := by
  simp only [step_feed, feed_congr next idx hg]

theorem handler_actions_congr {a b : pcre2_finder P W} (h : same_config a b) (d : Bytes) :
    handler_actions a d = handler_actions b d := by
  obtain ⟨h1, h2, h3, _, _, _⟩ := h
  simp only [handler_actions, h1, h2, h3]

/-- The search loop, when it returns, returns what `search_actions` computes
from the node alone, the nodes after it having received the actions. -/
theorem search_decompose (M : Pcre2 P W)
    (next : List (pcre2_finder P W) → Bytes → Except Fault (Outcome P W)) (idx : Nat)
    (data : Bytes) (g : pcre2_finder P W) (fuel : Nat) :
    ∀ (c : Nat) (f : pcre2_finder P W) (rest : List (pcre2_finder P W)) (ev : List Event),
      same_config g f →
      (search M next idx data fuel c { finder := f, rest := rest, events := ev }).toOption =
        match search_actions M data fuel c f with
        | none => none
        | some (status, f1, acts) =>
          match feed next idx g acts rest with
          | Except.error _ => none
          | Except.ok (rest1, ev1) =>
            some (status, { finder := f1, rest := rest1, events := ev ++ ev1 }) := by
  induction fuel with
  | zero => intro c f rest ev _; simp [search, search_actions, Except.toOption]
  | succ fuel ih =>
    intro c f rest ev hg
    simp only [search, search_actions]
    generalize M.pcre2_dfa_match f.re data c false f.dfaworkspace = r
    have hg0 : same_config g (set_workspace f r.workspace) :=
      same_config_trans hg ⟨rfl, rfl, rfl, rfl, rfl, rfl⟩
    generalize set_workspace f r.workspace = f0 at hg0 ⊢
    by_cases h1 : 0 ≤ r.status
    · simp only [if_pos h1, emit_if_eq, call_matchfn_eq]
      rw [step_feed_eq_feed next idx g { finder := f0, rest := rest, events := ev } hg0]
      cases hfg : feed next idx g (gap_actions data c r.ovector0) rest with
      | error e =>
        simp only [Except.toOption]
        cases handler_actions f0 (slice data r.ovector0 (r.ovector1 - r.ovector0)) with
        | none => rfl
        | some hs =>
          simp only
          cases search_actions M data fuel r.ovector1 f0 with
          | none => rfl
          | some x => simp [feed_append, hfg]
      | ok y =>
        obtain ⟨rest1, ev1⟩ := y
        simp only
        cases hh : handler_actions f0 (slice data r.ovector0 (r.ovector1 - r.ovector0)) with
        | none => simp [Except.toOption]
        | some hs =>
          simp only
          rw [step_feed_eq_feed next idx g { finder := f0, rest := rest1, events := ev ++ ev1 } hg0]
          cases hfh : feed next idx g hs rest1 with
          | error e =>
            simp only [Except.toOption]
            cases search_actions M data fuel r.ovector1 f0 with
            | none => rfl
            | some x => simp [feed_append, hfg, hfh]
          | ok z =>
            obtain ⟨rest2, ev2⟩ := z
            simp only
            rw [ih _ _ _ _ hg0]
            cases search_actions M data fuel r.ovector1 f0 with
            | none => rfl
            | some x =>
              obtain ⟨s, f1, acts⟩ := x
              simp only [feed_append, hfg, hfh]
              cases feed next idx g acts rest2 with
              | error e => rfl
              | ok u => simp [List.append_assoc]
    · simp only [if_neg h1]
      by_cases h2 : r.status = PCRE2_ERROR_PARTIAL
      · simp only [if_pos h2, emit_if_eq]
        rw [step_feed_eq_feed next idx g { finder := f0, rest := rest, events := ev } hg0]
        cases feed next idx g (gap_actions data c r.ovector0) rest with
        | error e => simp [Except.toOption]
        | ok y => simp [Except.toOption]
      · simp only [if_neg h2]
        by_cases h3 : r.status = PCRE2_ERROR_NOMATCH
        · simp only [if_pos h3, emit_if_eq]
          rw [step_feed_eq_feed next idx g { finder := f0, rest := rest, events := ev } hg0]
          cases feed next idx g (gap_actions data c data.length) rest with
          | error e => simp [Except.toOption]
          | ok y => simp [Except.toOption]
        · simp [if_neg h3, Except.toOption, feed]


/-- The body of `pcre2_finder_process`, when it returns, returns what
`node_actions` computes from the node alone, the nodes after it having
received the actions. -/
theorem process_node_decompose (M : Pcre2 P W)
    (next : List (pcre2_finder P W) → Bytes → Except Fault (Outcome P W)) (idx : Nat)
    (fuel : Nat) (f : pcre2_finder P W) (rest : List (pcre2_finder P W)) (ev : List Event)
    (data : Bytes) :
    (process_node M next idx fuel { finder := f, rest := rest, events := ev } data).toOption =
      match node_actions M fuel f data with
      | none => none
      | some (status, f1, acts) =>
        match feed next idx f acts rest with
        | Except.error _ => none
        | Except.ok (rest1, ev1) =>
          some (status, { finder := f1, rest := rest1, events := ev ++ ev1 }) := by
  simp only [process_node, node_actions]
  by_cases h0 : data.length = 0
  · rw [if_pos h0, if_pos h0]
    simp [Except.toOption, feed]
  · simp only [if_neg h0]
    cases hp : f.partialmatch with
    | none =>
      simp only
      exact search_decompose M next idx data f fuel 0 f rest ev (same_config_refl f)
    | some pending =>
      simp only
      generalize M.pcre2_dfa_match f.re data 0 true f.dfaworkspace = r
      have hg0 : same_config f (set_workspace f r.workspace) := ⟨rfl, rfl, rfl, rfl, rfl, rfl⟩
      generalize set_workspace f r.workspace = f0 at hg0 ⊢
      by_cases h1 : 0 ≤ r.status
      · simp only [if_pos h1, call_matchfn_eq]
        have hg1 : same_config f
            (partialmatch_append f0 (slice data r.ovector0 (r.ovector1 - r.ovector0))) :=
          same_config_trans hg0 ⟨rfl, rfl, rfl, rfl, rfl, rfl⟩
        generalize partialmatch_append f0 (slice data r.ovector0 (r.ovector1 - r.ovector0))
          = f1 at hg1 ⊢
        cases hh : handler_actions f1 (f1.partialmatch.getD []) with
        | none => simp [Except.toOption]
        | some hs =>
          simp only
          rw [step_feed_eq_feed next idx f { finder := f1, rest := rest, events := ev } hg1]
          have hg2 : same_config f (partialmatch_clear f1) :=
            same_config_trans hg1 ⟨rfl, rfl, rfl, rfl, rfl, rfl⟩
          cases hfh : feed next idx f hs rest with
          | error e =>
            simp only [Except.toOption]
            cases search_actions M data fuel r.ovector1 (partialmatch_clear f1) with
            | none => rfl
            | some x => simp [feed_append, hfh]
          | ok z =>
            obtain ⟨rest2, ev2⟩ := z
            simp only
            rw [search_decompose M next idx data f fuel _ _ _ _ hg2]
            cases search_actions M data fuel r.ovector1 (partialmatch_clear f1) with
            | none => rfl
            | some x =>
              obtain ⟨s, f2, acts⟩ := x
              simp only [feed_append, hfh]
              cases feed next idx f acts rest2 with
              | error e => rfl
              | ok u => simp [List.append_assoc]
      · simp only [if_neg h1]
        by_cases h2 : r.status = PCRE2_ERROR_PARTIAL
        · simp [if_pos h2, Except.toOption, feed]
        · simp only [if_neg h2]
          by_cases h3 : r.status = PCRE2_ERROR_NOMATCH
          · simp only [if_pos h3, emit_eq]
            rw [step_feed_eq_feed next idx f { finder := f0, rest := rest, events := ev } hg0]
            have hg2 : same_config f (partialmatch_clear f0) :=
              same_config_trans hg0 ⟨rfl, rfl, rfl, rfl, rfl, rfl⟩
            simp only [feed]
            cases hc : call_outputfn next idx f rest pending with
            | error e =>
              simp only [Except.toOption]
              cases search_actions M data fuel 0 (partialmatch_clear f0) with
              | none => rfl
              | some x => simp [feed, hc]
            | ok o =>
              simp only
              rw [search_decompose M next idx data f fuel _ _ _ _ hg2]
              cases search_actions M data fuel 0 (partialmatch_clear f0) with
              | none => rfl
              | some x =>
                obtain ⟨s, f2, acts⟩ := x
                simp only [feed, hc]
                cases feed next idx f acts o.chain with
                | error e => rfl
                | ok u => simp [List.append_assoc]
          · simp [if_neg h3, Except.toOption, feed]

theorem toOption_eq_some {ε α : Type} (x : Except ε α) (a : α) :
    x.toOption = some a ↔ x = Except.ok a := by
  cases x with
  | error e => simp [Except.toOption]
  | ok b => simp [Except.toOption]

/-- `pcre2_finder_process` on a node returns exactly when the actions of the
node exist and the nodes after it have received them. -/
theorem process_cons_iff (M : Pcre2 P W) (fuel idx : Nat) (f : pcre2_finder P W)
    (rest : List (pcre2_finder P W)) (data : Bytes) (o : Outcome P W) :
    pcre2_finder_process M (fuel + 1) idx (f :: rest) data = Except.ok o ↔
      ∃ f1 acts rest1, node_actions M fuel f data = some (o.ret, f1, acts) ∧
        feed (pcre2_finder_process M fuel (idx + 1)) idx f acts rest = Except.ok (rest1, o.events) ∧
        o.chain = f1 :: rest1 := by
  have hd := process_node_decompose M (pcre2_finder_process M fuel (idx + 1)) idx fuel f rest []
    data
  simp only [pcre2_finder_process]
  cases hp : process_node M (pcre2_finder_process M fuel (idx + 1)) idx fuel
      { finder := f, rest := rest, events := [] } data with
  | error e =>
    rw [hp] at hd
    simp only [Except.toOption] at hd
    constructor
    · intro h; exact absurd h (by simp)
    · rintro ⟨f1, acts, rest1, h1, h2, _⟩
      rw [h1] at hd
      simp only [h2] at hd
      exact absurd hd (by simp)
  | ok x =>
    obtain ⟨status, st⟩ := x
    rw [hp] at hd
    simp only [Except.toOption] at hd
    constructor
    · intro h
      injection h with h
      subst h
      cases hn : node_actions M fuel f data with
      | none => rw [hn] at hd; exact absurd hd (by simp)
      | some y =>
        obtain ⟨s, f1, acts⟩ := y
        rw [hn] at hd
        simp only at hd
        cases hf : feed (pcre2_finder_process M fuel (idx + 1)) idx f acts rest with
        | error e => rw [hf] at hd; exact absurd hd (by simp)
        | ok z =>
          obtain ⟨rest1, ev1⟩ := z
          rw [hf] at hd
          simp only [List.nil_append, Option.some.injEq, Prod.mk.injEq] at hd
          obtain ⟨hs, hst⟩ := hd
          subst hs hst
          exact ⟨f1, acts, rest1, rfl, hf, rfl⟩
    · rintro ⟨f1, acts, rest1, h1, h2, h3⟩
      rw [h1] at hd
      simp only [h2, List.nil_append, Option.some.injEq, Prod.mk.injEq] at hd
      obtain ⟨hs, hst⟩ := hd
      subst hs hst
      cases o
      simp only at h3
      subst h3
      rfl

/-! ## More fuel changes nothing -/

theorem search_actions_mono (M : Pcre2 P W) (data : Bytes) (fuel : Nat) :
    ∀ (fuel1 c : Nat) (f : pcre2_finder P W) (x : Int × pcre2_finder P W × List Action),
      fuel ≤ fuel1 → search_actions M data fuel c f = some x →
      search_actions M data fuel1 c f = some x := by
  induction fuel with
  | zero => intro fuel1 c f x _ h; simp [search_actions] at h
  | succ fuel ih =>
    intro fuel1 c f x hle h
    obtain ⟨k, rfl⟩ : ∃ k, fuel1 = k + 1 := ⟨fuel1 - 1, by omega⟩
    have hk : fuel ≤ k := by omega
    simp only [search_actions] at h ⊢
    generalize M.pcre2_dfa_match f.re data c false f.dfaworkspace = r at h ⊢
    generalize set_workspace f r.workspace = f0 at h ⊢
    by_cases h1 : 0 ≤ r.status
    · simp only [if_pos h1] at h ⊢
      cases hh : handler_actions f0 (slice data r.ovector0 (r.ovector1 - r.ovector0)) with
      | none => rw [hh] at h; exact absurd h (by simp)
      | some hs =>
        rw [hh] at h
        simp only at h ⊢
        cases hsa : search_actions M data fuel r.ovector1 f0 with
        | none => rw [hsa] at h; exact absurd h (by simp)
        | some y =>
          rw [hsa] at h
          rw [ih k _ _ _ hk hsa]
          exact h
    · simp only [if_neg h1] at h ⊢
      exact h

theorem node_actions_mono (M : Pcre2 P W) (fuel fuel1 : Nat) (f : pcre2_finder P W)
    (data : Bytes) (x : Int × pcre2_finder P W × List Action) (hle : fuel ≤ fuel1)
    (h : node_actions M fuel f data = some x) : node_actions M fuel1 f data = some x := by
  simp only [node_actions] at h ⊢
  by_cases h0 : data.length = 0
  · rw [if_pos h0] at h ⊢; exact h
  · rw [if_neg h0] at h ⊢
    cases hp : f.partialmatch with
    | none =>
      rw [hp] at h
      exact search_actions_mono M data fuel fuel1 0 f x hle h
    | some pending =>
      rw [hp] at h
      simp only at h ⊢
      generalize M.pcre2_dfa_match f.re data 0 true f.dfaworkspace = r at h ⊢
      generalize set_workspace f r.workspace = f0 at h ⊢
      by_cases h1 : 0 ≤ r.status
      · simp only [if_pos h1] at h ⊢
        generalize partialmatch_append f0 (slice data r.ovector0 (r.ovector1 - r.ovector0))
          = f1 at h ⊢
        cases hh : handler_actions f1 (f1.partialmatch.getD []) with
        | none => rw [hh] at h; exact absurd h (by simp)
        | some hs =>
          rw [hh] at h
          simp only at h ⊢
          cases hsa : search_actions M data fuel r.ovector1 (partialmatch_clear f1) with
          | none => rw [hsa] at h; exact absurd h (by simp)
          | some y =>
            rw [hsa] at h
            rw [search_actions_mono M data fuel fuel1 _ _ _ hle hsa]
            exact h
      · simp only [if_neg h1] at h ⊢
        by_cases h2 : r.status = PCRE2_ERROR_PARTIAL
        · simp only [if_pos h2] at h ⊢; exact h
        · simp only [if_neg h2] at h ⊢
          by_cases h3 : r.status = PCRE2_ERROR_NOMATCH
          · simp only [if_pos h3] at h ⊢
            cases hsa : search_actions M data fuel 0 (partialmatch_clear f0) with
            | none => rw [hsa] at h; exact absurd h (by simp)
            | some y =>
              rw [hsa] at h
              rw [search_actions_mono M data fuel fuel1 _ _ _ hle hsa]
              exact h
          · simp only [if_neg h3] at h ⊢; exact h

theorem call_outputfn_mono
    (next next1 : List (pcre2_finder P W) → Bytes → Except Fault (Outcome P W))
    (hn : ∀ rest d o, next rest d = Except.ok o → next1 rest d = Except.ok o)
    (idx : Nat) (f : pcre2_finder P W) (rest : List (pcre2_finder P W)) (d : Bytes)
    (o : Outcome P W) (h : call_outputfn next idx f rest d = Except.ok o) :
    call_outputfn next1 idx f rest d = Except.ok o := by
  simp only [call_outputfn] at h ⊢
  cases hf : f.outputfn with
  | none => rw [hf] at h; exact absurd h (by simp)
  | some fn =>
    rw [hf] at h
    cases fn with
    | user u =>
      cases hc : f.outputcallbackdata with
      | null => rw [hc] at h; exact h
      | user p => rw [hc] at h; exact h
      | next => rw [hc] at h; exact absurd h (by simp)
    | process =>
      cases hc : f.outputcallbackdata with
      | null => rw [hc] at h; exact absurd h (by simp)
      | user p => rw [hc] at h; exact absurd h (by simp)
      | next =>
        rw [hc] at h
        simp only at h ⊢
        cases h1 : next rest d with
        | error e => rw [h1] at h; exact absurd h (by simp)
        | ok o1 =>
          rw [h1] at h
          rw [hn _ _ _ h1]
          exact h

theorem feed_mono
    (next next1 : List (pcre2_finder P W) → Bytes → Except Fault (Outcome P W))
    (hn : ∀ rest d o, next rest d = Except.ok o → next1 rest d = Except.ok o)
    (idx : Nat) (f : pcre2_finder P W) (acts : List Action) :
    ∀ (rest : List (pcre2_finder P W)) (x : List (pcre2_finder P W) × List Event),
      feed next idx f acts rest = Except.ok x → feed next1 idx f acts rest = Except.ok x := by
  induction acts with
  | nil => intro rest x h; exact h
  | cons a acts ih =>
    intro rest x h
    cases a with
    | out d =>
      simp only [feed] at h ⊢
      cases hc : call_outputfn next idx f rest d with
      | error e => rw [hc] at h; exact absurd h (by simp)
      | ok o =>
        rw [hc] at h
        rw [call_outputfn_mono next next1 hn idx f rest d o hc]
        simp only at h ⊢
        cases hf : feed next idx f acts o.chain with
        | error e => rw [hf] at h; exact absurd h (by simp)
        | ok y =>
          rw [hf] at h
          rw [ih _ _ hf]
          exact h
    | call d =>
      simp only [feed] at h ⊢
      cases hf : feed next idx f acts rest with
      | error e => rw [hf] at h; exact absurd h (by simp)
      | ok y =>
        rw [hf] at h
        rw [ih _ _ hf]
        exact h

/-- A call of `pcre2_finder_process` that returns with some fuel returns the
same with more. -/
theorem process_mono (M : Pcre2 P W) (fuel : Nat) :
    ∀ (fuel1 idx : Nat) (chain : List (pcre2_finder P W)) (data : Bytes) (o : Outcome P W),
      fuel ≤ fuel1 → pcre2_finder_process M fuel idx chain data = Except.ok o →
      pcre2_finder_process M fuel1 idx chain data = Except.ok o := by
  induction fuel with
  | zero => intro fuel1 idx chain data o _ h; simp [pcre2_finder_process] at h
  | succ fuel ih =>
    intro fuel1 idx chain data o hle h
    obtain ⟨k, rfl⟩ : ∃ k, fuel1 = k + 1 := ⟨fuel1 - 1, by omega⟩
    have hk : fuel ≤ k := by omega
    cases chain with
    | nil => simpa [pcre2_finder_process] using h
    | cons f rest =>
      rw [process_cons_iff] at h ⊢
      obtain ⟨f1, acts, rest1, h1, h2, h3⟩ := h
      exact ⟨f1, acts, rest1, node_actions_mono M fuel k f data _ hk h1,
        feed_mono _ _ (fun r d o1 ho => ih k (idx + 1) r d o1 hk ho) idx f acts rest _ h2, h3⟩


/-! ## A ready chain always returns -/

theorem handler_actions_isSome (f : pcre2_finder P W) (d : Bytes) (h : f.matchfn ≠ none) :
    ∃ hs, handler_actions f d = some hs := by
  cases hm : f.matchfn with
  | none => exact absurd hm h
  | some fn =>
    exact ⟨Action.call d :: (fn d f.matchcallbackdata f.matchid).outputs.map Action.out,
      by simp only [handler_actions, hm]⟩

/-- With a handler and a matcher that advances, the search loop ends within
`data.length - start_offset + 1` turns. -/
theorem search_actions_total (M : Pcre2 P W) (data : Bytes) (fuel : Nat) :
    ∀ (c : Nat) (f : pcre2_finder P W), Advances M f.re → f.matchfn ≠ none →
      data.length - c < fuel →
      ∃ x, search_actions M data fuel c f = some x ∧ same_config f x.2.1 := by
  induction fuel with
  | zero => intro c f _ _ h; omega
  | succ fuel ih =>
    intro c f hadv hm hlt
    simp only [search_actions]
    have hA := hadv data c false f.dfaworkspace
    generalize M.pcre2_dfa_match f.re data c false f.dfaworkspace = r at hA ⊢
    have hc0 : same_config f (set_workspace f r.workspace) := ⟨rfl, rfl, rfl, rfl, rfl, rfl⟩
    have hre : (set_workspace f r.workspace).re = f.re := rfl
    have hm0 : (set_workspace f r.workspace).matchfn ≠ none := hm
    generalize set_workspace f r.workspace = f0 at hc0 hre hm0 ⊢
    by_cases h1 : 0 ≤ r.status
    · simp only [if_pos h1]
      obtain ⟨hs, hh⟩ := handler_actions_isSome f0
        (slice data r.ovector0 (r.ovector1 - r.ovector0)) hm0
      obtain ⟨hlt1, hle1⟩ := hA h1
      have hlt2 := hlt1 rfl
      obtain ⟨x, hx, hcx⟩ := ih r.ovector1 f0 (by rw [hre]; exact hadv) hm0 (by omega)
      obtain ⟨s, f1, acts⟩ := x
      rw [hh]
      simp only [hx]
      exact ⟨_, rfl, same_config_trans hc0 hcx⟩
    · simp only [if_neg h1]
      by_cases h2 : r.status = PCRE2_ERROR_PARTIAL
      · simp only [if_pos h2]
        exact ⟨_, rfl, same_config_trans hc0 ⟨rfl, rfl, rfl, rfl, rfl, rfl⟩⟩
      · simp only [if_neg h2]
        by_cases h3 : r.status = PCRE2_ERROR_NOMATCH
        · simp only [if_pos h3]
          exact ⟨_, rfl, hc0⟩
        · simp only [if_neg h3]
          exact ⟨_, rfl, hc0⟩

theorem node_actions_total (M : Pcre2 P W) (fuel : Nat) (f : pcre2_finder P W) (data : Bytes)
    (hadv : Advances M f.re) (hm : f.matchfn ≠ none) (hlt : data.length < fuel) :
    ∃ x, node_actions M fuel f data = some x ∧ same_config f x.2.1 := by
  simp only [node_actions]
  by_cases h0 : data.length = 0
  · rw [if_pos h0]
    exact ⟨_, rfl, same_config_refl f⟩
  · rw [if_neg h0]
    cases hp : f.partialmatch with
    | none =>
      exact search_actions_total M data fuel 0 f hadv hm (by omega)
    | some pending =>
      simp only
      have hA := hadv data 0 true f.dfaworkspace
      generalize M.pcre2_dfa_match f.re data 0 true f.dfaworkspace = r at hA ⊢
      have hc0 : same_config f (set_workspace f r.workspace) := ⟨rfl, rfl, rfl, rfl, rfl, rfl⟩
      generalize set_workspace f r.workspace = f0 at hc0 ⊢
      have hre0 : f0.re = f.re := hc0.2.2.2.2.2.symm
      have hm0 : f0.matchfn ≠ none := by rw [← hc0.1]; exact hm
      by_cases h1 : 0 ≤ r.status
      · simp only [if_pos h1]
        have hc1 : same_config f0
            (partialmatch_append f0 (slice data r.ovector0 (r.ovector1 - r.ovector0))) :=
          ⟨rfl, rfl, rfl, rfl, rfl, rfl⟩
        generalize partialmatch_append f0 (slice data r.ovector0 (r.ovector1 - r.ovector0))
          = f1 at hc1 ⊢
        have hm1 : f1.matchfn ≠ none := by rw [← hc1.1]; exact hm0
        obtain ⟨hs, hh⟩ := handler_actions_isSome f1 (f1.partialmatch.getD []) hm1
        have hc2 : same_config f1 (partialmatch_clear f1) := ⟨rfl, rfl, rfl, rfl, rfl, rfl⟩
        obtain ⟨x, hx, hcx⟩ := search_actions_total M data fuel r.ovector1 (partialmatch_clear f1)
          (by
            have : (partialmatch_clear f1).re = f.re := by
              rw [← hc2.2.2.2.2.2, ← hc1.2.2.2.2.2, hre0]
            rw [this]; exact hadv)
          (by rw [← hc2.1]; exact hm1) (by omega)
        obtain ⟨s, f2, acts⟩ := x
        rw [hh]
        simp only [hx]
        exact ⟨_, rfl, same_config_trans hc0 (same_config_trans hc1 (same_config_trans hc2 hcx))⟩
      · simp only [if_neg h1]
        by_cases h2 : r.status = PCRE2_ERROR_PARTIAL
        · simp only [if_pos h2]
          exact ⟨_, rfl, same_config_trans hc0 ⟨rfl, rfl, rfl, rfl, rfl, rfl⟩⟩
        · simp only [if_neg h2]
          by_cases h3 : r.status = PCRE2_ERROR_NOMATCH
          · simp only [if_pos h3]
            have hc2 : same_config f0 (partialmatch_clear f0) := ⟨rfl, rfl, rfl, rfl, rfl, rfl⟩
            obtain ⟨x, hx, hcx⟩ := search_actions_total M data fuel 0 (partialmatch_clear f0)
              (by
                have : (partialmatch_clear f0).re = f.re := by rw [← hc2.2.2.2.2.2, hre0]
                rw [this]; exact hadv)
              (by rw [← hc2.1]; exact hm0) (by omega)
            obtain ⟨s, f2, acts⟩ := x
            simp only [hx]
            exact ⟨_, rfl, same_config_trans hc0 (same_config_trans hc2 hcx)⟩
          · simp only [if_neg h3]
            exact ⟨_, rfl, hc0⟩

theorem Opened_of_same_config {c c1 : List (pcre2_finder P W)}
    (h : List.Forall₂ same_config c c1) (ho : Opened c) : Opened c1 := by
  induction h with
  | nil => exact ho
  | @cons a b l l1 hab hrest ih =>
    cases hrest with
    | nil =>
      simp only [Opened] at ho ⊢
      obtain ⟨fn, cb, h1, h2⟩ := ho
      exact ⟨fn, cb, by rw [← hab.2.2.2.1]; exact h1, by rw [← hab.2.2.2.2.1]; exact h2⟩
    | @cons a2 b2 l2 l3 h2 hrest2 =>
      simp only [Opened] at ho ⊢
      obtain ⟨h1, h3, h4⟩ := ho
      exact ⟨by rw [← hab.2.2.2.1]; exact h1, by rw [← hab.2.2.2.2.1]; exact h3,
        ih h4⟩

theorem Ready_of_same_config (M : Pcre2 P W) {c c1 : List (pcre2_finder P W)}
    (h : List.Forall₂ same_config c c1) (hr : Ready M c) : Ready M c1 := by
  refine ⟨Opened_of_same_config h hr.1, ?_⟩
  have hall := hr.2
  clear hr
  induction h with
  | nil => intro f hf; simp at hf
  | @cons a b l l1 hab _ ih =>
    intro f hf
    rcases List.mem_cons.1 hf with h1 | h1
    · subst h1
      have ha := hall a (List.mem_cons_self a l)
      exact ⟨by rw [← hab.1]; exact ha.1, by rw [← hab.2.2.2.2.2]; exact ha.2⟩
    · exact ih (fun g hg => hall g (List.mem_cons_of_mem a hg)) f h1

theorem Ready_tail (M : Pcre2 P W) (f g : pcre2_finder P W) (rest : List (pcre2_finder P W))
    (h : Ready M (f :: g :: rest)) : Ready M (g :: rest) := by
  obtain ⟨ho, hall⟩ := h
  simp only [Opened] at ho
  exact ⟨ho.2.2, fun x hx => hall x (List.mem_cons_of_mem f hx)⟩


theorem Ready_cons_of_same_config (M : Pcre2 P W) (f : pcre2_finder P W)
    {rest rest1 : List (pcre2_finder P W)} (h : List.Forall₂ same_config rest rest1)
    (hr : Ready M (f :: rest)) : Ready M (f :: rest1) :=
  Ready_of_same_config M (List.Forall₂.cons (same_config_refl f) h) hr

/-- The nodes after a node of a ready chain take all its actions. -/
theorem feed_total (M : Pcre2 P W) (idx : Nat) (f : pcre2_finder P W) (n : Nat)
    (hnext : ∀ (rest : List (pcre2_finder P W)) (d : Bytes), rest.length = n → Ready M rest →
      ∃ fuel o, pcre2_finder_process M fuel (idx + 1) rest d = Except.ok o)
    (acts : List Action) :
    ∀ rest : List (pcre2_finder P W), rest.length = n → Ready M (f :: rest) →
      ∃ fuel x, feed (pcre2_finder_process M fuel (idx + 1)) idx f acts rest = Except.ok x ∧
        List.Forall₂ same_config rest x.1 := by
  induction acts with
  | nil => intro rest _ _; exact ⟨0, (rest, []), rfl, same_config_list_refl rest⟩
  | cons a acts ih =>
    intro rest hlen hr
    cases a with
    | call d =>
      obtain ⟨fuel, x, hx, hcx⟩ := ih rest hlen hr
      refine ⟨fuel, (x.1, Event.handler idx d f.matchcallbackdata f.matchid :: x.2), ?_, hcx⟩
      simp only [feed, hx]
    | out d =>
      cases rest with
      | nil =>
        obtain ⟨fuel, x, hx, hcx⟩ := ih [] hlen hr
        have ho := hr.1
        simp only [Opened] at ho
        obtain ⟨fn, cb, h1, h2⟩ := ho
        refine ⟨fuel, (x.1, Event.output idx d :: x.2), ?_, hcx⟩
        simp only [feed, call_outputfn, h1, h2, hx, List.singleton_append]
      | cons g rest1 =>
        have ho := hr.1
        simp only [Opened] at ho
        obtain ⟨h1, h2, _⟩ := ho
        obtain ⟨fuel1, o, ho⟩ := hnext (g :: rest1) d hlen (Ready_tail M f g rest1 hr)
        have hfr := (process_frame M fuel1 (idx + 1) (g :: rest1) d o ho).1
        have hlen1 : o.chain.length = n := by rw [← List.Forall₂.length_eq hfr]; exact hlen
        obtain ⟨fuel2, x, hx, hcx⟩ := ih o.chain hlen1 (Ready_cons_of_same_config M f hfr hr)
        refine ⟨max fuel1 fuel2, (x.1, Event.output idx d :: (o.events ++ x.2)), ?_,
          same_config_list_trans hfr hcx⟩
        have ho1 := process_mono M fuel1 (max fuel1 fuel2) (idx + 1) (g :: rest1) d o
          (Nat.le_max_left _ _) ho
        have hx1 := feed_mono (pcre2_finder_process M fuel2 (idx + 1))
          (pcre2_finder_process M (max fuel1 fuel2) (idx + 1))
          (fun r d1 o1 h => process_mono M fuel2 _ (idx + 1) r d1 o1 (Nat.le_max_right _ _) h)
          idx f acts o.chain x hx
        simp only [feed, call_outputfn, h1, h2, ho1, hx1, List.cons_append]

/-- A ready chain takes every chunk: with enough fuel `pcre2_finder_process`
returns. -/
theorem process_total (M : Pcre2 P W) (n : Nat) :
    ∀ (chain : List (pcre2_finder P W)), chain.length = n → Ready M chain →
      ∀ (idx : Nat) (data : Bytes),
        ∃ fuel o, pcre2_finder_process M fuel idx chain data = Except.ok o := by
  induction n with
  | zero =>
    intro chain hlen hr
    cases chain with
    | nil => exact absurd hr.1 (by simp [Opened])
    | cons f rest => simp at hlen
  | succ n ih =>
    intro chain hlen hr idx data
    cases chain with
    | nil => simp at hlen
    | cons f rest =>
      have hlen1 : rest.length = n := by simpa using hlen
      have hf := hr.2 f (List.mem_cons_self f rest)
      obtain ⟨x, hx, _⟩ := node_actions_total M (data.length + 1) f data hf.2 hf.1
        (Nat.lt_succ_self _)
      obtain ⟨s, f1, acts⟩ := x
      obtain ⟨fuel2, y, hy, _⟩ := feed_total M idx f n
        (fun r d hl hrr => ih r hl hrr (idx + 1) d) acts rest hlen1 hr
      refine ⟨max (data.length + 1) fuel2 + 1, { ret := s, chain := f1 :: y.1, events := y.2 }, ?_⟩
      rw [process_cons_iff]
      refine ⟨f1, acts, y.1, node_actions_mono M _ _ f data _ (Nat.le_max_left _ _) hx, ?_, rfl⟩
      exact feed_mono (pcre2_finder_process M fuel2 (idx + 1)) _
        (fun r d1 o1 h => process_mono M fuel2 _ (idx + 1) r d1 o1 (Nat.le_max_right _ _) h)
        idx f acts rest y hy

/-! ## `pcre2_finder_close` -/

/-- An output call of the node at `idx` is one `output` event of that node,
followed by events of the nodes after it, which stay in place. -/
theorem call_outputfn_spec (M : Pcre2 P W) (fuel idx : Nat) (f : pcre2_finder P W)
    (rest : List (pcre2_finder P W)) (d : Bytes) (o : Outcome P W)
    (h : call_outputfn (pcre2_finder_process M fuel (idx + 1)) idx f rest d = Except.ok o) :
    List.Forall₂ same_config rest o.chain ∧
      ∃ evs, o.events = Event.output idx d :: evs ∧ ∀ e ∈ evs, idx + 1 ≤ e.node := by
  simp only [call_outputfn] at h
  cases hf : f.outputfn with
  | none => rw [hf] at h; exact absurd h (by simp)
  | some fn =>
    rw [hf] at h
    cases fn with
    | user u =>
      cases hc : f.outputcallbackdata with
      | null =>
        rw [hc] at h; injection h with h; subst h
        exact ⟨same_config_list_refl rest, [], rfl, by simp⟩
      | user p =>
        rw [hc] at h; injection h with h; subst h
        exact ⟨same_config_list_refl rest, [], rfl, by simp⟩
      | next => rw [hc] at h; exact absurd h (by simp)
    | process =>
      cases hc : f.outputcallbackdata with
      | null => rw [hc] at h; exact absurd h (by simp)
      | user p => rw [hc] at h; exact absurd h (by simp)
      | next =>
        rw [hc] at h
        simp only at h
        cases h1 : pcre2_finder_process M fuel (idx + 1) rest d with
        | error e => rw [h1] at h; exact absurd h (by simp)
        | ok o1 =>
          rw [h1] at h
          injection h with h; subst h
          have hfr := process_frame M fuel (idx + 1) rest d o1 h1
          exact ⟨hfr.1, o1.events, rfl, hfr.2⟩

/-- What the loop of `pcre2_finder_close` does from the node at `idx` on: the
nodes stay in place, none has a pending buffer afterwards, and the events are
the flush of the first node, if it had a pending buffer, followed by events of
the nodes after it. -/
theorem close_loop_spec (M : Pcre2 P W) (fuel n : Nat) :
    ∀ (idx : Nat) (chain c1 : List (pcre2_finder P W)) (ev : List Event),
      close_loop M fuel n idx chain = Except.ok (c1, ev) →
      List.Forall₂ same_config chain c1 ∧ (∀ g ∈ c1, g.partialmatch = none) ∧
      (∀ e ∈ ev, idx ≤ e.node) ∧
      ∀ f rest, chain = f :: rest →
        ∃ evs, (∀ e ∈ evs, idx + 1 ≤ e.node) ∧
          ev = (match f.partialmatch with
                | some p => [Event.output idx p]
                | none => []) ++ evs := by
  induction n with
  | zero =>
    intro idx chain c1 ev h
    cases chain with
    | nil =>
      simp only [close_loop] at h
      injection h with h
      injection h with h1 h2
      subst h1 h2
      exact ⟨List.Forall₂.nil, by simp, by simp, by simp⟩
    | cons f rest => simp [close_loop] at h
  | succ n ih =>
    intro idx chain c1 ev h
    cases chain with
    | nil =>
      simp only [close_loop] at h
      injection h with h
      injection h with h1 h2
      subst h1 h2
      exact ⟨List.Forall₂.nil, by simp, by simp, by simp⟩
    | cons f rest =>
      simp only [close_loop] at h
      cases hp : f.partialmatch with
      | none =>
        rw [hp] at h
        simp only at h
        cases hc : close_loop M fuel n (idx + 1) rest with
        | error e => rw [hc] at h; exact absurd h (by simp)
        | ok y =>
          obtain ⟨rest1, ev1⟩ := y
          rw [hc] at h
          injection h with h
          injection h with h1 h2
          subst h1 h2
          obtain ⟨a1, a2, a3, _⟩ := ih (idx + 1) rest rest1 ev1 hc
          refine ⟨List.Forall₂.cons (same_config_refl f) a1, ?_, ?_, ?_⟩
          · intro g hg
            rcases List.mem_cons.1 hg with h1 | h1
            · subst h1; exact hp
            · exact a2 g h1
          · intro e he; exact Nat.le_of_succ_le (a3 e he)
          · intro f0 rest0 heq
            injection heq with e1 e2
            subst e1 e2
            exact ⟨ev1, a3, by simp [hp]⟩
      | some pending =>
        rw [hp] at h
        simp only [pcre2_finder_output] at h
        cases ho : call_outputfn (pcre2_finder_process M fuel (idx + 1)) idx f rest pending with
        | error e => rw [ho] at h; exact absurd h (by simp)
        | ok o =>
          rw [ho] at h
          simp only at h
          cases hc : close_loop M fuel n (idx + 1) o.chain with
          | error e => rw [hc] at h; exact absurd h (by simp)
          | ok y =>
            obtain ⟨rest1, ev1⟩ := y
            rw [hc] at h
            injection h with h
            injection h with h1 h2
            subst h1 h2
            obtain ⟨b1, evs, b2, b3⟩ := call_outputfn_spec M fuel idx f rest pending o ho
            obtain ⟨a1, a2, a3, _⟩ := ih (idx + 1) o.chain rest1 ev1 hc
            have hall : ∀ e ∈ evs ++ ev1, idx + 1 ≤ e.node := by
              intro e he
              rcases List.mem_append.1 he with h1 | h1
              · exact b3 e h1
              · exact a3 e h1
            refine ⟨List.Forall₂.cons ⟨rfl, rfl, rfl, rfl, rfl, rfl⟩
              (same_config_list_trans b1 a1), ?_, ?_, ?_⟩
            · intro g hg
              rcases List.mem_cons.1 hg with h1 | h1
              · subst h1; rfl
              · exact a2 g h1
            · intro e he
              rw [b2] at he
              rcases List.mem_cons.1 he with h1 | h1
              · subst h1; exact Nat.le_refl _
              · exact Nat.le_of_succ_le (hall e h1)
            · intro f0 rest0 heq
              injection heq with e1 e2
              subst e1 e2
              exact ⟨evs ++ ev1, hall, by simp [hp, b2]⟩

theorem close_loop_mono (M : Pcre2 P W) (fuel fuel1 : Nat) (hle : fuel ≤ fuel1) (n : Nat) :
    ∀ (idx : Nat) (chain : List (pcre2_finder P W))
      (x : List (pcre2_finder P W) × List Event),
      close_loop M fuel n idx chain = Except.ok x →
      close_loop M fuel1 n idx chain = Except.ok x := by
  induction n with
  | zero =>
    intro idx chain x h
    cases chain with
    | nil => exact h
    | cons f rest => simp [close_loop] at h
  | succ n ih =>
    intro idx chain x h
    cases chain with
    | nil => exact h
    | cons f rest =>
      simp only [close_loop] at h ⊢
      cases hp : f.partialmatch with
      | none =>
        rw [hp] at h
        simp only at h ⊢
        cases hc : close_loop M fuel n (idx + 1) rest with
        | error e => rw [hc] at h; exact absurd h (by simp)
        | ok y =>
          rw [hc] at h
          rw [ih _ _ _ hc]
          exact h
      | some pending =>
        rw [hp] at h
        simp only [pcre2_finder_output] at h ⊢
        cases ho : call_outputfn (pcre2_finder_process M fuel (idx + 1)) idx f rest pending with
        | error e => rw [ho] at h; exact absurd h (by simp)
        | ok o =>
          rw [ho] at h
          rw [call_outputfn_mono _ _
            (fun r d o1 h1 => process_mono M fuel fuel1 (idx + 1) r d o1 hle h1) idx f rest
            pending o ho]
          simp only at h ⊢
          cases hc : close_loop M fuel n (idx + 1) o.chain with
          | error e => rw [hc] at h; exact absurd h (by simp)
          | ok y =>
            rw [hc] at h
            rw [ih _ _ _ hc]
            exact h


/-- In a ready chain every output call returns, with enough fuel. -/
theorem output_total (M : Pcre2 P W) (idx : Nat) (f : pcre2_finder P W)
    (rest : List (pcre2_finder P W)) (d : Bytes) (hr : Ready M (f :: rest)) :
    ∃ fuel o, call_outputfn (pcre2_finder_process M fuel (idx + 1)) idx f rest d = Except.ok o := by
  cases rest with
  | nil =>
    have ho := hr.1
    simp only [Opened] at ho
    obtain ⟨fn, cb, h1, h2⟩ := ho
    simp only [call_outputfn, h1, h2]
    exact ⟨0, _, rfl⟩
  | cons g rest1 =>
    have ho := hr.1
    simp only [Opened] at ho
    obtain ⟨h1, h2, _⟩ := ho
    obtain ⟨fuel, o, h⟩ := process_total M (g :: rest1).length (g :: rest1) rfl
      (Ready_tail M f g rest1 hr) (idx + 1) d
    refine ⟨fuel, ?_⟩
    simp only [call_outputfn, h1, h2, h]
    exact ⟨_, rfl⟩

theorem Ready_rest (M : Pcre2 P W) (f : pcre2_finder P W) (rest : List (pcre2_finder P W))
    (hr : Ready M (f :: rest)) : rest = [] ∨ Ready M rest := by
  cases rest with
  | nil => exact Or.inl rfl
  | cons g rest1 => exact Or.inr (Ready_tail M f g rest1 hr)

/-- On a ready chain the loop of `pcre2_finder_close` ends, with enough fuel. -/
theorem close_loop_total (M : Pcre2 P W) (n : Nat) :
    ∀ (idx : Nat) (chain : List (pcre2_finder P W)), chain.length ≤ n →
      (chain = [] ∨ Ready M chain) →
      ∃ fuel x, close_loop M fuel n idx chain = Except.ok x := by
  induction n with
  | zero =>
    intro idx chain hlen _
    cases chain with
    | nil => exact ⟨0, _, rfl⟩
    | cons f rest => simp at hlen
  | succ n ih =>
    intro idx chain hlen hr
    cases chain with
    | nil => exact ⟨0, _, rfl⟩
    | cons f rest =>
      have hr1 : Ready M (f :: rest) := by
        rcases hr with h | h
        · exact absurd h (by simp)
        · exact h
      have hlen1 : rest.length ≤ n := by simpa using hlen
      cases hp : f.partialmatch with
      | none =>
        obtain ⟨fuel, x, hx⟩ := ih (idx + 1) rest hlen1 (Ready_rest M f rest hr1)
        exact ⟨fuel, (f :: x.1, x.2), by simp only [close_loop, hp, hx]⟩
      | some pending =>
        obtain ⟨fuel1, o, ho⟩ := output_total M idx f rest pending hr1
        have hfr := (call_outputfn_spec M fuel1 idx f rest pending o ho).1
        have hr2 := Ready_rest M f o.chain (Ready_cons_of_same_config M f hfr hr1)
        have hlen2 : o.chain.length ≤ n := by
          rw [← List.Forall₂.length_eq hfr]; exact hlen1
        obtain ⟨fuel2, x, hx⟩ := ih (idx + 1) o.chain hlen2 hr2
        refine ⟨max fuel1 fuel2, ({ f with partialmatch := none } :: x.1, o.events ++ x.2), ?_⟩
        have ho1 := call_outputfn_mono _ _
          (fun r d o1 h1 => process_mono M fuel1 (max fuel1 fuel2) (idx + 1) r d o1
            (Nat.le_max_left _ _) h1) idx f rest pending o ho
        have hx1 := close_loop_mono M fuel2 (max fuel1 fuel2) (Nat.le_max_right _ _) n
          (idx + 1) o.chain x hx
        simp only [close_loop, hp, pcre2_finder_output, ho1, hx1]

/-- The nodes at the head of the chain that hold no pending buffer are passed
over by the loop of `pcre2_finder_close`. -/
theorem close_loop_skip (M : Pcre2 P W) (fuel : Nat) (pre : List (pcre2_finder P W)) :
    ∀ (n idx : Nat) (chain c1 : List (pcre2_finder P W)) (ev : List Event),
      (∀ g ∈ pre, g.partialmatch = none) →
      close_loop M fuel n idx (pre ++ chain) = Except.ok (c1, ev) →
      ∃ c2, c1 = pre ++ c2 ∧
        close_loop M fuel (n - pre.length) (idx + pre.length) chain = Except.ok (c2, ev) := by
  induction pre with
  | nil =>
    intro n idx chain c1 ev _ h
    exact ⟨c1, rfl, by simpa using h⟩
  | cons g pre ih =>
    intro n idx chain c1 ev hpre h
    have hg := hpre g (List.mem_cons_self g pre)
    cases n with
    | zero => simp [close_loop] at h
    | succ n =>
      simp only [List.cons_append, close_loop, hg, List.append_eq] at h
      cases hc : close_loop M fuel n (idx + 1) (pre ++ chain) with
      | error e => rw [hc] at h; exact absurd h (by simp)
      | ok y =>
        obtain ⟨rest1, ev1⟩ := y
        rw [hc] at h
        injection h with h
        injection h with h1 h2
        subst h1 h2
        obtain ⟨c2, hc2, hcl⟩ := ih n (idx + 1) chain rest1 ev1
          (fun x hx => hpre x (List.mem_cons_of_mem g hx)) hc
        refine ⟨c2, by rw [hc2]; rfl, ?_⟩
        have e1 : n + 1 - (g :: pre).length = n - pre.length := by simp
        have e2 : idx + (g :: pre).length = idx + 1 + pre.length := by simp; omega
        rw [e1, e2]
        exact hcl

theorem outputs_of_none (k : Nat) (ev : List Event) (h : ∀ e ∈ ev, k + 1 ≤ e.node) :
    outputs_of k ev = [] := by
  induction ev with
  | nil => rfl
  | cons e ev ih =>
    have he := h e (List.mem_cons_self e ev)
    have hrest := ih (fun x hx => h x (List.mem_cons_of_mem e hx))
    cases e with
    | output n d =>
      simp only [Event.node] at he
      have hne : n ≠ k := by omega
      simp only [outputs_of, if_neg hne, hrest]
    | handler n d cb id => simp only [outputs_of, hrest]

theorem close_mono (M : Pcre2 P W) (fuel fuel1 : Nat) (hle : fuel ≤ fuel1)
    (chain : List (pcre2_finder P W)) (o : Outcome P W)
    (h : pcre2_finder_close M fuel chain = Except.ok o) :
    pcre2_finder_close M fuel1 chain = Except.ok o := by
  simp only [pcre2_finder_close] at h ⊢
  cases hc : close_loop M fuel chain.length 0 chain with
  | error e => rw [hc] at h; exact absurd h (by simp)
  | ok x =>
    rw [hc] at h
    rw [close_loop_mono M fuel fuel1 hle _ _ _ _ hc]
    exact h

/-! ## The small matcher advances -/

theorem walk_matched_bounds (xs : Bytes) :
    ∀ (r : Rx) (n m : Nat), walk r xs n = Walk.matched m →
      n ≤ m ∧ m ≤ n + xs.length ∧ (r.nullable = false → n < m) := by
  induction xs with
  | nil =>
    intro r n m h
    simp only [walk] at h
    by_cases h1 : r.nullable = true
    · rw [if_pos h1] at h
      injection h with h
      subst h
      exact ⟨Nat.le_refl _, by simp, fun h2 => by rw [h2] at h1; exact absurd h1 (by simp)⟩
    · rw [if_neg h1] at h
      by_cases h2 : r.dead = true
      · rw [if_pos h2] at h; exact absurd h (by simp)
      · rw [if_neg h2] at h
        by_cases h3 : n = 0
        · rw [if_pos h3] at h; exact absurd h (by simp)
        · rw [if_neg h3] at h; exact absurd h (by simp)
  | cons x xs ih =>
    intro r n m h
    simp only [walk] at h
    by_cases h1 : r.nullable = true
    · rw [if_pos h1] at h
      injection h with h
      subst h
      exact ⟨Nat.le_refl _, by simp, fun h2 => by rw [h2] at h1; exact absurd h1 (by simp)⟩
    · rw [if_neg h1] at h
      by_cases h2 : r.dead = true
      · rw [if_pos h2] at h; exact absurd h (by simp)
      · rw [if_neg h2] at h
        obtain ⟨a, b, _⟩ := ih _ _ _ h
        simp only [List.length_cons]
        exact ⟨by omega, by omega, fun _ => by omega⟩

theorem bump_bounds (r : Rx) (hr : r.nullable = false) (xs : Bytes) :
    ∀ pos : Nat, 0 ≤ (bump r xs pos).status →
      pos < (bump r xs pos).ovector1 ∧ (bump r xs pos).ovector1 ≤ pos + xs.length := by
  induction xs with
  | nil =>
    intro pos h
    simp only [bump] at h ⊢
    cases hw : walk r [] 0 with
    | matched n =>
      have := (walk_matched_bounds [] r 0 n hw)
      simp only [hw] at h ⊢
      simp only [List.length_nil] at this ⊢
      have h3 := this.2.2 hr
      omega
    | more s => rw [hw] at h; simp [PCRE2_ERROR_PARTIAL] at h
    | failed => rw [hw] at h; simp [PCRE2_ERROR_NOMATCH] at h
  | cons x xs ih =>
    intro pos h
    simp only [bump] at h ⊢
    cases hw : walk r (x :: xs) 0 with
    | matched n =>
      have := (walk_matched_bounds (x :: xs) r 0 n hw)
      simp only [hw] at h ⊢
      simp only [List.length_cons] at this ⊢
      have h3 := this.2.2 hr
      omega
    | more s => rw [hw] at h; simp [PCRE2_ERROR_PARTIAL] at h
    | failed =>
      rw [hw] at h
      simp only at h ⊢
      have := ih (pos + 1) h
      simp only [List.length_cons]
      omega

/-- The small matcher advances, for every pattern that does not match the
empty string. -/
theorem rx_advances (r : Rx) (hr : r.nullable = false) : Advances rx (some r) := by
  intro data c restart ws h
  simp only [rx, rx_dfa_match] at h ⊢
  by_cases h0 : data.length < c
  · rw [if_pos h0] at h; simp [PCRE2_ERROR_BADOFFSET] at h
  · rw [if_neg h0] at h ⊢
    cases restart with
    | true =>
      simp only [if_true] at h ⊢
      cases hw : walk ws data 0 with
      | matched n =>
        have := walk_matched_bounds data ws 0 n hw
        simp only [hw] at h ⊢
        exact ⟨fun h => absurd h (by simp), by omega⟩
      | more s => rw [hw] at h; simp [PCRE2_ERROR_PARTIAL] at h
      | failed => rw [hw] at h; simp [PCRE2_ERROR_NOMATCH] at h
    | false =>
      simp only [Bool.false_eq_true, if_false] at h ⊢
      have := bump_bounds r hr (data.drop c) c h
      simp only [List.length_drop] at this
      exact ⟨fun _ => this.1, by omega⟩


/-! ## What `pcre2_finder_close` flushes -/

/-- On a ready chain `pcre2_finder_close` returns, with enough fuel, and what
it returns does not depend on the fuel. -/
theorem close_total (M : Pcre2 P W) (chain : List (pcre2_finder P W)) (hr : Ready M chain) :
    ∃ fuel0 x, ∀ fuel, fuel0 ≤ fuel →
      close_loop M fuel chain.length 0 chain = Except.ok x := by
  obtain ⟨fuel0, x, hx⟩ := close_loop_total M chain.length 0 chain (Nat.le_refl _) (Or.inr hr)
  exact ⟨fuel0, x, fun fuel hle => close_loop_mono M fuel0 fuel hle _ _ _ _ hx⟩

/-- C5, as amended. On a ready chain `pcre2_finder_close` (with enough fuel)
invokes the handler of a node only when a node before it in the chain held a
pending buffer, whose flushed bytes that node then processes: never the
handler of the head, and no handler at all in a chain of one node. -/
theorem close_invokes_downstream_handlers_only (M : Pcre2 P W)
    (chain : List (pcre2_finder P W)) (hr : Ready M chain) :
    ∃ fuel0, ∀ fuel, fuel0 ≤ fuel →
      ∃ o, pcre2_finder_close M fuel chain = Except.ok o ∧
        (∀ (n : Nat) (d : Bytes) (cb : Nat) (id : Int),
          Event.handler n d cb id ∈ o.events →
          ∃ g ∈ chain.take n, g.partialmatch ≠ none) ∧
        (chain.length = 1 → handler_calls o.events = []) := by
  obtain ⟨fuel0, x, hx⟩ := close_total M chain hr
  refine ⟨fuel0, fun fuel hle => ?_⟩
  obtain ⟨c1, ev⟩ := x
  have hc := hx fuel hle
  refine ⟨{ ret := 0, chain := c1, events := ev }, by simp only [pcre2_finder_close, hc], ?_, ?_⟩
  · intro n d cb id hmem
    by_contra hno
    have hpre : ∀ g ∈ chain.take n, g.partialmatch = none := by
      intro g hg
      by_contra hg1
      exact hno ⟨g, hg, hg1⟩
    have hsplit : chain = chain.take n ++ chain.drop n := (List.take_append_drop n chain).symm
    have hc0 := hc
    rw [hsplit] at hc0
    obtain ⟨c2, _, hc2⟩ := close_loop_skip M fuel (chain.take n) _ 0 (chain.drop n) c1 ev hpre hc0
    cases hd : chain.drop n with
    | nil =>
      rw [hd] at hc2
      simp only [close_loop] at hc2
      injection hc2 with hc2
      injection hc2 with _ h2
      subst h2
      simp at hmem
    | cons f rest =>
      rw [hd] at hc2
      obtain ⟨_, _, _, b4⟩ := close_loop_spec M fuel _ _ (f :: rest) c2 ev hc2
      obtain ⟨evs, hevs, hev⟩ := b4 f rest rfl
      have hlen : (chain.take n).length = n := by
        have : n < chain.length := by
          by_contra hge
          rw [List.drop_eq_nil_of_le (by omega)] at hd
          exact absurd hd (by simp)
        simp [List.length_take]; omega
      simp only [Nat.zero_add, hlen] at hevs hev
      rw [hev] at hmem
      rcases List.mem_append.1 hmem with h1 | h1
      · cases hp : f.partialmatch with
        | none => rw [hp] at h1; simp at h1
        | some p => rw [hp] at h1; simp at h1
      · have := hevs _ h1
        simp only [Event.node] at this
        omega
  · intro hlen
    match chain, hlen, hr, hc with
    | [f], _, hr1, hc1 =>
      have ho := hr1.1
      simp only [Opened] at ho
      obtain ⟨fn, cb, h1, h2⟩ := ho
      cases hp : f.partialmatch with
      | none =>
        simp only [List.length_singleton, close_loop, hp] at hc1
        injection hc1 with hc1
        injection hc1 with _ h4
        subst h4
        rfl
      | some p =>
        simp only [List.length_singleton, close_loop, hp, pcre2_finder_output, call_outputfn,
          h1, h2] at hc1
        injection hc1 with hc1
        injection hc1 with _ h4
        subst h4
        rfl

theorem process_all_frame (M : Pcre2 P W) (fuel : Nat) (chunks : List Bytes) :
    ∀ (chain : List (pcre2_finder P W)) (o : Outcome P W),
      process_all M fuel chain chunks = Except.ok o → List.Forall₂ same_config chain o.chain := by
  induction chunks with
  | nil =>
    intro chain o h
    simp only [process_all] at h
    injection h with h
    subst h
    exact same_config_list_refl chain
  | cons c cs ih =>
    intro chain o h
    simp only [process_all] at h
    cases h1 : pcre2_finder_process M fuel 0 chain c with
    | error e => rw [h1] at h; exact absurd h (by simp)
    | ok o1 =>
      rw [h1] at h
      simp only at h
      cases h2 : process_all M fuel o1.chain cs with
      | error e => rw [h2] at h; exact absurd h (by simp)
      | ok o2 =>
        rw [h2] at h
        injection h with h
        subst h
        exact same_config_list_trans (process_frame M fuel 0 chain c o1 h1).1 (ih o1.chain o2 h2)

theorem Ready_chain_after (M : Pcre2 P W) (fuel : Nat) (chain : List (pcre2_finder P W))
    (chunks : List Bytes) (hr : Ready M chain) : Ready M (chain_after M fuel chain chunks) := by
  simp only [chain_after]
  cases h : process_all M fuel chain chunks with
  | error e => exact hr
  | ok o => exact Ready_of_same_config M (process_all_frame M fuel chunks chain o h) hr

/-- The chain of the patterns `ab` and `xa`, opened, is ready. -/
theorem ready_ab_xa :
    Ready rx (rx_chain [counting ['a', 'b'] 0, counting ['x', 'a'] 1]
      pcre2_finder_output_to_null 0) := by
  refine ⟨?_, ?_⟩
  · simp [rx_chain, counting, add_exprs, pcre2_finder_add_expr, pcre2_finder_initialize, fresh,
      pcre2_finder_open, open_loop, rx, rx_compile, Opened]
  · intro f hf
    simp [rx_chain, counting, add_exprs, pcre2_finder_add_expr, pcre2_finder_initialize, fresh,
      pcre2_finder_open, open_loop, rx, rx_compile] at hf
    rcases hf with h | h
    · subst h
      exact ⟨by simp, rx_advances _ rfl⟩
    · subst h
      exact ⟨by simp, rx_advances _ rfl⟩

/-- C4, the claim as stated fails. Two nodes with the patterns `ab` and `xa`;
after the chunk `xa` the first node holds the pending byte `a` and the second
the pending byte `x`. Close flushes `a` into the second node, where it
completes the match `xa`: the pending buffer of the second node goes to its
handler and is never forwarded to its output function. -/
theorem close_downstream_pending_not_forwarded :
    (chain_after rx 5
        (rx_chain [counting ['a', 'b'] 0, counting ['x', 'a'] 1] pcre2_finder_output_to_null 0)
        [['x', 'a']]).map (fun f => f.partialmatch) = [some ['a'], some ['x']] ∧
    (match pcre2_finder_close rx 5 (chain_after rx 5
        (rx_chain [counting ['a', 'b'] 0, counting ['x', 'a'] 1] pcre2_finder_output_to_null 0)
        [['x', 'a']]) with
      | Except.ok o => some (outputs_of 1 o.events, handler_calls o.events)
      | Except.error _ => none) = some ([], [(1, ['x', 'a'], 0, 1)]) := by
  constructor
  · decide
  · rfl

/-- C5, the claim as stated fails. Two nodes with the patterns `ab` and `a`;
after the chunk `a` the first node holds the pending byte `a`. Close flushes it
into the second node, which matches it and invokes its handler. -/
theorem close_invokes_downstream_handler :
    (match pcre2_finder_close rx 5 (chain_after rx 5
        (rx_chain [counting ['a', 'b'] 0, counting ['a'] 1] pcre2_finder_output_to_null 0)
        [['a']]) with
      | Except.ok o => some (handler_calls o.events)
      | Except.error _ => none) = some [(1, ['a'], 0, 1)] := by
  rfl

/-- C5, on the small matcher: in the state of the scenario for C4 close
returns and every handler it invokes belongs to a node after one that held a
pending buffer. -/
theorem close_invokes_downstream_handlers_only_witness :
    ∃ fuel0, ∀ fuel, fuel0 ≤ fuel →
      ∃ o, pcre2_finder_close rx fuel (chain_after rx 5
          (rx_chain [counting ['a', 'b'] 0, counting ['x', 'a'] 1] pcre2_finder_output_to_null 0)
          [['x', 'a']]) = Except.ok o ∧
        ∀ (d : Bytes) (cb : Nat) (id : Int), Event.handler 0 d cb id ∉ o.events := by
  obtain ⟨fuel0, h⟩ := close_invokes_downstream_handlers_only rx _
    (Ready_chain_after rx 5 _ [['x', 'a']] ready_ab_xa)
  refine ⟨fuel0, fun fuel hle => ?_⟩
  obtain ⟨o, h1, h2, _⟩ := h fuel hle
  refine ⟨o, h1, ?_⟩
  intro d cb id hmem
  obtain ⟨g, hg, _⟩ := h2 0 d cb id hmem
  simp at hg

/-- The output calls of a handler of a node bound to a function of the
caller: one `output` event each. -/
theorem emit_all_user (next : List (pcre2_finder P W) → Bytes → Except Fault (Outcome P W))
    (idx : Nat) (fn : pcre2_finder_output_fn) (cb : Nat) (xs : List Bytes) :
    ∀ st : Run P W, st.finder.outputfn = some (OutputFn.user fn) →
      st.finder.outputcallbackdata = CallbackData.user cb →
      emit_all next idx st xs =
        Except.ok { st with events := st.events ++ xs.map (Event.output idx) } := by
  induction xs with
  | nil => intro st _ _; simp [emit_all]
  | cons x xs ih =>
    intro st h1 h2
    simp only [emit_all, emit, call_outputfn, h1, h2]
    rw [ih { finder := st.finder, rest := st.rest, events := st.events ++ [Event.output idx x] }
      h1 h2]
    simp

theorem handler_calls_append (a b : List Event) :
    handler_calls (a ++ b) = handler_calls a ++ handler_calls b := by
  induction a with
  | nil => rfl
  | cons e a ih =>
    cases e with
    | output n d => simpa [handler_calls] using ih
    | handler n d cb id => simp [handler_calls, ih]

theorem handler_calls_outputs (idx : Nat) (xs : List Bytes) :
    handler_calls (xs.map (Event.output idx)) = [] := by
  induction xs with
  | nil => rfl
  | cons x xs ih => simpa [handler_calls] using ih

theorem outputs_of_append (k : Nat) (a b : List Event) :
    outputs_of k (a ++ b) = outputs_of k a ++ outputs_of k b := by
  induction a with
  | nil => rfl
  | cons e a ih =>
    cases e with
    | output n d =>
      by_cases h : n = k
      · simp [outputs_of, h, ih]
      · simp [outputs_of, h, ih]
    | handler n d cb id => simpa [outputs_of] using ih

theorem outputs_of_outputs (k idx : Nat) (xs : List Bytes) :
    outputs_of k (xs.map (Event.output idx)) = if idx = k then xs else [] := by
  induction xs with
  | nil => simp [outputs_of]
  | cons x xs ih =>
    by_cases h : idx = k
    · simp [outputs_of, h] at ih ⊢; exact ih
    · simp [outputs_of, h] at ih ⊢; exact ih

/-! ## One chunk through one node -/

@[simp] theorem set_workspace_matchfn (f : pcre2_finder P W) (ws : W) :
    (set_workspace f ws).matchfn = f.matchfn := rfl

@[simp] theorem set_workspace_matchcallbackdata (f : pcre2_finder P W) (ws : W) :
    (set_workspace f ws).matchcallbackdata = f.matchcallbackdata := rfl

@[simp] theorem set_workspace_matchid (f : pcre2_finder P W) (ws : W) :
    (set_workspace f ws).matchid = f.matchid := rfl

@[simp] theorem set_workspace_partialmatch (f : pcre2_finder P W) (ws : W) :
    (set_workspace f ws).partialmatch = f.partialmatch := rfl

@[simp] theorem set_workspace_re (f : pcre2_finder P W) (ws : W) :
    (set_workspace f ws).re = f.re := rfl

@[simp] theorem set_workspace_dfaworkspace (f : pcre2_finder P W) (ws : W) :
    (set_workspace f ws).dfaworkspace = ws := rfl

@[simp] theorem partialmatch_append_partialmatch (f : pcre2_finder P W) (s : Bytes) :
    (partialmatch_append f s).partialmatch = some (pending f ++ s) := rfl

@[simp] theorem partialmatch_clear_partialmatch (f : pcre2_finder P W) :
    (partialmatch_clear f).partialmatch = none := rfl

@[simp] theorem pending_set_workspace (f : pcre2_finder P W) (ws : W) :
    pending (set_workspace f ws) = pending f := rfl

/-- The actions of a node bound to a function of the caller, carried out: one
event each, the nodes after it untouched. -/
theorem feed_user (next : List (pcre2_finder P W) → Bytes → Except Fault (Outcome P W))
    (idx : Nat) (f : pcre2_finder P W) (fn : pcre2_finder_output_fn) (cb : Nat)
    (h1 : f.outputfn = some (OutputFn.user fn))
    (h2 : f.outputcallbackdata = CallbackData.user cb) (acts : List Action) :
    ∀ rest, feed next idx f acts rest = Except.ok (rest, acts.map (Action.event idx f)) := by
  induction acts with
  | nil => intro rest; rfl
  | cons a acts ih =>
    intro rest
    cases a with
    | out d => simp only [feed, call_outputfn, h1, h2, ih, List.map_cons, Action.event,
        List.singleton_append]
    | call d => simp only [feed, ih, List.map_cons, Action.event]

theorem gap_actions_events (idx : Nat) (f : pcre2_finder P W) (data : Bytes) (c s : Nat) :
    (gap_actions data c s).map (Action.event idx f) =
      if c < s then [Event.output idx (slice data c (s - c))] else [] := by
  by_cases h : c < s
  · simp [gap_actions, h, Action.event]
  · simp [gap_actions, h]

theorem Action.event_congr (idx : Nat) {a b : pcre2_finder P W} (h : same_config a b)
    (acts : List Action) : acts.map (Action.event idx a) = acts.map (Action.event idx b) := by
  obtain ⟨_, h2, h3, _, _, _⟩ := h
  apply List.map_congr_left
  intro x _
  cases x with
  | out d => rfl
  | call d => simp only [Action.event, h2, h3]

/-- The search loop on a chunk in which the matcher reports the matches
`spans`, then `last`: it ends within `spans.length + 1` turns, returns 0, and
its actions are those the spec lists. -/
theorem search_actions_reports (M : Pcre2 P W) (idx : Nat) (h : pcre2_finder_match_fn)
    (data : Bytes) (last : Option (Nat × Nat)) (spans : List (Nat × Nat)) :
    ∀ (c : Nat) (f : pcre2_finder P W) (fuel : Nat), f.matchfn = some h →
      Reports M f.re data c f.dfaworkspace spans last → spans.length < fuel →
      ∃ f1 acts, search_actions M data fuel c f = some (0, f1, acts) ∧ same_config f f1 ∧
        acts.map (Action.event idx f) =
          forwarded idx h f.matchcallbackdata f.matchid data c spans last ∧
        f1.partialmatch =
          (match last with
            | none => f.partialmatch
            | some se => some (pending f ++ slice data se.1 (se.2 - se.1))) := by
  induction spans with
  | nil =>
    intro c f fuel hh hrep hfuel
    obtain ⟨k, rfl⟩ : ∃ k, fuel = k + 1 := ⟨fuel - 1, by omega⟩
    cases last with
    | none =>
      simp only [Reports] at hrep
      have h1 : ¬ (0 : Int) ≤ (M.pcre2_dfa_match f.re data c false f.dfaworkspace).status := by
        rw [hrep]; decide
      have h2 : ¬ (M.pcre2_dfa_match f.re data c false f.dfaworkspace).status
          = PCRE2_ERROR_PARTIAL := by rw [hrep]; decide
      refine ⟨set_workspace f (M.pcre2_dfa_match f.re data c false f.dfaworkspace).workspace,
        gap_actions data c data.length,
        by simp only [search_actions, if_neg h1, if_neg h2, if_pos hrep],
        ⟨rfl, rfl, rfl, rfl, rfl, rfl⟩, ?_, rfl⟩
      simp only [gap_actions_events, forwarded]
    | some se =>
      obtain ⟨s, e⟩ := se
      simp only [Reports] at hrep
      obtain ⟨hst, hs, he⟩ := hrep
      have h1 : ¬ (0 : Int) ≤ (M.pcre2_dfa_match f.re data c false f.dfaworkspace).status := by
        rw [hst]; decide
      refine ⟨partialmatch_append
          (set_workspace f (M.pcre2_dfa_match f.re data c false f.dfaworkspace).workspace)
          (slice data s (e - s)), gap_actions data c s,
        by simp only [search_actions, if_neg h1, if_pos hst, hs, he],
        ⟨rfl, rfl, rfl, rfl, rfl, rfl⟩, ?_, ?_⟩
      · simp only [gap_actions_events, forwarded, hs]
      · simp only [partialmatch_append_partialmatch, pending_set_workspace]
  | cons se spans ih =>
    intro c f fuel hh hrep hfuel
    obtain ⟨k, rfl⟩ : ∃ k, fuel = k + 1 := ⟨fuel - 1, by omega⟩
    obtain ⟨s, e⟩ := se
    simp only [Reports] at hrep
    obtain ⟨hst, hs, he, hrest⟩ := hrep
    have hc0 : same_config f (set_workspace f
        (M.pcre2_dfa_match f.re data c false f.dfaworkspace).workspace) :=
      ⟨rfl, rfl, rfl, rfl, rfl, rfl⟩
    obtain ⟨f1, acts, hsa, hcf, hev, hpm⟩ := ih e
      (set_workspace f (M.pcre2_dfa_match f.re data c false f.dfaworkspace).workspace) k hh
      hrest (by simp only [List.length_cons] at hfuel; omega)
    refine ⟨f1, gap_actions data c s ++
        (Action.call (slice data s (e - s)) ::
          (h (slice data s (e - s)) f.matchcallbackdata f.matchid).outputs.map Action.out) ++
        acts, ?_, same_config_trans hc0 hcf, ?_, ?_⟩
    · simp only [search_actions, if_pos hst, handler_actions, set_workspace_matchfn,
        set_workspace_matchcallbackdata, set_workspace_matchid, hh, hs, he, hsa]
    · simp only [List.map_append, gap_actions_events, List.map_cons, Action.event, List.map_map,
        forwarded, List.append_assoc, List.cons_append]
      rw [Action.event_congr idx hc0 acts, hev]
      simp only [set_workspace_matchcallbackdata, set_workspace_matchid]
      rfl
    · rw [hpm]
      simp only [set_workspace_partialmatch, pending_set_workspace]

theorem slice_zero (data : Bytes) (n : Nat) : slice data 0 n = data.take n := by
  simp [slice]

theorem slice_to_end (data : Bytes) (s : Nat) : slice data s (data.length - s) = data.drop s := by
  simp [slice]

@[simp] theorem pending_partialmatch_append (f : pcre2_finder P W) (s : Bytes) :
    pending (partialmatch_append f s) = pending f ++ s := rfl

@[simp] theorem pending_partialmatch_clear (f : pcre2_finder P W) :
    pending (partialmatch_clear f) = [] := rfl

theorem pending_of_some (f : pcre2_finder P W) (p : Bytes) (h : f.partialmatch = some p) :
    pending f = p := by
  simp [pending, h]

theorem pending_of_none (f : pcre2_finder P W) (h : f.partialmatch = none) : pending f = [] := by
  simp [pending, h]

theorem outputs_events (idx : Nat) (f : pcre2_finder P W) (outs : List Bytes) :
    (outs.map Action.out).map (Action.event idx f) = outs.map (Event.output idx) := by
  simp [List.map_map, Function.comp_def, Action.event]

/-! ## The small matcher keeps the `match_step` contract -/

theorem walk_of_nullable (r : Rx) (xs : Bytes) (n : Nat) (h : r.nullable = true) :
    walk r xs n = Walk.matched n := by
  cases xs <;> simp [walk, h]

theorem walk_of_dead (r : Rx) (xs : Bytes) (n : Nat) (h : r.nullable = false)
    (h2 : r.dead = true) : walk r xs n = Walk.failed := by
  cases xs <;> simp [walk, h, h2]

theorem walk_cons_live (r : Rx) (x : Char) (xs : Bytes) (n : Nat) (h : r.nullable = false)
    (h2 : r.dead = false) : walk r (x :: xs) n = walk (r.deriv x) xs (n + 1) := by
  simp [walk, h, h2]

theorem walk_nil_live (r : Rx) (n : Nat) (h : r.nullable = false) (h2 : r.dead = false) :
    walk r [] n = if n = 0 then Walk.failed else Walk.more r := by
  simp [walk, h, h2]

/-- A match found is found again when the subject goes on. -/
theorem walk_matched_append (xs d : Bytes) :
    ∀ (r : Rx) (n m : Nat), walk r xs n = Walk.matched m →
      walk r (xs ++ d) n = Walk.matched m := by
  induction xs with
  | nil =>
    intro r n m h
    cases h1 : r.nullable with
    | true =>
      rw [walk_of_nullable r _ n h1] at h
      rw [walk_of_nullable r _ n h1]
      exact h
    | false =>
      cases h2 : r.dead with
      | true => rw [walk_of_dead r _ n h1 h2] at h; exact absurd h (by simp)
      | false =>
        rw [walk_nil_live r n h1 h2] at h
        by_cases h3 : n = 0
        · rw [if_pos h3] at h; exact absurd h (by simp)
        · rw [if_neg h3] at h; exact absurd h (by simp)
  | cons x xs ih =>
    intro r n m h
    cases h1 : r.nullable with
    | true =>
      rw [walk_of_nullable r _ n h1] at h
      rw [walk_of_nullable r _ n h1]
      exact h
    | false =>
      cases h2 : r.dead with
      | true => rw [walk_of_dead r _ n h1 h2] at h; exact absurd h (by simp)
      | false =>
        rw [walk_cons_live r x xs n h1 h2] at h
        rw [List.cons_append, walk_cons_live r x _ n h1 h2]
        exact ih _ _ _ h

/-- An attempt that failed after reading a byte fails when the subject goes
on. -/
theorem walk_failed_append (xs d : Bytes) :
    ∀ (r : Rx) (n : Nat), walk r xs n = Walk.failed → (xs ≠ [] ∨ 0 < n) →
      walk r (xs ++ d) n = Walk.failed := by
  induction xs with
  | nil =>
    intro r n h hn
    have hn : n ≠ 0 := by
      rcases hn with hn | hn
      · exact absurd rfl hn
      · omega
    cases h1 : r.nullable with
    | true => rw [walk_of_nullable r _ n h1] at h; exact absurd h (by simp)
    | false =>
      cases h2 : r.dead with
      | true => exact walk_of_dead r _ n h1 h2
      | false =>
        rw [walk_nil_live r n h1 h2, if_neg hn] at h
        exact absurd h (by simp)
  | cons x xs ih =>
    intro r n h _
    cases h1 : r.nullable with
    | true => rw [walk_of_nullable r _ n h1] at h; exact absurd h (by simp)
    | false =>
      cases h2 : r.dead with
      | true => exact walk_of_dead r _ n h1 h2
      | false =>
        rw [walk_cons_live r x xs n h1 h2] at h
        rw [List.cons_append, walk_cons_live r x _ n h1 h2]
        exact ih _ _ h (Or.inr (by omega))

/-- An attempt that reached the end of the subject goes on in the bytes that
follow, from the state it reached. -/
theorem walk_more_append (xs d : Bytes) :
    ∀ (r w : Rx) (n : Nat), walk r xs n = Walk.more w →
      walk r (xs ++ d) n = walk w d (n + xs.length) := by
  induction xs with
  | nil =>
    intro r w n h
    cases h1 : r.nullable with
    | true => rw [walk_of_nullable r _ n h1] at h; exact absurd h (by simp)
    | false =>
      cases h2 : r.dead with
      | true => rw [walk_of_dead r _ n h1 h2] at h; exact absurd h (by simp)
      | false =>
        rw [walk_nil_live r n h1 h2] at h
        by_cases h3 : n = 0
        · rw [if_pos h3] at h; exact absurd h (by simp)
        · rw [if_neg h3] at h
          injection h with h
          subst h
          simp
  | cons x xs ih =>
    intro r w n h
    cases h1 : r.nullable with
    | true => rw [walk_of_nullable r _ n h1] at h; exact absurd h (by simp)
    | false =>
      cases h2 : r.dead with
      | true => rw [walk_of_dead r _ n h1 h2] at h; exact absurd h (by simp)
      | false =>
        rw [walk_cons_live r x xs n h1 h2] at h
        rw [List.cons_append, walk_cons_live r x _ n h1 h2, ih _ _ _ h]
        simp only [List.length_cons]
        congr 1
        omega

/-- The state an attempt stops in at the end of the subject is live. -/
theorem walk_more_live (xs : Bytes) :
    ∀ (r w : Rx) (n : Nat), walk r xs n = Walk.more w →
      w.nullable = false ∧ w.dead = false ∧ (xs ≠ [] ∨ 0 < n) := by
  induction xs with
  | nil =>
    intro r w n h
    cases h1 : r.nullable with
    | true => rw [walk_of_nullable r _ n h1] at h; exact absurd h (by simp)
    | false =>
      cases h2 : r.dead with
      | true => rw [walk_of_dead r _ n h1 h2] at h; exact absurd h (by simp)
      | false =>
        rw [walk_nil_live r n h1 h2] at h
        by_cases h3 : n = 0
        · rw [if_pos h3] at h; exact absurd h (by simp)
        · rw [if_neg h3] at h
          injection h with h
          subst h
          exact ⟨h1, h2, Or.inr (by omega)⟩
  | cons x xs ih =>
    intro r w n h
    cases h1 : r.nullable with
    | true => rw [walk_of_nullable r _ n h1] at h; exact absurd h (by simp)
    | false =>
      cases h2 : r.dead with
      | true => rw [walk_of_dead r _ n h1 h2] at h; exact absurd h (by simp)
      | false =>
        rw [walk_cons_live r x xs n h1 h2] at h
        obtain ⟨a, b, _⟩ := ih _ _ _ h
        exact ⟨a, b, Or.inl (by simp)⟩

/-- The count of bytes read before the attempt only moves the reported
length. -/
theorem walk_offset (xs : Bytes) (k : Nat) :
    ∀ (r : Rx) (n : Nat), (xs ≠ [] ∨ 0 < n) →
      walk r xs (n + k) =
        match walk r xs n with
        | Walk.matched m => Walk.matched (m + k)
        | Walk.more s => Walk.more s
        | Walk.failed => Walk.failed := by
  induction xs with
  | nil =>
    intro r n hn
    have hn : n ≠ 0 := by
      rcases hn with hn | hn
      · exact absurd rfl hn
      · omega
    have hk : n + k ≠ 0 := by omega
    cases h1 : r.nullable with
    | true => rw [walk_of_nullable r _ _ h1, walk_of_nullable r _ _ h1]
    | false =>
      cases h2 : r.dead with
      | true => rw [walk_of_dead r _ _ h1 h2, walk_of_dead r _ _ h1 h2]
      | false => rw [walk_nil_live r _ h1 h2, walk_nil_live r _ h1 h2, if_neg hn, if_neg hk]
  | cons x xs ih =>
    intro r n _
    cases h1 : r.nullable with
    | true => rw [walk_of_nullable r _ _ h1, walk_of_nullable r _ _ h1]
    | false =>
      cases h2 : r.dead with
      | true => rw [walk_of_dead r _ _ h1 h2, walk_of_dead r _ _ h1 h2]
      | false =>
        rw [walk_cons_live r x xs _ h1 h2, walk_cons_live r x xs _ h1 h2]
        have := ih (r.deriv x) (n + 1) (Or.inr (by omega))
        rw [← this]
        congr 1
        omega

@[simp] theorem verdict_mk_hit (a b : Nat) (w : W) :
    verdict ({ status := 1, ovector0 := a, ovector1 := b, workspace := w } : DfaResult W)
      = Verdict.hit a b := by
  simp [verdict]

@[simp] theorem verdict_mk_hold (a b : Nat) (w : W) :
    verdict ({ status := PCRE2_ERROR_PARTIAL, ovector0 := a, ovector1 := b, workspace := w } :
      DfaResult W) = Verdict.hold a b := by
  simp [verdict, PCRE2_ERROR_PARTIAL]

@[simp] theorem verdict_mk_miss (a b : Nat) (w : W) :
    verdict ({ status := PCRE2_ERROR_NOMATCH, ovector0 := a, ovector1 := b, workspace := w } :
      DfaResult W) = Verdict.miss := by
  simp [verdict, PCRE2_ERROR_PARTIAL, PCRE2_ERROR_NOMATCH]

theorem verdict_hit_iff (r : DfaResult W) (s e : Nat) :
    verdict r = Verdict.hit s e ↔ 0 ≤ r.status ∧ r.ovector0 = s ∧ r.ovector1 = e := by
  unfold verdict
  split_ifs with h h1 h2 <;> simp_all

theorem verdict_hold_iff (r : DfaResult W) (s e : Nat) :
    verdict r = Verdict.hold s e ↔
      r.status = PCRE2_ERROR_PARTIAL ∧ r.ovector0 = s ∧ r.ovector1 = e := by
  unfold verdict
  split_ifs with h h1 h2
  · have : r.status ≠ PCRE2_ERROR_PARTIAL := by
      intro h1; rw [h1] at h; exact absurd h (by decide)
    simp [this]
  · simp [h1]
  · simp [h1]
  · simp [h1]

theorem verdict_miss_iff (r : DfaResult W) :
    verdict r = Verdict.miss ↔ r.status = PCRE2_ERROR_NOMATCH := by
  unfold verdict
  split_ifs with h h1 h2
  · have : r.status ≠ PCRE2_ERROR_NOMATCH := by
      intro h1; rw [h1] at h; exact absurd h (by decide)
    simp [this]
  · have : r.status ≠ PCRE2_ERROR_NOMATCH := by
      rw [h1]; decide
    simp [this]
  · simp [h2]
  · simp [h2]

theorem Verdict.shift_shift (v : Verdict) (a b : Nat) :
    (v.shift a).shift b = v.shift (a + b) := by
  cases v <;> simp [Verdict.shift, Nat.add_assoc]

theorem Verdict.shift_zero (v : Verdict) : v.shift 0 = v := by
  cases v <;> simp [Verdict.shift]

theorem Verdict.from_mono (v : Verdict) (a b : Nat) (h : a ≤ b) (hv : v.from b) : v.from a := by
  cases v <;> simp only [Verdict.from] at hv ⊢ <;> omega

theorem walk_nil_zero (r : Rx) (hr : r.nullable = false) : walk r [] 0 = Walk.failed := by
  cases h2 : r.dead with
  | true => exact walk_of_dead r _ _ hr h2
  | false => rw [walk_nil_live r _ hr h2, if_pos rfl]

theorem verdict_bump_nil (r : Rx) (hr : r.nullable = false) (pos : Nat) :
    verdict (bump r [] pos) = Verdict.miss := by
  simp [bump, walk_nil_zero r hr]

theorem verdict_bump_cons (r : Rx) (x : Char) (xs : Bytes) (pos : Nat) :
    verdict (bump r (x :: xs) pos) =
      match walk r (x :: xs) 0 with
      | Walk.matched n => Verdict.hit pos (pos + n)
      | Walk.more _ => Verdict.hold pos (pos + (xs.length + 1))
      | Walk.failed => verdict (bump r xs (pos + 1)) := by
  rw [bump]
  cases walk r (x :: xs) 0 <;> simp

/-- Where the verdict of a search lies. -/
theorem bump_verdict_bounds (r : Rx) (hr : r.nullable = false) (xs : Bytes) :
    ∀ pos : Nat,
      match verdict (bump r xs pos) with
      | Verdict.hit s e => pos ≤ s ∧ s < e ∧ e ≤ pos + xs.length
      | Verdict.hold s e => pos ≤ s ∧ s < pos + xs.length ∧ e = pos + xs.length
      | Verdict.miss => True
      | Verdict.error _ => False := by
  induction xs with
  | nil => intro pos; rw [verdict_bump_nil r hr]; trivial
  | cons x xs ih =>
    intro pos
    rw [verdict_bump_cons]
    cases h : walk r (x :: xs) 0 with
    | matched n =>
      obtain ⟨_, a, b⟩ := walk_matched_bounds _ _ _ _ h
      have := b hr
      simp only [List.length_cons] at a ⊢
      exact ⟨Nat.le_refl _, by omega, by omega⟩
    | more s =>
      simp only [List.length_cons]
      exact ⟨Nat.le_refl _, by omega, trivial⟩
    | failed =>
      have := ih (pos + 1)
      simp only [List.length_cons]
      cases hv : verdict (bump r xs (pos + 1)) with
      | hit s e => rw [hv] at this; simp only at this ⊢; omega
      | hold s e => rw [hv] at this; simp only at this ⊢; omega
      | miss => trivial
      | error st => rw [hv] at this; exact this

theorem bump_verdict_from (r : Rx) (hr : r.nullable = false) (xs : Bytes) (pos : Nat) :
    (verdict (bump r xs pos)).from pos := by
  have := bump_verdict_bounds r hr xs pos
  cases hv : verdict (bump r xs pos) with
  | hit s e => rw [hv] at this; exact this.1
  | hold s e => rw [hv] at this; exact this.1
  | miss => trivial
  | error st => rw [hv] at this; exact this

/-- The search does not depend on the position of the subject. -/
theorem bump_shift (r : Rx) (hr : r.nullable = false) (xs : Bytes) :
    ∀ pos : Nat, verdict (bump r xs pos) = (verdict (bump r xs 0)).shift pos := by
  induction xs with
  | nil => intro pos; rw [verdict_bump_nil r hr, verdict_bump_nil r hr]; rfl
  | cons x xs ih =>
    intro pos
    rw [verdict_bump_cons, verdict_bump_cons]
    cases h : walk r (x :: xs) 0 with
    | matched n => simp [Verdict.shift, Nat.add_comm]
    | more s => simp [Verdict.shift, Nat.add_comm]
    | failed =>
      simp only
      rw [ih (pos + 1), ih (0 + 1), Verdict.shift_shift]
      congr 1
      omega

/-- The search from a later position, not beyond the start of the verdict,
gives the same verdict. -/
theorem bump_leftmost (r : Rx) (k : Nat) :
    ∀ (xs : Bytes) (pos : Nat), k ≤ xs.length → (verdict (bump r xs pos)).from (pos + k) →
      verdict (bump r (xs.drop k) (pos + k)) = verdict (bump r xs pos) := by
  induction k with
  | zero => intro xs pos _ _; rfl
  | succ k ih =>
    intro xs pos hk hv
    cases xs with
    | nil => simp at hk
    | cons x xs =>
      rw [verdict_bump_cons] at hv ⊢
      cases h : walk r (x :: xs) 0 with
      | matched n => rw [h] at hv; simp only [Verdict.from] at hv; omega
      | more s => rw [h] at hv; simp only [Verdict.from] at hv; omega
      | failed =>
        rw [h] at hv
        simp only at hv ⊢
        have e : pos + (k + 1) = pos + 1 + k := by omega
        rw [List.drop_succ_cons, e]
        rw [e] at hv
        exact ih xs (pos + 1) (by simpa using hk) hv

/-- A match found stays when the subject goes on. -/
theorem bump_hit_final (r : Rx) (hr : r.nullable = false) (xs d : Bytes) :
    ∀ (pos s e : Nat), verdict (bump r xs pos) = Verdict.hit s e →
      verdict (bump r (xs ++ d) pos) = Verdict.hit s e := by
  induction xs with
  | nil => intro pos s e h; rw [verdict_bump_nil r hr] at h; exact absurd h (by simp)
  | cons x xs ih =>
    intro pos s e h
    rw [verdict_bump_cons] at h
    rw [List.cons_append, verdict_bump_cons, ← List.cons_append]
    cases hw : walk r (x :: xs) 0 with
    | matched n => rw [hw] at h; rw [walk_matched_append _ d _ _ _ hw]; exact h
    | more w => rw [hw] at h; exact absurd h (by simp)
    | failed =>
      rw [hw] at h
      rw [walk_failed_append _ d _ _ hw (Or.inl (by simp))]
      exact ih _ _ _ h

/-- Start positions passed over stay passed over when the subject goes on. -/
theorem bump_passed (r : Rx) (hr : r.nullable = false) (xs d : Bytes) :
    ∀ (pos k : Nat), (verdict (bump r xs pos)).from (pos + k) → k ≤ xs.length →
      (verdict (bump r (xs ++ d) pos)).from (pos + k) := by
  induction xs with
  | nil =>
    intro pos k _ hk
    have : k = 0 := by simpa using hk
    subst this
    exact bump_verdict_from r hr _ _
  | cons x xs ih =>
    intro pos k h hk
    cases k with
    | zero => exact bump_verdict_from r hr _ _
    | succ k =>
      rw [verdict_bump_cons] at h
      rw [List.cons_append, verdict_bump_cons, ← List.cons_append]
      cases hw : walk r (x :: xs) 0 with
      | matched n => rw [hw] at h; simp only [Verdict.from] at h; omega
      | more w => rw [hw] at h; simp only [Verdict.from] at h; omega
      | failed =>
        rw [hw] at h
        rw [walk_failed_append _ d _ _ hw (Or.inl (by simp))]
        simp only at h ⊢
        have e : pos + (k + 1) = pos + 1 + k := by omega
        rw [e] at h ⊢
        exact ih _ _ h (by simpa using hk)

/-- The state a partial match leaves is the state of the attempt at its
start position. -/
theorem bump_partial_state (r : Rx) (hr : r.nullable = false) (xs : Bytes) :
    ∀ pos : Nat, (bump r xs pos).status = PCRE2_ERROR_PARTIAL →
      pos ≤ (bump r xs pos).ovector0 ∧ (bump r xs pos).ovector0 < pos + xs.length ∧
      walk r (xs.drop ((bump r xs pos).ovector0 - pos)) 0
        = Walk.more (bump r xs pos).workspace := by
  induction xs with
  | nil =>
    intro pos h
    have := (verdict_miss_iff _).1 (verdict_bump_nil r hr pos)
    rw [this] at h
    exact absurd h (by decide)
  | cons x xs ih =>
    intro pos h
    rw [bump] at h ⊢
    cases hw : walk r (x :: xs) 0 with
    | matched n => rw [hw] at h; simp [PCRE2_ERROR_PARTIAL] at h
    | more w =>
      simp only [List.length_cons, Nat.sub_self, List.drop_zero]
      exact ⟨Nat.le_refl _, by omega, hw⟩
    | failed =>
      rw [hw] at h
      simp only at h ⊢
      obtain ⟨a, b, c⟩ := ih (pos + 1) h
      have e : (bump r xs (pos + 1)).ovector0 - pos = ((bump r xs (pos + 1)).ovector0 - (pos + 1)) + 1 := by
        omega
      rw [e, List.drop_succ_cons]
      simp only [List.length_cons]
      exact ⟨by omega, by omega, c⟩

theorem drop_split (data : Bytes) (c s : Nat) (h : c ≤ s) :
    data.drop s = (data.drop c).drop (s - c) := by
  rw [List.drop_drop]
  congr 1
  omega

theorem rx_scan (r : Rx) (data : Bytes) (c : Nat) (ws : Rx) (hc : c ≤ data.length) :
    rx.pcre2_dfa_match (some r) data c false ws = bump r (data.drop c) c := by
  simp [rx, rx_dfa_match, Nat.not_lt.2 hc]

theorem rx_restart (r : Rx) (data : Bytes) (ws : Rx) :
    rx.pcre2_dfa_match (some r) data 0 true ws =
      match walk ws data 0 with
      | Walk.matched n => { status := 1, ovector0 := 0, ovector1 := n, workspace := ws }
      | Walk.more s =>
        { status := PCRE2_ERROR_PARTIAL, ovector0 := 0, ovector1 := data.length, workspace := s }
      | Walk.failed =>
        { status := PCRE2_ERROR_NOMATCH, ovector0 := 0, ovector1 := 0, workspace := ws } := by
  cases h : walk ws data 0 <;> simp [rx, rx_dfa_match, h]

/-- An attempt resumed in new bytes is the attempt on the bytes read before
followed by the new ones. -/
theorem walk_resume (r w : Rx) (p d : Bytes) (h : walk r p 0 = Walk.more w) (hd : d ≠ []) :
    walk r (p ++ d) 0 =
      match walk w d 0 with
      | Walk.matched m => Walk.matched (m + p.length)
      | Walk.more s => Walk.more s
      | Walk.failed => Walk.failed := by
  rw [walk_more_append p d r w 0 h, ← walk_offset d p.length w 0 (Or.inl hd)]

/-- A resume state of the small matcher is the state of the attempt that has
read the pending bytes. -/
theorem rx_resumes (r : Rx) (hr : r.nullable = false) (w : Rx) (p : Bytes)
    (h : Resumes rx (some r) w p) : walk r p 0 = Walk.more w ∧ p ≠ [] := by
  induction h with
  | first data c ws hc hst =>
    rw [rx_scan r data c ws hc] at hst ⊢
    obtain ⟨a, b, hw⟩ := bump_partial_state r hr _ c hst
    rw [drop_split data c _ a]
    refine ⟨hw, ?_⟩
    intro h0
    have := congrArg List.length h0
    simp only [List.length_drop, List.length_nil] at this b
    omega
  | again w p d _ hd hst ih =>
    obtain ⟨hw, hp⟩ := ih
    rw [rx_restart] at hst ⊢
    have hres := walk_resume r w p d hw hd
    cases hwd : walk w d 0 with
    | matched m => rw [hwd] at hst; simp [PCRE2_ERROR_PARTIAL] at hst
    | failed => rw [hwd] at hst; simp [PCRE2_ERROR_PARTIAL, PCRE2_ERROR_NOMATCH] at hst
    | more s =>
      rw [hwd] at hres
      exact ⟨hres, by simp [hp]⟩

/-- The small matcher keeps the contract of `match_step` for every pattern
that does not match the empty string. -/
theorem rx_contract (r : Rx) (hr : r.nullable = false) : MatchStepContract rx (some r) where
  bounds := by
    intro data c ws hc
    rw [rx_scan r data c ws hc]
    have := bump_verdict_bounds r hr (data.drop c) c
    cases hv : verdict (bump r (List.drop c data) c) with
    | hit s e => rw [hv] at this; simp only [List.length_drop] at this ⊢; omega
    | hold s e => rw [hv] at this; simp only [List.length_drop] at this ⊢; omega
    | miss => trivial
    | error st => rw [hv] at this; exact this
  workspace_free := by
    intro data c ws ws1
    by_cases hc : c ≤ data.length
    · rw [rx_scan r data c ws hc, rx_scan r data c ws1 hc]
    · have : data.length < c := by omega
      simp [rx, rx_dfa_match, this, verdict]
  shift := by
    intro data c ws hc
    rw [rx_scan r data c ws hc, rx_scan r _ 0 ws (Nat.zero_le _), List.drop_zero]
    exact bump_shift r hr _ c
  leftmost := by
    intro data c c1 ws h1 h2 hv
    rw [rx_scan r data c ws (by omega)] at hv ⊢
    rw [rx_scan r data c1 ws h2, drop_split data c c1 h1]
    have e : c1 = c + (c1 - c) := by omega
    rw [e] at hv
    have := bump_leftmost r (c1 - c) (data.drop c) c (by simp only [List.length_drop]; omega) hv
    rw [← e] at this
    exact this
  hit_final := by
    intro data d c ws s e hc h
    rw [rx_scan r data c ws hc] at h
    rw [rx_scan r _ c ws (by simp only [List.length_append]; omega),
      List.drop_append_of_le_length hc]
    exact bump_hit_final r hr _ d c s e h
  hold_final := by
    intro data d c ws s e hc h
    rw [rx_scan r data c ws hc] at h
    have hb := bump_verdict_bounds r hr (data.drop c) c
    rw [h] at hb
    simp only [List.length_drop] at hb
    have hs : s ≤ (data ++ d).length := by simp only [List.length_append]; omega
    rw [rx_scan r _ c ws (by simp only [List.length_append]; omega), rx_scan r _ s ws hs,
      drop_split (data ++ d) c s hb.1, List.drop_append_of_le_length hc]
    have e : s = c + (s - c) := by omega
    have hv : (verdict (bump r (List.drop c data) c)).from (c + (s - c)) := by
      rw [h, ← e]; exact Nat.le_refl _
    have h1 := bump_passed r hr (data.drop c) d c (s - c) hv
      (by simp only [List.length_drop]; omega)
    have h2 := bump_leftmost r (s - c) (data.drop c ++ d) c
      (by simp only [List.length_append, List.length_drop]; omega) h1
    rw [← e] at h2
    exact h2.symm
  miss_final := by
    intro data d c ws hc h
    rw [rx_scan r data c ws hc] at h
    have hs : data.length ≤ (data ++ d).length := by simp only [List.length_append]; omega
    rw [rx_scan r _ c ws (by simp only [List.length_append]; omega), rx_scan r _ _ ws hs,
      drop_split (data ++ d) c data.length hc, List.drop_append_of_le_length hc]
    have e : data.length = c + (data.length - c) := by omega
    have hv : (verdict (bump r (List.drop c data) c)).from (c + (data.length - c)) := by
      rw [h]; trivial
    have h1 := bump_passed r hr (data.drop c) d c (data.length - c) hv
      (by simp only [List.length_drop]; omega)
    have h2 := bump_leftmost r (data.length - c) (data.drop c ++ d) c
      (by simp only [List.length_append, List.length_drop]; omega) h1
    rw [← e] at h2
    exact h2.symm
  resume := by
    intro w p d hres hd
    obtain ⟨hw, hp⟩ := rx_resumes r hr w p hres
    have hcat := walk_resume r w p d hw hd
    rw [rx_restart]
    obtain ⟨x, xs, hx⟩ : ∃ x xs, p ++ d = x :: xs := by
      cases p with
      | nil => exact absurd rfl hp
      | cons x xs => exact ⟨x, xs ++ d, rfl⟩
    have hlen : xs.length + 1 = p.length + d.length := by
      have := congrArg List.length hx
      simp only [List.length_append, List.length_cons] at this
      omega
    cases hwd : walk w d 0 with
    | matched m =>
      rw [hwd] at hcat
      simp only [verdict_mk_hit]
      refine ⟨trivial, ?_, ?_⟩
      · have := (walk_matched_bounds d w 0 m hwd).2.1
        omega
      · intro ws
        rw [rx_scan r _ 0 ws (Nat.zero_le _), List.drop_zero, hx, verdict_bump_cons, ← hx, hcat]
        simp [Nat.add_comm]
    | more s =>
      rw [hwd] at hcat
      simp only [verdict_mk_hold]
      refine ⟨trivial, trivial, ?_⟩
      intro ws
      rw [rx_scan r _ 0 ws (Nat.zero_le _), List.drop_zero, hx, verdict_bump_cons, ← hx, hcat]
      simp [hlen]
    | failed =>
      rw [hwd] at hcat
      simp only [verdict_mk_miss]
      intro ws
      rw [rx_scan r _ 0 ws (Nat.zero_le _), List.drop_zero, hx, verdict_bump_cons, ← hx, hcat]
      exact bump_verdict_from r hr xs (0 + 1)

/-! ## Consequences of the `match_step` contract -/

theorem Verdict.shift_eq_hold (v : Verdict) (k a b : Nat) (h : v.shift k = Verdict.hold a b) :
    ∃ s e, v = Verdict.hold s e ∧ s + k = a ∧ e + k = b := by
  cases v with
  | hit s e => simp [Verdict.shift] at h
  | hold s e =>
    simp only [Verdict.shift, Verdict.hold.injEq] at h
    exact ⟨s, e, rfl, h.1, h.2⟩
  | miss => simp [Verdict.shift] at h
  | error st => simp [Verdict.shift] at h

/-- The verdict of a search from `c` lies at `c` or later, and is no error. -/
theorem contract_from (M : Pcre2 P W) (re : Option P) (hK : MatchStepContract M re)
    (data : Bytes) (c : Nat) (ws : W) (hc : c ≤ data.length) :
    (verdict (M.pcre2_dfa_match re data c false ws)).from c := by
  have := hK.bounds data c ws hc
  cases hv : verdict (M.pcre2_dfa_match re data c false ws) with
  | hit s e => rw [hv] at this; exact this.1
  | hold s e => rw [hv] at this; exact this.1
  | miss => trivial
  | error st => rw [hv] at this; exact this

/-- Bytes before the offset do not matter. -/
theorem front_shift (M : Pcre2 P W) (re : Option P) (hK : MatchStepContract M re)
    (a x : Bytes) (c : Nat) (ws : W) (hc : c ≤ x.length) :
    verdict (M.pcre2_dfa_match re (a ++ x) (a.length + c) false ws)
      = (verdict (M.pcre2_dfa_match re x c false ws)).shift a.length := by
  have h1 := hK.shift (a ++ x) (a.length + c) ws (by simp only [List.length_append]; omega)
  have h2 := hK.shift x c ws hc
  have e : (a ++ x).drop (a.length + c) = x.drop c := by
    rw [List.drop_append]
  rw [h1, h2, e, Verdict.shift_shift]
  congr 1
  omega

/-- The pending bytes of a resume state are a partial match from their first
byte. -/
theorem resumes_hold (M : Pcre2 P W) (re : Option P) (hK : MatchStepContract M re)
    (w : W) (p : Bytes) (h : Resumes M re w p) :
    p ≠ [] ∧ ∀ ws, verdict (M.pcre2_dfa_match re p 0 false ws) = Verdict.hold 0 p.length := by
  induction h with
  | first data c ws0 hc hst =>
    have hv : verdict (M.pcre2_dfa_match re data c false ws0)
        = Verdict.hold (M.pcre2_dfa_match re data c false ws0).ovector0
            (M.pcre2_dfa_match re data c false ws0).ovector1 :=
      (verdict_hold_iff _ _ _).2 ⟨hst, rfl, rfl⟩
    generalize (M.pcre2_dfa_match re data c false ws0).ovector0 = s at hv ⊢
    generalize (M.pcre2_dfa_match re data c false ws0).ovector1 = e at hv
    have hb := hK.bounds data c ws0 hc
    rw [hv] at hb
    obtain ⟨hb1, hb2, hb3⟩ := hb
    refine ⟨?_, ?_⟩
    · intro h0
      have := congrArg List.length h0
      simp only [List.length_drop, List.length_nil] at this
      omega
    · intro ws
      have h1 := hK.leftmost data c s ws0 hb1 (by omega) (by rw [hv]; exact Nat.le_refl _)
      rw [hv, hK.shift data s ws0 (by omega)] at h1
      obtain ⟨s1, e1, h2, h3, h4⟩ := Verdict.shift_eq_hold _ _ _ _ h1
      rw [hK.workspace_free _ 0 ws ws0, h2]
      simp only [List.length_drop]
      congr 1 <;> omega
  | again w p d _ hd hst ih =>
    have hv : verdict (M.pcre2_dfa_match re d 0 true w)
        = Verdict.hold (M.pcre2_dfa_match re d 0 true w).ovector0
            (M.pcre2_dfa_match re d 0 true w).ovector1 :=
      (verdict_hold_iff _ _ _).2 ⟨hst, rfl, rfl⟩
    have := hK.resume w p d (by assumption) hd
    rw [hv] at this
    refine ⟨by simp [hd], ?_⟩
    intro ws
    rw [this.2.2 ws, List.length_append]

/-- What a restart from a resume state reports, and what the search of the
pending bytes followed by the new subject reports then. -/
theorem resume_cases (M : Pcre2 P W) (re : Option P) (hK : MatchStepContract M re)
    (w : W) (p d : Bytes) (h : Resumes M re w p) (hd : d ≠ []) :
    (0 ≤ (M.pcre2_dfa_match re d 0 true w).status ∧
      (M.pcre2_dfa_match re d 0 true w).ovector0 = 0 ∧
      (M.pcre2_dfa_match re d 0 true w).ovector1 ≤ d.length ∧
      ∀ ws, verdict (M.pcre2_dfa_match re (p ++ d) 0 false ws)
        = Verdict.hit 0 (p.length + (M.pcre2_dfa_match re d 0 true w).ovector1)) ∨
    ((M.pcre2_dfa_match re d 0 true w).status = PCRE2_ERROR_PARTIAL ∧
      (M.pcre2_dfa_match re d 0 true w).ovector0 = 0 ∧
      (M.pcre2_dfa_match re d 0 true w).ovector1 = d.length ∧
      ∀ ws, verdict (M.pcre2_dfa_match re (p ++ d) 0 false ws)
        = Verdict.hold 0 (p.length + d.length)) ∨
    ((M.pcre2_dfa_match re d 0 true w).status = PCRE2_ERROR_NOMATCH ∧
      ¬ 0 ≤ (M.pcre2_dfa_match re d 0 true w).status ∧
      (M.pcre2_dfa_match re d 0 true w).status ≠ PCRE2_ERROR_PARTIAL ∧
      ∀ ws, (verdict (M.pcre2_dfa_match re (p ++ d) 0 false ws)).from 1) := by
  have := hK.resume w p d h hd
  cases hv : verdict (M.pcre2_dfa_match re d 0 true w) with
  | hit s e =>
    rw [hv] at this
    obtain ⟨a, b, c⟩ := (verdict_hit_iff _ _ _).1 hv
    refine Or.inl ⟨a, ?_, ?_, ?_⟩
    · rw [b]; exact this.1
    · rw [c]; exact this.2.1
    · rw [c]; exact this.2.2
  | hold s e =>
    rw [hv] at this
    obtain ⟨a, b, c⟩ := (verdict_hold_iff _ _ _).1 hv
    refine Or.inr (Or.inl ⟨a, ?_, ?_, this.2.2⟩)
    · rw [b]; exact this.1
    · rw [c]; exact this.2.1
  | miss =>
    rw [hv] at this
    have a := (verdict_miss_iff _).1 hv
    refine Or.inr (Or.inr ⟨a, ?_, ?_, this⟩)
    · rw [a]; decide
    · rw [a]; decide
  | error st => rw [hv] at this; exact absurd this (by simp)

/-! ## The search loop as a relation -/

theorem unchunk_append (a b : List Action) : unchunk (a ++ b) = unchunk a ++ unchunk b := by
  induction a with
  | nil => rfl
  | cons x a ih => simp only [List.cons_append, unchunk, List.append_eq, ih, List.append_assoc]

theorem unchunk_gap (data : Bytes) (a b : Nat) :
    unchunk (gap_actions data a b) = (slice data a (b - a)).map (fun x => Action.out [x]) := by
  unfold gap_actions
  by_cases h : a < b
  · rw [if_pos h]
    simp [unchunk, Action.split]
  · rw [if_neg h]
    have : b - a = 0 := by omega
    simp [unchunk, slice, this]

theorem slice_shift (a x : Bytes) (c n : Nat) :
    slice (a ++ x) (a.length + c) n = slice x c n := by
  unfold slice
  rw [List.drop_append]

theorem gap_shift (a x : Bytes) (c s : Nat) :
    gap_actions (a ++ x) (a.length + c) (a.length + s) = gap_actions x c s := by
  unfold gap_actions
  have e : a.length + s - (a.length + c) = s - c := by omega
  rw [slice_shift, e]
  by_cases h : c < s
  · rw [if_pos h, if_pos (by omega)]
  · rw [if_neg h, if_neg (by omega)]

theorem slice_append_left (x d : Bytes) (a n : Nat) (h : a + n ≤ x.length) :
    slice (x ++ d) a n = slice x a n := by
  unfold slice
  rw [List.drop_append_of_le_length (by omega), List.take_append_of_le_length]
  simp only [List.length_drop]
  omega

theorem gap_append_left (x d : Bytes) (c s : Nat) (h : s ≤ x.length) :
    gap_actions (x ++ d) c s = gap_actions x c s := by
  unfold gap_actions
  by_cases h1 : c < s
  · rw [if_pos h1, if_pos h1, slice_append_left x d c (s - c) (by omega)]
  · rw [if_neg h1, if_neg h1]

theorem slice_split (data : Bytes) (c s t : Nat) (h1 : c ≤ s) (h2 : s ≤ t) :
    slice data c (t - c) = slice data c (s - c) ++ slice data s (t - s) := by
  unfold slice
  have e : t - c = (s - c) + (t - s) := by omega
  rw [e, List.take_add, List.drop_drop]
  congr 3
  omega

/-- The unmatched bytes up to `t`, forwarded in one call or in two. -/
theorem unchunk_gap_split (data : Bytes) (c s t : Nat) (h1 : c ≤ s) (h2 : s ≤ t) :
    unchunk (gap_actions data c t) = unchunk (gap_actions data c s ++ gap_actions data s t) := by
  rw [unchunk_append, unchunk_gap, unchunk_gap, unchunk_gap, slice_split data c s t h1 h2,
    List.map_append]

/-- The loop comes to an end from every cursor inside the subject. -/
theorem Scan_total (M : Pcre2 P W) (re : Option P) (ws : W) (h : Bytes → List Action)
    (hK : MatchStepContract M re) (data : Bytes) :
    ∀ (n c : Nat), c ≤ data.length → data.length - c ≤ n →
      ∃ acts q, Scan M re ws h data c acts q := by
  intro n
  induction n with
  | zero =>
    intro c hc hn
    have hb := hK.bounds data c ws hc
    cases hv : verdict (M.pcre2_dfa_match re data c false ws) with
    | hit s e => rw [hv] at hb; simp only at hb; omega
    | hold s e => exact ⟨_, _, Scan.hold c s e hv⟩
    | miss => exact ⟨_, _, Scan.miss c hv⟩
    | error st => rw [hv] at hb; exact absurd hb (by simp)
  | succ n ih =>
    intro c hc hn
    have hb := hK.bounds data c ws hc
    cases hv : verdict (M.pcre2_dfa_match re data c false ws) with
    | hit s e =>
      rw [hv] at hb
      simp only at hb
      obtain ⟨acts, q, hs⟩ := ih e hb.2.2.1 (by omega)
      exact ⟨_, _, Scan.hit c s e acts q hv hs⟩
    | hold s e => exact ⟨_, _, Scan.hold c s e hv⟩
    | miss => exact ⟨_, _, Scan.miss c hv⟩
    | error st => rw [hv] at hb; exact absurd hb (by simp)

/-- The loop has one result. -/
theorem Scan_det (M : Pcre2 P W) (re : Option P) (ws : W) (h : Bytes → List Action)
    (data : Bytes) (c : Nat) (a1 a2 : List Action) (q1 q2 : Option Bytes)
    (h1 : Scan M re ws h data c a1 q1) (h2 : Scan M re ws h data c a2 q2) :
    a1 = a2 ∧ q1 = q2 := by
  induction h1 generalizing a2 q2 with
  | hit c s e acts q hv _ ih =>
    cases h2 with
    | hit _ s2 e2 acts2 _ hv2 hs2 =>
      rw [hv] at hv2
      injection hv2 with hs he
      subst hs he
      obtain ⟨ha, hq⟩ := ih _ _ hs2
      subst ha hq
      exact ⟨rfl, rfl⟩
    | hold _ s2 e2 hv2 => rw [hv] at hv2; exact absurd hv2 (by simp)
    | miss _ hv2 => rw [hv] at hv2; exact absurd hv2 (by simp)
  | hold c s e hv =>
    cases h2 with
    | hit _ s2 e2 acts2 _ hv2 hs2 => rw [hv] at hv2; exact absurd hv2 (by simp)
    | hold _ s2 e2 hv2 =>
      rw [hv] at hv2
      injection hv2 with hs he
      subst hs he
      exact ⟨rfl, rfl⟩
    | miss _ hv2 => rw [hv] at hv2; exact absurd hv2 (by simp)
  | miss c hv =>
    cases h2 with
    | hit _ s2 e2 acts2 _ hv2 hs2 => rw [hv] at hv2; exact absurd hv2 (by simp)
    | hold _ s2 e2 hv2 => rw [hv] at hv2; exact absurd hv2 (by simp)
    | miss _ hv2 => exact ⟨rfl, rfl⟩

/-- The cursor stays inside the subject. -/
theorem Scan_shift (M : Pcre2 P W) (re : Option P) (ws : W) (h : Bytes → List Action)
    (hK : MatchStepContract M re) (a x : Bytes) (c : Nat) (acts : List Action)
    (q : Option Bytes) (hc : c ≤ x.length) (hs : Scan M re ws h x c acts q) :
    Scan M re ws h (a ++ x) (a.length + c) acts q := by
  induction hs with
  | hit c s e acts q hv _ ih =>
    have hb := hK.bounds x c ws hc
    rw [hv] at hb
    simp only at hb
    have hv2 := front_shift M re hK a x c ws hc
    rw [hv] at hv2
    simp only [Verdict.shift] at hv2
    have := Scan.hit (a.length + c) (s + a.length) (e + a.length) acts q hv2 (by
      rw [Nat.add_comm e]; exact ih hb.2.2.1)
    have e1 : e + a.length - (s + a.length) = e - s := by omega
    rw [Nat.add_comm s, gap_shift, Nat.add_comm a.length s, e1, Nat.add_comm s,
      slice_shift] at this
    exact this
  | hold c s e hv =>
    have hv2 := front_shift M re hK a x c ws hc
    rw [hv] at hv2
    simp only [Verdict.shift] at hv2
    have := Scan.hold (h := h) (a.length + c) (s + a.length) (e + a.length) hv2
    have e1 : e + a.length - (s + a.length) = e - s := by omega
    rw [Nat.add_comm s, gap_shift, Nat.add_comm a.length s, e1, Nat.add_comm s,
      slice_shift] at this
    exact this
  | miss c hv =>
    have hv2 := front_shift M re hK a x c ws hc
    rw [hv] at hv2
    simp only [Verdict.shift] at hv2
    have := Scan.miss (h := h) (a.length + c) hv2
    rw [List.length_append, gap_shift] at this
    exact this

/-- The loop from an earlier cursor with the same first verdict: it forwards
the bytes between the two cursors and then does the same. -/
theorem Scan_move (M : Pcre2 P W) (re : Option P) (ws : W) (h : Bytes → List Action)
    (hK : MatchStepContract M re) (data : Bytes) (c s : Nat) (hcs : c ≤ s)
    (hs : s ≤ data.length)
    (hv : verdict (M.pcre2_dfa_match re data c false ws)
      = verdict (M.pcre2_dfa_match re data s false ws))
    (b a : List Action) (q q1 : Option Bytes)
    (h1 : Scan M re ws h data c b q) (h2 : Scan M re ws h data s a q1) :
    unchunk b = unchunk (gap_actions data c s ++ a) ∧ q = q1 := by
  have hb := hK.bounds data s ws hs
  cases h1 with
  | hit _ s1 e1 acts _ hv1 hr1 =>
    rw [hv] at hv1
    rw [hv1] at hb
    simp only at hb
    cases h2 with
    | hit _ s2 e2 acts2 _ hv2 hr2 =>
      rw [hv1] at hv2
      injection hv2 with hs2 he2
      subst hs2 he2
      obtain ⟨ha, hq⟩ := Scan_det M re ws h data _ _ _ _ _ hr1 hr2
      subst ha hq
      refine ⟨?_, rfl⟩
      simp only [unchunk_append, unchunk_gap_split data c s s1 hcs hb.1, List.append_assoc]
    | hold _ s2 e2 hv2 => rw [hv1] at hv2; exact absurd hv2 (by simp)
    | miss _ hv2 => rw [hv1] at hv2; exact absurd hv2 (by simp)
  | hold _ s1 e1 hv1 =>
    rw [hv] at hv1
    rw [hv1] at hb
    simp only at hb
    cases h2 with
    | hit _ s2 e2 acts2 _ hv2 hr2 => rw [hv1] at hv2; exact absurd hv2 (by simp)
    | hold _ s2 e2 hv2 =>
      rw [hv1] at hv2
      injection hv2 with hs2 he2
      subst hs2 he2
      exact ⟨unchunk_gap_split data c s s1 hcs hb.1, rfl⟩
    | miss _ hv2 => rw [hv1] at hv2; exact absurd hv2 (by simp)
  | miss _ hv1 =>
    rw [hv] at hv1
    cases h2 with
    | hit _ s2 e2 acts2 _ hv2 hr2 => rw [hv1] at hv2; exact absurd hv2 (by simp)
    | hold _ s2 e2 hv2 => rw [hv1] at hv2; exact absurd hv2 (by simp)
    | miss _ hv2 => exact ⟨unchunk_gap_split data c s data.length hcs hs, rfl⟩

/-- The loop over a subject followed by more bytes does what the loop over
the subject does, followed by what the loop over the pending bytes and the
further bytes does. -/
theorem Scan_append (M : Pcre2 P W) (re : Option P) (ws : W) (h : Bytes → List Action)
    (hK : MatchStepContract M re) (x r : Bytes) (c : Nat) (a1 : List Action)
    (q1 : Option Bytes) (h1 : Scan M re ws h x c a1 q1) (hc : c ≤ x.length) :
    ∀ (a2 b : List Action) (q2 q : Option Bytes),
      Scan M re ws h (q1.getD [] ++ r) 0 a2 q2 → Scan M re ws h (x ++ r) c b q →
      unchunk b = unchunk (a1 ++ a2) ∧ q = q2 := by
  induction h1 with
  | hit c s e acts q1 hv _ ih =>
    intro a2 b q2 q h2 hb
    have hbd := hK.bounds x c ws hc
    rw [hv] at hbd
    simp only at hbd
    have hv2 := hK.hit_final x r c ws s e hc hv
    cases hb with
    | hit _ s2 e2 acts2 _ hv3 hr3 =>
      rw [hv2] at hv3
      injection hv3 with hs2 he2
      subst hs2 he2
      obtain ⟨ha, hq⟩ := ih hbd.2.2.1 a2 acts2 q2 q h2 hr3
      refine ⟨?_, hq⟩
      rw [gap_append_left x r c s (by omega), slice_append_left x r s (e - s) (by omega)]
      simp only [unchunk_append, ha, List.append_assoc]
    | hold _ s2 e2 hv3 => rw [hv2] at hv3; exact absurd hv3 (by simp)
    | miss _ hv3 => rw [hv2] at hv3; exact absurd hv3 (by simp)
  | hold c s e hv =>
    intro a2 b q2 q h2 hb
    have hbd := hK.bounds x c ws hc
    rw [hv] at hbd
    simp only at hbd
    obtain ⟨hb1, hb2, hb3⟩ := hbd
    subst hb3
    have hv2 := hK.hold_final x r c ws s _ hc hv
    have e1 : slice x s (x.length - s) = x.drop s := by
      unfold slice
      rw [List.take_of_length_le]
      simp
    simp only [Option.getD_some, e1] at h2
    have h3 := Scan_shift M re ws h hK (x.take s) _ 0 a2 q2 (Nat.zero_le _) h2
    have e2 : (x.take s).length + 0 = s := by
      simp only [List.length_take, Nat.add_zero]
      omega
    rw [e2, ← List.append_assoc, List.take_append_drop] at h3
    obtain ⟨ha, hq⟩ := Scan_move M re ws h hK (x ++ r) c s hb1
      (by simp only [List.length_append]; omega) hv2 b a2 q q2 hb h3
    rw [gap_append_left x r c s (by omega)] at ha
    exact ⟨ha, hq⟩
  | miss c hv =>
    intro a2 b q2 q h2 hb
    have hv2 := hK.miss_final x r c ws hc hv
    simp only [Option.getD_none, List.nil_append] at h2
    have h3 := Scan_shift M re ws h hK x r 0 a2 q2 (Nat.zero_le _) h2
    rw [Nat.add_zero] at h3
    obtain ⟨ha, hq⟩ := Scan_move M re ws h hK (x ++ r) c x.length hc
      (by simp only [List.length_append]; omega) hv2 b a2 q q2 hb h3
    rw [gap_append_left x r c x.length (Nat.le_refl _)] at ha
    exact ⟨ha, hq⟩

/-! ## The code and the relation -/

theorem slice_to_length (data : Bytes) (s : Nat) :
    slice data s (data.length - s) = data.drop s := by
  unfold slice
  rw [List.take_of_length_le]
  simp

/-- The search loop of the code, on a node with no pending bytes, does what
the relation says, and a partial match leaves a resume state. -/
theorem search_scan (M : Pcre2 P W) (re : Option P) (ws : W) (fn : pcre2_finder_match_fn)
    (cb : Nat) (id : Int) (hK : MatchStepContract M re) (data : Bytes) (c : Nat)
    (b : List Action) (q : Option Bytes)
    (hs : Scan M re ws (handler_list fn cb id) data c b q) :
    ∀ (g : pcre2_finder P W) (fuel : Nat), g.re = re → g.matchfn = some fn →
      g.matchcallbackdata = cb → g.matchid = id → g.partialmatch = none →
      c ≤ data.length → data.length - c < fuel →
      ∃ g1, search_actions M data fuel c g = some (0, g1, b) ∧ g1.partialmatch = q ∧
        same_config g g1 ∧ ∀ p, g1.partialmatch = some p → Resumes M re g1.dfaworkspace p := by
  induction hs with
  | hit c s e acts q hv _ ih =>
    intro g fuel hre hfn hcb hid hpm hc hfuel
    subst hre
    obtain ⟨k, rfl⟩ : ∃ k, fuel = k + 1 := ⟨fuel - 1, by omega⟩
    have hb := hK.bounds data c ws hc
    rw [hv] at hb
    simp only at hb
    rw [hK.workspace_free _ _ ws g.dfaworkspace] at hv
    obtain ⟨h0, h1, h2⟩ := (verdict_hit_iff _ _ _).1 hv
    simp only [search_actions]
    generalize M.pcre2_dfa_match g.re data c false g.dfaworkspace = r at h0 h1 h2 ⊢
    subst h1 h2
    rw [if_pos h0]
    have hh : handler_actions (set_workspace g r.workspace)
        (slice data r.ovector0 (r.ovector1 - r.ovector0))
        = some (handler_list fn cb id (slice data r.ovector0 (r.ovector1 - r.ovector0))) := by
      simp only [handler_actions, set_workspace, hfn, hcb, hid, handler_list]
    rw [hh]
    obtain ⟨g1, hg1, hq, hcfg, hres⟩ := ih (set_workspace g r.workspace) k rfl hfn hcb hid hpm
      hb.2.2.1 (by omega)
    rw [hg1]
    exact ⟨g1, rfl, hq,
      same_config_trans (⟨rfl, rfl, rfl, rfl, rfl, rfl⟩ : same_config g _) hcfg, hres⟩
  | hold c s e hv =>
    intro g fuel hre hfn hcb hid hpm hc hfuel
    subst hre
    obtain ⟨k, rfl⟩ : ∃ k, fuel = k + 1 := ⟨fuel - 1, by omega⟩
    have hb := hK.bounds data c ws hc
    rw [hv] at hb
    simp only at hb
    rw [hK.workspace_free _ _ ws g.dfaworkspace] at hv
    obtain ⟨h0, h1, h2⟩ := (verdict_hold_iff _ _ _).1 hv
    have hres : Resumes M g.re _ _ := Resumes.first data c g.dfaworkspace hc h0
    simp only [search_actions]
    generalize M.pcre2_dfa_match g.re data c false g.dfaworkspace = r at h0 h1 h2 hres ⊢
    subst h1 h2
    have hn : ¬ (0 : Int) ≤ r.status := by rw [h0]; decide
    rw [if_neg hn, if_pos h0]
    refine ⟨_, rfl, ?_, ⟨rfl, rfl, rfl, rfl, rfl, rfl⟩, ?_⟩
    · simp [partialmatch_append, set_workspace, hpm]
    · intro p hp
      simp only [partialmatch_append, set_workspace, hpm, Option.getD_none, List.nil_append,
        Option.some.injEq] at hp ⊢
      subst hp
      rw [hb.2.2, slice_to_length]
      exact hres
  | miss c hv =>
    intro g fuel hre hfn hcb hid hpm hc hfuel
    subst hre
    obtain ⟨k, rfl⟩ : ∃ k, fuel = k + 1 := ⟨fuel - 1, by omega⟩
    rw [hK.workspace_free _ _ ws g.dfaworkspace] at hv
    have h0 := (verdict_miss_iff _).1 hv
    simp only [search_actions]
    generalize M.pcre2_dfa_match g.re data c false g.dfaworkspace = r at h0 ⊢
    have hn : ¬ (0 : Int) ≤ r.status := by rw [h0]; decide
    have hn2 : ¬ r.status = PCRE2_ERROR_PARTIAL := by rw [h0]; decide
    rw [if_neg hn, if_neg hn2, if_pos h0]
    refine ⟨_, rfl, ?_, ⟨rfl, rfl, rfl, rfl, rfl, rfl⟩, ?_⟩
    · simp [set_workspace, hpm]
    · intro p hp
      simp [set_workspace, hpm] at hp

theorem slice_zero_append (p d : Bytes) (n : Nat) :
    slice (p ++ d) 0 (p.length + n) = p ++ slice d 0 n := by
  unfold slice
  simp only [List.drop_zero]
  rw [List.take_append]

/-- The loop over no bytes does nothing. -/
theorem Scan_nil (M : Pcre2 P W) (re : Option P) (ws : W) (h : Bytes → List Action)
    (hK : MatchStepContract M re) (b : List Action) (q : Option Bytes)
    (hs : Scan M re ws h [] 0 b q) : b = [] ∧ q = none := by
  have hb := hK.bounds [] 0 ws (Nat.le_refl _)
  cases hs with
  | hit _ s e acts _ hv _ =>
    rw [hv] at hb
    simp only [List.length_nil] at hb
    omega
  | hold _ s e hv =>
    rw [hv] at hb
    simp only [List.length_nil] at hb
    omega
  | miss _ hv => exact ⟨by simp [gap_actions], rfl⟩

/-- The loop over bytes that are a partial match from their first byte keeps
them all. -/
theorem Scan_held (M : Pcre2 P W) (re : Option P) (ws : W) (h : Bytes → List Action)
    (p : Bytes)
    (hp : verdict (M.pcre2_dfa_match re p 0 false ws) = Verdict.hold 0 p.length)
    (b : List Action) (q : Option Bytes)
    (hs : Scan M re ws h p 0 b q) : b = [] ∧ q = some p := by
  cases hs with
  | hit _ s e acts _ hv _ => rw [hp] at hv; exact absurd hv (by simp)
  | hold _ s e hv =>
    rw [hp] at hv
    injection hv with h1 h2
    subst h1 h2
    exact ⟨by simp [gap_actions], by simp [slice]⟩
  | miss _ hv => rw [hp] at hv; exact absurd hv (by simp)

/-- The loop from a cursor, found from the loop over the same bytes with more
bytes in front. -/
theorem Scan_unshift (M : Pcre2 P W) (re : Option P) (ws : W) (h : Bytes → List Action)
    (hK : MatchStepContract M re) (a x : Bytes) (c : Nat) (acts : List Action)
    (q : Option Bytes) (hc : c ≤ x.length)
    (hs : Scan M re ws h (a ++ x) (a.length + c) acts q) : Scan M re ws h x c acts q := by
  obtain ⟨acts1, q1, h1⟩ := Scan_total M re ws h hK x (x.length - c) c hc (Nat.le_refl _)
  have h2 := Scan_shift M re ws h hK a x c acts1 q1 hc h1
  obtain ⟨ha, hq⟩ := Scan_det M re ws h _ _ _ _ _ _ hs h2
  subst ha hq
  exact h1

/-- One call of the body of `pcre2_finder_process`, on a node whose pending
bytes come with a resume state, does what the search loop does over the
pending bytes followed by the chunk, apart from the chunking of the output;
and it leaves a node whose pending bytes come with a resume state. -/
theorem node_scan (M : Pcre2 P W) (f : pcre2_finder P W) (fn : pcre2_finder_match_fn)
    (hK : MatchStepContract M f.re) (hX : NoOverlap M f.re) (hfn : f.matchfn = some fn)
    (hval : ∀ p, f.partialmatch = some p → Resumes M f.re f.dfaworkspace p)
    (d : Bytes) (ws : W) (b : List Action) (q : Option Bytes)
    (hs : Scan M f.re ws (handler_list fn f.matchcallbackdata f.matchid) (pending f ++ d) 0 b q)
    (fuel : Nat) (hfuel : d.length < fuel) :
    ∃ f1 a, node_actions M fuel f d = some (0, f1, a) ∧ unchunk a = unchunk b ∧
      f1.partialmatch = q ∧ same_config f f1 ∧
      ∀ p, f1.partialmatch = some p → Resumes M f1.re f1.dfaworkspace p := by
  simp only [node_actions]
  by_cases h0 : d.length = 0
  · rw [if_pos h0]
    have hd : d = [] := List.length_eq_zero.1 h0
    subst hd
    rw [List.append_nil] at hs
    cases hp : f.partialmatch with
    | none =>
      rw [pending_of_none f hp] at hs
      obtain ⟨hb, hq⟩ := Scan_nil M f.re ws _ hK b q hs
      subst hb hq
      exact ⟨f, [], rfl, rfl, hp, same_config_refl f, hval⟩
    | some p =>
      rw [pending_of_some f p hp] at hs
      obtain ⟨hb, hq⟩ := Scan_held M f.re ws _ p
        ((resumes_hold M f.re hK _ p (hval p hp)).2 ws) b q hs
      subst hb hq
      exact ⟨f, [], rfl, rfl, hp, same_config_refl f, hval⟩
  · rw [if_neg h0]
    have hd : d ≠ [] := fun h => h0 (by rw [h]; rfl)
    cases hp : f.partialmatch with
    | none =>
      rw [pending_of_none f hp, List.nil_append] at hs
      simp only
      obtain ⟨g1, h1, h2, h3, h4⟩ := search_scan M f.re ws fn _ _ hK d 0 b q hs f fuel rfl hfn
        rfl rfl hp (Nat.zero_le _) (by omega)
      refine ⟨g1, b, h1, rfl, h2, h3, ?_⟩
      rw [← h3.2.2.2.2.2]
      exact h4
    | some p =>
      rw [pending_of_some f p hp] at hs
      have hres := hval p hp
      obtain ⟨hpne, hhold⟩ := resumes_hold M f.re hK _ p hres
      have hagain := @Resumes.again P W M f.re f.dfaworkspace p d hres hd
      simp only
      rcases resume_cases M f.re hK f.dfaworkspace p d hres hd with
        ⟨h1, h2, h3, h4⟩ | ⟨h1, h2, h3, h4⟩ | ⟨h1, h2, h3, h4⟩
      · -- the match is completed in the chunk
        generalize M.pcre2_dfa_match f.re d 0 true f.dfaworkspace = r at h1 h2 h3 h4 ⊢
        rw [if_pos h1]
        have hh : handler_actions
            (partialmatch_append (set_workspace f r.workspace)
              (slice d r.ovector0 (r.ovector1 - r.ovector0)))
            ((partialmatch_append (set_workspace f r.workspace)
              (slice d r.ovector0 (r.ovector1 - r.ovector0))).partialmatch.getD [])
            = some (handler_list fn f.matchcallbackdata f.matchid
                (p ++ slice d 0 r.ovector1)) := by
          simp only [handler_actions, partialmatch_append, set_workspace, hfn, handler_list, hp,
            Option.getD_some, h2, Nat.sub_zero]
        rw [hh]
        cases hs with
        | hit _ s e acts _ hv hr =>
          rw [h4 ws] at hv
          injection hv with hs1 he1
          subst hs1 he1
          have hr1 := Scan_unshift M f.re ws _ hK p d r.ovector1 acts q h3 hr
          obtain ⟨g1, e1, e2, e3, e4⟩ := search_scan M f.re ws fn _ _ hK d r.ovector1 acts q hr1
            (partialmatch_clear (partialmatch_append (set_workspace f r.workspace)
              (slice d r.ovector0 (r.ovector1 - r.ovector0)))) fuel rfl hfn rfl rfl rfl h3
            (by omega)
          rw [e1]
          refine ⟨g1, _, rfl, ?_, e2,
            same_config_trans (⟨rfl, rfl, rfl, rfl, rfl, rfl⟩ : same_config f _) e3, ?_⟩
          · simp only [Nat.sub_zero, slice_zero_append, gap_actions, Nat.lt_irrefl, if_false,
              List.nil_append]
          · have : g1.re = f.re := e3.2.2.2.2.2.symm
            rw [this]
            exact e4
        | hold _ s e hv => rw [h4 ws] at hv; exact absurd hv (by simp)
        | miss _ hv => rw [h4 ws] at hv; exact absurd hv (by simp)
      · -- the partial match goes on
        have hres2 := hagain h1
        generalize M.pcre2_dfa_match f.re d 0 true f.dfaworkspace = r at h1 h2 h3 h4 hres2 ⊢
        have hn : ¬ (0 : Int) ≤ r.status := by rw [h1]; decide
        rw [if_neg hn, if_pos h1]
        cases hs with
        | hit _ s e acts _ hv hr => rw [h4 ws] at hv; exact absurd hv (by simp)
        | hold _ s e hv =>
          rw [h4 ws] at hv
          injection hv with hs1 he1
          subst hs1 he1
          have e0 : slice (p ++ d) 0 (p.length + d.length - 0) = p ++ d := by
            simp [slice]
          have e1 : slice d r.ovector0 (r.ovector1 - r.ovector0) = d := by
            rw [h2, h3]
            simp [slice]
          refine ⟨_, [], rfl, ?_, ?_, ⟨rfl, rfl, rfl, rfl, rfl, rfl⟩, ?_⟩
          · simp [gap_actions]
          · simp only [partialmatch_append, set_workspace, hp, Option.getD_some, e0, e1]
          · intro p1 hp1
            simp only [partialmatch_append, set_workspace, hp, Option.getD_some, e1,
              Option.some.injEq] at hp1 ⊢
            subst hp1
            exact hres2
        | miss _ hv => rw [h4 ws] at hv; exact absurd hv (by simp)
      · -- the partial match is given up
        generalize M.pcre2_dfa_match f.re d 0 true f.dfaworkspace = r at h1 h2 h3 h4 ⊢
        rw [if_neg h2, if_neg h3, if_pos h1]
        have hv1 := hX p d ws (hhold ws) (h4 ws)
        have hv2 := front_shift M f.re hK p d 0 ws (Nat.zero_le _)
        obtain ⟨acts, q1, hr1⟩ := Scan_total M f.re ws
          (handler_list fn f.matchcallbackdata f.matchid) hK d d.length 0 (Nat.zero_le _)
          (by omega)
        have hr2 := Scan_shift M f.re ws _ hK p d 0 acts q1 (Nat.zero_le _) hr1
        obtain ⟨ha, hq⟩ := Scan_move M f.re ws _ hK (p ++ d) 0 (p.length + 0) (Nat.zero_le _)
          (by simp only [List.length_append]; omega) (by rw [hv1, hv2]) b acts q q1 hs hr2
        obtain ⟨g1, e1, e2, e3, e4⟩ := search_scan M f.re ws fn _ _ hK d 0 acts q1 hr1
          (partialmatch_clear (set_workspace f r.workspace)) fuel rfl hfn rfl rfl rfl
          (Nat.zero_le _) (by omega)
        rw [e1]
        refine ⟨g1, _, rfl, ?_, by rw [hq]; exact e2,
          same_config_trans (⟨rfl, rfl, rfl, rfl, rfl, rfl⟩ : same_config f _) e3, ?_⟩
        · rw [ha]
          have hlen : 0 < p.length := List.length_pos.2 hpne
          have e5 : slice (p ++ d) 0 (p.length + 0 - 0) = p := by
            simp [slice]
          simp only [gap_actions, Nat.add_zero, hlen, if_true, List.singleton_append]
          rw [Nat.add_zero, Nat.sub_zero] at e5
          rw [Nat.sub_zero, e5]
        · have : g1.re = f.re := e3.2.2.2.2.2.symm
          rw [this]
          exact e4

/-! ## One node, chunk after chunk -/

/-- A call of the body of `pcre2_finder_process` that returned did what the
search loop does over the pending bytes followed by the chunk. -/
theorem node_scan_of_some (M : Pcre2 P W) (re : Option P) (fn : pcre2_finder_match_fn)
    (cb : Nat) (id : Int) (hK : MatchStepContract M re) (hX : NoOverlap M re) (ws : W)
    (f : pcre2_finder P W) (hre : f.re = re) (hfn : f.matchfn = some fn)
    (hcb : f.matchcallbackdata = cb) (hid : f.matchid = id) (hval : Settled M f)
    (d : Bytes) (b : List Action) (q : Option Bytes)
    (hs : Scan M re ws (handler_list fn cb id) (pending f ++ d) 0 b q)
    (k : Nat) (ret : Int) (f1 : pcre2_finder P W) (a : List Action)
    (h : node_actions M k f d = some (ret, f1, a)) :
    ret = 0 ∧ unchunk a = unchunk b ∧ f1.partialmatch = q ∧ same_config f f1 ∧
      Settled M f1 := by
  subst hre hcb hid
  obtain ⟨f2, a2, h2, h3, h4, h5, h6⟩ := node_scan M f fn hK hX hfn hval d ws b q hs
    (max k (d.length + 1)) (by omega)
  have h7 := node_actions_mono M k (max k (d.length + 1)) f d _ (by omega) h
  rw [h2] at h7
  injection h7 with h7
  injection h7 with h8 h9
  injection h9 with h9 h10
  subst h8 h9 h10
  exact ⟨rfl, h3, h4, h5, h6⟩

/-- The calls for a list of chunks, when they returned, did what the search
loop does over the pending bytes followed by all the chunks. -/
theorem node_run_scan (M : Pcre2 P W) (re : Option P) (fn : pcre2_finder_match_fn)
    (cb : Nat) (id : Int) (hK : MatchStepContract M re) (hX : NoOverlap M re) (ws : W)
    (xs : List Bytes) :
    ∀ (f : pcre2_finder P W) (b : List Action) (q : Option Bytes) (k : Nat)
      (f1 : pcre2_finder P W) (a : List Action),
      f.re = re → f.matchfn = some fn → f.matchcallbackdata = cb → f.matchid = id →
      Settled M f →
      Scan M re ws (handler_list fn cb id) (pending f ++ xs.flatten) 0 b q →
      node_run M k f xs = some (f1, a) →
      unchunk a = unchunk b ∧ f1.partialmatch = q ∧ same_config f f1 ∧ Settled M f1 := by
  induction xs with
  | nil =>
    intro f b q k f1 a hre hfn hcb hid hval hs h
    simp only [node_run, Option.some.injEq, Prod.mk.injEq] at h
    obtain ⟨h1, h2⟩ := h
    subst h1 h2
    have h0 : node_actions M 1 f [] = some (0, f, []) := by simp [node_actions]
    obtain ⟨_, e1, e2, e3, e4⟩ := node_scan_of_some M re fn cb id hK hX ws f hre hfn hcb hid hval
      [] b q hs 1 0 f [] h0
    exact ⟨e1, e2, e3, e4⟩
  | cons d ds ih =>
    intro f b q k f1 a hre hfn hcb hid hval hs h
    simp only [node_run] at h
    cases h1 : node_actions M k f d with
    | none => rw [h1] at h; exact absurd h (by simp)
    | some x =>
      obtain ⟨ret, f2, a1⟩ := x
      rw [h1] at h
      simp only at h
      cases h2 : node_run M k f2 ds with
      | none => rw [h2] at h; exact absurd h (by simp)
      | some y =>
        obtain ⟨f3, a2⟩ := y
        rw [h2] at h
        simp only [Option.some.injEq, Prod.mk.injEq] at h
        obtain ⟨h3, h4⟩ := h
        subst h3 h4
        obtain ⟨b1, q1, hs1⟩ := Scan_total M re ws (handler_list fn cb id) hK (pending f ++ d)
          (pending f ++ d).length 0 (Nat.zero_le _) (by omega)
        obtain ⟨_, e1, e2, e3, e4⟩ := node_scan_of_some M re fn cb id hK hX ws f hre hfn hcb hid
          hval d b1 q1 hs1 k ret f2 a1 h1
        have e3c := e3
        obtain ⟨c1, c2, c3, _, _, c6⟩ := e3c
        obtain ⟨b2, q2, hs2⟩ := Scan_total M re ws (handler_list fn cb id) hK
          (pending f2 ++ ds.flatten) (pending f2 ++ ds.flatten).length 0 (Nat.zero_le _)
          (by omega)
        obtain ⟨i1, i2, i3, i4⟩ := ih f2 b2 q2 k f3 a2 (by rw [← c6]; exact hre)
          (by rw [← c1]; exact hfn) (by rw [← c2]; exact hcb) (by rw [← c3]; exact hid) e4 hs2 h2
        have hp : pending f2 = q1.getD [] := by rw [← e2]; rfl
        rw [hp] at hs2
        rw [List.flatten_cons, ← List.append_assoc] at hs
        obtain ⟨j1, j2⟩ := Scan_append M re ws _ hK (pending f ++ d) ds.flatten 0 b1 q1 hs1
          (Nat.zero_le _) b2 b q2 q hs2 hs
        refine ⟨?_, by rw [i2, j2], same_config_trans e3 i3, i4⟩
        rw [j1, unchunk_append, unchunk_append, e1, i1]

theorem same_config_symm {a b : pcre2_finder P W} (h : same_config a b) : same_config b a := by
  obtain ⟨h1, h2, h3, h4, h5, h6⟩ := h
  exact ⟨h1.symm, h2.symm, h3.symm, h4.symm, h5.symm, h6.symm⟩

theorem Alike_symm {M : Pcre2 P W} {a b : pcre2_finder P W} (h : Alike M a b) : Alike M b a := by
  obtain ⟨⟨h1, h2, h3, h4, h5, h6⟩, hp, ha, hb⟩ := h
  exact ⟨⟨h1.symm, h2.symm, h3.symm, h4.symm, h5.symm, h6.symm⟩, hp.symm, hb, ha⟩

theorem Alike_trans {M : Pcre2 P W} {a b c : pcre2_finder P W} (h1 : Alike M a b)
    (h2 : Alike M b c) : Alike M a c :=
  ⟨same_config_trans h1.1 h2.1, h1.2.1.trans h2.2.1, h1.2.2.1, h2.2.2.2⟩

theorem Alike_left {M : Pcre2 P W} {a b : pcre2_finder P W} (h : Alike M a b) : Alike M a a :=
  ⟨same_config_refl a, rfl, h.2.2.1, h.2.2.1⟩

/-- One node shows the same, and ends in states alike, for two lists of chunks
with the same bytes. -/
theorem node_run_agree (M : Pcre2 P W) (f g : pcre2_finder P W)
    (hK : MatchStepContract M f.re) (hX : NoOverlap M f.re) (hm : f.matchfn ≠ none)
    (hfg : Alike M f g) (xs ys : List Bytes) (hxy : xs.flatten = ys.flatten)
    (k k1 : Nat) (f1 g1 : pcre2_finder P W) (a a1 : List Action)
    (h1 : node_run M k f xs = some (f1, a)) (h2 : node_run M k1 g ys = some (g1, a1)) :
    unchunk a = unchunk a1 ∧ Alike M f1 g1 := by
  obtain ⟨⟨c1, c2, c3, c4, c5, c6⟩, hp, hsf, hsg⟩ := hfg
  cases hfn : f.matchfn with
  | none => exact absurd hfn hm
  | some fn =>
    obtain ⟨b, q, hs⟩ := Scan_total M f.re f.dfaworkspace
      (handler_list fn f.matchcallbackdata f.matchid) hK (pending f ++ xs.flatten)
      (pending f ++ xs.flatten).length 0 (Nat.zero_le _) (by omega)
    obtain ⟨e1, e2, e3, e4⟩ := node_run_scan M f.re fn _ _ hK hX f.dfaworkspace xs f b q k f1 a
      rfl hfn rfl rfl hsf hs h1
    have hpg : pending g = pending f := by unfold pending; rw [hp]
    rw [hxy, ← hpg] at hs
    obtain ⟨i1, i2, i3, i4⟩ := node_run_scan M f.re fn _ _ hK hX f.dfaworkspace ys g b q k1 g1 a1
      c6.symm (by rw [← c1]; exact hfn) c2.symm c3.symm hsg hs h2
    refine ⟨by rw [e1, i1], ?_, by rw [e2, i2], e4, i4⟩
    exact same_config_trans
      (same_config_trans (same_config_symm e3) ⟨c1, c2, c3, c4, c5, c6⟩) i3

/-! ## What a run shows -/

theorem observe_append (last : Nat) (a b : List Event) :
    observe last (a ++ b) = observe last a ++ observe last b := by
  induction a with
  | nil => rfl
  | cons e a ih =>
    cases e with
    | output n d =>
      simp only [List.cons_append, observe, List.append_eq]
      by_cases h : n = last
      · rw [if_pos h, if_pos h, ih, List.append_assoc]
      · rw [if_neg h, if_neg h, ih]
    | handler n d cb id => simp only [List.cons_append, observe, List.append_eq, ih]

theorem observe_singles (idx : Nat) (f : pcre2_finder P W) (d : Bytes) :
    observe idx ((d.map (fun b => Action.out [b])).map (Action.event idx f))
      = d.map Obs.byte := by
  induction d with
  | nil => rfl
  | cons x d ih =>
    simp only [List.map_cons, Action.event, observe, if_true, ih, List.map_nil,
      List.singleton_append]

/-- What the terminal node shows depends on its actions only up to the
chunking of the output. -/
theorem observe_unchunk (idx : Nat) (f : pcre2_finder P W) (a : List Action) :
    observe idx (a.map (Action.event idx f))
      = observe idx ((unchunk a).map (Action.event idx f)) := by
  induction a with
  | nil => rfl
  | cons x a ih =>
    cases x with
    | out d =>
      simp only [List.map_cons, unchunk, Action.split, List.map_append, observe_append,
        observe_singles, ← ih, Action.event, observe, if_true]
    | call d =>
      simp only [List.map_cons, unchunk, Action.split, List.singleton_append, Action.event,
        observe, ih, List.append_eq, List.nil_append]

theorem event_same_config (idx : Nat) {f g : pcre2_finder P W} (h : same_config f g)
    (a : List Action) : a.map (Action.event idx f) = a.map (Action.event idx g) := by
  obtain ⟨_, h2, h3, _, _, _⟩ := h
  apply List.map_congr_left
  intro x _
  cases x with
  | out d => rfl
  | call d => simp only [Action.event, h2, h3]

theorem node_run_mono (M : Pcre2 P W) (k k1 : Nat) (hle : k ≤ k1) (xs : List Bytes) :
    ∀ (f : pcre2_finder P W) (x : pcre2_finder P W × List Action),
      node_run M k f xs = some x → node_run M k1 f xs = some x := by
  induction xs with
  | nil => intro f x h; exact h
  | cons d ds ih =>
    intro f x h
    simp only [node_run] at h ⊢
    cases h1 : node_actions M k f d with
    | none => rw [h1] at h; exact absurd h (by simp)
    | some y =>
      obtain ⟨ret, f2, a1⟩ := y
      rw [h1] at h
      rw [node_actions_mono M k k1 f d _ hle h1]
      simp only at h ⊢
      cases h2 : node_run M k f2 ds with
      | none => rw [h2] at h; exact absurd h (by simp)
      | some z =>
        rw [h2] at h
        rw [ih f2 z h2]
        exact h

theorem feed_fuel_mono (M : Pcre2 P W) (k k1 : Nat) (hle : k ≤ k1) (idx : Nat)
    (f : pcre2_finder P W) (acts : List Action) (rest : List (pcre2_finder P W))
    (x : List (pcre2_finder P W) × List Event)
    (h : feed (pcre2_finder_process M k (idx + 1)) idx f acts rest = Except.ok x) :
    feed (pcre2_finder_process M k1 (idx + 1)) idx f acts rest = Except.ok x :=
  feed_mono _ _ (fun rest d o ho => process_mono M k k1 (idx + 1) rest d o hle ho) idx f acts
    rest x h

theorem feed_append_ok (next : List (pcre2_finder P W) → Bytes → Except Fault (Outcome P W))
    (idx : Nat) (f : pcre2_finder P W) (a b : List Action) (rest r : List (pcre2_finder P W))
    (ev : List Event) :
    feed next idx f (a ++ b) rest = Except.ok (r, ev) ↔
      ∃ r1 e1 e2, feed next idx f a rest = Except.ok (r1, e1) ∧
        feed next idx f b r1 = Except.ok (r, e2) ∧ ev = e1 ++ e2 := by
  rw [feed_append]
  constructor
  · intro h
    cases h1 : feed next idx f a rest with
    | error e => rw [h1] at h; exact absurd h (by simp)
    | ok x =>
      obtain ⟨r1, e1⟩ := x
      rw [h1] at h
      simp only at h
      cases h2 : feed next idx f b r1 with
      | error e => rw [h2] at h; exact absurd h (by simp)
      | ok y =>
        obtain ⟨r2, e2⟩ := y
        rw [h2] at h
        simp only [Except.ok.injEq, Prod.mk.injEq] at h
        obtain ⟨ha, hb⟩ := h
        subst ha hb
        exact ⟨r1, e1, e2, rfl, h2, rfl⟩
  · rintro ⟨r1, e1, e2, h1, h2, he⟩
    rw [h1]
    simp only
    rw [h2, he]

/-! ## A chain, chunk after chunk -/

/-- The calls for a list of chunks on a chain: the head node makes its
actions chunk after chunk, and the nodes after it receive them all. -/
theorem process_from_decompose (M : Pcre2 P W) (idx : Nat) (xs : List Bytes) :
    ∀ (f : pcre2_finder P W) (rest : List (pcre2_finder P W)) (fuel : Nat) (o : Outcome P W),
      process_from M fuel idx (f :: rest) xs = Except.ok o →
      ∃ k f1 acts rest1, node_run M k f xs = some (f1, acts) ∧
        feed (pcre2_finder_process M k (idx + 1)) idx f acts rest = Except.ok (rest1, o.events) ∧
        o.chain = f1 :: rest1 := by
  induction xs with
  | nil =>
    intro f rest fuel o h
    simp only [process_from, Except.ok.injEq] at h
    subst h
    exact ⟨0, f, [], rest, rfl, rfl, rfl⟩
  | cons x xs ih =>
    intro f rest fuel o h
    simp only [process_from] at h
    cases h1 : pcre2_finder_process M fuel idx (f :: rest) x with
    | error e => rw [h1] at h; exact absurd h (by simp)
    | ok o1 =>
      rw [h1] at h
      simp only at h
      cases h2 : process_from M fuel idx o1.chain xs with
      | error e => rw [h2] at h; exact absurd h (by simp)
      | ok o2 =>
        rw [h2] at h
        simp only [Except.ok.injEq] at h
        subst h
        cases fuel with
        | zero => simp [pcre2_finder_process] at h1
        | succ k =>
          have hfr := (process_frame M (k + 1) idx (f :: rest) x o1 h1).1
          obtain ⟨f1, a1, rest1, e1, e2, e3⟩ := (process_cons_iff M k idx f rest x o1).1 h1
          rw [e3] at h2 hfr
          obtain ⟨k2, f2, a2, rest2, i1, i2, i3⟩ := ih f1 rest1 (k + 1) o2 h2
          have hcfg : same_config f f1 := by
            cases hfr with
            | cons hh _ => exact hh
          refine ⟨max k k2, f2, a1 ++ a2, rest2, ?_, ?_, i3⟩
          · simp only [node_run]
            rw [node_actions_mono M k (max k k2) f x _ (by omega) e1]
            simp only
            rw [node_run_mono M k2 (max k k2) (by omega) xs f1 _ i1]
          · refine (feed_append_ok _ idx f a1 a2 rest rest2 _).2 ⟨rest1, o1.events, o2.events,
              feed_fuel_mono M k _ (by omega) idx f a1 rest _ e2, ?_, rfl⟩
            rw [feed_congr _ idx hcfg]
            exact feed_fuel_mono M k2 _ (by omega) idx f1 a2 rest1 _ i2

/-- The output calls of a node that is not the terminal node are the calls of
`pcre2_finder_process` on the node after it. -/
theorem feed_outs_process (M : Pcre2 P W) (idx last : Nat) (hne : idx ≠ last)
    (f : pcre2_finder P W) (h1 : f.outputfn = some OutputFn.process)
    (h2 : f.outputcallbackdata = CallbackData.next) (xs : List Bytes) :
    ∀ (rest : List (pcre2_finder P W)) (fuel : Nat) (r : List (pcre2_finder P W))
      (ev : List Event),
      feed (pcre2_finder_process M fuel (idx + 1)) idx f (xs.map Action.out) rest
        = Except.ok (r, ev) →
      ∃ o, process_from M fuel (idx + 1) rest xs = Except.ok o ∧ o.chain = r ∧
        observe last o.events = observe last ev := by
  induction xs with
  | nil =>
    intro rest fuel r ev h
    simp only [List.map_nil, feed, Except.ok.injEq, Prod.mk.injEq] at h
    obtain ⟨ha, hb⟩ := h
    subst ha hb
    exact ⟨_, rfl, rfl, rfl⟩
  | cons x xs ih =>
    intro rest fuel r ev h
    simp only [List.map_cons, feed, call_outputfn, h1, h2] at h
    simp only [process_from]
    cases hp : pcre2_finder_process M fuel (idx + 1) rest x with
    | error e => rw [hp] at h; exact absurd h (by simp)
    | ok o1 =>
      rw [hp] at h
      simp only at h ⊢
      cases hf : feed (pcre2_finder_process M fuel (idx + 1)) idx f (List.map Action.out xs)
          o1.chain with
      | error e => rw [hf] at h; exact absurd h (by simp)
      | ok y =>
        obtain ⟨r1, e1⟩ := y
        rw [hf] at h
        simp only [Except.ok.injEq, Prod.mk.injEq] at h
        obtain ⟨ha, hb⟩ := h
        subst ha hb
        obtain ⟨o2, i1, i2, i3⟩ := ih o1.chain fuel r1 e1 hf
        rw [i1]
        refine ⟨_, rfl, i2, ?_⟩
        simp only [List.cons_append, observe, if_neg hne, List.append_eq, observe_append, i3]

theorem Sound_tail (M : Pcre2 P W) (f g : pcre2_finder P W) (rest : List (pcre2_finder P W))
    (h : Sound M (f :: g :: rest)) : Sound M (g :: rest) :=
  ⟨Ready_tail M f g rest h.1, fun x hx => h.2 x (List.mem_cons_of_mem f hx)⟩

theorem Sound_of_same_config (M : Pcre2 P W) {c c1 : List (pcre2_finder P W)}
    (h : List.Forall₂ same_config c c1) (hs : Sound M c) : Sound M c1 := by
  refine ⟨Ready_of_same_config M h hs.1, ?_⟩
  have hall := hs.2
  clear hs
  induction h with
  | nil => intro f hf; simp at hf
  | @cons a b l l1 hab _ ih =>
    intro f hf
    rcases List.mem_cons.1 hf with h1 | h1
    · subst h1
      rw [← hab.2.2.2.2.2]
      exact hall a (List.mem_cons_self _ _)
    · exact ih (fun x hx => hall x (List.mem_cons_of_mem a hx)) f h1

theorem Alike_list_config (M : Pcre2 P W) {c c1 : List (pcre2_finder P W)}
    (h : List.Forall₂ (Alike M) c c1) : List.Forall₂ same_config c c1 := by
  induction h with
  | nil => exact List.Forall₂.nil
  | cons hab _ ih => exact List.Forall₂.cons hab.1 ih

theorem Alike_list_symm (M : Pcre2 P W) {c c1 : List (pcre2_finder P W)}
    (h : List.Forall₂ (Alike M) c c1) : List.Forall₂ (Alike M) c1 c := by
  induction h with
  | nil => exact List.Forall₂.nil
  | cons hab _ ih => exact List.Forall₂.cons (Alike_symm hab) ih

theorem Alike_list_left (M : Pcre2 P W) {c c1 : List (pcre2_finder P W)}
    (h : List.Forall₂ (Alike M) c c1) : List.Forall₂ (Alike M) c c := by
  induction h with
  | nil => exact List.Forall₂.nil
  | cons hab _ ih => exact List.Forall₂.cons (Alike_left hab) ih

theorem Alike_list_trans (M : Pcre2 P W) {a b c : List (pcre2_finder P W)}
    (h1 : List.Forall₂ (Alike M) a b) (h2 : List.Forall₂ (Alike M) b c) :
    List.Forall₂ (Alike M) a c := by
  induction h1 generalizing c with
  | nil => cases h2; exact List.Forall₂.nil
  | cons hab _ ih =>
    cases h2 with
    | cons hbc h3 => exact List.Forall₂.cons (Alike_trans hab hbc) (ih h3)

theorem process_from_frame (M : Pcre2 P W) (fuel idx : Nat) (chunks : List Bytes) :
    ∀ (chain : List (pcre2_finder P W)) (o : Outcome P W),
      process_from M fuel idx chain chunks = Except.ok o →
      List.Forall₂ same_config chain o.chain := by
  induction chunks with
  | nil =>
    intro chain o h
    simp only [process_from] at h
    injection h with h
    subst h
    exact same_config_list_refl chain
  | cons c cs ih =>
    intro chain o h
    simp only [process_from] at h
    cases h1 : pcre2_finder_process M fuel idx chain c with
    | error e => rw [h1] at h; exact absurd h (by simp)
    | ok o1 =>
      rw [h1] at h
      simp only at h
      cases h2 : process_from M fuel idx o1.chain cs with
      | error e => rw [h2] at h; exact absurd h (by simp)
      | ok o2 =>
        rw [h2] at h
        injection h with h
        subst h
        exact same_config_list_trans (process_frame M fuel idx chain c o1 h1).1 (ih o1.chain o2 h2)

theorem process_all_eq_from (M : Pcre2 P W) (fuel : Nat) (chunks : List Bytes) :
    ∀ chain : List (pcre2_finder P W),
      process_all M fuel chain chunks = process_from M fuel 0 chain chunks := by
  induction chunks with
  | nil => intro chain; rfl
  | cons c cs ih =>
    intro chain
    simp only [process_all, process_from]
    cases pcre2_finder_process M fuel 0 chain c with
    | error e => rfl
    | ok o => simp only [ih]

/-- The terminal node shows the same for two lists of actions that differ
only in the chunking of the output. -/
theorem feed_agree_zero (M : Pcre2 P W) (last : Nat) : FeedAgree M last 0 := by
  intro idx f f1 rest rest1 a a1 fuel fuel1 r r1 ev ev1 hlen hlast hsound hcfg halike hun h1 h2
  have hr : rest = [] := List.length_eq_zero.1 hlen
  subst hr
  cases halike
  have ho := hsound.1.1
  simp only [Opened] at ho
  obtain ⟨fn, cb, o1, o2⟩ := ho
  rw [feed_user _ idx f fn cb o1 o2] at h1
  rw [feed_user _ idx f1 fn cb (by rw [← hcfg.2.2.2.1]; exact o1)
    (by rw [← hcfg.2.2.2.2.1]; exact o2)] at h2
  simp only [Except.ok.injEq, Prod.mk.injEq] at h1 h2
  obtain ⟨e1, e2⟩ := h1
  obtain ⟨e3, e4⟩ := h2
  subst e1 e2 e3 e4
  have hl : last = idx := by omega
  subst hl
  refine ⟨?_, List.Forall₂.nil⟩
  rw [observe_unchunk, observe_unchunk last f1, hun, event_same_config last hcfg]

/-- A chain shows the same for two lists of chunks with the same bytes, when
the nodes after its head do for the actions of the head. -/
theorem chunks_agree_of_feed (M : Pcre2 P W) (last n : Nat) (hF : FeedAgree M last n) :
    ChunksAgree M last n := by
  intro idx c c1 xs ys fuel fuel1 o o1 hlen hlast hsound halike hxy h1 h2
  cases halike with
  | nil => simp at hlen
  | @cons f g rest rest1 hfg hrest =>
    obtain ⟨k, f2, acts, r, e1, e2, e3⟩ := process_from_decompose M idx xs f rest fuel o h1
    obtain ⟨k1, g2, acts1, r1, i1, i2, i3⟩ := process_from_decompose M idx ys g rest1 fuel1 o1 h2
    have hf := hsound.2 f (List.mem_cons_self _ _)
    have hm := (hsound.1.2 f (List.mem_cons_self _ _)).1
    obtain ⟨j1, j2⟩ := node_run_agree M f g hf.1 hf.2 hm hfg xs ys hxy k k1 f2 g2 acts acts1 e1 i1
    obtain ⟨j3, j4⟩ := hF idx f g rest rest1 acts acts1 k k1 r r1 o.events o1.events
      (by simpa using hlen) hlast hsound hfg.1 hrest j1 e2 i2
    rw [e3, i3]
    exact ⟨j3, List.Forall₂.cons j2 j4⟩

theorem flatten_singles (d : Bytes) : (d.map (fun b => [b])).flatten = d := by
  induction d with
  | nil => rfl
  | cons x d ih => simp only [List.map_cons, List.flatten_cons, ih, List.singleton_append]

/-- The nodes after a node show the same for two lists of actions that differ
only in the chunking of the output, when they do so for two lists of chunks
with the same bytes. -/
theorem feed_agree_succ (M : Pcre2 P W) (last n : Nat) (hC : ChunksAgree M last n) :
    FeedAgree M last (n + 1) := by
  intro idx f f1 rest rest1 a a1 fuel fuel1 r r1 ev ev1 hlen hlast hsound hcfg halike hun h1 h2
  obtain ⟨g, rs, hrest⟩ : ∃ g rs, rest = g :: rs := by
    cases rest with
    | nil => simp at hlen
    | cons g rs => exact ⟨g, rs, rfl⟩
  have ho := hsound.1.1
  rw [hrest] at ho
  simp only [Opened] at ho
  have hne : idx ≠ last := by omega
  have hst : Sound M rest := by
    rw [hrest] at hsound ⊢
    exact Sound_tail M f g rs hsound
  have hG : ∀ (a : List Action) (u u1 : List (pcre2_finder P W)) (k k1 : Nat)
      (r r1 : List (pcre2_finder P W)) (ev ev1 : List Event),
      u.length = n + 1 → Sound M u → List.Forall₂ (Alike M) u u1 →
      feed (pcre2_finder_process M k (idx + 1)) idx f a u = Except.ok (r, ev) →
      feed (pcre2_finder_process M k1 (idx + 1)) idx f (unchunk a) u1 = Except.ok (r1, ev1) →
      observe last ev = observe last ev1 ∧ List.Forall₂ (Alike M) r r1 := by
    intro a
    induction a with
    | nil =>
      intro u u1 k k1 r r1 ev ev1 _ _ hal h h'
      simp only [feed, unchunk, Except.ok.injEq, Prod.mk.injEq] at h h'
      obtain ⟨e1, e2⟩ := h
      obtain ⟨e3, e4⟩ := h'
      subst e1 e2 e3 e4
      exact ⟨rfl, hal⟩
    | cons x a0 ih =>
      intro u u1 k k1 r r1 ev ev1 hu hsu hal h h'
      cases x with
      | call d =>
        simp only [unchunk, Action.split, List.singleton_append] at h'
        simp only [feed] at h h'
        cases hf : feed (pcre2_finder_process M k (idx + 1)) idx f a0 u with
        | error e => rw [hf] at h; exact absurd h (by simp)
        | ok y =>
          obtain ⟨ra, ea⟩ := y
          rw [hf] at h
          simp only [Except.ok.injEq, Prod.mk.injEq] at h
          obtain ⟨e1, e2⟩ := h
          subst e1 e2
          cases hf' : feed (pcre2_finder_process M k1 (idx + 1)) idx f (unchunk a0) u1 with
          | error e => rw [hf'] at h'; exact absurd h' (by simp)
          | ok z =>
            obtain ⟨rb, eb⟩ := z
            rw [hf'] at h'
            simp only [Except.ok.injEq, Prod.mk.injEq] at h'
            obtain ⟨e3, e4⟩ := h'
            subst e3 e4
            obtain ⟨i1, i2⟩ := ih u u1 k k1 ra rb ea eb hu hsu hal hf hf'
            exact ⟨by simp only [observe, i1], i2⟩
      | out d =>
        rw [← List.singleton_append] at h
        obtain ⟨rA, eA, eB, hA1, hA2, hA3⟩ := (feed_append_ok _ idx f _ _ u r ev).1 h
        simp only [unchunk, Action.split] at h'
        obtain ⟨rB, eA', eB', hB1, hB2, hB3⟩ := (feed_append_ok _ idx f _ _ u1 r1 ev1).1 h'
        have e : d.map (fun b => Action.out [b]) = (d.map (fun b => [b])).map Action.out := by
          rw [List.map_map]
          rfl
        rw [e] at hB1
        obtain ⟨o, p1, p2, p3⟩ := feed_outs_process M idx last hne f ho.1 ho.2.1 [d] u k rA eA hA1
        obtain ⟨o', q1, q2, q3⟩ := feed_outs_process M idx last hne f ho.1 ho.2.1 _ u1 k1 rB eA'
          hB1
        obtain ⟨j1, j2⟩ := hC (idx + 1) u u1 [d] (d.map (fun b => [b])) k k1 o o' hu (by omega)
          hsu hal (by rw [flatten_singles]; simp) p1 q1
        have hfr := process_from_frame M k (idx + 1) [d] u o p1
        rw [p2] at hfr j2
        rw [q2] at j2
        obtain ⟨i1, i2⟩ := ih rA rB k k1 r r1 eB eB' (by rw [← hfr.length_eq]; exact hu)
          (Sound_of_same_config M hfr hsu) j2 hA2 hB2
        refine ⟨?_, i2⟩
        rw [hA3, hB3, observe_append, observe_append, ← p3, ← q3, j1, i1]
  obtain ⟨km, xm, hm, _⟩ := feed_total M idx f (n + 1)
    (fun c d hl hr => process_total M (n + 1) c hl hr (idx + 1) d) (unchunk a) rest hlen hsound.1
  obtain ⟨rm, evm⟩ := xm
  obtain ⟨p1, p2⟩ := hG a rest rest fuel km r rm ev evm hlen hst (Alike_list_left M halike) h1 hm
  rw [← feed_congr _ idx hcfg a1 rest1] at h2
  rw [hun] at hm
  have hlen1 : rest1.length = n + 1 := by rw [← halike.length_eq]; exact hlen
  obtain ⟨p3, p4⟩ := hG a1 rest1 rest fuel1 km r1 rm ev1 evm hlen1
    (Sound_of_same_config M (Alike_list_config M halike) hst) (Alike_list_symm M halike) h2 hm
  exact ⟨p1.trans p3.symm, Alike_list_trans M p2 (Alike_list_symm M p4)⟩

/-- Every chain shows the same for two lists of chunks with the same bytes,
and every tail of a chain for two lists of actions that differ only in the
chunking of the output. -/
theorem agree_all (M : Pcre2 P W) (last : Nat) :
    ∀ n, FeedAgree M last n ∧ ChunksAgree M last n := by
  intro n
  induction n with
  | zero => exact ⟨feed_agree_zero M last, chunks_agree_of_feed M last 0 (feed_agree_zero M last)⟩
  | succ n ih =>
    have h := feed_agree_succ M last n ih.2
    exact ⟨h, chunks_agree_of_feed M last (n + 1) h⟩

/-! ## Close, and the whole session -/

theorem Sound_rest (M : Pcre2 P W) (f : pcre2_finder P W) (rest : List (pcre2_finder P W))
    (h : Sound M (f :: rest)) : rest = [] ∨ Sound M rest := by
  cases rest with
  | nil => exact Or.inl rfl
  | cons g rs => exact Or.inr (Sound_tail M f g rs h)

/-- From states alike, `pcre2_finder_close` shows the same. -/
theorem close_agree (M : Pcre2 P W) (last : Nat) :
    ∀ (c c1 : List (pcre2_finder P W)) (n n1 idx fuel fuel1 : Nat)
      (x x1 : List (pcre2_finder P W)) (ev ev1 : List Event),
      (c = [] ∨ Sound M c) → List.Forall₂ (Alike M) c c1 → last + 1 = idx + c.length →
      close_loop M fuel n idx c = Except.ok (x, ev) →
      close_loop M fuel1 n1 idx c1 = Except.ok (x1, ev1) →
      observe last ev = observe last ev1 := by
  intro c
  generalize hm : c.length = m
  induction m generalizing c with
  | zero =>
    intro c1 n n1 idx fuel fuel1 x x1 ev ev1 _ hal _ h h1
    have hc0 : c = [] := List.length_eq_zero.1 hm
    subst hc0
    cases hal
    simp only [close_loop, Except.ok.injEq, Prod.mk.injEq] at h h1
    rw [← h.2, ← h1.2]
  | succ m ih =>
    intro c1 n n1 idx fuel fuel1 x x1 ev ev1 hs hal hlast h h1
    obtain ⟨f, rest, hc0⟩ : ∃ f rest, c = f :: rest := by
      cases c with
      | nil => simp at hm
      | cons f rest => exact ⟨f, rest, rfl⟩
    subst hc0
    simp only [List.length_cons, Nat.add_right_cancel_iff] at hm
    have hsound : Sound M (f :: rest) := by
      rcases hs with hs | hs
      · exact absurd hs (by simp)
      · exact hs
    cases hal with
    | @cons _ g _ rest1 hfg hrest =>
      cases n with
      | zero => simp [close_loop] at h
      | succ n =>
        cases n1 with
        | zero => simp [close_loop] at h1
        | succ n1 =>
          simp only [close_loop, pcre2_finder_output] at h h1
          rw [← hfg.2.1] at h1
          cases hp : f.partialmatch with
          | none =>
            rw [hp] at h h1
            simp only at h h1
            cases hc : close_loop M fuel n (idx + 1) rest with
            | error e => rw [hc] at h; exact absurd h (by simp)
            | ok y =>
              obtain ⟨ra, ea⟩ := y
              rw [hc] at h
              cases hc1 : close_loop M fuel1 n1 (idx + 1) rest1 with
              | error e => rw [hc1] at h1; exact absurd h1 (by simp)
              | ok z =>
                obtain ⟨rb, eb⟩ := z
                rw [hc1] at h1
                simp only [Except.ok.injEq, Prod.mk.injEq] at h h1
                rw [← h.2, ← h1.2]
                exact ih rest hm rest1 n n1 (idx + 1) fuel fuel1 ra rb ea eb
                  (Sound_rest M f rest hsound) hrest (by omega) hc hc1
          | some p =>
            rw [hp] at h h1
            simp only at h h1
            cases ho : call_outputfn (pcre2_finder_process M fuel (idx + 1)) idx f rest p with
            | error e => rw [ho] at h; exact absurd h (by simp)
            | ok o =>
              rw [ho] at h
              simp only at h
              cases ho1 : call_outputfn (pcre2_finder_process M fuel1 (idx + 1)) idx g rest1 p with
              | error e => rw [ho1] at h1; exact absurd h1 (by simp)
              | ok o1 =>
                rw [ho1] at h1
                simp only at h1
                have hf : feed (pcre2_finder_process M fuel (idx + 1)) idx f [Action.out p] rest
                    = Except.ok (o.chain, o.events ++ []) := by
                  simp only [feed, ho]
                have hf1 : feed (pcre2_finder_process M fuel1 (idx + 1)) idx g [Action.out p] rest1
                    = Except.ok (o1.chain, o1.events ++ []) := by
                  simp only [feed, ho1]
                obtain ⟨j1, j2⟩ := (agree_all M last rest.length).1 idx f g rest rest1 _ _ fuel
                  fuel1 _ _ _ _ rfl (by omega) hsound hfg.1 hrest rfl hf hf1
                rw [List.append_nil, List.append_nil] at j1
                have hfr := (call_outputfn_spec M fuel idx f rest p o ho).1
                cases hc : close_loop M fuel n (idx + 1) o.chain with
                | error e => rw [hc] at h; exact absurd h (by simp)
                | ok y =>
                  obtain ⟨ra, ea⟩ := y
                  rw [hc] at h
                  cases hc1 : close_loop M fuel1 n1 (idx + 1) o1.chain with
                  | error e => rw [hc1] at h1; exact absurd h1 (by simp)
                  | ok z =>
                    obtain ⟨rb, eb⟩ := z
                    rw [hc1] at h1
                    simp only [Except.ok.injEq, Prod.mk.injEq] at h h1
                    rw [← h.2, ← h1.2, observe_append, observe_append, j1]
                    congr 1
                    have hs2 : o.chain = [] ∨ Sound M o.chain := by
                      rcases Sound_rest M f rest hsound with hr | hr
                      · rw [hr] at hfr
                        exact Or.inl (List.length_eq_zero.1 (by rw [← hfr.length_eq]; rfl))
                      · exact Or.inr (Sound_of_same_config M hfr hr)
                    have hlen := hfr.length_eq
                    exact ih o.chain (by omega) o1.chain n n1 (idx + 1) fuel fuel1 ra rb ea eb hs2
                      j2 (by omega) hc hc1

theorem process_from_mono (M : Pcre2 P W) (fuel fuel1 : Nat) (hle : fuel ≤ fuel1) (idx : Nat)
    (xs : List Bytes) :
    ∀ (chain : List (pcre2_finder P W)) (o : Outcome P W),
      process_from M fuel idx chain xs = Except.ok o →
      process_from M fuel1 idx chain xs = Except.ok o := by
  induction xs with
  | nil => intro chain o h; exact h
  | cons x xs ih =>
    intro chain o h
    simp only [process_from] at h ⊢
    cases h1 : pcre2_finder_process M fuel idx chain x with
    | error e => rw [h1] at h; exact absurd h (by simp)
    | ok o1 =>
      rw [h1] at h
      rw [process_mono M fuel fuel1 idx chain x o1 hle h1]
      simp only at h ⊢
      cases h2 : process_from M fuel idx o1.chain xs with
      | error e => rw [h2] at h; exact absurd h (by simp)
      | ok o2 =>
        rw [h2] at h
        rw [ih o1.chain o2 h2]
        exact h

/-- On a ready chain the calls for a list of chunks all return, with enough
fuel. -/
theorem process_from_total (M : Pcre2 P W) (idx : Nat) (xs : List Bytes) :
    ∀ chain : List (pcre2_finder P W), Ready M chain →
      ∃ fuel o, process_from M fuel idx chain xs = Except.ok o := by
  induction xs with
  | nil => intro chain _; exact ⟨0, _, rfl⟩
  | cons x xs ih =>
    intro chain hr
    obtain ⟨f1, o1, h1⟩ := process_total M chain.length chain rfl hr idx x
    have hr1 := Ready_of_same_config M (process_frame M f1 idx chain x o1 h1).1 hr
    obtain ⟨f2, o2, h2⟩ := ih o1.chain hr1
    refine ⟨max f1 f2, { o2 with events := o1.events ++ o2.events }, ?_⟩
    simp only [process_from]
    rw [process_mono M f1 (max f1 f2) idx chain x o1 (by omega) h1]
    simp only
    rw [process_from_mono M f2 (max f1 f2) (by omega) idx xs o1.chain o2 h2]

theorem Alike_list_refl (M : Pcre2 P W) (c : List (pcre2_finder P W))
    (h : ∀ f ∈ c, f.partialmatch = none) : List.Forall₂ (Alike M) c c := by
  induction c with
  | nil => exact List.Forall₂.nil
  | cons f c ih =>
    have hf := h f (List.mem_cons_self _ _)
    have hs : Settled M f := by
      intro p hp
      rw [hf] at hp
      exact absurd hp (by simp)
    exact List.Forall₂.cons ⟨same_config_refl f, rfl, hs, hs⟩
      (ih (fun g hg => h g (List.mem_cons_of_mem f hg)))

/-- C1, as amended. On an opened chain with no pending bytes, whose matcher
keeps the `match_step` contract for the pattern of every node and reports no
match that begins inside a partial match it has given up, a session
(`pcre2_finder_process` once per chunk, then `pcre2_finder_close`) returns for
every list of chunks, with enough fuel, and shows what the session with all
the bytes in one chunk shows: the same bytes at the terminal sink and the same
handler invocations (node, matched bytes, callback data, match id), in the
same order. -/
theorem chunking_transparent (M : Pcre2 P W) (chain : List (pcre2_finder P W))
    (chunks : List Bytes) (hsound : Sound M chain)
    (hfresh : ∀ f ∈ chain, f.partialmatch = none) :
    ∃ fuel0, ∀ fuel, fuel0 ≤ fuel →
      ∃ o1 o2, session M fuel chain chunks = Except.ok o1 ∧
        session M fuel chain [chunks.flatten] = Except.ok o2 ∧
        observe (chain.length - 1) o1.events = observe (chain.length - 1) o2.events := by
  obtain ⟨fa, oa, ha⟩ := process_from_total M 0 chunks chain hsound.1
  obtain ⟨fb, ob, hb⟩ := process_from_total M 0 [chunks.flatten] chain hsound.1
  have hfa := process_from_frame M fa 0 chunks chain oa ha
  have hfb := process_from_frame M fb 0 [chunks.flatten] chain ob hb
  have hsa := Sound_of_same_config M hfa hsound
  have hsb := Sound_of_same_config M hfb hsound
  obtain ⟨fc, xa, hca⟩ := close_total M oa.chain hsa.1
  obtain ⟨fd, xb, hcb⟩ := close_total M ob.chain hsb.1
  have hne : chain.length = (chain.length - 1) + 1 := by
    have ho := hsound.1.1
    cases chain with
    | nil => exact absurd ho (by simp [Opened])
    | cons f c => simp
  obtain ⟨j1, j2⟩ := (agree_all M (chain.length - 1) (chain.length - 1)).2 0 chain chain chunks
    [chunks.flatten] fa fb oa ob hne (by omega) hsound (Alike_list_refl M chain hfresh)
    (by simp) ha hb
  have j3 := close_agree M (chain.length - 1) oa.chain ob.chain _ _ 0 fc fd xa.1 xb.1 xa.2 xb.2
    (Or.inr hsa) j2 (by rw [← hfa.length_eq]; omega) (hca fc (Nat.le_refl _))
    (hcb fd (Nat.le_refl _))
  refine ⟨max (max fa fb) (max fc fd), fun fuel hle => ?_⟩
  have ha1 := process_from_mono M fa fuel (by omega) 0 chunks chain oa ha
  have hb1 := process_from_mono M fb fuel (by omega) 0 [chunks.flatten] chain ob hb
  refine ⟨{ ret := 0, chain := xa.1, events := oa.events ++ xa.2 },
    { ret := 0, chain := xb.1, events := ob.events ++ xb.2 }, ?_, ?_, ?_⟩
  · simp only [session, process_all_eq_from, ha1, pcre2_finder_close, hca fuel (by omega)]
  · simp only [session, process_all_eq_from, hb1, pcre2_finder_close, hcb fuel (by omega)]
  · simp only [observe_append, j1, j3]

/-! ## Chunking on the small matcher -/

/-- A pattern of two literal bytes is a partial match after one byte only. -/
theorem walk_pair_more (a b : Char) (p : Bytes) (w : Rx)
    (h : walk (Rx.seq (Rx.byte a) (Rx.byte b)) p 0 = Walk.more w) : p.length = 1 := by
  cases p with
  | nil => simp [walk, Rx.nullable, Rx.dead] at h
  | cons x xs =>
    cases xs with
    | nil => rfl
    | cons y zs =>
      exfalso
      rw [walk_cons_live _ x _ 0 (by simp [Rx.nullable]) (by simp [Rx.dead])] at h
      by_cases hx : x = a
      · rw [walk_cons_live _ y _ _ (by simp [Rx.nullable, Rx.deriv, hx])
          (by simp [Rx.dead, Rx.deriv, hx])] at h
        by_cases hy : y = b
        · rw [walk_of_nullable _ _ _ (by simp [Rx.nullable, Rx.deriv, hx, hy])] at h
          exact absurd h (by simp)
        · rw [walk_of_dead _ _ _ (by simp [Rx.nullable, Rx.deriv, hx, hy])
            (by simp [Rx.dead, Rx.deriv, hx, hy])] at h
          exact absurd h (by simp)
      · rw [walk_of_dead _ _ _ (by simp [Rx.nullable, Rx.deriv, hx])
          (by simp [Rx.dead, Rx.deriv, hx])] at h
        exact absurd h (by simp)

/-- With a pattern that is a partial match after one byte only, no match
begins inside a partial match given up. -/
theorem rx_no_overlap (r : Rx) (hr : r.nullable = false)
    (h1 : ∀ p w, walk r p 0 = Walk.more w → p.length = 1) : NoOverlap rx (some r) := by
  intro p d ws hp hfrom
  rw [rx_scan r _ 0 ws (Nat.zero_le _), List.drop_zero] at hp hfrom ⊢
  rw [rx_scan r _ 0 ws (Nat.zero_le _), List.drop_zero]
  cases p with
  | nil => rw [verdict_bump_nil r hr] at hp; exact absurd hp (by simp)
  | cons x xs =>
    have hlen : xs = [] := by
      rw [verdict_bump_cons] at hp
      cases hw : walk r (x :: xs) 0 with
      | matched n => rw [hw] at hp; exact absurd hp (by simp)
      | failed =>
        rw [hw] at hp
        have := bump_verdict_from r hr xs (0 + 1)
        simp only at hp
        rw [hp] at this
        simp only [Verdict.from] at this
        omega
      | more w =>
        have := h1 _ _ hw
        simp only [List.length_cons] at this
        exact List.length_eq_zero.1 (by omega)
    subst hlen
    simp only [List.singleton_append, List.length_singleton] at hfrom ⊢
    rw [verdict_bump_cons] at hfrom ⊢
    cases hw : walk r (x :: d) 0 with
    | matched n => rw [hw] at hfrom; simp only [Verdict.from] at hfrom; omega
    | more w => rw [hw] at hfrom; simp only [Verdict.from] at hfrom; omega
    | failed => exact bump_shift r hr d (0 + 1)

theorem sound_ab_xa :
    Sound rx (rx_chain [counting ['a', 'b'] 0, counting ['x', 'a'] 1]
      pcre2_finder_output_to_null 0) := by
  refine ⟨ready_ab_xa, ?_⟩
  intro f hf
  simp [rx_chain, counting, add_exprs, pcre2_finder_add_expr, pcre2_finder_initialize, fresh,
    pcre2_finder_open, open_loop, rx, rx_compile] at hf
  rcases hf with h | h
  · subst h
    exact ⟨rx_contract _ rfl, rx_no_overlap _ rfl (walk_pair_more 'a' 'b')⟩
  · subst h
    exact ⟨rx_contract _ rfl, rx_no_overlap _ rfl (walk_pair_more 'x' 'a')⟩

/-- C1, the claim as stated fails. The small matcher keeps the `match_step`
contract for the pattern `aab`. The input `aaab` in one chunk: the byte `a`
goes to the sink and the handler is invoked with `aab`. The same input in the
chunks `aa` and `ab`: the first chunk is kept as a partial match, the second
does not continue it, so `aa` is flushed as plain content and the search goes
on in `ab` alone; all four bytes go to the sink and the handler is never
invoked. -/
theorem chunking_changes_matches :
    MatchStepContract rx (some (Rx.seq (Rx.byte 'a') (Rx.seq (Rx.byte 'a') (Rx.byte 'b')))) ∧
    Ready rx (rx_chain [counting ['a', 'a', 'b'] 0] pcre2_finder_output_to_null 0) ∧
    (rx_chain [counting ['a', 'a', 'b'] 0] pcre2_finder_output_to_null 0).map (fun f => f.re)
      = [some (Rx.seq (Rx.byte 'a') (Rx.seq (Rx.byte 'a') (Rx.byte 'b')))] ∧
    (match session rx 4 (rx_chain [counting ['a', 'a', 'b'] 0] pcre2_finder_output_to_null 0)
        [['a', 'a', 'a', 'b']] with
      | Except.ok o => some (observe 0 o.events)
      | Except.error _ => none)
      = some [Obs.byte 'a', Obs.call 0 ['a', 'a', 'b'] 0 0] ∧
    (match session rx 4 (rx_chain [counting ['a', 'a', 'b'] 0] pcre2_finder_output_to_null 0)
        [['a', 'a'], ['a', 'b']] with
      | Except.ok o => some (observe 0 o.events)
      | Except.error _ => none)
      = some [Obs.byte 'a', Obs.byte 'a', Obs.byte 'a', Obs.byte 'b'] := by
  refine ⟨rx_contract _ rfl, ⟨?_, ?_⟩, rfl, rfl, rfl⟩
  · simp [rx_chain, counting, add_exprs, pcre2_finder_add_expr, pcre2_finder_initialize, fresh,
      pcre2_finder_open, open_loop, rx, rx_compile, Opened]
  · intro f hf
    simp [rx_chain, counting, add_exprs, pcre2_finder_add_expr, pcre2_finder_initialize, fresh,
      pcre2_finder_open, open_loop, rx, rx_compile] at hf
    subst hf
    exact ⟨by simp, rx_advances _ rfl⟩

/-- C1 on the small matcher: two nodes with the patterns `ab` and `xa`, the
input `xaby` in the chunks `xa` and `by`, and in one chunk. -/
theorem chunking_transparent_witness :
    Sound rx (rx_chain [counting ['a', 'b'] 0, counting ['x', 'a'] 1]
      pcre2_finder_output_to_null 0) ∧
    (∀ f ∈ rx_chain [counting ['a', 'b'] 0, counting ['x', 'a'] 1] pcre2_finder_output_to_null 0,
      f.partialmatch = none) ∧
    ∃ fuel0, ∀ fuel, fuel0 ≤ fuel →
      ∃ o1 o2,
        session rx fuel (rx_chain [counting ['a', 'b'] 0, counting ['x', 'a'] 1]
          pcre2_finder_output_to_null 0) [['x', 'a'], ['b', 'y']] = Except.ok o1 ∧
        session rx fuel (rx_chain [counting ['a', 'b'] 0, counting ['x', 'a'] 1]
          pcre2_finder_output_to_null 0) [[['x', 'a'], ['b', 'y']].flatten] = Except.ok o2 ∧
        observe ((rx_chain [counting ['a', 'b'] 0, counting ['x', 'a'] 1]
            pcre2_finder_output_to_null 0).length - 1) o1.events
          = observe ((rx_chain [counting ['a', 'b'] 0, counting ['x', 'a'] 1]
            pcre2_finder_output_to_null 0).length - 1) o2.events :=
  ⟨sound_ab_xa, by decide,
    chunking_transparent rx _ [['x', 'a'], ['b', 'y']] sound_ab_xa (by decide)⟩

/-! ## The bindings `pcre2_finder_open` makes -/

theorem open_loop_length (fn : pcre2_finder_output_fn) (cb : Nat) :
    ∀ l : List (pcre2_finder P W), (open_loop fn cb l).length = l.length := by
  intro l
  induction l with
  | nil => rfl
  | cons a l ih => simp only [open_loop, List.length_cons, ih]

/-- The node at position `i` after the loop of `pcre2_finder_open`: bound to
`pcre2_finder_process` and its next node when it has one, to the function and
the callback data of the caller when it is the last one. -/
theorem open_loop_get (fn : pcre2_finder_output_fn) (cb : Nat) :
    ∀ (l : List (pcre2_finder P W)) (i : Nat) (node : pcre2_finder P W),
      (open_loop fn cb l).get? i = some node →
      (i + 1 < l.length → node.outputfn = some OutputFn.process ∧
        node.outputcallbackdata = CallbackData.next) ∧
      (i + 1 = l.length → node.outputfn = some (OutputFn.user fn) ∧
        node.outputcallbackdata = CallbackData.user cb) := by
  intro l
  induction l with
  | nil => intro i node h; simp [open_loop] at h
  | cons a l ih =>
    intro i node h
    cases i with
    | zero =>
      simp only [open_loop, List.get?_cons_zero, Option.some.injEq] at h
      subst h
      cases l with
      | nil => simp
      | cons b l => simp
    | succ i =>
      simp only [open_loop, List.get?_cons_succ] at h
      obtain ⟨h1, h2⟩ := ih i node h
      simp only [List.length_cons]
      exact ⟨fun hlt => h1 (by omega), fun heq => h2 (by omega)⟩

theorem open_loop_idem (fn : pcre2_finder_output_fn) (cb : Nat) :
    ∀ l : List (pcre2_finder P W), open_loop fn cb (open_loop fn cb l) = open_loop fn cb l := by
  intro l
  induction l with
  | nil => rfl
  | cons a l ih =>
    cases l with
    | nil => simp [open_loop]
    | cons b l =>
      have e : open_loop fn cb (a :: b :: l)
          = { a with outputfn := some OutputFn.process,
                     outputcallbackdata := CallbackData.next } :: open_loop fn cb (b :: l) := by
        simp only [open_loop]
      rw [e]
      have e2 : ∃ c l2, open_loop fn cb (b :: l) = c :: l2 := by
        simp only [open_loop]
        exact ⟨_, _, rfl⟩
      obtain ⟨c, l2, hc⟩ := e2
      rw [hc] at ih ⊢
      simp only [open_loop] at ih ⊢
      rw [ih]

theorem open_loop_opened (fn : pcre2_finder_output_fn) (cb : Nat) :
    ∀ l : List (pcre2_finder P W), l ≠ [] → Opened (open_loop fn cb l) := by
  intro l
  induction l with
  | nil => intro h; exact absurd rfl h
  | cons a l ih =>
    intro _
    cases l with
    | nil => simp [open_loop, Opened]
    | cons b l =>
      have := ih (by simp)
      simp only [open_loop] at this ⊢
      simp only [Opened]
      exact ⟨trivial, trivial, this⟩

/-- C11. When `pcre2_finder_open` returns 0 the chain has at least one node and
keeps its nodes; every node with a node after it has `outputfn` bound to
`pcre2_finder_process` and `outputcallbackdata` to that next node, so that its
output call runs `pcre2_finder_process` on the next node with the same bytes
(the same nodes afterwards, the same events after the call itself, and as
returned value the `int` status read as a `size_t`); the last node has
`outputfn` and `outputcallbackdata` bound to the function and the callback data
of the caller, so that its output call is that function on that data; and
`pcre2_finder_open` with the same arguments on the opened chain returns 0 and
leaves it as it is. -/
theorem open_daisy_chains (finder : Chain P W) (fn : pcre2_finder_output_fn) (cb : Nat)
    (h : (pcre2_finder_open finder (some fn) cb).1 = 0) :
    0 < finder.nodes.length ∧
    (pcre2_finder_open finder (some fn) cb).2.nodes.length = finder.nodes.length ∧
    (∀ (i : Nat) (node : pcre2_finder P W),
      (pcre2_finder_open finder (some fn) cb).2.nodes.get? i = some node →
      (i + 1 < finder.nodes.length →
        node.outputfn = some OutputFn.process ∧
        node.outputcallbackdata = CallbackData.next ∧
        ∀ (M : Pcre2 P W) (fuel : Nat) (rest : List (pcre2_finder P W)) (d : Bytes),
          pcre2_finder_output M fuel i node rest d =
            match pcre2_finder_process M fuel (i + 1) rest d with
            | Except.ok o =>
              Except.ok { ret := status_as_size_t o.ret, chain := o.chain,
                          events := Event.output i d :: o.events }
            | Except.error e => Except.error e) ∧
      (i + 1 = finder.nodes.length →
        node.outputfn = some (OutputFn.user fn) ∧
        node.outputcallbackdata = CallbackData.user cb ∧
        ∀ (M : Pcre2 P W) (fuel : Nat) (rest : List (pcre2_finder P W)) (d : Bytes),
          pcre2_finder_output M fuel i node rest d =
            Except.ok { ret := fn cb d, chain := rest, events := [Event.output i d] })) ∧
    pcre2_finder_open (pcre2_finder_open finder (some fn) cb).2 (some fn) cb
      = (0, (pcre2_finder_open finder (some fn) cb).2) := by
  obtain ⟨nodes, last⟩ := finder
  cases nodes with
  | nil => simp [pcre2_finder_open] at h
  | cons head tl =>
    simp only [pcre2_finder_open] at h ⊢
    by_cases hc : last = 0 ∧ head.re.isNone = true
    · rw [if_pos hc] at h
      simp at h
    · rw [if_neg hc]
      simp only
      refine ⟨by simp, open_loop_length fn cb _, ?_, ?_⟩
      · intro i node hn
        obtain ⟨h1, h2⟩ := open_loop_get fn cb (head :: tl) i node hn
        refine ⟨fun hlt => ?_, fun heq => ?_⟩
        · obtain ⟨a, b⟩ := h1 hlt
          refine ⟨a, b, ?_⟩
          intro M fuel rest d
          cases hpr : pcre2_finder_process M fuel (i + 1) rest d <;>
            simp [pcre2_finder_output, call_outputfn, a, b, hpr]
        · obtain ⟨a, b⟩ := h2 heq
          refine ⟨a, b, ?_⟩
          intro M fuel rest d
          simp only [pcre2_finder_output, call_outputfn, a, b]
      · have e : ∃ c l2, open_loop fn cb (head :: tl) = c :: l2 ∧ c.re = head.re := by
          cases tl with
          | nil => exact ⟨_, _, rfl, rfl⟩
          | cons b l => exact ⟨_, _, rfl, rfl⟩
        obtain ⟨c, l2, e1, e2⟩ := e
        have hi := open_loop_idem fn cb (head :: tl)
        rw [e1] at hi ⊢
        simp only
        rw [e2, if_neg hc, hi]

/-- C11 on a chain of two nodes set up through `pcre2_finder_add_expr`; and the
value an output call through the daisy chain returns when the next node fails:
the status `PCRE2_ERROR_DFA_WSSIZE` of the second node comes back from
`pcre2_finder_output` of the first as 4294967253. -/
theorem open_daisy_chains_witness :
    (pcre2_finder_open (add_exprs rx Rx.nothing ( pcre2_finder_initialize Rx.nothing)
        [counting ['a', 'b'] 0, counting ['x', 'a'] 1]).2
      (some pcre2_finder_output_to_null) 7).1 = 0 ∧
    (pcre2_finder_open (add_exprs rx Rx.nothing ( pcre2_finder_initialize Rx.nothing)
        [counting ['a', 'b'] 0, counting ['x', 'a'] 1]).2
      (some pcre2_finder_output_to_null) 7).2.nodes.length = 2 ∧
    (pcre2_finder_open (add_exprs rx Rx.nothing ( pcre2_finder_initialize Rx.nothing)
        [counting ['a', 'b'] 0, counting ['x', 'a'] 1]).2
      (some pcre2_finder_output_to_null) 7).2.nodes.map (fun n => n.outputcallbackdata)
      = [CallbackData.next, CallbackData.user 7] ∧
    (match (pcre2_finder_open (add_exprs rx_small Rx.nothing
          ( pcre2_finder_initialize Rx.nothing) [counting ['b'] 0, counting ['a', '+'] 1]).2
        (some pcre2_finder_output_to_null) 7).2.nodes with
      | node :: rest =>
        (match pcre2_finder_output rx_small 3 0 node rest ['x'] with
          | Except.ok o => some (o.ret, o.events)
          | Except.error _ => none)
      | [] => none)
      = some (4294967253, [Event.output 0 ['x']]) :=
  ⟨rfl,
    (open_daisy_chains (add_exprs rx Rx.nothing ( pcre2_finder_initialize Rx.nothing)
        [counting ['a', 'b'] 0, counting ['x', 'a'] 1]).2 pcre2_finder_output_to_null 7 rfl).2.1,
    rfl, by decide⟩

/-! ## What the handler returns -/

/-- C12, what the code does. The value the handler returns is dropped: with
the pattern `a` and a handler that returns 1 (and forwards nothing), the chunk
`axa` makes `pcre2_finder_process` invoke the handler for the first `a`,
forward `x`, invoke the handler again for the second `a`, and return 0. -/
theorem handler_return_ignored :
    (match pcre2_finder_process rx 4 0
        (rx_chain [{ expr := ['a'], flags := 0,
                     matchfn := some (fun _ _ _ => { outputs := [], ret := 1 }),
                     callbackdata := 0, matchid := 0 }] pcre2_finder_output_to_null 0)
        ['a', 'x', 'a'] with
      | Except.ok o => some (o.ret, o.events)
      | Except.error _ => none)
      = some (0, [Event.handler 0 ['a'] 0 0, Event.output 0 ['x'],
                  Event.handler 0 ['a'] 0 0]) := by
  rfl

/-! ## A chain that was not opened -/

/-- A node with no output function carries out its actions only when none of
them is an output call. -/
theorem feed_unbound (next : List (pcre2_finder P W) → Bytes → Except Fault (Outcome P W))
    (idx : Nat) (f : pcre2_finder P W) (hf : f.outputfn = none) (acts : List Action) :
    ∀ (rest r : List (pcre2_finder P W)) (ev : List Event),
      feed next idx f acts rest = Except.ok (r, ev) ↔
        (∀ a ∈ acts, ∃ d, a = Action.call d) ∧ r = rest ∧
          ev = acts.map (Action.event idx f) := by
  induction acts with
  | nil =>
    intro rest r ev
    simp only [feed, Except.ok.injEq, Prod.mk.injEq, List.map_nil, List.not_mem_nil,
      false_implies, implies_true, true_and]
    constructor
    · rintro ⟨a, b⟩; exact ⟨a.symm, b.symm⟩
    · rintro ⟨a, b⟩; exact ⟨a.symm, b.symm⟩
  | cons x acts ih =>
    intro rest r ev
    cases x with
    | out d =>
      simp only [feed, call_outputfn, hf]
      constructor
      · intro h; exact absurd h (by simp)
      · rintro ⟨h, _, _⟩
        obtain ⟨d1, hd1⟩ := h (Action.out d) (List.mem_cons_self _ _)
        exact absurd hd1 (by simp)
    | call d =>
      simp only [feed]
      constructor
      · intro h
        cases hfd : feed next idx f acts rest with
        | error e => rw [hfd] at h; exact absurd h (by simp)
        | ok y =>
          obtain ⟨r1, e1⟩ := y
          rw [hfd] at h
          simp only [Except.ok.injEq, Prod.mk.injEq] at h
          obtain ⟨a1, a2, a3⟩ := (ih rest r1 e1).1 hfd
          refine ⟨?_, by rw [← h.1, a2], by rw [← h.2, a3]; rfl⟩
          intro a ha
          rcases List.mem_cons.1 ha with h1 | h1
          · exact ⟨d, h1⟩
          · exact a1 a h1
      · rintro ⟨a1, a2, a3⟩
        have := (ih rest rest (acts.map (Action.event idx f))).2
          ⟨fun a ha => a1 a (List.mem_cons_of_mem _ ha), rfl, rfl⟩
        rw [this, a2, a3]
        rfl

/-- C14, as amended. `pcre2_finder_process` does not look at the output
binding before it searches. On a node with no output function it returns
exactly when the search of the chunk has no byte to forward: it then returns
the status of the search (0 when the matcher reports no error) after invoking
the handler for every match, and no output function. When a byte has to be
forwarded the call goes through the `NULL` pointer and there is no result. -/
theorem unopened_process (M : Pcre2 P W) (fuel idx : Nat) (f : pcre2_finder P W)
    (rest : List (pcre2_finder P W)) (data : Bytes) (o : Outcome P W)
    (hf : f.outputfn = none) :
    pcre2_finder_process M (fuel + 1) idx (f :: rest) data = Except.ok o ↔
      ∃ f1 acts, node_actions M fuel f data = some (o.ret, f1, acts) ∧
        (∀ a ∈ acts, ∃ d, a = Action.call d) ∧
        o.events = acts.map (Action.event idx f) ∧ o.chain = f1 :: rest ∧
        ∀ e ∈ o.events, ∃ d, e = Event.handler idx d f.matchcallbackdata f.matchid := by
  rw [process_cons_iff]
  constructor
  · rintro ⟨f1, acts, rest1, h1, h2, h3⟩
    obtain ⟨a1, a2, a3⟩ := (feed_unbound _ idx f hf acts rest rest1 o.events).1 h2
    subst a2
    refine ⟨f1, acts, h1, a1, a3, h3, ?_⟩
    intro e he
    rw [a3] at he
    obtain ⟨a, ha, hea⟩ := List.mem_map.1 he
    obtain ⟨d, hd⟩ := a1 a ha
    subst hd
    exact ⟨d, hea.symm⟩
  · rintro ⟨f1, acts, h1, h2, h3, h4, _⟩
    exact ⟨f1, acts, rest, h1, (feed_unbound _ idx f hf acts rest rest o.events).2 ⟨h2, rfl, h3⟩,
      h4⟩

/-- C14, the claim as stated fails. A chain with the pattern `a` that was never
opened: no node has an output function. On the chunk `a`,
`pcre2_finder_process` returns 0 and has invoked the handler; on the chunk
`xa` there is no result, the byte `x` being forwarded through the `NULL`
pointer. -/
theorem unopened_chain_not_rejected :
    (add_exprs rx Rx.nothing ( pcre2_finder_initialize Rx.nothing)
        [counting ['a'] 0]).2.nodes.map (fun n => n.outputfn.isNone) = [true] ∧
    (match pcre2_finder_process rx 3 0
        (add_exprs rx Rx.nothing ( pcre2_finder_initialize Rx.nothing)
          [counting ['a'] 0]).2.nodes ['a'] with
      | Except.ok o => some (o.ret, o.events)
      | Except.error _ => none) = some (0, [Event.handler 0 ['a'] 0 0]) ∧
    (match pcre2_finder_process rx 3 0
        (add_exprs rx Rx.nothing ( pcre2_finder_initialize Rx.nothing)
          [counting ['a'] 0]).2.nodes ['x', 'a'] with
      | Except.ok o => some (o.ret, o.events)
      | Except.error _ => none) = none := by
  refine ⟨rfl, rfl, rfl⟩

/-- C14 on the small matcher: the node `pcre2_finder_add_expr` sets up for the
pattern `a`, not opened, and the chunk `a`. -/
theorem unopened_process_witness :
    (node_of Rx.nothing (counting ['a'] 0) (Rx.byte 'a')).outputfn = none ∧
    ∃ f1 acts,
      node_actions rx 2 (node_of Rx.nothing (counting ['a'] 0) (Rx.byte 'a')) ['a']
        = some (0, f1, acts) ∧
      (∀ a ∈ acts, ∃ d, a = Action.call d) := by
  refine ⟨rfl, ?_⟩
  obtain ⟨f1, acts, h1, h2, _⟩ := (unopened_process rx 2 0
    (node_of Rx.nothing (counting ['a'] 0) (Rx.byte 'a')) [] ['a']
    { ret := 0, chain := [partialmatch_clear (set_workspace
        (node_of Rx.nothing (counting ['a'] 0) (Rx.byte 'a')) (Rx.byte 'a'))],
      events := [Event.handler 0 ['a'] 0 0] } rfl).1 rfl
  exact ⟨f1, acts, h1, h2⟩

/-! ## Sessions over the same bytes -/

theorem same_config_get (c c1 : List (pcre2_finder P W)) (h : List.Forall₂ same_config c c1) :
    ∀ (i : Nat) (b : pcre2_finder P W), c1.get? i = some b →
      ∃ a, c.get? i = some a ∧ same_config a b := by
  induction h with
  | nil => intro i b hb; simp at hb
  | @cons x y l l1 hxy _ ih =>
    intro i b hb
    cases i with
    | zero =>
      simp only [List.get?_cons_zero, Option.some.injEq] at hb
      subst hb
      exact ⟨x, rfl, hxy⟩
    | succ i =>
      simp only [List.get?_cons_succ] at hb ⊢
      exact ih i b hb

/-- Start positions at which the attempt fails are passed over. -/
theorem bump_skip (r : Rx) (p d : Bytes) :
    ∀ j : Nat, j ≤ p.length → (∀ k, k < j → walk r (p.drop k ++ d) 0 = Walk.failed) →
      verdict (bump r (p ++ d) 0) = verdict (bump r (p.drop j ++ d) j) := by
  intro j
  induction j with
  | zero => intro _ _; rfl
  | succ j ih =>
    intro hj h
    rw [ih (by omega) (fun k hk => h k (by omega))]
    have hw := h j (by omega)
    obtain ⟨y, hy⟩ : ∃ y, p.drop j = y :: p.drop (j + 1) := by
      have hlt : j < p.length := by omega
      exact ⟨p[j], by rw [List.drop_eq_getElem_cons hlt]⟩
    rw [hy, List.cons_append] at hw ⊢
    rw [verdict_bump_cons, hw]

/-- With a pattern no partial match of which holds the start of another
attempt that does not fail at once, no match begins inside a partial match
given up. -/
theorem rx_no_overlap_of (r : Rx) (hr : r.nullable = false)
    (h : ∀ p w, walk r p 0 = Walk.more w → ∀ k, 0 < k → k < p.length →
      ∀ d, walk r (p.drop k ++ d) 0 = Walk.failed) : NoOverlap rx (some r) := by
  intro p d ws hp hfrom
  rw [rx_scan r _ 0 ws (Nat.zero_le _), List.drop_zero] at hp hfrom ⊢
  rw [rx_scan r _ 0 ws (Nat.zero_le _), List.drop_zero]
  cases p with
  | nil => rw [verdict_bump_nil r hr] at hp; exact absurd hp (by simp)
  | cons x xs =>
    have hmore : ∃ w, walk r (x :: xs) 0 = Walk.more w := by
      rw [verdict_bump_cons] at hp
      cases hw : walk r (x :: xs) 0 with
      | matched n => rw [hw] at hp; exact absurd hp (by simp)
      | failed =>
        rw [hw] at hp
        have := bump_verdict_from r hr xs (0 + 1)
        simp only at hp
        rw [hp] at this
        simp only [Verdict.from] at this
        omega
      | more w => exact ⟨w, rfl⟩
    obtain ⟨w, hw⟩ := hmore
    have h0 : walk r ((x :: xs) ++ d) 0 = Walk.failed := by
      rw [List.cons_append, verdict_bump_cons] at hfrom
      rw [List.cons_append]
      cases hw2 : walk r (x :: (xs ++ d)) 0 with
      | matched n => rw [hw2] at hfrom; simp only [Verdict.from] at hfrom; omega
      | more w2 => rw [hw2] at hfrom; simp only [Verdict.from] at hfrom; omega
      | failed => rfl
    rw [bump_skip r (x :: xs) d (x :: xs).length (Nat.le_refl _) (fun k hk => by
      cases k with
      | zero => exact h0
      | succ k => exact h _ _ hw (k + 1) (by omega) hk d)]
    rw [List.drop_length, List.nil_append]
    exact bump_shift r hr d _

/-- A pattern of three literal bytes is a partial match after one or two
bytes only. -/
theorem walk_triple_more (a b c : Char) (p : Bytes) (w : Rx)
    (h : walk (Rx.seq (Rx.byte a) (Rx.seq (Rx.byte b) (Rx.byte c))) p 0 = Walk.more w) :
    p = [a] ∨ p = [a, b] := by
  cases p with
  | nil => simp [walk, Rx.nullable, Rx.dead] at h
  | cons x xs =>
    rw [walk_cons_live _ x _ 0 (by simp [Rx.nullable]) (by simp [Rx.dead])] at h
    by_cases hx : x = a
    · subst hx
      cases xs with
      | nil => exact Or.inl rfl
      | cons y ys =>
        rw [walk_cons_live _ y _ _ (by simp [Rx.nullable, Rx.deriv])
          (by simp [Rx.dead, Rx.deriv])] at h
        by_cases hy : y = b
        · subst hy
          cases ys with
          | nil => exact Or.inr rfl
          | cons z zs =>
            exfalso
            rw [walk_cons_live _ z _ _ (by simp [Rx.nullable, Rx.deriv])
              (by simp [Rx.dead, Rx.deriv])] at h
            by_cases hz : z = c
            · rw [walk_of_nullable _ _ _ (by simp [Rx.nullable, Rx.deriv, hz])] at h
              exact absurd h (by simp)
            · rw [walk_of_dead _ _ _ (by simp [Rx.nullable, Rx.deriv, hz])
                (by simp [Rx.dead, Rx.deriv, hz])] at h
              exact absurd h (by simp)
        · rw [walk_of_dead _ _ _ (by simp [Rx.nullable, Rx.deriv, hy])
            (by simp [Rx.dead, Rx.deriv, hy])] at h
          exact absurd h (by simp)
    · rw [walk_of_dead _ _ _ (by simp [Rx.nullable, Rx.deriv, hx])
        (by simp [Rx.dead, Rx.deriv, hx])] at h
      exact absurd h (by simp)

/-- For a pattern of three literal bytes whose second byte differs from the
first, no match begins inside a partial match given up. -/
theorem rx_no_overlap_triple (a b c : Char) (hab : b ≠ a) :
    NoOverlap rx (some (Rx.seq (Rx.byte a) (Rx.seq (Rx.byte b) (Rx.byte c)))) := by
  apply rx_no_overlap_of (Rx.seq (Rx.byte a) (Rx.seq (Rx.byte b) (Rx.byte c))) rfl
  intro p w hw k hk0 hk d
  rcases walk_triple_more a b c p w hw with hp | hp
  · subst hp
    simp only [List.length_singleton] at hk
    omega
  · subst hp
    simp only [List.length_cons, List.length_singleton, List.length_nil] at hk
    have hk1 : k = 1 := by omega
    subst hk1
    simp only [List.drop_succ_cons, List.drop_zero, List.singleton_append]
    rw [walk_cons_live _ b _ 0 (by simp [Rx.nullable]) (by simp [Rx.dead])]
    exact walk_of_dead _ _ _ (by simp [Rx.nullable, Rx.deriv, hab])
      (by simp [Rx.dead, Rx.deriv, hab])

theorem session_mono (M : Pcre2 P W) (fuel fuel1 : Nat) (hle : fuel ≤ fuel1)
    (chain : List (pcre2_finder P W)) (xs : List Bytes) (o : Outcome P W)
    (h : session M fuel chain xs = Except.ok o) : session M fuel1 chain xs = Except.ok o := by
  simp only [session, process_all_eq_from] at h ⊢
  cases h1 : process_from M fuel 0 chain xs with
  | error e => rw [h1] at h; exact absurd h (by simp)
  | ok o1 =>
    rw [h1] at h
    rw [process_from_mono M fuel fuel1 hle 0 xs chain o1 h1]
    simp only at h ⊢
    cases h2 : pcre2_finder_close M fuel o1.chain with
    | error e => rw [h2] at h; exact absurd h (by simp)
    | ok o2 =>
      rw [h2] at h
      rw [close_mono M fuel fuel1 hle o1.chain o2 h2]
      exact h

/-- On a sound chain with no pending bytes, two sessions over lists of chunks
with the same bytes return, with enough fuel, and show the same. -/
theorem session_agree (M : Pcre2 P W) (chain : List (pcre2_finder P W))
    (xs ys : List Bytes) (hxy : xs.flatten = ys.flatten) (hsound : Sound M chain)
    (hfresh : ∀ f ∈ chain, f.partialmatch = none) :
    ∃ fuel0, ∀ fuel, fuel0 ≤ fuel →
      ∃ o1 o2, session M fuel chain xs = Except.ok o1 ∧
        session M fuel chain ys = Except.ok o2 ∧
        observe (chain.length - 1) o1.events = observe (chain.length - 1) o2.events := by
  obtain ⟨fa, oa, ha⟩ := process_from_total M 0 xs chain hsound.1
  obtain ⟨fb, ob, hb⟩ := process_from_total M 0 ys chain hsound.1
  have hfa := process_from_frame M fa 0 xs chain oa ha
  have hfb := process_from_frame M fb 0 ys chain ob hb
  have hsa := Sound_of_same_config M hfa hsound
  have hsb := Sound_of_same_config M hfb hsound
  obtain ⟨fc, xa, hca⟩ := close_total M oa.chain hsa.1
  obtain ⟨fd, xb, hcb⟩ := close_total M ob.chain hsb.1
  have hne : chain.length = (chain.length - 1) + 1 := by
    have ho := hsound.1.1
    cases chain with
    | nil => exact absurd ho (by simp [Opened])
    | cons f c => simp
  obtain ⟨j1, j2⟩ := (agree_all M (chain.length - 1) (chain.length - 1)).2 0 chain chain xs ys
    fa fb oa ob hne (by omega) hsound (Alike_list_refl M chain hfresh) hxy ha hb
  have j3 := close_agree M (chain.length - 1) oa.chain ob.chain _ _ 0 fc fd xa.1 xb.1 xa.2 xb.2
    (Or.inr hsa) j2 (by rw [← hfa.length_eq]; omega) (hca fc (Nat.le_refl _))
    (hcb fd (Nat.le_refl _))
  refine ⟨max (max fa fb) (max fc fd), fun fuel hle => ?_⟩
  have ha1 := process_from_mono M fa fuel (by omega) 0 xs chain oa ha
  have hb1 := process_from_mono M fb fuel (by omega) 0 ys chain ob hb
  refine ⟨{ ret := 0, chain := xa.1, events := oa.events ++ xa.2 },
    { ret := 0, chain := xb.1, events := ob.events ++ xb.2 }, ?_, ?_, ?_⟩
  · simp only [session, process_all_eq_from, ha1, pcre2_finder_close, hca fuel (by omega)]
  · simp only [session, process_all_eq_from, hb1, pcre2_finder_close, hcb fuel (by omega)]
  · simp only [observe_append, j1, j3]

/-! ## The events of the node itself -/

theorem invocations_append (k : Nat) (a b : List Event) :
    invocations k (a ++ b) = invocations k a + invocations k b := by
  induction a with
  | nil => simp [invocations]
  | cons e a ih =>
    cases e with
    | output n d => simp only [List.cons_append, invocations, List.append_eq, ih]
    | handler n d cb id =>
      simp only [List.cons_append, invocations, List.append_eq, ih]
      by_cases h : n = k
      · rw [if_pos h, if_pos h]; omega
      · rw [if_neg h, if_neg h]

theorem invocations_none (k : Nat) (ev : List Event) (h : ∀ e ∈ ev, k + 1 ≤ e.node) :
    invocations k ev = 0 := by
  induction ev with
  | nil => rfl
  | cons e ev ih =>
    have he := h e (List.mem_cons_self e ev)
    have hrest := ih (fun x hx => h x (List.mem_cons_of_mem e hx))
    cases e with
    | output n d => simp only [invocations, hrest]
    | handler n d cb id =>
      simp only [Event.node] at he
      have hne : n ≠ k := by omega
      simp only [invocations, if_neg hne, hrest]

/-- What the node at position `idx` itself shows when its actions are carried
out: one output call for each `out` action, with its bytes, and one handler
invocation for each `call` action, whatever the nodes after it do and
return. -/
theorem feed_own_events (M : Pcre2 P W) (fuel idx : Nat) (f : pcre2_finder P W)
    (acts : List Action) :
    ∀ (rest r : List (pcre2_finder P W)) (ev : List Event),
      feed (pcre2_finder_process M fuel (idx + 1)) idx f acts rest = Except.ok (r, ev) →
      outputs_of idx ev = outs_in acts ∧ invocations idx ev = calls_in acts := by
  induction acts with
  | nil =>
    intro rest r ev h
    simp only [feed, Except.ok.injEq, Prod.mk.injEq] at h
    rw [← h.2]
    exact ⟨rfl, rfl⟩
  | cons x acts ih =>
    intro rest r ev h
    cases x with
    | call d =>
      simp only [feed] at h
      cases hf : feed (pcre2_finder_process M fuel (idx + 1)) idx f acts rest with
      | error e => rw [hf] at h; exact absurd h (by simp)
      | ok y =>
        obtain ⟨r1, e1⟩ := y
        rw [hf] at h
        simp only [Except.ok.injEq, Prod.mk.injEq] at h
        obtain ⟨i1, i2⟩ := ih rest r1 e1 hf
        rw [← h.2]
        simp only [outputs_of, invocations, if_true, outs_in, calls_in, i1, i2, and_self]
    | out d =>
      simp only [feed] at h
      cases ho : call_outputfn (pcre2_finder_process M fuel (idx + 1)) idx f rest d with
      | error e => rw [ho] at h; exact absurd h (by simp)
      | ok o =>
        rw [ho] at h
        simp only at h
        cases hf : feed (pcre2_finder_process M fuel (idx + 1)) idx f acts o.chain with
        | error e => rw [hf] at h; exact absurd h (by simp)
        | ok y =>
          obtain ⟨r1, e1⟩ := y
          rw [hf] at h
          simp only [Except.ok.injEq, Prod.mk.injEq] at h
          obtain ⟨i1, i2⟩ := ih o.chain r1 e1 hf
          obtain ⟨_, evs, j1, j2⟩ := call_outputfn_spec M fuel idx f rest d o ho
          rw [← h.2, j1]
          simp only [List.cons_append, outputs_of, invocations, if_true, outs_in, calls_in,
            List.append_eq, outputs_of_append, invocations_append, outputs_of_none idx evs j2,
            invocations_none idx evs j2, i1, i2, List.nil_append, Nat.zero_add, and_self]

/-! ## The search loop ends -/

theorem own_append (idx : Nat) (a b : List Event) : own idx (a ++ b) = own idx a ++ own idx b := by
  simp only [own, List.filter_append]

theorem own_none (idx : Nat) (ev : List Event) (h : ∀ e ∈ ev, idx + 1 ≤ e.node) :
    own idx ev = [] := by
  simp only [own, List.filter_eq_nil_iff, decide_eq_true_eq]
  intro e he
  have := h e he
  omega

/-- The events of the node at position `idx` itself, when its actions are
carried out: one event for each action, in order, whatever the nodes after it
do. -/
theorem feed_own (M : Pcre2 P W) (fuel idx : Nat) (f : pcre2_finder P W)
    (acts : List Action) :
    ∀ (rest r : List (pcre2_finder P W)) (ev : List Event),
      feed (pcre2_finder_process M fuel (idx + 1)) idx f acts rest = Except.ok (r, ev) →
      own idx ev = acts.map (Action.event idx f) := by
  induction acts with
  | nil =>
    intro rest r ev h
    simp only [feed, Except.ok.injEq, Prod.mk.injEq] at h
    rw [← h.2]
    rfl
  | cons x acts ih =>
    intro rest r ev h
    cases x with
    | call d =>
      simp only [feed] at h
      cases hf : feed (pcre2_finder_process M fuel (idx + 1)) idx f acts rest with
      | error e => rw [hf] at h; exact absurd h (by simp)
      | ok y =>
        obtain ⟨r1, e1⟩ := y
        rw [hf] at h
        simp only [Except.ok.injEq, Prod.mk.injEq] at h
        have i1 := ih rest r1 e1 hf
        rw [← h.2]
        simp only [own, List.filter_cons, Event.node, decide_True, if_true, List.map_cons,
          Action.event] at i1 ⊢
        rw [i1]
    | out d =>
      simp only [feed] at h
      cases ho : call_outputfn (pcre2_finder_process M fuel (idx + 1)) idx f rest d with
      | error e => rw [ho] at h; exact absurd h (by simp)
      | ok o =>
        rw [ho] at h
        simp only at h
        cases hf : feed (pcre2_finder_process M fuel (idx + 1)) idx f acts o.chain with
        | error e => rw [hf] at h; exact absurd h (by simp)
        | ok y =>
          obtain ⟨r1, e1⟩ := y
          rw [hf] at h
          simp only [Except.ok.injEq, Prod.mk.injEq] at h
          have i1 := ih o.chain r1 e1 hf
          obtain ⟨_, evs, j1, j2⟩ := call_outputfn_spec M fuel idx f rest d o ho
          rw [← h.2, j1]
          rw [List.cons_append, ← List.singleton_append, own_append, own_append,
            own_none idx evs j2, i1]
          simp [own, Event.node, Action.event]

/-- The search loop on a chunk in which the matcher reports the matches
`spans` and then fails with `status`: it ends within `spans.length + 1` turns
and returns `status`; its actions are those for the matches, and nothing
after them; the pending buffer is as it was. -/
theorem search_actions_fails (M : Pcre2 P W) (idx : Nat) (h : pcre2_finder_match_fn)
    (data : Bytes) (status : Int) (h1 : ¬ 0 ≤ status) (h2 : status ≠ PCRE2_ERROR_PARTIAL)
    (h3 : status ≠ PCRE2_ERROR_NOMATCH) (spans : List (Nat × Nat)) :
    ∀ (c : Nat) (f : pcre2_finder P W) (fuel : Nat), f.matchfn = some h →
      ReportsThen M f.re data c f.dfaworkspace spans status → spans.length < fuel →
      ∃ f1 acts, search_actions M data fuel c f = some (status, f1, acts) ∧ same_config f f1 ∧
        acts.map (Action.event idx f) =
          forwarded_before idx h f.matchcallbackdata f.matchid data c spans ∧
        f1.partialmatch = f.partialmatch := by
  induction spans with
  | nil =>
    intro c f fuel hh hrep hfuel
    obtain ⟨k, rfl⟩ : ∃ k, fuel = k + 1 := ⟨fuel - 1, by omega⟩
    simp only [ReportsThen] at hrep
    refine ⟨set_workspace f (M.pcre2_dfa_match f.re data c false f.dfaworkspace).workspace, [],
      ?_, ⟨rfl, rfl, rfl, rfl, rfl, rfl⟩, rfl, rfl⟩
    simp only [search_actions, hrep, if_neg h1, if_neg h2, if_neg h3]
  | cons se spans ih =>
    intro c f fuel hh hrep hfuel
    obtain ⟨k, rfl⟩ : ∃ k, fuel = k + 1 := ⟨fuel - 1, by omega⟩
    obtain ⟨s, e⟩ := se
    simp only [ReportsThen] at hrep
    obtain ⟨hst, hs, he, hrest⟩ := hrep
    have hc0 : same_config f (set_workspace f
        (M.pcre2_dfa_match f.re data c false f.dfaworkspace).workspace) :=
      ⟨rfl, rfl, rfl, rfl, rfl, rfl⟩
    obtain ⟨f1, acts, hsa, hcf, hev, hpm⟩ := ih e
      (set_workspace f (M.pcre2_dfa_match f.re data c false f.dfaworkspace).workspace) k hh
      hrest (by simp only [List.length_cons] at hfuel; omega)
    refine ⟨f1, gap_actions data c s ++
        (Action.call (slice data s (e - s)) ::
          (h (slice data s (e - s)) f.matchcallbackdata f.matchid).outputs.map Action.out) ++
        acts, ?_, same_config_trans hc0 hcf, ?_, ?_⟩
    · simp only [search_actions, if_pos hst, handler_actions, set_workspace_matchfn,
        set_workspace_matchcallbackdata, set_workspace_matchid, hh, hs, he, hsa]
    · simp only [List.map_append, gap_actions_events, List.map_cons, Action.event, List.map_map,
        forwarded_before, List.append_assoc, List.cons_append]
      rw [Action.event_congr idx hc0 acts, hev]
      simp only [set_workspace_matchcallbackdata, set_workspace_matchid]
      rfl
    · rw [hpm]
      simp only [set_workspace_partialmatch]

/-- From the actions of the head to the call: on a ready chain
`pcre2_finder_process` returns, with enough fuel, the status the search of the
head gives, leaves the head as that search leaves it, and the events of the
head itself are its actions, one by one. -/
theorem process_of_actions (M : Pcre2 P W) (idx k : Nat) (f f1 : pcre2_finder P W)
    (rest : List (pcre2_finder P W)) (data : Bytes) (status : Int) (acts : List Action)
    (hready : Ready M (f :: rest))
    (hna : node_actions M k f data = some (status, f1, acts)) :
    ∃ fuel0, ∀ fuel, fuel0 ≤ fuel →
      ∃ o rest1, pcre2_finder_process M fuel idx (f :: rest) data = Except.ok o ∧
        o.ret = status ∧ o.chain = f1 :: rest1 ∧
        own idx o.events = acts.map (Action.event idx f) ∧
        (acts = [] → o.events = [] ∧ rest1 = rest) := by
  obtain ⟨fuel1, o, hp⟩ := process_total M _ (f :: rest) rfl hready idx data
  refine ⟨max fuel1 (k + 1), fun fuel hle => ?_⟩
  obtain ⟨m, rfl⟩ : ∃ m, fuel = m + 1 := ⟨fuel - 1, by omega⟩
  have hp1 := process_mono M fuel1 (m + 1) idx _ data o (by omega) hp
  obtain ⟨g1, acts1, rest1, e1, e2, e3⟩ := (process_cons_iff M m idx f rest data o).1 hp1
  have e4 := node_actions_mono M k m f data _ (by omega) hna
  rw [e4] at e1
  simp only [Option.some.injEq, Prod.mk.injEq] at e1
  obtain ⟨r1, r2, r3⟩ := e1
  subst r2 r3
  refine ⟨o, rest1, hp1, r1.symm, e3, feed_own M m idx f acts rest rest1 o.events e2, ?_⟩
  intro ha
  subst ha
  simp only [feed, Except.ok.injEq, Prod.mk.injEq] at e2
  exact ⟨e2.2.symm, e2.1.symm⟩

theorem node_actions_resumed (M : Pcre2 P W) (fuel : Nat) (f f1 : pcre2_finder P W)
    (h : pcre2_finder_match_fn) (data p : Bytes) (r : DfaResult W) (status : Int)
    (acts : List Action) (h0 : ¬ data.length = 0) (hpm : f.partialmatch = some p)
    (hh : f.matchfn = some h)
    (hr : M.pcre2_dfa_match f.re data 0 true f.dfaworkspace = r) (hst : 0 ≤ r.status)
    (hsa : search_actions M data fuel r.ovector1
      (partialmatch_clear (partialmatch_append (set_workspace f r.workspace)
        (slice data r.ovector0 (r.ovector1 - r.ovector0)))) = some (status, f1, acts)) :
    node_actions M fuel f data = some (status, f1,
      (Action.call (p ++ slice data r.ovector0 (r.ovector1 - r.ovector0)) ::
        (h (p ++ slice data r.ovector0 (r.ovector1 - r.ovector0))
          f.matchcallbackdata f.matchid).outputs.map Action.out) ++ acts) := by
  simp only [node_actions, if_neg h0, hpm, hr, if_pos hst, handler_actions]
  have e1 : (partialmatch_append (set_workspace f r.workspace)
      (slice data r.ovector0 (r.ovector1 - r.ovector0))).matchfn = some h := hh
  have e2 : (partialmatch_append (set_workspace f r.workspace)
      (slice data r.ovector0 (r.ovector1 - r.ovector0))).partialmatch.getD []
        = p ++ slice data r.ovector0 (r.ovector1 - r.ovector0) := by
    simp only [partialmatch_append, set_workspace, hpm, Option.getD_some]
  rw [e1, e2]
  simp only [hsa]
  rfl
/-- C13. A `pcre2_dfa_match` status that is neither a match, nor
`PCRE2_ERROR_PARTIAL`, nor `PCRE2_ERROR_NOMATCH` ends the call, wherever in
the chunk it comes. On a node of a ready chain, for a chunk in which the
matcher reports the complete matches `spans` and then fails with `status`:
with enough fuel `pcre2_finder_process` returns `status`, which is negative,
and the events of the node are those of the matches before the failing call
(unmatched bytes before each match, the handler, what the handler forwards),
with no output call and no handler invocation after them. This holds when
nothing was pending; when pending bytes were completed by the restart (the
handler is invoked with them first); and when they were released by it (they
are forwarded first). When it is the restart itself that fails, the call
returns `status` with no event at all, the nodes after the node untouched and
the pending buffer as it was. -/
theorem matcher_error_reported (M : Pcre2 P W) (idx : Nat) (f : pcre2_finder P W)
    (rest : List (pcre2_finder P W)) (h : pcre2_finder_match_fn) (data : Bytes)
    (spans : List (Nat × Nat)) (status : Int)
    (hready : Ready M (f :: rest)) (hh : f.matchfn = some h) (hdata : data ≠ [])
    (h1 : ¬ 0 ≤ status) (h2 : status ≠ PCRE2_ERROR_PARTIAL)
    (h3 : status ≠ PCRE2_ERROR_NOMATCH) :
    status < 0 ∧
    (f.partialmatch = none → ReportsThen M f.re data 0 f.dfaworkspace spans status →
      ∃ fuel0, ∀ fuel, fuel0 ≤ fuel →
        ∃ o f1 rest1, pcre2_finder_process M fuel idx (f :: rest) data = Except.ok o ∧
          o.ret = status ∧ o.chain = f1 :: rest1 ∧ f1.partialmatch = none ∧
          own idx o.events =
            forwarded_before idx h f.matchcallbackdata f.matchid data 0 spans) ∧
    (∀ p, f.partialmatch = some p →
      ((M.pcre2_dfa_match f.re data 0 true f.dfaworkspace).status = status →
        ∃ fuel0, ∀ fuel, fuel0 ≤ fuel →
          ∃ o f1, pcre2_finder_process M fuel idx (f :: rest) data = Except.ok o ∧
            o.ret = status ∧ o.events = [] ∧ o.chain = f1 :: rest ∧
            f1.partialmatch = some p ∧ same_config f f1) ∧
      (0 ≤ (M.pcre2_dfa_match f.re data 0 true f.dfaworkspace).status →
        ReportsThen M f.re data (M.pcre2_dfa_match f.re data 0 true f.dfaworkspace).ovector1
          (M.pcre2_dfa_match f.re data 0 true f.dfaworkspace).workspace spans status →
        ∃ fuel0, ∀ fuel, fuel0 ≤ fuel →
          ∃ o f1 rest1, pcre2_finder_process M fuel idx (f :: rest) data = Except.ok o ∧
            o.ret = status ∧ o.chain = f1 :: rest1 ∧ f1.partialmatch = none ∧
            own idx o.events =
              Event.handler idx
                  (p ++ slice data (M.pcre2_dfa_match f.re data 0 true f.dfaworkspace).ovector0
                    ((M.pcre2_dfa_match f.re data 0 true f.dfaworkspace).ovector1
                      - (M.pcre2_dfa_match f.re data 0 true f.dfaworkspace).ovector0))
                  f.matchcallbackdata f.matchid ::
                ((h (p ++ slice data
                      (M.pcre2_dfa_match f.re data 0 true f.dfaworkspace).ovector0
                      ((M.pcre2_dfa_match f.re data 0 true f.dfaworkspace).ovector1
                        - (M.pcre2_dfa_match f.re data 0 true f.dfaworkspace).ovector0))
                    f.matchcallbackdata f.matchid).outputs.map (Event.output idx) ++
                  forwarded_before idx h f.matchcallbackdata f.matchid data
                    (M.pcre2_dfa_match f.re data 0 true f.dfaworkspace).ovector1 spans)) ∧
      ((M.pcre2_dfa_match f.re data 0 true f.dfaworkspace).status = PCRE2_ERROR_NOMATCH →
        ReportsThen M f.re data 0
          (M.pcre2_dfa_match f.re data 0 true f.dfaworkspace).workspace spans status →
        ∃ fuel0, ∀ fuel, fuel0 ≤ fuel →
          ∃ o f1 rest1, pcre2_finder_process M fuel idx (f :: rest) data = Except.ok o ∧
            o.ret = status ∧ o.chain = f1 :: rest1 ∧ f1.partialmatch = none ∧
            own idx o.events =
              Event.output idx p ::
                forwarded_before idx h f.matchcallbackdata f.matchid data 0 spans)) := by
  have h0 : ¬ data.length = 0 := fun hz => hdata (List.length_eq_zero.1 hz)
  refine ⟨by omega, ?_, ?_⟩
  · intro hpm hrep
    obtain ⟨f1, acts, hsa, _, hev, hp1⟩ := search_actions_fails M idx h data status h1 h2 h3
      spans 0 f (spans.length + 1) hh hrep (by omega)
    have hna : node_actions M (spans.length + 1) f data = some (status, f1, acts) := by
      simp only [node_actions, if_neg h0, hpm]
      exact hsa
    obtain ⟨fuel0, hall⟩ := process_of_actions M idx _ f f1 rest data status acts hready hna
    refine ⟨fuel0, fun fuel hle => ?_⟩
    obtain ⟨o, rest1, e1, e2, e3, e4, _⟩ := hall fuel hle
    exact ⟨o, f1, rest1, e1, e2, e3, by rw [hp1, hpm], by rw [e4, hev]⟩
  · intro p hpm
    refine ⟨?_, ?_, ?_⟩
    · intro hst
      have hna : node_actions M 0 f data = some (status,
          set_workspace f (M.pcre2_dfa_match f.re data 0 true f.dfaworkspace).workspace, []) := by
        simp only [node_actions, if_neg h0, hpm, hst, if_neg h1, if_neg h2, if_neg h3]
      obtain ⟨fuel0, hall⟩ := process_of_actions M idx _ f _ rest data status [] hready hna
      refine ⟨fuel0, fun fuel hle => ?_⟩
      obtain ⟨o, rest1, e1, e2, e3, _, e5⟩ := hall fuel hle
      obtain ⟨e6, e7⟩ := e5 rfl
      subst e7
      exact ⟨o, _, e1, e2, e6, e3, hpm, ⟨rfl, rfl, rfl, rfl, rfl, rfl⟩⟩
    · intro hst hrep
      obtain ⟨f1, acts, hsa, _, hev, hp1⟩ := search_actions_fails M idx h data status h1 h2 h3
        spans (M.pcre2_dfa_match f.re data 0 true f.dfaworkspace).ovector1
        (partialmatch_clear (partialmatch_append
          (set_workspace f (M.pcre2_dfa_match f.re data 0 true f.dfaworkspace).workspace)
          (slice data (M.pcre2_dfa_match f.re data 0 true f.dfaworkspace).ovector0
            ((M.pcre2_dfa_match f.re data 0 true f.dfaworkspace).ovector1
              - (M.pcre2_dfa_match f.re data 0 true f.dfaworkspace).ovector0))))
        (spans.length + 1) hh hrep (by omega)
      have hna := node_actions_resumed M (spans.length + 1) f f1 h data p _ status acts h0 hpm hh
        rfl hst hsa
      obtain ⟨fuel0, hall⟩ := process_of_actions M idx _ f f1 rest data status _ hready hna
      refine ⟨fuel0, fun fuel hle => ?_⟩
      obtain ⟨o, rest1, e1, e2, e3, e4, _⟩ := hall fuel hle
      refine ⟨o, f1, rest1, e1, e2, e3, by rw [hp1]; rfl, ?_⟩
      rw [e4]
      simp only [List.map_append, List.map_cons, Action.event, List.map_map, List.cons_append]
      have hev2 : acts.map (Action.event idx f) =
          forwarded_before idx h f.matchcallbackdata f.matchid data
            (M.pcre2_dfa_match f.re data 0 true f.dfaworkspace).ovector1 spans :=
        Eq.trans (Action.event_congr idx ⟨rfl, rfl, rfl, rfl, rfl, rfl⟩ acts) hev
      rw [hev2]
      rfl
    · intro hst hrep
      have n1 : ¬ (0 : Int) ≤ (M.pcre2_dfa_match f.re data 0 true f.dfaworkspace).status := by
        rw [hst]; decide
      have n2 : ¬ (M.pcre2_dfa_match f.re data 0 true f.dfaworkspace).status
          = PCRE2_ERROR_PARTIAL := by rw [hst]; decide
      obtain ⟨f1, acts, hsa, _, hev, hp1⟩ := search_actions_fails M idx h data status h1 h2 h3
        spans 0
        (partialmatch_clear
          (set_workspace f (M.pcre2_dfa_match f.re data 0 true f.dfaworkspace).workspace))
        (spans.length + 1) hh hrep (by omega)
      have hna : node_actions M (spans.length + 1) f data
          = some (status, f1, Action.out p :: acts) := by
        simp only [node_actions, if_neg h0, hpm, if_neg n1, if_neg n2, if_pos hst, hsa]
      obtain ⟨fuel0, hall⟩ := process_of_actions M idx _ f f1 rest data status _ hready hna
      refine ⟨fuel0, fun fuel hle => ?_⟩
      obtain ⟨o, rest1, e1, e2, e3, e4, _⟩ := hall fuel hle
      refine ⟨o, f1, rest1, e1, e2, e3, by rw [hp1]; rfl, ?_⟩
      rw [e4]
      simp only [List.map_cons, Action.event]
      have hev2 : acts.map (Action.event idx f) =
          forwarded_before idx h f.matchcallbackdata f.matchid data 0 spans :=
        Eq.trans (Action.event_congr idx ⟨rfl, rfl, rfl, rfl, rfl, rfl⟩ acts) hev
      rw [hev2]

/-- The matches of the matcher with a budget advance as those of the small
matcher do. -/
theorem rx_budget_advances (r : Rx) (hr : r.nullable = false) :
    Advances rx_budget (some r) := by
  intro data c restart ws hst
  obtain ⟨w, n⟩ := ws
  cases n with
  | zero => exact absurd hst (by decide : ¬ (0 : Int) ≤ PCRE2_ERROR_DFA_WSSIZE)
  | succ n => exact rx_advances r hr data c restart w hst

/-- C13 on the matcher with a budget, pattern `a` with a handler that forwards
`X`. With one call left, the chunk `xay`: the first call reports the match at
1, the second fails; the call returns `PCRE2_ERROR_DFA_WSSIZE` after `x`, the
handler and `X`, and `y` is not forwarded. With no call left and the pending
byte `a`, the chunk `b`: the restart fails, the call returns the status with
no event and `a` still pending. -/
theorem matcher_error_reported_witness :
    (∃ fuel0, ∀ fuel, fuel0 ≤ fuel →
      ∃ o f1 rest1, pcre2_finder_process rx_budget fuel 0
          (pcre2_finder_open (add_exprs rx_budget (Rx.nothing, 1)
              ( pcre2_finder_initialize (Rx.nothing, 1))
              [{ expr := ['a'], flags := 0,
                 matchfn := some (when_found_replace (fun _ => ['X'])),
                 callbackdata := 0, matchid := 0 }]).2
            (some pcre2_finder_output_to_null) 0).2.nodes
          ['x', 'a', 'y'] = Except.ok o ∧
        o.ret = PCRE2_ERROR_DFA_WSSIZE ∧ o.chain = f1 :: rest1 ∧ f1.partialmatch = none ∧
        own 0 o.events
          = [Event.output 0 ['x'], Event.handler 0 ['a'] 0 0, Event.output 0 ['X']]) ∧
    (∃ fuel0, ∀ fuel, fuel0 ≤ fuel →
      ∃ o f1, pcre2_finder_process rx_budget fuel 0
          [{ matchfn := some (when_found_replace (fun _ => ['X'])), matchcallbackdata := 0,
             matchid := 0, outputfn := some (OutputFn.user pcre2_finder_output_to_null),
             outputcallbackdata := CallbackData.user 0, partialmatch := some ['a'],
             re := some (Rx.seq (Rx.byte 'a') (Rx.byte 'b')), match_data := true,
             match_context := true, dfaworkspace := (Rx.byte 'b', 0) }]
          ['b'] = Except.ok o ∧
        o.ret = PCRE2_ERROR_DFA_WSSIZE ∧ o.events = [] ∧ o.chain = f1 :: [] ∧
        f1.partialmatch = some ['a'] ∧
        same_config
          ({ matchfn := some (when_found_replace (fun _ => ['X'])), matchcallbackdata := 0,
             matchid := 0, outputfn := some (OutputFn.user pcre2_finder_output_to_null),
             outputcallbackdata := CallbackData.user 0, partialmatch := some ['a'],
             re := some (Rx.seq (Rx.byte 'a') (Rx.byte 'b')), match_data := true,
             match_context := true, dfaworkspace := (Rx.byte 'b', 0) } :
            pcre2_finder Rx (Rx × Nat)) f1) :=
  ⟨(matcher_error_reported rx_budget 0
      { matchfn := some (when_found_replace (fun _ => ['X'])), matchcallbackdata := 0,
        matchid := 0, outputfn := some (OutputFn.user pcre2_finder_output_to_null),
        outputcallbackdata := CallbackData.user 0, partialmatch := none,
        re := some (Rx.byte 'a'), match_data := true, match_context := true,
        dfaworkspace := (Rx.nothing, 1) } []
      (when_found_replace (fun _ => ['X'])) ['x', 'a', 'y'] [(1, 2)] PCRE2_ERROR_DFA_WSSIZE
      ⟨⟨pcre2_finder_output_to_null, 0, rfl, rfl⟩, fun f hf => by
        simp only [List.mem_singleton] at hf
        subst hf
        exact ⟨by simp, rx_budget_advances _ rfl⟩⟩
      rfl (by simp) (by decide) (by decide) (by decide)).2.1 rfl
      ⟨by decide, rfl, rfl, rfl⟩,
    ((matcher_error_reported rx_budget 0
      { matchfn := some (when_found_replace (fun _ => ['X'])), matchcallbackdata := 0,
        matchid := 0, outputfn := some (OutputFn.user pcre2_finder_output_to_null),
        outputcallbackdata := CallbackData.user 0, partialmatch := some ['a'],
        re := some (Rx.seq (Rx.byte 'a') (Rx.byte 'b')), match_data := true,
        match_context := true, dfaworkspace := (Rx.byte 'b', 0) } []
      (when_found_replace (fun _ => ['X'])) ['b'] [] PCRE2_ERROR_DFA_WSSIZE
      ⟨⟨pcre2_finder_output_to_null, 0, rfl, rfl⟩, fun f hf => by
        simp only [List.mem_singleton] at hf
        subst hf
        exact ⟨by simp, rx_budget_advances _ rfl⟩⟩
      rfl (by simp) (by decide) (by decide) (by decide)).2.2 ['a'] rfl).1 rfl⟩

/-! ## `pcre2_finder_close`, node by node -/

theorem own_cons_other (j : Nat) (e : Event) (ev : List Event) (h : e.node ≠ j) :
    own j (e :: ev) = own j ev := by
  simp only [own, List.filter_cons, decide_eq_true_eq, if_neg h]

theorem own_cons_self (j : Nat) (e : Event) (ev : List Event) (h : e.node = j) :
    own j (e :: ev) = e :: own j ev := by
  simp only [own, List.filter_cons, decide_eq_true_eq, if_pos h]

theorem outputs_of_cons_other (j : Nat) (e : Event) (ev : List Event) (h : e.node ≠ j) :
    outputs_of j (e :: ev) = outputs_of j ev := by
  cases e with
  | output n d => simp only [outputs_of, if_neg (show ¬ n = j from h)]
  | handler n d cb id => rfl

theorem node_run_append (M : Pcre2 P W) (k : Nat) (xs ys : List Bytes) :
    ∀ (f f1 f2 : pcre2_finder P W) (a1 a2 : List Action),
      node_run M k f xs = some (f1, a1) → node_run M k f1 ys = some (f2, a2) →
      node_run M k f (xs ++ ys) = some (f2, a1 ++ a2) := by
  induction xs with
  | nil =>
    intro f f1 f2 a1 a2 h1 h2
    simp only [node_run, Option.some.injEq, Prod.mk.injEq] at h1
    obtain ⟨e1, e2⟩ := h1
    subst e1 e2
    simpa using h2
  | cons d ds ih =>
    intro f f1 f2 a1 a2 h1 h2
    simp only [node_run, List.cons_append] at h1 ⊢
    cases hn : node_actions M k f d with
    | none => rw [hn] at h1; exact absurd h1 (by simp)
    | some y =>
      obtain ⟨ret, g, b⟩ := y
      rw [hn] at h1
      simp only at h1 ⊢
      cases hr : node_run M k g ds with
      | none => rw [hr] at h1; exact absurd h1 (by simp)
      | some z =>
        obtain ⟨g1, b1⟩ := z
        rw [hr] at h1
        simp only [Option.some.injEq, Prod.mk.injEq] at h1
        obtain ⟨e1, e2⟩ := h1
        subst e1 e2
        have e := ih g g1 f2 b1 a2 hr h2
        simp only [List.append_eq]
        rw [e]
        simp only [List.append_assoc]

/-- The actions of a node that feeds the node after it, carried out: the
nodes after it process the bytes of its output calls, chunk by chunk, and
their events are those of these calls. -/
theorem feed_process_from (M : Pcre2 P W) (k idx : Nat) (g : pcre2_finder P W)
    (h1 : g.outputfn = some OutputFn.process) (h2 : g.outputcallbackdata = CallbackData.next)
    (acts : List Action) :
    ∀ (rest r : List (pcre2_finder P W)) (ev : List Event),
      feed (pcre2_finder_process M k (idx + 1)) idx g acts rest = Except.ok (r, ev) →
      ∃ o, process_from M k (idx + 1) rest (outs_in acts) = Except.ok o ∧ o.chain = r ∧
        ∀ j, idx < j → own j ev = own j o.events ∧ outputs_of j ev = outputs_of j o.events := by
  induction acts with
  | nil =>
    intro rest r ev h
    simp only [feed, Except.ok.injEq, Prod.mk.injEq] at h
    obtain ⟨e1, e2⟩ := h
    subst e1 e2
    exact ⟨_, rfl, rfl, fun j _ => ⟨rfl, rfl⟩⟩
  | cons x acts ih =>
    intro rest r ev h
    cases x with
    | call d =>
      simp only [feed] at h
      cases hf : feed (pcre2_finder_process M k (idx + 1)) idx g acts rest with
      | error e => rw [hf] at h; exact absurd h (by simp)
      | ok y =>
        obtain ⟨r1, e1⟩ := y
        rw [hf] at h
        simp only [Except.ok.injEq, Prod.mk.injEq] at h
        obtain ⟨o, i1, i2, i3⟩ := ih rest r1 e1 hf
        refine ⟨o, i1, by rw [i2]; exact h.1, fun j hj => ?_⟩
        rw [← h.2]
        have hne : (Event.handler idx d g.matchcallbackdata g.matchid).node ≠ j := by
          simp only [Event.node]; omega
        rw [own_cons_other j _ _ hne, outputs_of_cons_other j _ _ hne]
        exact i3 j hj
    | out d =>
      simp only [feed, call_outputfn, h1, h2] at h
      cases hp : pcre2_finder_process M k (idx + 1) rest d with
      | error e => rw [hp] at h; exact absurd h (by simp)
      | ok o1 =>
        rw [hp] at h
        simp only at h
        cases hf : feed (pcre2_finder_process M k (idx + 1)) idx g acts o1.chain with
        | error e => rw [hf] at h; exact absurd h (by simp)
        | ok y =>
          obtain ⟨r1, e1⟩ := y
          rw [hf] at h
          simp only [Except.ok.injEq, Prod.mk.injEq] at h
          obtain ⟨o, i1, i2, i3⟩ := ih o1.chain r1 e1 hf
          refine ⟨{ o with events := o1.events ++ o.events }, ?_, by rw [← h.1]; exact i2,
            fun j hj => ?_⟩
          · simp only [outs_in, process_from, hp, i1]
          · rw [← h.2]
            have hne : (Event.output idx d).node ≠ j := by
              simp only [Event.node]; omega
            simp only [List.cons_append]
            rw [own_cons_other j _ _ hne, outputs_of_cons_other j _ _ hne, own_append,
              outputs_of_append, own_append, outputs_of_append, (i3 j hj).1, (i3 j hj).2]
            exact ⟨rfl, rfl⟩

/-- What each node of a ready chain does while the chain processes a list of
chunks: the node at position `idx + pre.length` processes, chunk by chunk,
the bytes of the output calls of the node before it (the head: the chunks
themselves), and its events are its actions for them. -/
theorem process_from_nodes (M : Pcre2 P W) (pre : List (pcre2_finder P W)) :
    ∀ (idx fuel : Nat) (xs : List Bytes) (f : pcre2_finder P W)
      (rest : List (pcre2_finder P W)) (o : Outcome P W),
      Ready M (pre ++ f :: rest) →
      process_from M fuel idx (pre ++ f :: rest) xs = Except.ok o →
      ∃ k pre2 f2 rest2 acts, o.chain = pre2 ++ f2 :: rest2 ∧ pre2.length = pre.length ∧
        same_config f f2 ∧
        node_run M k f
          (if pre.length = 0 then xs else outputs_of (idx + pre.length - 1) o.events)
            = some (f2, acts) ∧
        own (idx + pre.length) o.events = acts.map (Action.event (idx + pre.length) f) := by
  induction pre with
  | nil =>
    intro idx fuel xs f rest o _ h
    obtain ⟨k, f1, acts, rest1, e1, e2, e3⟩ := process_from_decompose M idx xs f rest fuel o h
    have hfr := process_from_frame M fuel idx xs (f :: rest) o h
    rw [e3] at hfr
    cases hfr with
    | cons hc _ =>
      refine ⟨k, [], f1, rest1, acts, e3, rfl, hc, ?_, ?_⟩
      · simpa using e1
      · simpa using feed_own M k idx f acts rest rest1 o.events e2
  | cons g pre ih =>
    intro idx fuel xs f rest o hr h
    simp only [List.cons_append] at hr h
    obtain ⟨k, g1, actsg, rest1, e1, e2, e3⟩ :=
      process_from_decompose M idx xs g (pre ++ f :: rest) fuel o h
    have hb : g.outputfn = some OutputFn.process ∧ g.outputcallbackdata = CallbackData.next := by
      have ho := hr.1
      cases pre with
      | nil => simp only [List.nil_append, Opened] at ho; exact ⟨ho.1, ho.2.1⟩
      | cons a l => simp only [List.cons_append, Opened] at ho; exact ⟨ho.1, ho.2.1⟩
    have hrt : Ready M (pre ++ f :: rest) := by
      cases pre with
      | nil => exact Ready_tail M g f rest hr
      | cons a l => exact Ready_tail M g a (l ++ f :: rest) hr
    obtain ⟨o1, p1, p2, p3⟩ := feed_process_from M k idx g hb.1 hb.2 actsg _ rest1 o.events e2
    obtain ⟨k1, pre2, f2, rest2, acts, i1, i2, i3, i4, i5⟩ :=
      ih (idx + 1) k (outs_in actsg) f rest o1 hrt p1
    refine ⟨k1, g1 :: pre2, f2, rest2, acts, ?_, by simp only [List.length_cons, i2], i3, ?_, ?_⟩
    · rw [e3, ← p2, i1]; rfl
    · have hne : ¬ (g :: pre).length = 0 := by simp
      rw [if_neg hne]
      by_cases hz : pre.length = 0
      · rw [if_pos hz] at i4
        have : idx + (g :: pre).length - 1 = idx := by simp only [List.length_cons, hz]; omega
        rw [this, (feed_own_events M k idx g actsg _ rest1 o.events e2).1]
        exact i4
      · rw [if_neg hz] at i4
        have : idx + (g :: pre).length - 1 = idx + 1 + pre.length - 1 := by
          simp only [List.length_cons]; omega
        rw [this, (p3 (idx + 1 + pre.length - 1) (by omega)).2]
        exact i4
    · have : idx + (g :: pre).length = idx + 1 + pre.length := by
        simp only [List.length_cons]; omega
      rw [this, (p3 (idx + 1 + pre.length) (by omega)).1]
      exact i5

/-- The flush of a node: one output call with its pending bytes, if it holds
any. -/
theorem close_loop_nodes (M : Pcre2 P W) (fuel : Nat) (n : Nat) :
    ∀ (idx : Nat) (pre : List (pcre2_finder P W)) (f : pcre2_finder P W)
      (rest c1 : List (pcre2_finder P W)) (ev : List Event),
      Ready M (pre ++ f :: rest) →
      close_loop M fuel n idx (pre ++ f :: rest) = Except.ok (c1, ev) →
      ∃ k f1 acts,
        node_run M k f
          (if pre.length = 0 then [] else outputs_of (idx + pre.length - 1) ev)
            = some (f1, acts) ∧
        own (idx + pre.length) ev = acts.map (Action.event (idx + pre.length) f) ++
          (match f1.partialmatch with
            | some p => [Event.output (idx + pre.length) p]
            | none => []) := by
  induction n with
  | zero =>
    intro idx pre f rest c1 ev _ h
    cases pre with
    | nil => simp [close_loop] at h
    | cons g pre => simp [close_loop] at h
  | succ n ih =>
    intro idx pre f rest c1 ev hr h
    cases pre with
    | nil =>
      simp only [List.nil_append] at h
      obtain ⟨_, _, _, b4⟩ := close_loop_spec M fuel (n + 1) idx (f :: rest) c1 ev h
      obtain ⟨evs, hevs, hev⟩ := b4 f rest rfl
      refine ⟨0, f, [], rfl, ?_⟩
      simp only [List.length_nil, Nat.add_zero, List.map_nil, List.nil_append]
      rw [hev, own_append, own_none idx evs hevs, List.append_nil]
      cases f.partialmatch with
      | none => rfl
      | some p => simp [own, Event.node]
    | cons g pre =>
      simp only [List.cons_append] at hr h
      have hb : g.outputfn = some OutputFn.process ∧
          g.outputcallbackdata = CallbackData.next := by
        have ho := hr.1
        cases pre with
        | nil => simp only [List.nil_append, Opened] at ho; exact ⟨ho.1, ho.2.1⟩
        | cons a l => simp only [List.cons_append, Opened] at ho; exact ⟨ho.1, ho.2.1⟩
      have hrt : Ready M (pre ++ f :: rest) := by
        cases pre with
        | nil => exact Ready_tail M g f rest hr
        | cons a l => exact Ready_tail M g a (l ++ f :: rest) hr
      have hne : ¬ (g :: pre).length = 0 := by simp
      have hidx : idx + (g :: pre).length = idx + 1 + pre.length := by
        simp only [List.length_cons]; omega
      have hidx1 : idx + (g :: pre).length - 1 = idx + pre.length := by
        simp only [List.length_cons]; omega
      rw [if_neg hne, hidx1, hidx]
      simp only [close_loop] at h
      cases hp : g.partialmatch with
      | none =>
        rw [hp] at h
        simp only at h
        cases hc : close_loop M fuel n (idx + 1) (pre ++ f :: rest) with
        | error e => rw [hc] at h; exact absurd h (by simp)
        | ok y =>
          obtain ⟨r1, e1⟩ := y
          rw [hc] at h
          simp only [Except.ok.injEq, Prod.mk.injEq] at h
          obtain ⟨_, he⟩ := h
          subst he
          obtain ⟨k, f1, acts, i1, i2⟩ := ih (idx + 1) pre f rest r1 e1 hrt hc
          refine ⟨k, f1, acts, ?_, i2⟩
          by_cases hz : pre.length = 0
          · rw [if_pos hz] at i1
            obtain ⟨_, _, b3, _⟩ := close_loop_spec M fuel n (idx + 1) _ r1 e1 hc
            rw [hz, Nat.add_zero, outputs_of_none idx e1 b3]
            exact i1
          · rw [if_neg hz] at i1
            have : idx + 1 + pre.length - 1 = idx + pre.length := by omega
            rw [this] at i1
            exact i1
      | some p =>
        rw [hp] at h
        simp only [pcre2_finder_output, call_outputfn, hb.1, hb.2] at h
        cases hq : pcre2_finder_process M fuel (idx + 1) (pre ++ f :: rest) p with
        | error e => rw [hq] at h; exact absurd h (by simp)
        | ok o1 =>
          rw [hq] at h
          simp only at h
          cases hc : close_loop M fuel n (idx + 1) o1.chain with
          | error e => rw [hc] at h; exact absurd h (by simp)
          | ok y =>
            obtain ⟨r1, e1⟩ := y
            rw [hc] at h
            simp only [Except.ok.injEq, Prod.mk.injEq] at h
            obtain ⟨_, he⟩ := h
            subst he
            have hpf : process_from M fuel (idx + 1) (pre ++ f :: rest) [p]
                = Except.ok { ret := 0, chain := o1.chain, events := o1.events ++ [] } := by
              simp only [process_from, hq]
            obtain ⟨k1, pre2, f2, rest2, acts1, j1, j2, j3, j4, j5⟩ :=
              process_from_nodes M pre (idx + 1) fuel [p] f rest _ hrt hpf
            simp only [List.append_nil] at j1 j4 j5
            have hr2 : Ready M (pre2 ++ f2 :: rest2) := by
              rw [← j1]
              exact Ready_of_same_config M (process_frame M fuel (idx + 1) _ p o1 hq).1 hrt
            rw [j1] at hc
            obtain ⟨k2, f1, acts2, i1, i2⟩ := ih (idx + 1) pre2 f2 rest2 r1 e1 hr2 hc
            rw [j2] at i1 i2
            have hfr := (process_frame M fuel (idx + 1) _ p o1 hq).2
            obtain ⟨_, _, b3, _⟩ := close_loop_spec M fuel n (idx + 1) _ r1 e1 hc
            have hn1 : (Event.output idx p).node ≠ idx + 1 + pre.length := by
              simp only [Event.node]; omega
            refine ⟨max k1 k2, f1, acts1 ++ acts2, ?_, ?_⟩
            · have m1 := node_run_mono M k1 (max k1 k2) (by omega) _ f _ j4
              have m2 := node_run_mono M k2 (max k1 k2) (by omega) _ f2 _ i1
              have m3 := node_run_append M (max k1 k2) _ _ f f2 f1 acts1 acts2 m1 m2
              by_cases hz : pre.length = 0
              · simp only [if_pos hz, List.append_nil] at m3
                have e : outputs_of (idx + pre.length) (Event.output idx p :: o1.events ++ e1)
                    = [p] := by
                  rw [hz, Nat.add_zero, List.cons_append]
                  simp only [outputs_of, if_true, outputs_of_append,
                    outputs_of_none idx o1.events hfr, outputs_of_none idx e1 b3,
                    List.append_nil]
                rw [e]
                exact m3
              · simp only [if_neg hz] at m3
                have : idx + 1 + pre.length - 1 = idx + pre.length := by omega
                rw [this] at m3
                have hn2 : (Event.output idx p).node ≠ idx + pre.length := by
                  simp only [Event.node]; omega
                simp only [List.cons_append]
                rw [outputs_of_cons_other _ _ _ hn2, outputs_of_append]
                exact m3
            · simp only [List.cons_append]
              rw [own_cons_other _ _ _ hn1, own_append, j5, i2, List.map_append,
                Action.event_congr _ j3 acts2, List.append_assoc]

/-- C4, as amended. On a ready chain of any length, in any state,
`pcre2_finder_close` returns 0 (with enough fuel) and leaves every node in
place with an empty pending buffer. The first node of the chain that holds a
pending buffer has it forwarded, unmodified and exactly once, to its own
output function, the nodes before it forwarding nothing. The head does nothing
else than forward its pending buffer, if it holds one. Every node after the
head first processes, call by call, the bytes of all the output calls of the
node before it, as `pcre2_finder_process` does with any input: these are its
actions `acts`, and they leave it in the state `f1`; then it forwards, in one
output call, exactly the pending buffer `f1` holds, if any; and it does
nothing else. -/
theorem close_flushes_pending (M : Pcre2 P W) (chain : List (pcre2_finder P W))
    (hr : Ready M chain) :
    ∃ fuel0, ∀ fuel, fuel0 ≤ fuel →
      ∃ o, pcre2_finder_close M fuel chain = Except.ok o ∧ o.ret = 0 ∧
        List.Forall₂ same_config chain o.chain ∧
        (∀ f ∈ o.chain, f.partialmatch = none) ∧
        (∀ (pre : List (pcre2_finder P W)) (f : pcre2_finder P W)
          (rest : List (pcre2_finder P W)) (p : Bytes),
          chain = pre ++ f :: rest → (∀ g ∈ pre, g.partialmatch = none) →
          f.partialmatch = some p →
          outputs_of pre.length o.events = [p] ∧
          ∀ k, k < pre.length → outputs_of k o.events = []) ∧
        (∀ (f : pcre2_finder P W) (rest : List (pcre2_finder P W)), chain = f :: rest →
          own 0 o.events =
            match f.partialmatch with
            | some p => [Event.output 0 p]
            | none => []) ∧
        (∀ (pre : List (pcre2_finder P W)) (g f : pcre2_finder P W)
          (rest : List (pcre2_finder P W)), chain = pre ++ g :: f :: rest →
          ∃ k f1 acts, node_run M k f (outputs_of pre.length o.events) = some (f1, acts) ∧
            own (pre.length + 1) o.events =
              acts.map (Action.event (pre.length + 1) f) ++
                (match f1.partialmatch with
                  | some p => [Event.output (pre.length + 1) p]
                  | none => [])) := by
  obtain ⟨fuel0, x, hx⟩ := close_total M chain hr
  refine ⟨fuel0, fun fuel hle => ?_⟩
  obtain ⟨c1, ev⟩ := x
  have hc := hx fuel hle
  obtain ⟨a1, a2, _, _⟩ := close_loop_spec M fuel chain.length 0 chain c1 ev hc
  refine ⟨{ ret := 0, chain := c1, events := ev }, by simp only [pcre2_finder_close, hc],
    rfl, a1, a2, ?_, ?_, ?_⟩
  · intro pre f rest p hchain hpre hp
    rw [hchain] at hc
    obtain ⟨c2, _, hc2⟩ := close_loop_skip M fuel pre _ 0 (f :: rest) c1 ev hpre hc
    obtain ⟨_, _, b3, b4⟩ := close_loop_spec M fuel _ _ (f :: rest) c2 ev hc2
    obtain ⟨evs, hevs, hev⟩ := b4 f rest rfl
    rw [hp] at hev
    simp only [Nat.zero_add] at hevs hev b3
    constructor
    · show outputs_of pre.length ev = [p]
      rw [hev, List.singleton_append]
      simp only [outputs_of, if_true, outputs_of_none pre.length evs hevs]
    · intro k hk
      show outputs_of k ev = []
      exact outputs_of_none k ev (fun e he => by have := b3 e he; omega)
  · intro f rest hchain
    subst hchain
    obtain ⟨k, f1, acts, i1, i2⟩ := close_loop_nodes M fuel _ 0 [] f rest c1 ev hr hc
    simp only [List.length_nil, if_true, node_run, Option.some.injEq, Prod.mk.injEq] at i1
    obtain ⟨e1, e2⟩ := i1
    subst e1 e2
    simpa using i2
  · intro pre g f rest hchain
    subst hchain
    have e : pre ++ g :: f :: rest = (pre ++ [g]) ++ f :: rest := by simp
    rw [e] at hr hc
    obtain ⟨k, f1, acts, i1, i2⟩ := close_loop_nodes M fuel _ 0 (pre ++ [g]) f rest c1 ev hr hc
    have hne : ¬ (pre ++ [g]).length = 0 := by simp
    rw [if_neg hne] at i1
    simp only [List.length_append, List.length_singleton, Nat.zero_add, Nat.add_sub_cancel]
      at i1 i2
    exact ⟨k, f1, acts, i1, i2⟩

/-- The chain of the patterns `ab` and `xay`, opened, is ready. -/
theorem ready_ab_xay :
    Ready rx (rx_chain [counting ['a', 'b'] 0, counting ['x', 'a', 'y'] 1]
      pcre2_finder_output_to_null 0) := by
  refine ⟨?_, ?_⟩
  · simp [rx_chain, counting, add_exprs, pcre2_finder_add_expr, pcre2_finder_initialize, fresh,
      pcre2_finder_open, open_loop, rx, rx_compile, Opened]
  · intro f hf
    simp [rx_chain, counting, add_exprs, pcre2_finder_add_expr, pcre2_finder_initialize, fresh,
      pcre2_finder_open, open_loop, rx, rx_compile] at hf
    rcases hf with h | h
    · subst h
      exact ⟨by simp, rx_advances _ rfl⟩
    · subst h
      exact ⟨by simp, rx_advances _ rfl⟩

/-- C4, on the small matcher. Two nodes with the patterns `ab` and `xay`; after
the chunk `xa` the first node holds the pending byte `a` and the second the
pending byte `x`. Close returns 0; the first node forwards `a`, once; the
second node takes it as the continuation of its partial match and then
forwards what it holds at that point, `xa`, once, to its own output
function. -/
theorem close_flushes_pending_witness :
    (chain_after rx 5
        (rx_chain [counting ['a', 'b'] 0, counting ['x', 'a', 'y'] 1]
          pcre2_finder_output_to_null 0)
        [['x', 'a']]).map (fun f => f.partialmatch) = [some ['a'], some ['x']] ∧
    ∃ fuel0, ∀ fuel, fuel0 ≤ fuel →
      ∃ o, pcre2_finder_close rx fuel (chain_after rx 5
          (rx_chain [counting ['a', 'b'] 0, counting ['x', 'a', 'y'] 1]
            pcre2_finder_output_to_null 0)
          [['x', 'a']]) = Except.ok o ∧ o.ret = 0 ∧
        own 0 o.events = [Event.output 0 ['a']] ∧
        own 1 o.events = [Event.output 1 ['x', 'a']] := by
  have hst : (chain_after rx 5
        (rx_chain [counting ['a', 'b'] 0, counting ['x', 'a', 'y'] 1]
          pcre2_finder_output_to_null 0)
        [['x', 'a']]).map (fun f => f.partialmatch) = [some ['a'], some ['x']] := by decide
  refine ⟨hst, ?_⟩
  obtain ⟨fuel0, h⟩ := close_flushes_pending rx _
    (Ready_chain_after rx 5 _ [['x', 'a']] ready_ab_xay)
  refine ⟨fuel0, fun fuel hle => ?_⟩
  obtain ⟨o, h1, h2, _, _, h5, h6, h7⟩ := h fuel hle
  refine ⟨o, h1, h2, ?_, ?_⟩
  · have e := h6 _ _ rfl
    rw [e]
    rfl
  · obtain ⟨k, f1, acts, i1, i2⟩ := h7 [] _ _ [] rfl
    have hout := (h5 [] _ _ ['a'] rfl (by simp) rfl).1
    simp only [List.length_nil] at hout i1 i2
    rw [hout] at i1
    have j1 := node_run_mono rx k (max k 2) (by omega) _ _ _ i1
    have j2 : node_run rx 2
        { matchfn := some when_found, matchcallbackdata := 0, matchid := 1,
          outputfn := some (OutputFn.user pcre2_finder_output_to_null),
          outputcallbackdata := CallbackData.user 0, partialmatch := some ['x'],
          re := some (Rx.seq (Rx.byte 'x') (Rx.seq (Rx.byte 'a') (Rx.byte 'y'))),
          match_data := true, match_context := true,
          dfaworkspace := Rx.seq Rx.empty (Rx.seq (Rx.byte 'a') (Rx.byte 'y')) } [['a']]
        = some (_, []) := rfl
    have j3 := node_run_mono rx 2 (max k 2) (by omega) _ _ _ j2
    have j4 := j3.symm.trans j1
    simp only [Option.some.injEq, Prod.mk.injEq] at j4
    obtain ⟨e1, e2⟩ := j4
    rw [i2, ← e1, ← e2]
    rfl

/-! ## Pass-through -/

/-- When the call of the search loop from the start of the chunk is quiet, the
loop on a node with nothing pending takes one turn: it only makes output
calls, and the bytes it forwards followed by the bytes it keeps pending are
the chunk. -/
theorem search_actions_quiet (M : Pcre2 P W) (f : pcre2_finder P W) (data : Bytes) (fuel : Nat)
    (hn : Quiet (M.pcre2_dfa_match f.re data 0 false f.dfaworkspace) data false)
    (hpm : f.partialmatch = none) (hfuel : 1 ≤ fuel) :
    ∃ (f1 : pcre2_finder P W) (outs : List Bytes),
      search_actions M data fuel 0 f = some (0, f1, outs.map Action.out) ∧
      same_config f f1 ∧ outs.flatten ++ pending f1 = data ∧
      f1.dfaworkspace = (M.pcre2_dfa_match f.re data 0 false f.dfaworkspace).workspace ∧
      f1.partialmatch.isSome = decide ((M.pcre2_dfa_match f.re data 0 false
        f.dfaworkspace).status = PCRE2_ERROR_PARTIAL) := by
  obtain ⟨k, rfl⟩ : ∃ k, fuel = k + 1 := ⟨fuel - 1, by omega⟩
  simp only [search_actions]
  have h := hn
  generalize M.pcre2_dfa_match f.re data 0 false f.dfaworkspace = r at h ⊢
  rcases h with h | ⟨h, hle, hlen, _⟩
  · have h1 : ¬ (0 : Int) ≤ r.status := by rw [h]; decide
    have h2 : ¬ r.status = PCRE2_ERROR_PARTIAL := by rw [h]; decide
    simp only [if_neg h1, if_neg h2, if_pos h]
    by_cases hd : 0 < data.length
    · refine ⟨set_workspace f r.workspace, [slice data 0 (data.length - 0)], ?_,
        ⟨rfl, rfl, rfl, rfl, rfl, rfl⟩, ?_, rfl, ?_⟩
      · simp [gap_actions, hd]
      · simp [pending_of_none f hpm, slice]
      · simp [hpm, h2]
    · refine ⟨set_workspace f r.workspace, [], ?_, ⟨rfl, rfl, rfl, rfl, rfl, rfl⟩, ?_, rfl, ?_⟩
      · simp [gap_actions, hd]
      · have : data = [] := List.length_eq_zero.1 (by omega)
        simp [pending_of_none f hpm, this]
      · simp [hpm, h2]
  · have h1 : ¬ (0 : Int) ≤ r.status := by rw [h]; decide
    simp only [if_neg h1, if_pos h]
    by_cases hd : 0 < r.ovector0
    · refine ⟨partialmatch_append (set_workspace f r.workspace)
          (slice data r.ovector0 (r.ovector1 - r.ovector0)),
        [slice data 0 (r.ovector0 - 0)], ?_, ⟨rfl, rfl, rfl, rfl, rfl, rfl⟩, ?_, rfl, ?_⟩
      · simp [gap_actions, hd]
      · simp only [List.flatten_cons, List.flatten_nil, List.append_nil,
          pending_partialmatch_append, pending_set_workspace,
          pending_of_none f hpm, List.nil_append, hlen, slice_to_end, Nat.sub_zero, slice_zero]
        exact List.take_append_drop _ _
      · simp [h]
    · refine ⟨partialmatch_append (set_workspace f r.workspace)
          (slice data r.ovector0 (r.ovector1 - r.ovector0)), [], ?_,
        ⟨rfl, rfl, rfl, rfl, rfl, rfl⟩, ?_, rfl, ?_⟩
      · simp [gap_actions, hd]
      · have h0 : r.ovector0 = 0 := by omega
        simp [pending_of_none f hpm, hlen, h0, slice]
      · simp [h]

/-- One call of the body of `pcre2_finder_process` whose matcher calls are
quiet only makes output calls, and the bytes it forwards followed by the bytes
it keeps pending are the bytes that were pending followed by the chunk; the
calls for the chunks after it are those of the node it leaves. -/
theorem node_actions_quiet (M : Pcre2 P W) (f : pcre2_finder P W) (d : Bytes) (ds : List Bytes)
    (fuel : Nat) (hn : NeverMatchesOn M f.re f.partialmatch.isSome f.dfaworkspace (d :: ds))
    (hfuel : 1 ≤ fuel) :
    ∃ (f1 : pcre2_finder P W) (outs : List Bytes),
      node_actions M fuel f d = some (0, f1, outs.map Action.out) ∧
      same_config f f1 ∧ outs.flatten ++ pending f1 = pending f ++ d ∧
      NeverMatchesOn M f1.re f1.partialmatch.isSome f1.dfaworkspace ds := by
  simp only [node_actions]
  simp only [NeverMatchesOn] at hn
  by_cases h0 : d.length = 0
  · rw [if_pos h0] at hn ⊢
    have : d = [] := List.length_eq_zero.1 h0
    exact ⟨f, [], rfl, same_config_refl f, by simp [this], hn⟩
  · rw [if_neg h0] at hn ⊢
    cases hp : f.partialmatch with
    | none =>
      simp only [hp, Option.isSome_none, Bool.false_eq_true, if_false] at hn ⊢
      obtain ⟨f1, outs, h1, h2, h3, h4, h5⟩ := search_actions_quiet M f d fuel hn.1 hp hfuel
      refine ⟨f1, outs, h1, h2, by simp [h3, pending_of_none f hp], ?_⟩
      rw [← h2.2.2.2.2.2, h4, h5]
      exact hn.2
    | some p =>
      simp only [hp, Option.isSome_some, if_true] at hn ⊢
      obtain ⟨hq, hrest⟩ := hn
      generalize M.pcre2_dfa_match f.re d 0 true f.dfaworkspace = r at hq hrest ⊢
      rcases hq with h | ⟨h, hle, hlen, hz⟩
      · have h1 : ¬ (0 : Int) ≤ r.status := by rw [h]; decide
        have h2 : ¬ r.status = PCRE2_ERROR_PARTIAL := by rw [h]; decide
        simp only [if_neg h1, if_neg h2, if_pos h]
        rw [if_neg h2] at hrest
        obtain ⟨f1, outs, h3, h4, h5, h6, h7⟩ := search_actions_quiet M
          (partialmatch_clear (set_workspace f r.workspace)) d fuel hrest.1 rfl hfuel
        refine ⟨f1, p :: outs, ?_, same_config_trans ⟨rfl, rfl, rfl, rfl, rfl, rfl⟩ h4, ?_, ?_⟩
        · simp only [h3, List.map_cons]
        · simp only [List.flatten_cons, List.append_assoc, h5, pending_of_some f p hp]
        · rw [← h4.2.2.2.2.2, h6, h7]
          exact hrest.2
      · have h1 : ¬ (0 : Int) ≤ r.status := by rw [h]; decide
        simp only [if_neg h1, if_pos h]
        rw [if_pos h] at hrest
        refine ⟨partialmatch_append (set_workspace f r.workspace)
            (slice d r.ovector0 (r.ovector1 - r.ovector0)), [], rfl,
          ⟨rfl, rfl, rfl, rfl, rfl, rfl⟩, ?_, ?_⟩
        · have h0' : r.ovector0 = 0 := hz rfl
          simp [hlen, h0', slice, pending_of_some f p hp]
        · exact hrest

/-- The chunks through a single node, bound to a function of the caller,
whose matcher calls in this run are quiet: every call returns 0, only output
events are made, and the bytes forwarded followed by the bytes pending at the
end are the bytes pending at the start followed by the chunks. -/
theorem process_all_quiet (M : Pcre2 P W) (fn : pcre2_finder_output_fn) (cb : Nat) (fuel : Nat)
    (hfuel : 2 ≤ fuel) (chunks : List Bytes) :
    ∀ f : pcre2_finder P W,
      NeverMatchesOn M f.re f.partialmatch.isSome f.dfaworkspace chunks →
      f.outputfn = some (OutputFn.user fn) →
      f.outputcallbackdata = CallbackData.user cb →
      ∃ (f1 : pcre2_finder P W) (outs : List Bytes),
        process_all M fuel [f] chunks
          = Except.ok { ret := 0, chain := [f1], events := outs.map (Event.output 0) } ∧
        same_config f f1 ∧ outs.flatten ++ pending f1 = pending f ++ chunks.flatten := by
  obtain ⟨k, rfl⟩ : ∃ k, fuel = k + 1 := ⟨fuel - 1, by omega⟩
  induction chunks with
  | nil =>
    intro f _ _ _
    exact ⟨f, [], rfl, same_config_refl f, by simp⟩
  | cons c cs ih =>
    intro f hn hfn hcb
    obtain ⟨f1, outs1, h1, h2, h3, hn1⟩ := node_actions_quiet M f c cs k hn (by omega)
    have hp : pcre2_finder_process M (k + 1) 0 [f] c
        = Except.ok { ret := 0, chain := [f1], events := outs1.map (Event.output 0) } := by
      rw [process_cons_iff]
      refine ⟨f1, outs1.map Action.out, [], h1, ?_, rfl⟩
      rw [feed_user _ 0 f fn cb hfn hcb, outputs_events]
    obtain ⟨f2, outs2, h4, h5, h6⟩ := ih f1 hn1
      (by rw [← h2.2.2.2.1]; exact hfn) (by rw [← h2.2.2.2.2.1]; exact hcb)
    refine ⟨f2, outs1 ++ outs2, ?_, same_config_trans h2 h5, ?_⟩
    · simp only [process_all, hp, h4, List.map_append]
    · rw [List.flatten_append, List.append_assoc, h6, ← List.append_assoc, h3]
      simp

/-- C2. A single node bound to a sink of the caller, nothing pending, and a
list of chunks for which the matcher never reports a complete match: every
`pcre2_dfa_match` call of the run reports no match, or a partial match
running to the end of the chunk. Processing the chunks in order and closing
returns 0 (with fuel 2 or more), the bytes delivered to the sink are,
concatenated, the concatenation of the chunks, and no handler is invoked. -/
theorem pass_through (M : Pcre2 P W) (f : pcre2_finder P W) (fn : pcre2_finder_output_fn)
    (cb : Nat) (chunks : List Bytes)
    (hn : NeverMatchesOn M f.re false f.dfaworkspace chunks)
    (hpm : f.partialmatch = none) (hfn : f.outputfn = some (OutputFn.user fn))
    (hcb : f.outputcallbackdata = CallbackData.user cb) (fuel : Nat) (hfuel : 2 ≤ fuel) :
    ∃ o, session M fuel [f] chunks = Except.ok o ∧ o.ret = 0 ∧
      (outputs_of 0 o.events).flatten = chunks.flatten ∧ handler_calls o.events = [] ∧
      o.chain.map (fun n => n.partialmatch) = [none] := by
  obtain ⟨f1, outs, h1, h2, h3⟩ := process_all_quiet M fn cb fuel hfuel chunks f
    (by rw [hpm]; exact hn) hfn hcb
  rw [pending_of_none f hpm, List.nil_append] at h3
  have hfn1 : f1.outputfn = some (OutputFn.user fn) := by rw [← h2.2.2.2.1]; exact hfn
  have hcb1 : f1.outputcallbackdata = CallbackData.user cb := by rw [← h2.2.2.2.2.1]; exact hcb
  cases hp : f1.partialmatch with
  | none =>
    refine ⟨{ ret := 0, chain := [f1], events := outs.map (Event.output 0) ++ [] }, ?_, rfl, ?_,
      ?_, ?_⟩
    · simp only [session, h1, pcre2_finder_close, close_loop, List.length_singleton, hp]
    · rw [pending_of_none f1 hp, List.append_nil] at h3
      simp only [List.append_nil, outputs_of_outputs, if_true, h3]
    · simp only [List.append_nil, handler_calls_outputs]
    · simp only [List.map_cons, List.map_nil, hp]
  | some p =>
    refine ⟨{ ret := 0, chain := [{ f1 with partialmatch := none }],
              events := outs.map (Event.output 0) ++ [Event.output 0 p] }, ?_, rfl, ?_, ?_, ?_⟩
    · simp only [session, h1, pcre2_finder_close, close_loop, List.length_singleton, hp,
        pcre2_finder_output, call_outputfn, hfn1, hcb1, List.append_nil]
    · rw [pending_of_some f1 p hp] at h3
      simp only [outputs_of_append, outputs_of_outputs, if_true, outputs_of, List.flatten_append,
        List.flatten_cons, List.flatten_nil, List.append_nil, h3]
    · simp only [handler_calls_append, handler_calls_outputs, handler_calls, List.append_nil]
    · simp only [List.map_cons, List.map_nil]

/-- C2, on the small matcher with the pattern `ab` and the counting handler:
in the chunks `xa`, `y`, `a`, `c` the pattern does not occur. The byte `a` at
the end of a chunk is held back as a partial match and released by the next
call; the sink receives the bytes `xayac` and the handler is not invoked. -/
theorem pass_through_witness :
    NeverMatchesOn rx (some (Rx.seq (Rx.byte 'a') (Rx.byte 'b'))) false Rx.nothing
      [['x', 'a'], ['y'], ['a'], ['c']] ∧
    ∃ o, session rx 2 (rx_chain [counting ['a', 'b'] 0] pcre2_finder_output_to_null 0)
        [['x', 'a'], ['y'], ['a'], ['c']] = Except.ok o ∧
      (outputs_of 0 o.events).flatten = ['x', 'a', 'y', 'a', 'c'] ∧
      handler_calls o.events = [] := by
  have hn : NeverMatchesOn rx (some (Rx.seq (Rx.byte 'a') (Rx.byte 'b'))) false Rx.nothing
      [['x', 'a'], ['y'], ['a'], ['c']] := by
    simp [NeverMatchesOn, Quiet, rx, rx_dfa_match, bump, walk, Rx.nullable, Rx.dead, Rx.deriv,
      PCRE2_ERROR_PARTIAL, PCRE2_ERROR_NOMATCH]
  refine ⟨hn, ?_⟩
  obtain ⟨o, h1, _, h3, h4, _⟩ := pass_through rx
    { matchfn := some when_found, matchcallbackdata := 0, matchid := 0,
      outputfn := some (OutputFn.user pcre2_finder_output_to_null),
      outputcallbackdata := CallbackData.user 0, partialmatch := none,
      re := some (Rx.seq (Rx.byte 'a') (Rx.byte 'b')),
      match_data := true, match_context := true, dfaworkspace := Rx.nothing }
    pcre2_finder_output_to_null 0 [['x', 'a'], ['y'], ['a'], ['c']] hn rfl rfl rfl 2
    (Nat.le_refl 2)
  exact ⟨o, h1, h3, h4⟩

/-! ## Two passes -/

theorem Action.event_injective (idx : Nat) (f : pcre2_finder P W) :
    Function.Injective (Action.event idx f) := by
  intro a b h
  cases a <;> cases b <;> simp [Action.event] at h ⊢ <;> exact h

/-- The search loop on a chunk in which the matcher reports the matches
`spans`, then `last`: its actions are the list `acts` as soon as their events
are those the spec lists. -/
theorem search_actions_of_events (M : Pcre2 P W) (h : pcre2_finder_match_fn)
    (data : Bytes) (last : Option (Nat × Nat)) (spans : List (Nat × Nat)) (c : Nat)
    (f : pcre2_finder P W) (fuel : Nat) (acts : List Action) (hh : f.matchfn = some h)
    (hrep : Reports M f.re data c f.dfaworkspace spans last) (hfuel : spans.length < fuel)
    (hacts : acts.map (Action.event 0 f) =
      forwarded 0 h f.matchcallbackdata f.matchid data c spans last) :
    ∃ f1, search_actions M data fuel c f = some (0, f1, acts) ∧ same_config f f1 ∧
      (last = none → f1.partialmatch = f.partialmatch) := by
  obtain ⟨f1, acts1, h1, h2, h3, h4⟩ :=
    search_actions_reports M 0 h data last spans c f fuel hh hrep hfuel
  have e : acts1 = acts :=
    List.map_injective_iff.2 (Action.event_injective 0 f) (h3.trans hacts.symm)
  subst e
  refine ⟨f1, h1, h2, fun hl => ?_⟩
  subst hl
  exact h4

/-- A call of `pcre2_finder_process` on a node bound to a function of the
caller, with nothing pending, for a chunk in which the matcher reports the
matches `spans`, then `last`. -/
theorem process_user_reports (M : Pcre2 P W) (idx : Nat) (f : pcre2_finder P W)
    (h : pcre2_finder_match_fn) (fn : pcre2_finder_output_fn) (cb : Nat) (data : Bytes)
    (spans : List (Nat × Nat)) (last : Option (Nat × Nat))
    (hpm : f.partialmatch = none) (hh : f.matchfn = some h)
    (hfn : f.outputfn = some (OutputFn.user fn))
    (hcb : f.outputcallbackdata = CallbackData.user cb) (hdata : data ≠ [])
    (hrep : Reports M f.re data 0 f.dfaworkspace spans last)
    (fuel : Nat) (hfuel : spans.length + 2 ≤ fuel) :
    ∃ f1, pcre2_finder_process M fuel idx [f] data
        = Except.ok { ret := 0, chain := [f1],
                      events := forwarded idx h f.matchcallbackdata f.matchid data 0 spans last } ∧
      same_config f f1 ∧
      f1.partialmatch = last.map (fun se => slice data se.1 (se.2 - se.1)) := by
  obtain ⟨k, rfl⟩ : ∃ k, fuel = k + 1 := ⟨fuel - 1, by omega⟩
  obtain ⟨f1, acts, hsa, hcf, hev, hp1⟩ := search_actions_reports M idx h data last spans 0 f k
    hh hrep (by omega)
  have hlen : ¬ data.length = 0 := by
    intro h0; exact hdata (List.length_eq_zero.1 h0)
  refine ⟨f1, ?_, hcf, ?_⟩
  · rw [process_cons_iff]
    refine ⟨f1, acts, [], ?_, ?_, rfl⟩
    · simp only [node_actions, if_neg hlen, hpm]
      exact hsa
    · simp only
      rw [← hev]
      exact feed_user _ idx f fn cb hfn hcb acts []
  · rw [hp1]
    cases last with
    | none => simp [hpm]
    | some se => simp [pending, hpm]

theorem feed_calls (next : List (pcre2_finder P W) → Bytes → Except Fault (Outcome P W))
    (idx : Nat) (f : pcre2_finder P W) (calls : List Bytes) (rest : List (pcre2_finder P W)) :
    feed next idx f (calls.map Action.call) rest =
      Except.ok (rest, calls.map
        (fun d => Event.handler idx d f.matchcallbackdata f.matchid)) := by
  induction calls with
  | nil => rfl
  | cons d ds ih => simp only [List.map_cons, feed, ih]

theorem handler_calls_handlers (idx : Nat) (cb : Nat) (id : Int) (calls : List Bytes) :
    handler_calls (calls.map (fun d => Event.handler idx d cb id)) =
      calls.map (fun d => (idx, d, cb, id)) := by
  induction calls with
  | nil => rfl
  | cons d ds ih => simp only [List.map_cons, handler_calls, ih]

theorem outputs_of_handlers (k idx : Nat) (cb : Nat) (id : Int) (calls : List Bytes) :
    outputs_of k (calls.map (fun d => Event.handler idx d cb id)) = [] := by
  induction calls with
  | nil => rfl
  | cons d ds ih => simp only [List.map_cons, outputs_of, ih]

/-- The two chunks through the two nodes, once the head is known to turn the
chunk `aa` into handler invocations only. -/
theorem two_pass_core (M : Pcre2 P W) (f1 f1a f2 : pcre2_finder P W)
    (h1 h2 : pcre2_finder_match_fn) (fn : pcre2_finder_output_fn) (cb : Nat) (m : Nat)
    (calls : List Bytes)
    (hA : node_actions M m f1 ['a', 'a'] = some (0, f1a, calls.map Action.call))
    (hcfg : same_config f1 f1a) (hpa : f1a.partialmatch = none)
    (hf1 : f1.matchfn = some h1) (hfw : ∀ d c i, (h1 d c i).outputs = [])
    (hf2 : f2.matchfn = some h2)
    (ho1 : f1.outputfn = some OutputFn.process)
    (hc1 : f1.outputcallbackdata = CallbackData.next)
    (ho2 : f2.outputfn = some (OutputFn.user fn))
    (hc2 : f2.outputcallbackdata = CallbackData.user cb)
    (hp2 : f2.partialmatch = none)
    (hab : ∀ ws, Reports M f1.re ['a', 'b'] 0 ws [(0, 1)] none)
    (hb : ∀ ws, Reports M f2.re ['b'] 0 ws [(0, 1)] none) (hm : 3 ≤ m) :
    ∃ o, session M (m + 1) [f1, f2] [['a', 'a'], ['a', 'b']] = Except.ok o ∧ o.ret = 0 ∧
      (handler_calls o.events).filter (fun c => c.1 = 1)
        = [(1, ['b'], f2.matchcallbackdata, f2.matchid)] ∧
      outputs_of 0 o.events = [['b']] ∧
      o.chain.map (fun n => n.partialmatch) = [none, none] := by
  obtain ⟨e1, e2, e3, e4, e5, e6⟩ := hcfg
  -- the first chunk
  have hP1 : pcre2_finder_process M (m + 1) 0 [f1, f2] ['a', 'a']
      = Except.ok { ret := 0, chain := [f1a, f2],
                    events := calls.map
                      (fun d => Event.handler 0 d f1.matchcallbackdata f1.matchid) } := by
    rw [process_cons_iff]
    exact ⟨f1a, _, [f2], hA, feed_calls _ 0 f1 calls [f2], rfl⟩
  -- the second chunk, in the head
  obtain ⟨f1b, hB, hcfgb, hpb⟩ := search_actions_of_events M h1 ['a', 'b'] none [(0, 1)] 0 f1a m
    [Action.call ['a'], Action.out ['b']] (by rw [← e1]; exact hf1)
    (by rw [← e6]; exact hab _) (by simp only [List.length_singleton]; omega)
    (by simp [forwarded, slice, hfw, Action.event])
  have hNB : node_actions M m f1a ['a', 'b']
      = some (0, f1b, [Action.call ['a'], Action.out ['b']]) := by
    simp only [node_actions, hpa]
    exact hB
  -- the byte `b` in the second node
  obtain ⟨f2b, hQ, _, hpq⟩ := process_user_reports M 1 f2 h2 fn cb ['b'] [(0, 1)] none hp2 hf2
    ho2 hc2 (by simp) (hb _) m (by simp only [List.length_singleton]; omega)
  have hP2 : pcre2_finder_process M (m + 1) 0 [f1a, f2] ['a', 'b']
      = Except.ok { ret := 0, chain := [f1b, f2b],
                    events := Event.handler 0 ['a'] f1a.matchcallbackdata f1a.matchid ::
                      Event.output 0 ['b'] ::
                      forwarded 1 h2 f2.matchcallbackdata f2.matchid ['b'] 0 [(0, 1)] none } := by
    rw [process_cons_iff]
    refine ⟨f1b, _, [f2b], hNB, ?_, rfl⟩
    simp only [feed, call_outputfn, ← e4, ← e5, ho1, hc1, hQ, List.append_nil]
    try rfl
  have hpb1 : f1b.partialmatch = none := by rw [hpb rfl, hpa]
  have hpq1 : f2b.partialmatch = none := by rw [hpq]; rfl
  have hS : session M (m + 1) [f1, f2] [['a', 'a'], ['a', 'b']]
      = Except.ok { ret := 0, chain := [f1b, f2b],
                    events := calls.map
                        (fun d => Event.handler 0 d f1.matchcallbackdata f1.matchid) ++
                      (Event.handler 0 ['a'] f1a.matchcallbackdata f1a.matchid ::
                        Event.output 0 ['b'] ::
                        forwarded 1 h2 f2.matchcallbackdata f2.matchid ['b'] 0 [(0, 1)] none) } := by
    simp only [session, process_all, hP1, hP2, pcre2_finder_close, close_loop,
      List.length_cons, List.length_nil, hpb1, hpq1, List.append_nil]
  refine ⟨_, hS, rfl, ?_, ?_, ?_⟩
  · simp [handler_calls_append, handler_calls_handlers, handler_calls, forwarded, slice,
      handler_calls_outputs, List.filter_append, List.filter_map]
  · simp [outputs_of_append, outputs_of_handlers, outputs_of, forwarded, slice,
      outputs_of_outputs]
  · simp [hpb1, hpq1]

/-- C7. A chain of two nodes, opened on a function of the caller, nothing
pending: the first with a handler that forwards nothing, the second with any
handler. The matcher reports, for the pattern of the first node, the two `a`
of the chunk `aa` as one match (as PCRE2 does for `a+`) or as two (as it does
under `PCRE2_NO_AUTO_POSSESS`), then no match, and in the chunk `ab` the match
`a`, then no match; for the pattern of
the second node, in the chunk `b`, the match `b`, then no match. Processing
`aa`, then `ab` through the head, then closing returns 0 (with fuel 4 or
more); the handler of the second node is invoked exactly once, with the bytes
`b`; the only bytes the first node sends to its output function are `b`, none
of the `a` bytes. -/
theorem multi_pass_scenario (M : Pcre2 P W) (f1 f2 : pcre2_finder P W)
    (h1 h2 : pcre2_finder_match_fn) (fn : pcre2_finder_output_fn) (cb : Nat)
    (spans : List (Nat × Nat))
    (hf1 : f1.matchfn = some h1) (hfw : ∀ d c i, (h1 d c i).outputs = [])
    (hf2 : f2.matchfn = some h2)
    (ho1 : f1.outputfn = some OutputFn.process)
    (hc1 : f1.outputcallbackdata = CallbackData.next)
    (ho2 : f2.outputfn = some (OutputFn.user fn))
    (hc2 : f2.outputcallbackdata = CallbackData.user cb)
    (hp1 : f1.partialmatch = none) (hp2 : f2.partialmatch = none)
    (hsp : spans = [(0, 2)] ∨ spans = [(0, 1), (1, 2)])
    (haa : ∀ ws, Reports M f1.re ['a', 'a'] 0 ws spans none)
    (hab : ∀ ws, Reports M f1.re ['a', 'b'] 0 ws [(0, 1)] none)
    (hb : ∀ ws, Reports M f2.re ['b'] 0 ws [(0, 1)] none)
    (fuel : Nat) (hfuel : 4 ≤ fuel) :
    ∃ o, session M fuel [f1, f2] [['a', 'a'], ['a', 'b']] = Except.ok o ∧ o.ret = 0 ∧
      (handler_calls o.events).filter (fun c => c.1 = 1)
        = [(1, ['b'], f2.matchcallbackdata, f2.matchid)] ∧
      outputs_of 0 o.events = [['b']] ∧
      o.chain.map (fun n => n.partialmatch) = [none, none] := by
  obtain ⟨m, rfl⟩ : ∃ m, fuel = m + 1 := ⟨fuel - 1, by omega⟩
  rcases hsp with hs | hs
  · subst hs
    obtain ⟨f1a, hA, hcfg, hpa⟩ := search_actions_of_events M h1 ['a', 'a'] none [(0, 2)] 0 f1 m
      ([['a', 'a']].map Action.call) hf1 (haa _) (by simp only [List.length_singleton]; omega)
      (by simp [forwarded, slice, hfw, Action.event])
    have hNA : node_actions M m f1 ['a', 'a']
        = some (0, f1a, [['a', 'a']].map Action.call) := by
      simp only [node_actions, hp1]
      exact hA
    exact two_pass_core M f1 f1a f2 h1 h2 fn cb m _ hNA hcfg (by rw [hpa rfl, hp1]) hf1 hfw hf2
      ho1 hc1 ho2 hc2 hp2 hab hb (by omega)
  · subst hs
    obtain ⟨f1a, hA, hcfg, hpa⟩ := search_actions_of_events M h1 ['a', 'a'] none
      [(0, 1), (1, 2)] 0 f1 m ([['a'], ['a']].map Action.call) hf1 (haa _)
      (by simp only [List.length_cons, List.length_nil]; omega)
      (by simp [forwarded, slice, hfw, Action.event])
    have hNA : node_actions M m f1 ['a', 'a']
        = some (0, f1a, [['a'], ['a']].map Action.call) := by
      simp only [node_actions, hp1]
      exact hA
    exact two_pass_core M f1 f1a f2 h1 h2 fn cb m _ hNA hcfg (by rw [hpa rfl, hp1]) hf1 hfw hf2
      ho1 hc1 ho2 hc2 hp2 hab hb (by omega)

/-- C7 on chains set up through `pcre2_finder_add_expr` and
`pcre2_finder_open`, with the counting handler on both nodes and fuel 4: on
the matcher for `x` and `x+`, which reports the two `a` of `aa` as one match
(the handler of the first node is invoked with `aa`, then with `a`), and on
the small matcher, the pattern compiled with `PCRE2_NO_AUTO_POSSESS`, which
reports them as two. -/
theorem multi_pass_scenario_witness :
    (∃ o, session byte_runs 4
        (pcre2_finder_open (add_exprs byte_runs () ( pcre2_finder_initialize ())
            [counting ['a', '+'] 0, counting ['b'] 1]).2
          (some pcre2_finder_output_to_null) 0).2.nodes
        [['a', 'a'], ['a', 'b']] = Except.ok o ∧
      handler_calls o.events = [(0, ['a', 'a'], 0, 0), (0, ['a'], 0, 0), (1, ['b'], 0, 1)] ∧
      (handler_calls o.events).filter (fun c => c.1 = 1) = [(1, ['b'], 0, 1)] ∧
      outputs_of 0 o.events = [['b']]) ∧
    (∃ o, session rx 4
        (rx_chain
          [{ expr := ['a', '+'], flags := PCRE2_NO_AUTO_POSSESS, matchfn := some when_found,
             callbackdata := 0, matchid := 0 },
           counting ['b'] 1] pcre2_finder_output_to_null 0)
        [['a', 'a'], ['a', 'b']] = Except.ok o ∧
      (handler_calls o.events).filter (fun c => c.1 = 1) = [(1, ['b'], 0, 1)] ∧
      outputs_of 0 o.events = [['b']]) := by
  constructor
  · obtain ⟨o, h1, _, h3, h4, _⟩ := multi_pass_scenario byte_runs
      { matchfn := some when_found, matchcallbackdata := 0, matchid := 0,
        outputfn := some OutputFn.process, outputcallbackdata := CallbackData.next,
        partialmatch := none, re := some ('a', true), match_data := true,
        match_context := true, dfaworkspace := () }
      { matchfn := some when_found, matchcallbackdata := 0, matchid := 1,
        outputfn := some (OutputFn.user pcre2_finder_output_to_null),
        outputcallbackdata := CallbackData.user 0,
        partialmatch := none, re := some ('b', false), match_data := true,
        match_context := true, dfaworkspace := () }
      when_found when_found pcre2_finder_output_to_null 0 [(0, 2)] rfl (fun _ _ _ => rfl) rfl
      rfl rfl rfl rfl rfl rfl (Or.inl rfl)
      (fun _ => ⟨(by decide : (0 : Int) ≤ 1), rfl, rfl, rfl⟩)
      (fun _ => ⟨(by decide : (0 : Int) ≤ 1), rfl, rfl, rfl⟩)
      (fun _ => ⟨(by decide : (0 : Int) ≤ 1), rfl, rfl, rfl⟩) 4 (Nat.le_refl 4)
    refine ⟨o, h1, ?_, h3, h4⟩
    have h5 : session byte_runs 4
        (pcre2_finder_open (add_exprs byte_runs () ( pcre2_finder_initialize ())
            [counting ['a', '+'] 0, counting ['b'] 1]).2
          (some pcre2_finder_output_to_null) 0).2.nodes
        [['a', 'a'], ['a', 'b']] = Except.ok o := h1
    have h6 : (match session byte_runs 4
        (pcre2_finder_open (add_exprs byte_runs () ( pcre2_finder_initialize ())
            [counting ['a', '+'] 0, counting ['b'] 1]).2
          (some pcre2_finder_output_to_null) 0).2.nodes
        [['a', 'a'], ['a', 'b']] with
      | Except.ok o => some (handler_calls o.events)
      | Except.error _ => none)
        = some [(0, ['a', 'a'], 0, 0), (0, ['a'], 0, 0), (1, ['b'], 0, 1)] := by rfl
    rw [h5] at h6
    simpa using h6
  · obtain ⟨o, h1, _, h3, h4, _⟩ := multi_pass_scenario rx
      { matchfn := some when_found, matchcallbackdata := 0, matchid := 0,
        outputfn := some OutputFn.process, outputcallbackdata := CallbackData.next,
        partialmatch := none, re := some (Rx.plus (Rx.byte 'a')), match_data := true,
        match_context := true, dfaworkspace := Rx.nothing }
      { matchfn := some when_found, matchcallbackdata := 0, matchid := 1,
        outputfn := some (OutputFn.user pcre2_finder_output_to_null),
        outputcallbackdata := CallbackData.user 0,
        partialmatch := none, re := some (Rx.byte 'b'), match_data := true,
        match_context := true, dfaworkspace := Rx.nothing }
      when_found when_found pcre2_finder_output_to_null 0 [(0, 1), (1, 2)] rfl
      (fun _ _ _ => rfl) rfl rfl rfl rfl rfl rfl rfl (Or.inr rfl)
      (fun _ => ⟨(by decide : (0 : Int) ≤ 1), rfl, rfl, (by decide : (0 : Int) ≤ 1), rfl, rfl,
        rfl⟩)
      (fun _ => ⟨(by decide : (0 : Int) ≤ 1), rfl, rfl, rfl⟩)
      (fun _ => ⟨(by decide : (0 : Int) ≤ 1), rfl, rfl, rfl⟩) 4 (Nat.le_refl 4)
    exact ⟨o, h1, h3, h4⟩

/-! ## Which handler is invoked -/

theorem outs_in_append (a b : List Action) : outs_in (a ++ b) = outs_in a ++ outs_in b := by
  induction a with
  | nil => rfl
  | cons x a ih =>
    cases x with
    | out d => simp only [List.cons_append, outs_in, List.append_eq, ih]
    | call d => simp only [List.cons_append, outs_in, List.append_eq, ih]

theorem outs_in_outs (xs : List Bytes) : outs_in (xs.map Action.out) = xs := by
  induction xs with
  | nil => rfl
  | cons x xs ih => simp only [List.map_cons, outs_in, ih]

theorem HandlerActs_congr {a b : pcre2_finder P W} (h : same_config a b) (acts : List Action) :
    HandlerActs a acts → HandlerActs b acts := by
  obtain ⟨h1, h2, h3, _, _, _⟩ := h
  induction acts with
  | nil => intro _; trivial
  | cons x acts ih =>
    cases x with
    | out d => exact ih
    | call d =>
      intro hx
      obtain ⟨⟨fn, e1, e2⟩, e3⟩ := hx
      exact ⟨⟨fn, by rw [← h1]; exact e1, by rw [← h2, ← h3]; exact e2⟩, ih e3⟩

theorem HandlerActs_append (f : pcre2_finder P W) (a b : List Action) :
    HandlerActs f a → HandlerActs f b → HandlerActs f (a ++ b) := by
  induction a with
  | nil => intro _ hb; exact hb
  | cons x a ih =>
    cases x with
    | out d => exact ih
    | call d =>
      intro hx hb
      obtain ⟨⟨fn, e1, e2⟩, e3⟩ := hx
      refine ⟨⟨fn, e1, ?_⟩, ih e3 hb⟩
      show _ <+: outs_in (a ++ b)
      rw [outs_in_append]
      exact e2.trans (List.prefix_append _ _)

theorem HandlerActs_outs (f : pcre2_finder P W) (xs : List Bytes) :
    HandlerActs f (xs.map Action.out) := by
  induction xs with
  | nil => trivial
  | cons x xs ih => exact ih

theorem HandlerActs_gap (f : pcre2_finder P W) (data : Bytes) (a b : Nat) :
    HandlerActs f (gap_actions data a b) := by
  unfold gap_actions
  split
  · trivial
  · trivial

theorem HandlerActs_handler (g : pcre2_finder P W) (d : Bytes) (hs : List Action)
    (hh : handler_actions g d = some hs) : HandlerActs g hs := by
  simp only [handler_actions] at hh
  cases hm : g.matchfn with
  | none => rw [hm] at hh; exact absurd hh (by simp)
  | some fn =>
    rw [hm] at hh
    simp only [Option.some.injEq] at hh
    subst hh
    exact ⟨⟨fn, hm, by rw [outs_in_outs]⟩, HandlerActs_outs g _⟩

/-- The handler entries of the search loop are entries into the handler of the
node, each followed by the output calls of that handler. -/
theorem search_actions_handled (M : Pcre2 P W) (data : Bytes) (fuel : Nat) :
    ∀ (c : Nat) (f f1 : pcre2_finder P W) (status : Int) (acts : List Action),
      search_actions M data fuel c f = some (status, f1, acts) → HandlerActs f acts := by
  induction fuel with
  | zero => intro c f f1 status acts h; simp [search_actions] at h
  | succ fuel ih =>
    intro c f f1 status acts h
    simp only [search_actions] at h
    generalize M.pcre2_dfa_match f.re data c false f.dfaworkspace = r at h
    have hc0 : same_config (set_workspace f r.workspace) f := ⟨rfl, rfl, rfl, rfl, rfl, rfl⟩
    by_cases h0 : 0 ≤ r.status
    · rw [if_pos h0] at h
      cases hh : handler_actions (set_workspace f r.workspace)
          (slice data r.ovector0 (r.ovector1 - r.ovector0)) with
      | none => rw [hh] at h; exact absurd h (by simp)
      | some hs =>
        rw [hh] at h
        simp only at h
        cases hs2 : search_actions M data fuel r.ovector1 (set_workspace f r.workspace) with
        | none => rw [hs2] at h; exact absurd h (by simp)
        | some y =>
          obtain ⟨s2, f2, acts2⟩ := y
          rw [hs2] at h
          simp only [Option.some.injEq, Prod.mk.injEq] at h
          rw [← h.2.2]
          exact HandlerActs_append f _ _
            (HandlerActs_append f _ _ (HandlerActs_gap f _ _ _)
              (HandlerActs_congr hc0 _ (HandlerActs_handler _ _ hs hh)))
            (HandlerActs_congr hc0 _ (ih _ _ _ _ _ hs2))
    · rw [if_neg h0] at h
      by_cases h1 : r.status = PCRE2_ERROR_PARTIAL
      · rw [if_pos h1] at h
        simp only [Option.some.injEq, Prod.mk.injEq] at h
        rw [← h.2.2]
        exact HandlerActs_gap f _ _ _
      · rw [if_neg h1] at h
        by_cases h2 : r.status = PCRE2_ERROR_NOMATCH
        · rw [if_pos h2] at h
          simp only [Option.some.injEq, Prod.mk.injEq] at h
          rw [← h.2.2]
          exact HandlerActs_gap f _ _ _
        · rw [if_neg h2] at h
          simp only [Option.some.injEq, Prod.mk.injEq] at h
          rw [← h.2.2]
          trivial

/-- The handler entries of one call of the body of `pcre2_finder_process` are
entries into the handler of the node, each followed by the output calls of
that handler. -/
theorem node_actions_handled (M : Pcre2 P W) (fuel : Nat) (f f1 : pcre2_finder P W)
    (data : Bytes) (status : Int) (acts : List Action)
    (h : node_actions M fuel f data = some (status, f1, acts)) : HandlerActs f acts := by
  simp only [node_actions] at h
  by_cases hd : data.length = 0
  · rw [if_pos hd] at h
    simp only [Option.some.injEq, Prod.mk.injEq] at h
    rw [← h.2.2]
    trivial
  · rw [if_neg hd] at h
    cases hp : f.partialmatch with
    | none =>
      rw [hp] at h
      exact search_actions_handled M data fuel 0 f f1 status acts h
    | some p =>
      rw [hp] at h
      simp only at h
      generalize M.pcre2_dfa_match f.re data 0 true f.dfaworkspace = r at h
      by_cases h0 : 0 ≤ r.status
      · rw [if_pos h0] at h
        cases hh : handler_actions
            (partialmatch_append (set_workspace f r.workspace)
              (slice data r.ovector0 (r.ovector1 - r.ovector0)))
            ((partialmatch_append (set_workspace f r.workspace)
              (slice data r.ovector0 (r.ovector1 - r.ovector0))).partialmatch.getD []) with
        | none => rw [hh] at h; exact absurd h (by simp)
        | some hs =>
          rw [hh] at h
          simp only at h
          cases hs2 : search_actions M data fuel r.ovector1
              (partialmatch_clear (partialmatch_append (set_workspace f r.workspace)
                (slice data r.ovector0 (r.ovector1 - r.ovector0)))) with
          | none => rw [hs2] at h; exact absurd h (by simp)
          | some y =>
            obtain ⟨s2, f2, acts2⟩ := y
            rw [hs2] at h
            simp only [Option.some.injEq, Prod.mk.injEq] at h
            rw [← h.2.2]
            exact HandlerActs_append f _ _
              (@HandlerActs_congr P W
                (partialmatch_append (set_workspace f r.workspace)
                  (slice data r.ovector0 (r.ovector1 - r.ovector0))) f
                ⟨rfl, rfl, rfl, rfl, rfl, rfl⟩ _ (HandlerActs_handler _ _ hs hh))
              (@HandlerActs_congr P W
                (partialmatch_clear (partialmatch_append (set_workspace f r.workspace)
                  (slice data r.ovector0 (r.ovector1 - r.ovector0)))) f
                ⟨rfl, rfl, rfl, rfl, rfl, rfl⟩ _
                (search_actions_handled M data fuel _ _ _ _ _ hs2))
      · rw [if_neg h0] at h
        by_cases h1 : r.status = PCRE2_ERROR_PARTIAL
        · rw [if_pos h1] at h
          simp only [Option.some.injEq, Prod.mk.injEq] at h
          rw [← h.2.2]
          trivial
        · rw [if_neg h1] at h
          by_cases h2 : r.status = PCRE2_ERROR_NOMATCH
          · rw [if_pos h2] at h
            cases hs2 : search_actions M data fuel 0
                (partialmatch_clear (set_workspace f r.workspace)) with
            | none => rw [hs2] at h; exact absurd h (by simp)
            | some y =>
              obtain ⟨s2, f2, acts2⟩ := y
              rw [hs2] at h
              simp only [Option.some.injEq, Prod.mk.injEq] at h
              rw [← h.2.2]
              show HandlerActs f acts2
              exact @HandlerActs_congr P W (partialmatch_clear (set_workspace f r.workspace)) f
                ⟨rfl, rfl, rfl, rfl, rfl, rfl⟩ _
                (search_actions_handled M data fuel _ _ _ _ _ hs2)
          · rw [if_neg h2] at h
            simp only [Option.some.injEq, Prod.mk.injEq] at h
            rw [← h.2.2]
            trivial

theorem OwnHandlers_append (idx : Nat) (chain : List (pcre2_finder P W)) (a b : List Event) :
    OwnHandlers idx chain a → OwnHandlers idx chain b → OwnHandlers idx chain (a ++ b) := by
  induction a with
  | nil => intro _ hb; exact hb
  | cons x a ih =>
    cases x with
    | output n d => exact ih
    | handler n m cb id =>
      intro hx hb
      obtain ⟨⟨e0, node, fn, e1, e2, e3, e4, e5⟩, e6⟩ := hx
      refine ⟨⟨e0, node, fn, e1, e2, e3, e4, ?_⟩, ih e6 hb⟩
      show _ <+: outputs_of n (a ++ b)
      rw [outputs_of_append]
      exact e5.trans (List.prefix_append _ _)

theorem OwnHandlers_config {c c1 : List (pcre2_finder P W)}
    (h : List.Forall₂ same_config c c1) (idx : Nat) (ev : List Event) :
    OwnHandlers idx c1 ev → OwnHandlers idx c ev := by
  induction ev with
  | nil => intro _; trivial
  | cons x ev ih =>
    cases x with
    | output n d => exact ih
    | handler n m cb id =>
      intro hx
      obtain ⟨⟨e0, node, fn, e1, e2, e3, e4, e5⟩, e6⟩ := hx
      obtain ⟨a, i1, i2⟩ := same_config_get c c1 h _ node e1
      exact ⟨⟨e0, a, fn, i1, by rw [i2.1]; exact e2, by rw [i2.2.1]; exact e3,
        by rw [i2.2.2.1]; exact e4, e5⟩, ih e6⟩

theorem OwnHandlers_shift (idx : Nat) (f : pcre2_finder P W) (rest : List (pcre2_finder P W))
    (ev : List Event) : OwnHandlers (idx + 1) rest ev → OwnHandlers idx (f :: rest) ev := by
  induction ev with
  | nil => intro _; trivial
  | cons x ev ih =>
    cases x with
    | output n d => exact ih
    | handler n m cb id =>
      intro hx
      obtain ⟨⟨e0, node, fn, e1, e2, e3, e4, e5⟩, e6⟩ := hx
      refine ⟨⟨by omega, node, fn, ?_, e2, e3, e4, e5⟩, ih e6⟩
      have e : n - idx = (n - (idx + 1)) + 1 := by omega
      rw [e, List.get?_cons_succ]
      exact e1

/-- An output call of the node at `idx`: its own event, then the events of the
nodes after it. -/
theorem call_outputfn_own (M : Pcre2 P W) (fuel idx : Nat) (f : pcre2_finder P W)
    (c : List (pcre2_finder P W)) (d : Bytes) (o : Outcome P W)
    (hnext : ∀ (c : List (pcre2_finder P W)) (d : Bytes) (o : Outcome P W),
      pcre2_finder_process M fuel (idx + 1) c d = Except.ok o →
      OwnHandlers (idx + 1) c o.events)
    (h : call_outputfn (pcre2_finder_process M fuel (idx + 1)) idx f c d = Except.ok o) :
    ∃ evs, o.events = Event.output idx d :: evs ∧ OwnHandlers (idx + 1) c evs := by
  simp only [call_outputfn] at h
  cases hf : f.outputfn with
  | none => rw [hf] at h; exact absurd h (by simp)
  | some fn =>
    rw [hf] at h
    cases fn with
    | user u =>
      cases hc : f.outputcallbackdata with
      | null =>
        rw [hc] at h
        simp only [Except.ok.injEq] at h
        subst h
        exact ⟨[], rfl, trivial⟩
      | next => rw [hc] at h; exact absurd h (by simp)
      | user p =>
        rw [hc] at h
        simp only [Except.ok.injEq] at h
        subst h
        exact ⟨[], rfl, trivial⟩
    | process =>
      cases hc : f.outputcallbackdata with
      | null => rw [hc] at h; exact absurd h (by simp)
      | user p => rw [hc] at h; exact absurd h (by simp)
      | next =>
        rw [hc] at h
        simp only at h
        cases hp : pcre2_finder_process M fuel (idx + 1) c d with
        | error e => rw [hp] at h; exact absurd h (by simp)
        | ok o1 =>
          rw [hp] at h
          simp only [Except.ok.injEq] at h
          subst h
          exact ⟨o1.events, rfl, hnext c d o1 hp⟩

/-- The handler events of the actions of a node carried out. -/
theorem feed_own_handlers (M : Pcre2 P W) (fuel idx : Nat) (f : pcre2_finder P W)
    (rest : List (pcre2_finder P W))
    (hnext : ∀ (c : List (pcre2_finder P W)) (d : Bytes) (o : Outcome P W),
      pcre2_finder_process M fuel (idx + 1) c d = Except.ok o →
      OwnHandlers (idx + 1) c o.events)
    (acts : List Action) :
    ∀ (c r : List (pcre2_finder P W)) (ev : List Event),
      List.Forall₂ same_config rest c → HandlerActs f acts →
      feed (pcre2_finder_process M fuel (idx + 1)) idx f acts c = Except.ok (r, ev) →
      OwnHandlers idx (f :: rest) ev := by
  induction acts with
  | nil =>
    intro c r ev _ _ h
    simp only [feed, Except.ok.injEq, Prod.mk.injEq] at h
    rw [← h.2]
    trivial
  | cons x acts ih =>
    intro c r ev hc ha h
    cases x with
    | call d =>
      simp only [feed] at h
      cases hf : feed (pcre2_finder_process M fuel (idx + 1)) idx f acts c with
      | error e => rw [hf] at h; exact absurd h (by simp)
      | ok y =>
        obtain ⟨r1, e1⟩ := y
        rw [hf] at h
        simp only [Except.ok.injEq, Prod.mk.injEq] at h
        obtain ⟨⟨fn, a1, a2⟩, a3⟩ := ha
        rw [← h.2]
        refine ⟨⟨Nat.le_refl _, f, fn, by simp, a1, rfl, rfl, ?_⟩, ih c r1 e1 hc a3 hf⟩
        rw [(feed_own_events M fuel idx f acts c r1 e1 hf).1]
        exact a2
    | out d =>
      simp only [feed] at h
      cases ho : call_outputfn (pcre2_finder_process M fuel (idx + 1)) idx f c d with
      | error e => rw [ho] at h; exact absurd h (by simp)
      | ok o =>
        rw [ho] at h
        simp only at h
        cases hf : feed (pcre2_finder_process M fuel (idx + 1)) idx f acts o.chain with
        | error e => rw [hf] at h; exact absurd h (by simp)
        | ok y =>
          obtain ⟨r1, e1⟩ := y
          rw [hf] at h
          simp only [Except.ok.injEq, Prod.mk.injEq] at h
          obtain ⟨hcc, _⟩ := call_outputfn_spec M fuel idx f c d o ho
          obtain ⟨evs, j1, j2⟩ := call_outputfn_own M fuel idx f c d o hnext ho
          rw [← h.2, j1]
          show OwnHandlers idx (f :: rest) (evs ++ e1)
          exact OwnHandlers_append idx _ _ _
            (OwnHandlers_shift idx f rest evs (OwnHandlers_config hc (idx + 1) evs j2))
            (ih o.chain r1 e1 (same_config_list_trans hc hcc) ha hf)

/-- Every handler event of a `pcre2_finder_process` call is an invocation of
the handler of the node it names, with the callback data and the match id of
that node, followed by the output calls of that handler through that node. -/
theorem process_own_handlers (M : Pcre2 P W) (fuel : Nat) :
    ∀ (idx : Nat) (chain : List (pcre2_finder P W)) (data : Bytes) (o : Outcome P W),
      pcre2_finder_process M fuel idx chain data = Except.ok o →
      OwnHandlers idx chain o.events := by
  induction fuel with
  | zero => intro idx chain data o h; simp [pcre2_finder_process] at h
  | succ fuel ih =>
    intro idx chain data o h
    cases chain with
    | nil =>
      simp only [pcre2_finder_process] at h
      split at h
      · simp only [Except.ok.injEq] at h
        subst h
        trivial
      · exact absurd h (by simp)
    | cons f rest =>
      obtain ⟨f1, acts, rest1, h1, h2, _⟩ := (process_cons_iff M fuel idx f rest data o).1 h
      exact feed_own_handlers M fuel idx f rest (fun c d o1 ho1 => ih (idx + 1) c d o1 ho1)
        acts rest rest1 o.events (same_config_list_refl rest)
        (node_actions_handled M fuel f f1 data o.ret acts h1) h2

theorem OwnHandlers_split (idx : Nat) (chain : List (pcre2_finder P W)) (pre : List Event) :
    ∀ (ev post : List Event) (n : Nat) (m : Bytes) (cb : Nat) (id : Int),
      OwnHandlers idx chain ev → ev = pre ++ Event.handler n m cb id :: post →
      idx ≤ n ∧ ∃ node fn, chain.get? (n - idx) = some node ∧ node.matchfn = some fn ∧
        node.matchcallbackdata = cb ∧ node.matchid = id ∧
        (fn m cb id).outputs <+: outputs_of n post := by
  induction pre with
  | nil =>
    intro ev post n m cb id h he
    subst he
    exact h.1
  | cons x pre ih =>
    intro ev post n m cb id h he
    subst he
    cases x with
    | output k d => exact ih (pre ++ Event.handler n m cb id :: post) post n m cb id h rfl
    | handler k d c i =>
      exact ih (pre ++ Event.handler n m cb id :: post) post n m cb id h.2 rfl

theorem observe_outputs (last : Nat) (xs : List Bytes) :
    observe last (xs.map (Event.output last)) = xs.flatten.map Obs.byte := by
  induction xs with
  | nil => rfl
  | cons x xs ih =>
    simp only [List.map_cons, observe, if_true, ih, List.flatten_cons, List.map_append]

/-- The chain of the patterns `foo` and `bar`, with any handlers, callback
data and sink, is sound. -/
theorem sound_foo_bar_any (h0 h1 : pcre2_finder_match_fn) (cb0 cb1 : Nat)
    (fn : pcre2_finder_output_fn) (cb : Nat) :
    Sound rx (rx_chain
      [{ expr := ['f', 'o', 'o'], flags := 0, matchfn := some h0, callbackdata := cb0,
         matchid := 0 },
       { expr := ['b', 'a', 'r'], flags := 0, matchfn := some h1, callbackdata := cb1,
         matchid := 1 }] fn cb) := by
  refine ⟨⟨?_, ?_⟩, ?_⟩
  · simp [rx_chain, add_exprs, pcre2_finder_add_expr, pcre2_finder_initialize, fresh,
      pcre2_finder_open, open_loop, rx, rx_compile, Opened]
  · intro f hf
    simp [rx_chain, add_exprs, pcre2_finder_add_expr, pcre2_finder_initialize, fresh,
      pcre2_finder_open, open_loop, rx, rx_compile] at hf
    rcases hf with h | h
    · subst h
      exact ⟨by simp, rx_advances _ rfl⟩
    · subst h
      exact ⟨by simp, rx_advances _ rfl⟩
  · intro f hf
    simp [rx_chain, add_exprs, pcre2_finder_add_expr, pcre2_finder_initialize, fresh,
      pcre2_finder_open, open_loop, rx, rx_compile] at hf
    rcases hf with h | h
    · subst h
      exact ⟨rx_contract _ rfl, rx_no_overlap_triple 'f' 'o' 'o' (by decide)⟩
    · subst h
      exact ⟨rx_contract _ rfl, rx_no_overlap_triple 'b' 'a' 'r' (by decide)⟩

/-- The input `foobar` in one chunk through the chain of the patterns `foo`
and `bar`: what the run shows. -/
theorem foo_bar_one_chunk (h0 h1 : pcre2_finder_match_fn) (cb0 cb1 : Nat)
    (fn : pcre2_finder_output_fn) (cb : Nat) (hfw : ∀ d c i, (h0 d c i).outputs = []) :
    ∃ o, session rx 6 (rx_chain
        [{ expr := ['f', 'o', 'o'], flags := 0, matchfn := some h0, callbackdata := cb0,
           matchid := 0 },
         { expr := ['b', 'a', 'r'], flags := 0, matchfn := some h1, callbackdata := cb1,
           matchid := 1 }] fn cb) [['f', 'o', 'o', 'b', 'a', 'r']] = Except.ok o ∧
      observe 1 o.events =
        Obs.call 0 ['f', 'o', 'o'] cb0 0 :: Obs.call 1 ['b', 'a', 'r'] cb1 1 ::
          (h1 ['b', 'a', 'r'] cb1 1).outputs.flatten.map Obs.byte := by
  simp [session, process_all, pcre2_finder_process, process_node, search, rx_chain,
    add_exprs, pcre2_finder_add_expr, pcre2_finder_initialize, fresh, pcre2_finder_open, open_loop,
    rx, rx_compile, rx_dfa_match, bump, walk, Rx.nullable, Rx.dead, Rx.deriv, hfw,
    emit, call_outputfn, call_matchfn, emit_all, emit_all_user _ _ fn cb,
    partialmatch_append, partialmatch_clear, set_workspace, slice, PCRE2_ERROR_PARTIAL,
    PCRE2_ERROR_NOMATCH, pcre2_finder_close, close_loop, observe, observe_append,
    observe_outputs, pcre2_finder_output, status_as_size_t]

/-- C15. Every handler invocation of a `pcre2_finder_process` call, for a match
inside a chunk and for a match completed across chunks alike, is made by a
node of the chain and is an invocation of the handler that node holds, with
the callback data and the match id that node holds (those
`pcre2_finder_add_expr` stored in it) and with that node itself: the output
calls the handler makes for these arguments are the next output calls of that
node. And with the patterns `foo` (id 0) and `bar` (id 1), added in this
order, the first with a handler that forwards nothing, the second with any
handler, the input `foobar` in whatever chunks makes exactly two handler
invocations, in this order: node 0 with the bytes `foo`, its callback data and
id 0, node 1 with the bytes `bar`, its callback data and id 1; the terminal
sink receives what the handler of node 1 forwards for these arguments, and
nothing else. -/
theorem match_identification :
    (∀ (M : Pcre2 P W) (fuel idx : Nat) (chain : List (pcre2_finder P W)) (data : Bytes)
      (o : Outcome P W), pcre2_finder_process M fuel idx chain data = Except.ok o →
      ∀ (pre post : List Event) (n : Nat) (m : Bytes) (cb : Nat) (id : Int),
        o.events = pre ++ Event.handler n m cb id :: post →
        idx ≤ n ∧ ∃ node fn, chain.get? (n - idx) = some node ∧ node.matchfn = some fn ∧
          node.matchcallbackdata = cb ∧ node.matchid = id ∧
          (fn m cb id).outputs <+: outputs_of n post) ∧
    (∀ (h0 h1 : pcre2_finder_match_fn) (cb0 cb1 : Nat) (fn : pcre2_finder_output_fn) (cb : Nat),
      (∀ d c i, (h0 d c i).outputs = []) →
      ∀ chunks : List Bytes, chunks.flatten = ['f', 'o', 'o', 'b', 'a', 'r'] →
      ∃ fuel0, ∀ fuel, fuel0 ≤ fuel →
        ∃ o, session rx fuel
            (rx_chain
              [{ expr := ['f', 'o', 'o'], flags := 0, matchfn := some h0, callbackdata := cb0,
                 matchid := 0 },
               { expr := ['b', 'a', 'r'], flags := 0, matchfn := some h1, callbackdata := cb1,
                 matchid := 1 }] fn cb) chunks = Except.ok o ∧
          observe 1 o.events =
            Obs.call 0 ['f', 'o', 'o'] cb0 0 :: Obs.call 1 ['b', 'a', 'r'] cb1 1 ::
              (h1 ['b', 'a', 'r'] cb1 1).outputs.flatten.map Obs.byte) := by
  refine ⟨fun M fuel idx chain data o h pre post n m cb id he =>
    OwnHandlers_split idx chain pre o.events post n m cb id
      (process_own_handlers M fuel idx chain data o h) he, ?_⟩
  intro h0 h1 cb0 cb1 fn cb hfw chunks hflat
  obtain ⟨fuel0, h⟩ := session_agree rx
    (rx_chain
      [{ expr := ['f', 'o', 'o'], flags := 0, matchfn := some h0, callbackdata := cb0,
         matchid := 0 },
       { expr := ['b', 'a', 'r'], flags := 0, matchfn := some h1, callbackdata := cb1,
         matchid := 1 }] fn cb) chunks [['f', 'o', 'o', 'b', 'a', 'r']]
    (by rw [hflat]; rfl) (sound_foo_bar_any h0 h1 cb0 cb1 fn cb)
    (by
      intro f hf
      simp [rx_chain, add_exprs, pcre2_finder_add_expr, pcre2_finder_initialize, fresh,
        pcre2_finder_open, open_loop, rx, rx_compile] at hf
      rcases hf with h | h
      · subst h; rfl
      · subst h; rfl)
  obtain ⟨o6, h6, hone⟩ := foo_bar_one_chunk h0 h1 cb0 cb1 fn cb hfw
  refine ⟨max fuel0 6, fun fuel hle => ?_⟩
  obtain ⟨o1, o2, e1, e2, e3⟩ := h fuel (by omega)
  refine ⟨o1, e1, ?_⟩
  have hl : (rx_chain
      [{ expr := ['f', 'o', 'o'], flags := 0, matchfn := some h0, callbackdata := cb0,
         matchid := 0 },
       { expr := ['b', 'a', 'r'], flags := 0, matchfn := some h1, callbackdata := cb1,
         matchid := 1 }] fn cb).length - 1 = 1 := rfl
  rw [hl] at e3
  rw [e3]
  have h7 := session_mono rx 6 fuel (by omega) _ _ o6 h6
  rw [e2] at h7
  injection h7 with h7
  rw [h7]
  exact hone

/-- C15 on the chunks `fo`, `ob`, `ar`, the counting handler on the first
node and on the second a handler that forwards `X`. -/
theorem match_identification_witness :
    ∃ fuel0, ∀ fuel, fuel0 ≤ fuel →
      ∃ o, session rx fuel
          (rx_chain
            [counting ['f', 'o', 'o'] 0,
             { expr := ['b', 'a', 'r'], flags := 0,
               matchfn := some (when_found_replace (fun _ => ['X'])), callbackdata := 7,
               matchid := 1 }] pcre2_finder_output_to_null 0)
          [['f', 'o'], ['o', 'b'], ['a', 'r']] = Except.ok o ∧
        observe 1 o.events
          = [Obs.call 0 ['f', 'o', 'o'] 0 0, Obs.call 1 ['b', 'a', 'r'] 7 1, Obs.byte 'X'] :=
  (@match_identification Rx Rx).2 when_found (when_found_replace (fun _ => ['X'])) 0 7
    pcre2_finder_output_to_null 0 (fun _ _ _ => rfl) [['f', 'o'], ['o', 'b'], ['a', 'r']] rfl

end Pcre2Finder
